import Mathlib

/-!
Verification development for the bcrush compressor (CRUSH format produced
with BriefLZ-style algorithms).

This file gives a shallow embedding of the C sources:

* the LSB-first bit writer of the packer (struct lsb_bitwriter, crush.c),
* the LSB-first bit reader and the depacker crush_depack (crush.h),
* the shared constants (crush_internal.h),
* the cost model crush_match_cost and hash crush_hash3_bits (crush.c),
* the two packers crush_pack_leparse (crush_leparse.h) and
  crush_pack_btparse (crush_btparse.h), and the driver crush_pack_level.

Modelling conventions:

* Machine integers become Nat.  Where the C computation can wrap
  (the uint32 multiplication in the hash) the reduction mod 2^32 is written
  explicitly.  The uint32 cost array of btparse is modelled as Nat with the
  literal sentinel 2^32-1 (UINT32_MAX); this is exact as long as real costs
  stay below the sentinel, which holds for all inputs the C code itself
  handles without overflowing its assertions (9*N < 2^32).
* Byte buffers become List Nat (with the hypothesis that entries are < 256
  where a claim needs it); the scratch arrays of the packers become total
  maps Nat -> Nat.  The C code aliases some scratch arrays inside a single
  workmem buffer (lookup with mpos, cost with prev in leparse); the aliasing
  is sound exactly because each word is overwritten before it is read in the
  overlapped phase, so the embedding uses separate maps.
* Reading a source byte past the end of the packed input (which the C
  depacker would do as an out-of-bounds read) is totalised to reading a zero
  byte (List.headD _ 0).
* C loops whose progress is data-dependent (the token walks of the output
  phases, the backwards parse whose loop counter is decremented inside the
  body by the left-extension) take an explicit fuel argument that the
  drivers instantiate large enough; all loops with structurally decreasing
  counters are modelled by well-founded recursion directly.
-/

namespace BCrush

/-! Constants from crush_internal.h. -/

def W_BITS : Nat := 21
def W_SIZE : Nat := 2 ^ W_BITS
def SLOT_BITS : Nat := 4
def NUM_SLOTS : Nat := 2 ^ SLOT_BITS

def A_BITS : Nat := 2
def B_BITS : Nat := 2
def C_BITS : Nat := 2
def D_BITS : Nat := 3
def E_BITS : Nat := 5
def F_BITS : Nat := 9
def A : Nat := 2 ^ A_BITS
def B : Nat := 2 ^ B_BITS + A
def C : Nat := 2 ^ C_BITS + B
def D : Nat := 2 ^ D_BITS + C
def E : Nat := 2 ^ E_BITS + D
def F : Nat := 2 ^ F_BITS + E
def MIN_MATCH : Nat := 3
def MAX_MATCH : Nat := (F - 1) + MIN_MATCH

def CRUSH_HASH_BITS : Nat := 17
def LOOKUP_SIZE : Nat := 2 ^ CRUSH_HASH_BITS

/-- Sentinel (uint32_t)-1 used in the match finders. -/
def NO_MATCH_POS : Nat := 2 ^ 32 - 1

/-- ULONG_MAX on the LP64 targets the code is written for. -/
def ULONG_MAX : Nat := 2 ^ 64 - 1

def UINT32_MAX : Nat := 2 ^ 32 - 1

/-! Bit-sequence helpers used to state what the bit writer and bit reader
mean.  A value v written in num bits, LSB first. -/

/-- LSB-first list of the low n bits of v. -/
def natBits : Nat → Nat → List Bool
  | _, 0 => []
  | v, n + 1 => (v % 2 == 1) :: natBits (v / 2) n

/-- Value of an LSB-first bit list. -/
def bitsVal : List Bool → Nat
  | [] => 0
  | b :: bs => (if b then 1 else 0) + 2 * bitsVal bs

/-- Bit stream of a byte list, each byte LSB first. -/
def bytesBits : List Nat → List Bool
  | [] => []
  | b :: bs => natBits b 8 ++ bytesBits bs

/-! The bit writer (struct lsb_bitwriter, crush.c).  next_out collects the
bytes already emitted; tag/msb are the 32-bit accumulator and its fill. -/

structure lsb_bitwriter where
  next_out : List Nat
  tag : Nat
  msb : Nat
deriving Repr, DecidableEq

def lbw_init : lsb_bitwriter := ⟨[], 0, 0⟩

/-- Loop of lbw_flush: write bytes until at least num bits free.  The
fuel only bounds the iteration count; lbw_flush passes msb, which always
suffices because every iteration needs msb at least 1 and lowers it by 8. -/
def lbw_flush_go : Nat → lsb_bitwriter → Nat → lsb_bitwriter
  | 0, lbw, _ => lbw
  | fuel + 1, lbw, num =>
    if 32 - num < lbw.msb then
      lbw_flush_go fuel ⟨lbw.next_out ++ [lbw.tag % 256], lbw.tag / 256, lbw.msb - 8⟩ num
    else lbw

def lbw_flush (lbw : lsb_bitwriter) (num : Nat) : lsb_bitwriter :=
  lbw_flush_go lbw.msb lbw num

def lbw_putbits_no_flush (lbw : lsb_bitwriter) (bits num : Nat) : lsb_bitwriter :=
  ⟨lbw.next_out, lbw.tag ||| (bits <<< lbw.msb), lbw.msb + num⟩

def lbw_putbits (lbw : lsb_bitwriter) (bits num : Nat) : lsb_bitwriter :=
  lbw_putbits_no_flush (lbw_flush lbw num) bits num

/-- Loop of lbw_finalize: write bytes until no bits left in tag; result is
the full byte output (the C function returns the end pointer, i.e. the
byte count). -/
def lbw_finalize_go : Nat → lsb_bitwriter → List Nat
  | 0, lbw => lbw.next_out
  | fuel + 1, lbw =>
    if 0 < lbw.msb then
      lbw_finalize_go fuel ⟨lbw.next_out ++ [lbw.tag % 256], lbw.tag / 256, lbw.msb - 8⟩
    else lbw.next_out

def lbw_finalize (lbw : lsb_bitwriter) : List Nat :=
  lbw_finalize_go lbw.msb lbw

/-- Logical bit stream held by a writer state. -/
def wbits (w : lsb_bitwriter) : List Bool := bytesBits w.next_out ++ natBits w.tag w.msb

/-- Number of bits a writer state holds (bytes emitted plus accumulator). -/
def totalBits (w : lsb_bitwriter) : Nat := 8 * w.next_out.length + w.msb

/-- Writer well-formedness: accumulator in range and output made of bytes. -/
def WInv (w : lsb_bitwriter) : Prop :=
  w.tag < 2 ^ w.msb ∧ w.msb ≤ 32 ∧ ∀ b ∈ w.next_out, b < 256

/-! The bit reader (struct lsb_bitreader, crush.h).  src is the remaining
packed input.  Reading past the end of src is totalised to zero bytes. -/

structure lsb_bitreader where
  src : List Nat
  tag : Nat
  msb : Nat
deriving Repr, DecidableEq

def lbr_init (src : List Nat) : lsb_bitreader := ⟨src, 0, 0⟩

/-- Loop of lbr_refill: read bytes until at least num bits available.
Fuel num always suffices since every iteration raises msb by 8. -/
def lbr_refill_go : Nat → lsb_bitreader → Nat → lsb_bitreader
  | 0, lbr, _ => lbr
  | fuel + 1, lbr, num =>
    if lbr.msb < num then
      lbr_refill_go fuel ⟨lbr.src.tail, lbr.tag ||| (lbr.src.headD 0 <<< lbr.msb), lbr.msb + 8⟩ num
    else lbr

def lbr_refill (lbr : lsb_bitreader) (num : Nat) : lsb_bitreader :=
  lbr_refill_go num lbr num

def lbr_getbits_no_refill (lbr : lsb_bitreader) (num : Nat) : Nat × lsb_bitreader :=
  (lbr.tag % 2 ^ num, ⟨lbr.src, lbr.tag >>> num, lbr.msb - num⟩)

def lbr_getbits (lbr : lsb_bitreader) (num : Nat) : Nat × lsb_bitreader :=
  lbr_getbits_no_refill (lbr_refill lbr num) num

/-- Logical bit stream held by a reader state. -/
def rbits (r : lsb_bitreader) : List Bool := natBits r.tag r.msb ++ bytesBits r.src

/-- Reader well-formedness: accumulator in range and input made of bytes. -/
def RInv (r : lsb_bitreader) : Prop :=
  r.tag < 2 ^ r.msb ∧ r.msb ≤ 31 ∧ ∀ b ∈ r.src, b < 256

/-! Helpers from crush.c. -/

/-- Portable branch of crush_log2: count how often n can be halved before
the result reaches zero (this equals Nat.log2, proved below).  Fuel n
always suffices since halving reaches zero within n steps. -/
def crush_log2_go : Nat → Nat → Nat → Nat
  | 0, _, bits => bits
  | fuel + 1, n, bits => if n / 2 = 0 then bits else crush_log2_go fuel (n / 2) (bits + 1)

def crush_log2 (n : Nat) : Nat := crush_log2_go n n 0

/-- Fibonacci hash of the three bytes at position i (crush_hash3_bits).
The uint32 multiplication wraps, hence the explicit mod 2^32. -/
def crush_hash3_bits (inp : List Nat) (i : Nat) (bits : Nat) : Nat :=
  let val := inp.getD i 0 ||| (inp.getD (i + 1) 0 <<< 8) ||| (inp.getD (i + 2) 0 <<< 16)
  ((val * 2654435761) % 2 ^ 32) >>> (32 - bits)

/-- Bit cost of a match token (crush_match_cost); pos is offs - 1. -/
def crush_match_cost (pos len : Nat) : Nat :=
  let l := len - MIN_MATCH
  let cost : Nat := 1
  let cost :=
    if l < A then cost + 1 + A_BITS
    else if l < B then cost + 2 + B_BITS
    else if l < C then cost + 3 + C_BITS
    else if l < D then cost + 4 + D_BITS
    else if l < E then cost + 5 + E_BITS
    else cost + 5 + F_BITS
  let cost := cost + SLOT_BITS
  if 2 <<< (W_BITS - NUM_SLOTS) ≤ pos then cost + crush_log2 pos
  else cost + (W_BITS - (NUM_SLOTS - 1))

/-- Bound on compressed data size (crush_max_packed_size). -/
def crush_max_packed_size (src_size : Nat) : Nat := src_size + src_size / 8 + 64

/-! The token codec.  A token is a literal byte or a match; a match stores
the copy length len (MIN_MATCH <= len <= MAX_MATCH) and the true offset
offs (1 <= offs <= W_SIZE).  The emit phases of the two packers work with
offs - 1 (named offs in the C output loops); the embedding subtracts 1 at
the emission site. -/

inductive Token where
  | lit (b : Nat)
  | mat (len offs : Nat)
deriving Repr, DecidableEq

/-- Slot-log loop of the leparse output phase: mlog starts at
W_BITS - NUM_SLOTS and is incremented while 2 << mlog <= offs. -/
def le_mlog_go : Nat → Nat → Nat → Nat
  | 0, _, mlog => mlog
  | fuel + 1, o, mlog => if 2 <<< mlog ≤ o then le_mlog_go fuel o (mlog + 1) else mlog

def le_mlog (o mlog : Nat) : Nat := le_mlog_go o o mlog

/-- Output-phase body shared by both packers for the match length part:
tag bit, unary bucket selector, extra bits. -/
def putMatchLen (lbw : lsb_bitwriter) (l : Nat) : lsb_bitwriter :=
  let lbw := lbw_putbits lbw 1 1
  if l < A then lbw_putbits (lbw_putbits lbw 1 1) l A_BITS
  else if l < B then lbw_putbits (lbw_putbits lbw (1 <<< 1) 2) (l - A) B_BITS
  else if l < C then lbw_putbits (lbw_putbits lbw (1 <<< 2) 3) (l - B) C_BITS
  else if l < D then lbw_putbits (lbw_putbits lbw (1 <<< 3) 4) (l - C) D_BITS
  else if l < E then lbw_putbits (lbw_putbits lbw (1 <<< 4) 5) (l - D) E_BITS
  else lbw_putbits (lbw_putbits lbw 0 5) (l - E) F_BITS

/-- Output-phase body of crush_pack_leparse for one token. -/
def le_putToken (lbw : lsb_bitwriter) : Token → lsb_bitwriter
  | .lit b => lbw_putbits lbw (b <<< 1) 9
  | .mat len offs =>
    let o := offs - 1
    let lbw := putMatchLen lbw (len - MIN_MATCH)
    let mlog := le_mlog o (W_BITS - NUM_SLOTS)
    let lbw := lbw_putbits lbw (mlog - (W_BITS - NUM_SLOTS)) SLOT_BITS
    if W_BITS - NUM_SLOTS < mlog then lbw_putbits lbw (o - (1 <<< mlog)) mlog
    else lbw_putbits lbw o (W_BITS - (NUM_SLOTS - 1))

/-- Output-phase body of crush_pack_btparse for one token (identical to the
leparse one except that the slot is found with crush_log2 instead of the
shift loop). -/
def bt_putToken (lbw : lsb_bitwriter) : Token → lsb_bitwriter
  | .lit b => lbw_putbits lbw (b <<< 1) 9
  | .mat len offs =>
    let o := offs - 1
    let lbw := putMatchLen lbw (len - MIN_MATCH)
    if 2 <<< (W_BITS - NUM_SLOTS) ≤ o then
      let mlog := crush_log2 o
      lbw_putbits (lbw_putbits lbw (mlog - (W_BITS - NUM_SLOTS)) SLOT_BITS) (o - (1 <<< mlog)) mlog
    else lbw_putbits (lbw_putbits lbw 0 SLOT_BITS) o (W_BITS - (NUM_SLOTS - 1))

/-- Output loop over a token list. -/
def emitTokens (putTok : lsb_bitwriter → Token → lsb_bitwriter) :
    lsb_bitwriter → List Token → lsb_bitwriter
  | lbw, [] => lbw
  | lbw, t :: ts => emitTokens putTok (putTok lbw t) ts

/-! Specification-level bit sequences of the codec (what the putbits calls
of the output phase append to the stream). -/

/-- Bits of the match length part after the tag (selector, extra). -/
def encodeLenBits (l : Nat) : List Bool :=
  if l < A then natBits 1 1 ++ natBits l A_BITS
  else if l < B then natBits (1 <<< 1) 2 ++ natBits (l - A) B_BITS
  else if l < C then natBits (1 <<< 2) 3 ++ natBits (l - B) C_BITS
  else if l < D then natBits (1 <<< 3) 4 ++ natBits (l - C) D_BITS
  else if l < E then natBits (1 <<< 4) 5 ++ natBits (l - D) E_BITS
  else natBits 0 5 ++ natBits (l - E) F_BITS

/-- Bits of the offset part (slot, then direct or top-bit-implicit form). -/
def encodeOffsBits (o : Nat) : List Bool :=
  let mlog := le_mlog o (W_BITS - NUM_SLOTS)
  natBits (mlog - (W_BITS - NUM_SLOTS)) SLOT_BITS ++
    (if W_BITS - NUM_SLOTS < mlog then natBits (o - (1 <<< mlog)) mlog
     else natBits o (W_BITS - (NUM_SLOTS - 1)))

/-- Bits of a whole token. -/
def encodeTokBits : Token → List Bool
  | .lit b => natBits (b <<< 1) 9
  | .mat len offs =>
      natBits 1 1 ++ encodeLenBits (len - MIN_MATCH) ++ encodeOffsBits (offs - 1)

/-! The depacker (crush_depack in crush.h). -/

/-- Match-length selector chain of crush_depack; the decoded value len is
the count of copy bytes beyond the three unconditional ones. -/
def read_len (lbr : lsb_bitreader) : Nat × lsb_bitreader :=
  let (s1, lbr) := lbr_getbits lbr 1
  if s1 ≠ 0 then lbr_getbits lbr A_BITS
  else
    let (s2, lbr) := lbr_getbits lbr 1
    if s2 ≠ 0 then
      let (v, lbr) := lbr_getbits lbr B_BITS; (v + A, lbr)
    else
      let (s3, lbr) := lbr_getbits lbr 1
      if s3 ≠ 0 then
        let (v, lbr) := lbr_getbits lbr C_BITS; (v + B, lbr)
      else
        let (s4, lbr) := lbr_getbits lbr 1
        if s4 ≠ 0 then
          let (v, lbr) := lbr_getbits lbr D_BITS; (v + C, lbr)
        else
          let (s5, lbr) := lbr_getbits lbr 1
          if s5 ≠ 0 then
            let (v, lbr) := lbr_getbits lbr E_BITS; (v + D, lbr)
          else
            let (v, lbr) := lbr_getbits lbr F_BITS; (v + E, lbr)

/-- Offset decode of crush_depack: slot, then extra bits; returns the value
before the final increment (offs = result + 1). -/
def read_offs (lbr : lsb_bitreader) : Nat × lsb_bitreader :=
  let (slot, lbr) := lbr_getbits lbr SLOT_BITS
  let mlog := slot + (W_BITS - NUM_SLOTS)
  if W_BITS - NUM_SLOTS < mlog then
    let (v, lbr) := lbr_getbits lbr mlog; (v + (1 <<< mlog), lbr)
  else lbr_getbits lbr (W_BITS - (NUM_SLOTS - 1))

/-- Token-reading steps of crush_depack packaged as one function; for a
match the stored length is the full copy count MIN_MATCH + len. -/
def readToken (lbr : lsb_bitreader) : Token × lsb_bitreader :=
  let (tag, lbr) := lbr_getbits lbr 1
  if tag ≠ 0 then
    let (len, lbr) := read_len lbr
    let (o, lbr) := read_offs lbr
    (.mat (MIN_MATCH + len) (o + 1), lbr)
  else
    let (b, lbr) := lbr_getbits lbr 8
    (.lit b, lbr)

/-- Match copy of crush_depack: one byte at a time, so overlapping copies
replicate earlier output. -/
def match_copy (out : List Nat) (mpos : Nat) : Nat → List Nat
  | 0 => out
  | k + 1 => match_copy (out ++ [out.getD mpos 0]) (mpos + 1) k

/-- Main loop of crush_depack; out is the output written so far.  The C
function returns CRUSH_ERROR for a match referencing bytes not yet
produced, modelled as none.  Fuel bounds the iteration count; the top call
passes depacked_size + 1, which always suffices because every iteration
grows out by at least one byte. -/
def depack_loop : Nat → lsb_bitreader → List Nat → Nat → Option (List Nat)
  | 0, _, _, _ => none
  | fuel + 1, lbr, out, depacked_size =>
    if out.length < depacked_size then
      let (tag, lbr) := lbr_getbits lbr 1
      if tag ≠ 0 then
        let (len, lbr) := read_len lbr
        let (o, lbr) := read_offs lbr
        let offs := o + 1
        if out.length < offs then none
        else depack_loop fuel lbr (match_copy out (out.length - offs) (3 + len)) depacked_size
      else
        let (b, lbr) := lbr_getbits lbr 8
        depack_loop fuel lbr (out ++ [b]) depacked_size
    else some out

/-- Decompress depacked_size bytes from src (crush_depack). -/
def crush_depack (src : List Nat) (depacked_size : Nat) : Option (List Nat) :=
  depack_loop (depacked_size + 1) (lbr_init src) [] depacked_size

/-- Decode trace: the tokens crush_depack decodes, each paired with the
number of bytes already produced when it is decoded.  The trace ends at
the first match referencing bytes not yet produced (included) or once
depacked_size bytes have been produced. -/
def depack_trace : Nat → lsb_bitreader → List Nat → Nat → List (Nat × Token)
  | 0, _, _, _ => []
  | fuel + 1, lbr, out, depacked_size =>
    if out.length < depacked_size then
      let (tag, lbr) := lbr_getbits lbr 1
      if tag ≠ 0 then
        let (len, lbr) := read_len lbr
        let (o, lbr) := read_offs lbr
        let offs := o + 1
        if out.length < offs then [(out.length, .mat (3 + len) offs)]
        else (out.length, .mat (3 + len) offs) ::
          depack_trace fuel lbr (match_copy out (out.length - offs) (3 + len)) depacked_size
      else
        let (b, lbr) := lbr_getbits lbr 8
        (out.length, .lit b) :: depack_trace fuel lbr (out ++ [b]) depacked_size
    else []

/-- Trace of a whole depack call. -/
def crush_depack_trace (src : List Nat) (depacked_size : Nat) : List (Nat × Token) :=
  depack_trace (depacked_size + 1) (lbr_init src) [] depacked_size

/-! The leparse packer (crush_leparse.h): backwards dynamic programming
parse over hash chains with left-extension of matches.

The C code lays the arrays prev, mpos, mlen, cost, lookup out inside one
workmem buffer with cost aliasing prev and lookup aliasing mpos; the
aliasing is safe because each overlapped word is overwritten before it is
read, so the embedding uses one total map per array.  Map entries that the
C code never initialises before reading do not exist here either; default
values (0, or NO_MATCH_POS for lookup) stand for them. -/

/-- Pointwise map update. -/
def upd (f : Nat → Nat) (i v : Nat) : Nat → Nat := fun j => if j = i then v else f j

/-- Workmem size of the leparse levels (crush_leparse_workmem_size),
in unsigned long words times the word size; word size 8 on LP64. -/
def crush_leparse_workmem_size (src_size : Nat) : Nat :=
  (if LOOKUP_SIZE < 2 * src_size then 3 * src_size else src_size + LOOKUP_SIZE) * 8

/-- Hash width of the leparse match finder (phase 1 of
crush_pack_leparse): the full CRUSH_HASH_BITS when 2 * src_size <
LOOKUP_SIZE, otherwise crush_log2 src_size. -/
def le_hash_bits (src_size : Nat) : Nat :=
  if 2 * src_size < LOOKUP_SIZE then CRUSH_HASH_BITS else crush_log2 src_size

/-- Phase 1 state: lookup heads and prev chains. -/
structure LeChains where
  lookup : Nat → Nat
  prev : Nat → Nat

/-- Phase 1 of crush_pack_leparse: build hash chains in prev. -/
def le_build_chains (inp : List Nat) (bits lmp : Nat) : Nat → Nat → LeChains → LeChains
  | _, 0, st => st
  | i, fuel + 1, st =>
    if i ≤ lmp then
      let hash := crush_hash3_bits inp i bits
      le_build_chains inp bits lmp (i + 1) fuel ⟨upd st.lookup hash i, upd st.prev i (st.lookup hash)⟩
    else st

/-- Phase 2 state: cost, match position and match length per position. -/
structure LeState where
  cost : Nat → Nat
  mpos : Nat → Nat
  mlen : Nat → Nat

/-- Match length scan shared by both packers: extend a known-equal base of
len bytes while below the limit and the bytes at pos and cur keep
agreeing.  The leparse walk calls it with base 0 (after its one-byte
gate), the btparse walk with base min lt_len gt_len. -/
def le_match_len (inp : List Nat) (pos cur limit : Nat) : Nat → Nat → Nat
  | 0, len => len
  | fuel + 1, len =>
    if len < limit ∧ inp.getD (pos + len) 0 = inp.getD (cur + len) 0 then
      le_match_len inp pos cur limit fuel (len + 1)
    else len

/-- Inner scan of phase 2: cheapest extension length in
[i, len], carrying the running minimum (mc, mcl). -/
def le_scan (st : LeState) (cur pos len : Nat) : Nat → Nat → Nat → Nat → Nat × Nat
  | 0, _, mc, mcl => (mc, mcl)
  | fuel + 1, i, mc, mcl =>
    if i ≤ len then
      let match_cost := crush_match_cost (cur - pos - 1) i
      let cost_here := match_cost + st.cost (cur + i)
      if cost_here < mc then le_scan st cur pos len fuel (i + 1) cost_here i
      else le_scan st cur pos len fuel (i + 1) mc mcl
    else (mc, mcl)

/-- Left-extension loop of phase 2 (the do-while): move cur and pos one
step left, grow the match, rewrite cost, mpos, mlen at the new cur. -/
def le_extend (inp : List Nat) : Nat → LeState → Nat → Nat → Nat → LeState × Nat
  | 0, st, cur, _, _ => (st, cur)
  | fuel + 1, st, cur, pos, mcl =>
    let cur2 := cur - 1
    let pos2 := pos - 1
    let mcl2 := mcl + 1
    let cost_here := crush_match_cost (cur2 - pos2 - 1) mcl2 + st.cost (cur2 + mcl2)
    let st2 : LeState := ⟨upd st.cost cur2 cost_here, upd st.mpos cur2 pos2, upd st.mlen cur2 mcl2⟩
    if 0 < pos2 ∧ inp.getD (pos2 - 1) 0 = inp.getD (cur2 - 1) 0 ∧ mcl2 < MAX_MATCH then
      le_extend inp fuel st2 cur2 pos2 mcl2
    else (st2, cur2)

/-- Chain walk of phase 2 (the for loop over prev matches); returns the
updated state and the final cur, which the left-extension may have moved
left.  num_chain models the post-decremented loop counter. -/
def le_walk (inp : List Nat) (prev : Nat → Nat) (accept_len len_limit : Nat) :
    Nat → LeState → Nat → Nat → Nat → LeState × Nat
  | 0, st, cur, _, _ => (st, cur)
  | num_chain + 1, st, cur, pos, max_len =>
    if pos = NO_MATCH_POS then (st, cur)
    else if W_SIZE < cur - pos then (st, cur)
    else
      let len :=
        if max_len < len_limit ∧ inp.getD (pos + max_len) 0 = inp.getD (cur + max_len) 0
        then le_match_len inp pos cur len_limit len_limit 0 else 0
      if max_len < len then
        let (mc, mcl) := le_scan st cur pos len (len + 1) (max_len + 1) ULONG_MAX (MIN_MATCH - 1)
        if mc < st.cost cur then
          let st2 : LeState := ⟨upd st.cost cur mc, upd st.mpos cur pos, upd st.mlen cur mcl⟩
          if 0 < pos ∧ inp.getD (pos - 1) 0 = inp.getD (cur - 1) 0 ∧ mcl < MAX_MATCH then
            le_extend inp pos st2 cur pos mcl
          else if accept_len ≤ len ∨ len = len_limit then (st2, cur)
          else le_walk inp prev accept_len len_limit num_chain st2 cur (prev pos) len
        else if accept_len ≤ len ∨ len = len_limit then (st, cur)
        else le_walk inp prev accept_len len_limit num_chain st cur (prev pos) len
      else if accept_len ≤ len ∨ len = len_limit then (st, cur)
      else le_walk inp prev accept_len len_limit num_chain st cur (prev pos) max_len

/-- Phase 2 of crush_pack_leparse (backwards DP).  The C loop variable cur
is also decremented inside the body by the left-extension, so the model
recurses on the cur returned by the walk; the fuel argument bounds the
number of iterations and is adequate at src_size because cur strictly
decreases on every iteration. -/
def le_phase2 (inp : List Nat) (prev : Nat → Nat) (max_depth accept_len src_size : Nat) :
    Nat → LeState → Nat → LeState
  | 0, st, _ => st
  | fuel + 1, st, cur =>
    if cur = 0 then st
    else
      let st : LeState := ⟨upd st.cost cur (st.cost (cur + 1) + 9), st.mpos, upd st.mlen cur 1⟩
      let len_limit := if MAX_MATCH < src_size - cur then MAX_MATCH else src_size - cur
      let (st2, cur2) :=
        le_walk inp prev accept_len len_limit max_depth st cur (prev cur) (MIN_MATCH - 1)
      le_phase2 inp prev max_depth accept_len src_size fuel st2 (cur2 - 1)

/-- Token walk of the output phase: follow mlen from position 0; a literal
token for mlen 1, otherwise a match whose stored offset is the true
offset i - mpos i (the emit code uses i - mpos i - 1).  fuel bounds the
walk and is adequate at src_size. -/
def le_tokens (inp : List Nat) (st : LeState) (src_size : Nat) : Nat → Nat → List Token
  | 0, _ => []
  | fuel + 1, i =>
    if i < src_size then
      if st.mlen i = 1 then .lit (inp.getD i 0) :: le_tokens inp st src_size fuel (i + 1)
      else .mat (st.mlen i) (i - st.mpos i) :: le_tokens inp st src_size fuel (i + st.mlen i)
    else []

/-- Token sequence produced by crush_pack_leparse before the output phase
(phases 1 and 2, the boundary initialisation, and the forced literal at
position 0). -/
def crush_leparse_tokens (src : List Nat) (max_depth accept_len : Nat) : List Token :=
  let src_size := src.length
  let last_match_pos := if 3 < src_size then src_size - 3 else 0
  if src_size = 0 then []
  else if src_size < 4 then src.map Token.lit
  else
    let bits := le_hash_bits src_size
    let chains :=
      if 0 < last_match_pos then
        le_build_chains src bits last_match_pos 0 (last_match_pos + 1)
          ⟨fun _ => NO_MATCH_POS, fun _ => 0⟩
      else ⟨fun _ => NO_MATCH_POS, fun _ => 0⟩
    let st0 : LeState :=
      ⟨upd (upd (upd (fun _ => 0) (src_size - 2) 18) (src_size - 1) 9) src_size 0,
       fun _ => 0,
       upd (upd (fun _ => 0) (src_size - 2) 1) (src_size - 1) 1⟩
    let st1 := le_phase2 src chains.prev max_depth accept_len src_size src_size st0 last_match_pos
    let st2 : LeState := ⟨st1.cost, upd st1.mpos 0 0, upd st1.mlen 0 1⟩
    le_tokens src st2 src_size src_size 0

/-- crush_pack_leparse: the packed bytes (the C function writes them to dst
and returns their count). -/
def crush_pack_leparse (src : List Nat) (max_depth accept_len : Nat) : List Nat :=
  lbw_finalize (emitTokens le_putToken lbw_init (crush_leparse_tokens src max_depth accept_len))

/-! The btparse packer (crush_btparse.h): forwards dynamic programming
parse over per-hash binary trees re-rooted at each searched position. -/

/-- Workmem size of the btparse levels (crush_btparse_workmem_size), in
uint32 words times the word size 4. -/
def crush_btparse_workmem_size (src_size : Nat) : Nat :=
  (5 * src_size + 3 + LOOKUP_SIZE) * 4

/-- State of the btparse phases: cost, mpos, mlen (each src_size + 1
entries in C), the node array (2 * src_size entries) and the lookup. -/
structure BtState where
  cost : Nat → Nat
  mpos : Nat → Nat
  mlen : Nat → Nat
  nodes : Nat → Nat
  lookup : Nat → Nat

/-- Literal step of btparse: relax cost[cur + 1] through a literal. -/
def bt_literal_step (st : BtState) (cur : Nat) : BtState :=
  if st.cost cur + 9 < st.cost (cur + 1) then
    ⟨upd st.cost (cur + 1) (st.cost cur + 9), st.mpos, upd st.mlen (cur + 1) 1,
     st.nodes, st.lookup⟩
  else st

/-- Guarded cost relaxation of btparse for the extension lengths
i in [i0, len] of a match from pos to cur. -/
def bt_update (cur pos len : Nat) : Nat → BtState → Nat → BtState
  | 0, st, _ => st
  | fuel + 1, st, i =>
    if i ≤ len then
      let match_cost := crush_match_cost (cur - pos - 1) i
      let cost_there := st.cost cur + match_cost
      let st2 : BtState :=
        if cost_there < st.cost (cur + i) then
          ⟨upd st.cost (cur + i) cost_there, upd st.mpos (cur + i) (cur - pos - 1),
           upd st.mlen (cur + i) i, st.nodes, st.lookup⟩
        else st
      bt_update cur pos len fuel st2 (i + 1)
    else st

/-- Tree walk of btparse phase 1: check matches against the old tree of
cur's hash while re-rooting it at cur.  lt_node and gt_node are indices
into the node array (the C code holds pointers); returns the state and the
updated next_match_cur. -/
def bt_walk (inp : List Nat) (accept_len len_limit cur : Nat) :
    Nat → BtState → Nat → Nat → Nat → Nat → Nat → Nat → Nat → BtState × Nat
  | num_chain, st, nmc, pos, lt_node, gt_node, lt_len, gt_len, max_len =>
    if pos = NO_MATCH_POS ∨ W_SIZE < cur - pos ∨ num_chain = 0 then
      (⟨st.cost, st.mpos, st.mlen, upd (upd st.nodes lt_node NO_MATCH_POS) gt_node NO_MATCH_POS,
        st.lookup⟩, nmc)
    else
      let len0 := if lt_len < gt_len then lt_len else gt_len
      let len := le_match_len inp pos cur len_limit len_limit len0
      let upd1 :=
        if cur = nmc ∧ max_len < len then
          let st2 := bt_update cur pos len (len + 1) st (max_len + 1)
          let nmc2 := if accept_len ≤ len then cur + len else nmc
          (st2, nmc2, len)
        else (st, nmc, max_len)
      let st2 := upd1.1
      let nmc2 := upd1.2.1
      let max_len2 := upd1.2.2
      if accept_len ≤ len ∨ len = len_limit then
        (⟨st2.cost, st2.mpos, st2.mlen,
          upd (upd st2.nodes lt_node (st2.nodes (2 * pos))) gt_node (st2.nodes (2 * pos + 1)),
          st2.lookup⟩, nmc2)
      else if inp.getD (pos + len) 0 < inp.getD (cur + len) 0 then
        let nodes2 := upd st2.nodes lt_node pos
        let st3 : BtState := ⟨st2.cost, st2.mpos, st2.mlen, nodes2, st2.lookup⟩
        bt_walk inp accept_len len_limit cur (num_chain - 1) st3 nmc2
          (nodes2 (2 * pos + 1)) (2 * pos + 1) gt_node len gt_len max_len2
      else
        let nodes2 := upd st2.nodes gt_node pos
        let st3 : BtState := ⟨st2.cost, st2.mpos, st2.mlen, nodes2, st2.lookup⟩
        bt_walk inp accept_len len_limit cur (num_chain - 1) st3 nmc2
          (nodes2 (2 * pos)) lt_node (2 * pos) lt_len len max_len2
termination_by num_chain _ _ _ _ _ _ _ _ => num_chain
decreasing_by all_goals omega

/-- Phase 1 of crush_pack_btparse: for cur up to last_match_pos, relax the
literal edge and walk the tree of cur's hash. -/
def bt_phase1 (inp : List Nat) (max_depth accept_len lmp src_size : Nat) :
    Nat → Nat → BtState → Nat → BtState
  | 0, _, st, _ => st
  | fuel + 1, cur, st, nmc =>
    if cur ≤ lmp then
      let st := bt_literal_step st cur
      let nmc := if nmc < cur then cur else nmc
      let hash := crush_hash3_bits inp cur CRUSH_HASH_BITS
      let pos := st.lookup hash
      let st : BtState := ⟨st.cost, st.mpos, st.mlen, st.nodes, upd st.lookup hash cur⟩
      let len_left := if MAX_MATCH < src_size - cur then MAX_MATCH else src_size - cur
      let len_limit :=
        if cur = nmc then len_left
        else if accept_len < len_left then accept_len else len_left
      let res := bt_walk inp accept_len len_limit cur max_depth st nmc pos
        (2 * cur) (2 * cur + 1) 0 0 (MIN_MATCH - 1)
      bt_phase1 inp max_depth accept_len lmp src_size fuel (cur + 1) res.1 res.2
    else st

/-- Trailing literal relaxations of btparse after last_match_pos. -/
def bt_tail (src_size : Nat) : Nat → BtState → Nat → BtState
  | 0, st, _ => st
  | fuel + 1, st, cur =>
    if cur < src_size then bt_tail src_size fuel (bt_literal_step st cur) (cur + 1) else st

/-- Phase 2 of btparse: walk the lowest cost path backwards from src_size,
packing its tokens into mlen/mpos at indices next_token, next_token - 1,
...; returns the final next_token.  In C this writes into the same arrays
it reads; the writes land at indices no smaller than the read cursor, so
the read values are the phase 1 values, as here.  fuel is adequate at
src_size + 1 since cur strictly decreases. -/
def bt_gather (st : BtState) : Nat → Nat → Nat → BtState × Nat
  | 0, _, next_token => (st, next_token)
  | fuel + 1, cur, next_token =>
    if cur = 0 then (st, next_token)
    else
      let st2 : BtState := ⟨st.cost, upd st.mpos next_token (st.mpos cur),
        upd st.mlen next_token (st.mlen cur), st.nodes, st.lookup⟩
      bt_gather st2 fuel (cur - st2.mlen cur) (next_token - 1)

/-- Phase 3 token walk of btparse: read the gathered tokens at indices
next_token + 1 .. src_size while tracking the source position cur; the
stored offset is the true offset mpos i + 1 (the emit code uses mpos i). -/
def bt_tokens (inp : List Nat) (st : BtState) (src_size : Nat) : Nat → Nat → Nat → List Token
  | 0, _, _ => []
  | fuel + 1, i, cur =>
    if i ≤ src_size then
      (if st.mlen i = 1 then Token.lit (inp.getD cur 0)
       else Token.mat (st.mlen i) (st.mpos i + 1)) ::
        bt_tokens inp st src_size fuel (i + 1) (cur + st.mlen i)
    else []

/-- Token sequence produced by crush_pack_btparse before the output phase. -/
def crush_btparse_tokens (src : List Nat) (max_depth accept_len : Nat) : List Token :=
  let src_size := src.length
  let last_match_pos := if 3 < src_size then src_size - 3 else 0
  if src_size = 0 then []
  else if src_size < 4 then src.map Token.lit
  else
    let st0 : BtState :=
      ⟨upd (fun _ => UINT32_MAX) 0 0, fun _ => 0, fun _ => 1, fun _ => 0,
       fun _ => NO_MATCH_POS⟩
    let st1 := bt_phase1 src max_depth accept_len last_match_pos src_size
      (last_match_pos + 1) 0 st0 0
    let st2 := bt_tail src_size src_size st1 (last_match_pos + 1)
    let res := bt_gather st2 (src_size + 1) src_size src_size
    bt_tokens src res.1 src_size (src_size + 1) (res.2 + 1) 0

/-- crush_pack_btparse: the packed bytes. -/
def crush_pack_btparse (src : List Nat) (max_depth accept_len : Nat) : List Nat :=
  lbw_finalize (emitTokens bt_putToken lbw_init (crush_btparse_tokens src max_depth accept_len))

/-! The parsers over an arbitrary initial workmem: the same code, but the
uninitialised scratch arrays start from arbitrary junk maps, and the init
loops the C code runs before using an array are modelled by overlaying
their writes on the junk (the lookup loop covers its table, btparse's
cost/mlen loop covers 0..src_size, leparse writes the boundary cells). -/

/-- crush_leparse_tokens over arbitrary initial workmem contents. -/
def crush_leparse_tokens_w (src : List Nat) (max_depth accept_len : Nat)
    (cost0 mpos0 mlen0 prev0 lookup0 : Nat → Nat) : List Token :=
  let src_size := src.length
  let last_match_pos := if 3 < src_size then src_size - 3 else 0
  if src_size = 0 then []
  else if src_size < 4 then src.map Token.lit
  else
    let bits := le_hash_bits src_size
    let chains :=
      if 0 < last_match_pos then
        le_build_chains src bits last_match_pos 0 (last_match_pos + 1)
          ⟨fun h => if h < 2 ^ bits then NO_MATCH_POS else lookup0 h, prev0⟩
      else ⟨fun h => if h < 2 ^ bits then NO_MATCH_POS else lookup0 h, prev0⟩
    let st0 : LeState :=
      ⟨upd (upd (upd cost0 (src_size - 2) 18) (src_size - 1) 9) src_size 0,
       mpos0,
       upd (upd mlen0 (src_size - 2) 1) (src_size - 1) 1⟩
    let st1 := le_phase2 src chains.prev max_depth accept_len src_size src_size st0 last_match_pos
    let st2 : LeState := ⟨st1.cost, upd st1.mpos 0 0, upd st1.mlen 0 1⟩
    le_tokens src st2 src_size src_size 0

/-- crush_btparse_tokens over arbitrary initial workmem contents. -/
def crush_btparse_tokens_w (src : List Nat) (max_depth accept_len : Nat)
    (cost0 mpos0 mlen0 nodes0 lookup0 : Nat → Nat) : List Token :=
  let src_size := src.length
  let last_match_pos := if 3 < src_size then src_size - 3 else 0
  if src_size = 0 then []
  else if src_size < 4 then src.map Token.lit
  else
    let st0 : BtState :=
      ⟨fun j => if j ≤ src_size then (if j = 0 then 0 else UINT32_MAX) else cost0 j,
       mpos0,
       fun j => if j ≤ src_size then 1 else mlen0 j,
       nodes0,
       fun h => if h < LOOKUP_SIZE then NO_MATCH_POS else lookup0 h⟩
    let st1 := bt_phase1 src max_depth accept_len last_match_pos src_size
      (last_match_pos + 1) 0 st0 0
    let st2 := bt_tail src_size src_size st1 (last_match_pos + 1)
    let res := bt_gather st2 (src_size + 1) src_size src_size
    bt_tokens src res.1 src_size (src_size + 1) (res.2 + 1) 0

/-- crush_pack_leparse over arbitrary initial workmem contents. -/
def crush_pack_leparse_w (src : List Nat) (max_depth accept_len : Nat)
    (cost0 mpos0 mlen0 prev0 lookup0 : Nat → Nat) : List Nat :=
  lbw_finalize (emitTokens le_putToken lbw_init
    (crush_leparse_tokens_w src max_depth accept_len cost0 mpos0 mlen0 prev0 lookup0))

/-- crush_pack_btparse over arbitrary initial workmem contents. -/
def crush_pack_btparse_w (src : List Nat) (max_depth accept_len : Nat)
    (cost0 mpos0 mlen0 nodes0 lookup0 : Nat → Nat) : List Nat :=
  lbw_finalize (emitTokens bt_putToken lbw_init
    (crush_btparse_tokens_w src max_depth accept_len cost0 mpos0 mlen0 nodes0 lookup0))

/-- crush_pack_level over arbitrary initial workmem contents: the junk
maps j1..j5 give the initial values of the scratch arrays each parser
carves out of workmem. -/
def crush_pack_level_w (src : List Nat) (level : Nat)
    (j1 j2 j3 j4 j5 : Nat → Nat) : Option (List Nat) :=
  match level with
  | 5 => some (crush_pack_leparse_w src 1 16 j1 j2 j3 j4 j5)
  | 6 => some (crush_pack_leparse_w src 8 32 j1 j2 j3 j4 j5)
  | 7 => some (crush_pack_leparse_w src 64 64 j1 j2 j3 j4 j5)
  | 8 => some (crush_pack_btparse_w src 16 96 j1 j2 j3 j4 j5)
  | 9 => some (crush_pack_btparse_w src 32 224 j1 j2 j3 j4 j5)
  | 10 => some (crush_pack_btparse_w src ULONG_MAX ULONG_MAX j1 j2 j3 j4 j5)
  | _ => none

/-! The level driver (crush_pack_level, crush.c). -/

/-- Workmem size per level (crush_workmem_size_level); the C function
returns (size_t)-1 for an unknown level, modelled as none. -/
def crush_workmem_size_level (src_size : Nat) (level : Nat) : Option Nat :=
  match level with
  | 5 => some (crush_leparse_workmem_size src_size)
  | 6 => some (crush_leparse_workmem_size src_size)
  | 7 => some (crush_leparse_workmem_size src_size)
  | 8 => some (crush_btparse_workmem_size src_size)
  | 9 => some (crush_btparse_workmem_size src_size)
  | 10 => some (crush_btparse_workmem_size src_size)
  | _ => none

/-- crush_pack_level: dispatch on the level with the (max_depth,
accept_len) pairs of the C switch; none models the CRUSH_ERROR return for
an unknown level. -/
def crush_pack_level (src : List Nat) (level : Nat) : Option (List Nat) :=
  match level with
  | 5 => some (crush_pack_leparse src 1 16)
  | 6 => some (crush_pack_leparse src 8 32)
  | 7 => some (crush_pack_leparse src 64 64)
  | 8 => some (crush_pack_btparse src 16 96)
  | 9 => some (crush_pack_btparse src 32 224)
  | 10 => some (crush_pack_btparse src ULONG_MAX ULONG_MAX)
  | _ => none

/-- Token sequence behind crush_pack_level. -/
def crush_tokens_level (src : List Nat) (level : Nat) : Option (List Token) :=
  match level with
  | 5 => some (crush_leparse_tokens src 1 16)
  | 6 => some (crush_leparse_tokens src 8 32)
  | 7 => some (crush_leparse_tokens src 64 64)
  | 8 => some (crush_btparse_tokens src 16 96)
  | 9 => some (crush_btparse_tokens src 32 224)
  | 10 => some (crush_btparse_tokens src ULONG_MAX ULONG_MAX)
  | _ => none

/-- Admissible tokens: the values the codec can represent. -/
def TokenOK : Token → Prop
  | .lit b => b < 256
  | .mat len offs => MIN_MATCH ≤ len ∧ len ≤ MAX_MATCH ∧ 1 ≤ offs ∧ offs ≤ W_SIZE

instance : DecidablePred TokenOK := fun t => by
  cases t <;> simp only [TokenOK] <;> infer_instance

/-- Bits of a token sequence. -/
def tokensBits : List Token → List Bool
  | [] => []
  | t :: ts => encodeTokBits t ++ tokensBits ts

/-- Correct token sequence for the source inp starting at position i: each
literal carries the source byte at its position, each match is admissible,
reaches only already-covered positions, and genuinely repeats earlier
source bytes; the sequence tiles the source exactly. -/
def TokSeqOK (inp : List Nat) : Nat → List Token → Prop
  | i, [] => i = inp.length
  | i, .lit b :: ts => b = inp.getD i 0 ∧ i < inp.length ∧ TokSeqOK inp (i + 1) ts
  | i, .mat len offs :: ts =>
      MIN_MATCH ≤ len ∧ len ≤ MAX_MATCH ∧ 1 ≤ offs ∧ offs ≤ i ∧ offs ≤ W_SIZE ∧
      i + len ≤ inp.length ∧
      (∀ k, k < len → inp.getD (i - offs + k) 0 = inp.getD (i + k) 0) ∧
      TokSeqOK inp (i + len) ts

/-- Position-indexed weak token invariant: every match token starts at a
source position i with 1 <= offs <= i, offs <= W_SIZE and
MIN_MATCH <= len <= MAX_MATCH, and the sequence tiles [0, N) exactly. -/
def TokSeqBounds (N : Nat) : Nat → List Token → Prop
  | i, [] => i = N
  | i, .lit _ :: ts => i < N ∧ TokSeqBounds N (i + 1) ts
  | i, .mat len offs :: ts =>
      MIN_MATCH ≤ len ∧ len ≤ MAX_MATCH ∧ 1 ≤ offs ∧ offs ≤ i ∧ offs ≤ W_SIZE ∧
      i + len ≤ N ∧ TokSeqBounds N (i + len) ts

/-- Match cell of the leparse dynamic program: position i carries an
admissible match that repeats earlier source bytes and whose cost entry
telescopes to the cost after the match. -/
def LeMatchCell (inp : List Nat) (st : LeState) (i : Nat) : Prop :=
  MIN_MATCH ≤ st.mlen i ∧ st.mlen i ≤ MAX_MATCH ∧ st.mpos i < i ∧
  i - st.mpos i ≤ W_SIZE ∧ i + st.mlen i ≤ inp.length ∧
  (∀ k, k < st.mlen i → inp.getD (st.mpos i + k) 0 = inp.getD (i + k) 0) ∧
  st.cost i = crush_match_cost (i - st.mpos i - 1) (st.mlen i) + st.cost (i + st.mlen i)

/-- Cell of the leparse dynamic program: literal with telescoping cost, or
a valid match cell. -/
def LeCell (inp : List Nat) (st : LeState) (i : Nat) : Prop :=
  (st.mlen i = 1 ∧ st.cost i = st.cost (i + 1) + 9) ∨ LeMatchCell inp st i

/-- Invariant of leparse phase 2: every position from b up to the end
holds a valid cell whose cost is at most the all-literals cost. -/
def LeInv (inp : List Nat) (st : LeState) (b : Nat) : Prop :=
  st.cost inp.length = 0 ∧
  ∀ i, b ≤ i → i < inp.length → LeCell inp st i ∧ st.cost i ≤ 9 * (inp.length - i)

/-- Match cell of the btparse dynamic program: mpos stores offs - 1; the
match covers [i - mlen, i) and references only earlier output. -/
def BtMatchCell (st : BtState) (i : Nat) : Prop :=
  MIN_MATCH ≤ st.mlen i ∧ st.mlen i ≤ MAX_MATCH ∧ st.mlen i ≤ i ∧
  st.mpos i + 1 ≤ i - st.mlen i ∧ st.mpos i + 1 ≤ W_SIZE ∧
  st.cost i = st.cost (i - st.mlen i) + crush_match_cost (st.mpos i) (st.mlen i)

/-- Cell of the btparse dynamic program with telescoping cost. -/
def BtCellEq (st : BtState) (i : Nat) : Prop :=
  (st.mlen i = 1 ∧ st.cost i = st.cost (i - 1) + 9) ∨ BtMatchCell st i

/-- Cost/cell invariant of btparse phase 1: positions up to the literal
frontier f are bounded by the all-literals cost, and every position up to
N either holds a valid cell or is untouched beyond the frontier. -/
def BtCells (st : BtState) (N f : Nat) : Prop :=
  st.cost 0 = 0 ∧ st.mlen 0 = 1 ∧
  (∀ j, j ≤ f → st.cost j ≤ 9 * j) ∧
  (∀ j, 1 ≤ j → j ≤ N →
    (BtCellEq st j ∧ j - st.mlen j < f) ∨
    (f < j ∧ st.cost j = UINT32_MAX ∧ st.mlen j = 1))

/-- Input refuting the monotonicity of the fast levels: level 5 packs it
into 16 bytes, level 6 into 17. -/
def cx8 : List Nat :=
  [1, 0, 1, 1, 0, 1, 0, 1, 0, 1, 1, 0, 1, 0, 1, 0, 1, 1, 0, 1, 0, 1, 0, 1,
   0, 1, 1, 0, 1, 1, 0, 1, 0, 1, 1, 0, 1, 0, 1, 0, 1, 1, 0, 1, 0, 1, 0, 1,
   1, 0, 1, 0, 1, 0, 1, 1, 1, 0]

/-! Definitions for the full correctness invariant of the btparse tree
walk: the per-hash trees are binary search trees over the suffixes of the
input in a truncated order, which is what lets the walk skip comparing
the first min (lt_len, gt_len) bytes of each candidate. -/

/-- The suffixes at positions p and q agree on their first m bytes. -/
def agreeB (inp : List Nat) (p q m : Nat) : Prop :=
  ∀ k, k < m → inp.getD (p + k) 0 = inp.getD (q + k) 0

/-- The suffix at y is below the suffix at a in the truncated order the
tree walk relies on: the two agree for m bytes and then y has the
strictly smaller byte, unless m already reaches accept_len or MAX_MATCH
(the walk never consumes agreement that deep) or the end of the buffer
at a. -/
def RelLt (inp : List Nat) (al y a : Nat) : Prop :=
  ∃ m, agreeB inp y a m ∧
    (inp.getD (y + m) 0 < inp.getD (a + m) 0 ∨ al ≤ m ∨ MAX_MATCH ≤ m ∨
      inp.length ≤ a + m)

/-- The suffix at y is above the suffix at a in the truncated order. -/
def RelGt (inp : List Nat) (al y a : Nat) : Prop :=
  ∃ m, agreeB inp y a m ∧
    (inp.getD (a + m) 0 < inp.getD (y + m) 0 ∨ al ≤ m ∨ MAX_MATCH ≤ m ∨
      inp.length ≤ a + m)

/-- Fueled membership of y in the binary tree rooted at r over the nodes
array: slots 2r and 2r + 1 hold the roots of r's subtrees, NO_MATCH_POS
is the empty tree. -/
def InTreeF (nodes : Nat → Nat) : Nat → Nat → Nat → Prop
  | 0, _, _ => False
  | fuel + 1, r, y =>
      r ≠ NO_MATCH_POS ∧
      (y = r ∨ InTreeF nodes fuel (nodes (2 * r)) y ∨
        InTreeF nodes fuel (nodes (2 * r + 1)) y)

/-- Membership of y in the tree rooted at r. -/
def InT (nodes : Nat → Nat) (r y : Nat) : Prop := ∃ fuel, InTreeF nodes fuel r y

/-- Fueled well-formedness of the tree rooted at r: every node is a
position below the bound, members of a node's subtrees are below the
node, the left (right) subtree of each node holds suffixes below (above)
it in the truncated order, and the two subtrees are disjoint. -/
def GoodF (inp : List Nat) (al : Nat) (nodes : Nat → Nat) (bound : Nat) :
    Nat → Nat → Prop
  | 0, r => r = NO_MATCH_POS
  | fuel + 1, r =>
      r = NO_MATCH_POS ∨
      (r < bound ∧
        GoodF inp al nodes bound fuel (nodes (2 * r)) ∧
        GoodF inp al nodes bound fuel (nodes (2 * r + 1)) ∧
        (∀ y, InT nodes (nodes (2 * r)) y → y < r ∧ RelLt inp al y r) ∧
        (∀ y, InT nodes (nodes (2 * r + 1)) y → y < r ∧ RelGt inp al y r) ∧
        (∀ y, InT nodes (nodes (2 * r)) y →
          InT nodes (nodes (2 * r + 1)) y → False))

/-- Well-formedness of the tree rooted at r. -/
def GoodT (inp : List Nat) (al : Nat) (nodes : Nat → Nat) (bound r : Nat) : Prop :=
  ∃ fuel, GoodF inp al nodes bound fuel r

/-- Lower bound carried by the walk: y agrees with the search position
cur through lt_len bytes, or leaves upward before that. -/
def BetweenL (inp : List Nat) (cur lt_len y : Nat) : Prop :=
  agreeB inp y cur lt_len ∨
    ∃ m, m < lt_len ∧ agreeB inp y cur m ∧
      inp.getD (cur + m) 0 < inp.getD (y + m) 0

/-- Upper bound carried by the walk: y agrees with the search position
cur through gt_len bytes, or leaves downward before that. -/
def BetweenG (inp : List Nat) (cur gt_len y : Nat) : Prop :=
  agreeB inp y cur gt_len ∨
    ∃ m, m < gt_len ∧ agreeB inp y cur m ∧
      inp.getD (y + m) 0 < inp.getD (cur + m) 0

/-- Every filled match cell records a true repetition of earlier bytes:
cell j arriving with a match of length mlen j from offset mpos j + 1 at
source position j - mlen j copies bytes that equal the earlier ones.
Cells with mlen j = 1 (literals and untouched cells) carry no match. -/
def CellsTrue (inp : List Nat) (st : BtState) (N : Nat) : Prop :=
  ∀ j, j ≤ N → st.mlen j = 1 ∨
    (st.mlen j ≤ j ∧ st.mpos j + 1 ≤ j - st.mlen j ∧
      ∀ k, k < st.mlen j →
        inp.getD (j - st.mlen j - (st.mpos j + 1) + k) 0
          = inp.getD (j - st.mlen j + k) 0)

/-- Match cell with true byte content. -/
def BtMatchCellC (inp : List Nat) (st : BtState) (i : Nat) : Prop :=
  BtMatchCell st i ∧
  ∀ k, k < st.mlen i →
    inp.getD (i - st.mlen i - (st.mpos i + 1) + k) 0
      = inp.getD (i - st.mlen i + k) 0

/-- Cell of the btparse dynamic program with true byte content. -/
def BtCellEqC (inp : List Nat) (st : BtState) (i : Nat) : Prop :=
  (st.mlen i = 1 ∧ st.cost i = st.cost (i - 1) + 9) ∨ BtMatchCellC inp st i

/-- The forest invariant of btparse phase 1 before processing position
cur: each hash bucket holds a well-formed tree of positions below cur,
and distinct buckets hold disjoint trees. -/
def ForestInv (inp : List Nat) (al : Nat) (st : BtState) (cur : Nat) : Prop :=
  (∀ h, st.lookup h = NO_MATCH_POS ∨ st.lookup h < cur) ∧
  (∀ h, GoodT inp al st.nodes cur (st.lookup h)) ∧
  (∀ h h2, h ≠ h2 → ∀ p, InT st.nodes (st.lookup h) p →
    InT st.nodes (st.lookup h2) p → False)

/-- Agreement of two btparse states on everything the algorithm reads:
cost and mlen on 0..N, mpos wherever a match cell was written, and the
lookup table on its index range. -/
def BtPairEq (N : Nat) (sa sb : BtState) : Prop :=
  (∀ j, j ≤ N → sa.cost j = sb.cost j) ∧
  (∀ j, j ≤ N → sa.mlen j = sb.mlen j) ∧
  (∀ j, j ≤ N → sa.mlen j ≠ 1 → sa.mpos j = sb.mpos j) ∧
  (∀ h, h < LOOKUP_SIZE → sa.lookup h = sb.lookup h)

/-! Supporting lemmas: bit sequences. -/

theorem natBits_length (v n : Nat) : (natBits v n).length = n := by
  induction n generalizing v with
  | zero => rfl
  | succ n ih => simp [natBits, ih]

theorem bitsVal_natBits (v n : Nat) : bitsVal (natBits v n) = v % 2 ^ n := by
  induction n generalizing v with
  | zero => simp [natBits, bitsVal, Nat.mod_one]
  | succ n ih =>
    have hsplit : v % (2 * 2 ^ n) = v % 2 + 2 * (v / 2 % 2 ^ n) := Nat.mod_mul ..
    have h2 : (2 : Nat) ^ (n + 1) = 2 * 2 ^ n := by ring
    simp only [natBits, bitsVal, ih, h2, hsplit]
    rcases Nat.mod_two_eq_zero_or_one v with h | h <;> simp [h]

theorem bitsVal_natBits_self (v n : Nat) (h : v < 2 ^ n) : bitsVal (natBits v n) = v := by
  rw [bitsVal_natBits, Nat.mod_eq_of_lt h]

theorem natBits_inj (v w n : Nat) (hv : v < 2 ^ n) (hw : w < 2 ^ n)
    (h : natBits v n = natBits w n) : v = w := by
  have := congrArg bitsVal h
  rwa [bitsVal_natBits_self v n hv, bitsVal_natBits_self w n hw] at this

theorem natBits_split (m n v : Nat) :
    natBits v (m + n) = natBits (v % 2 ^ m) m ++ natBits (v / 2 ^ m) n := by
  induction m generalizing v with
  | zero => simp [natBits]
  | succ m ih =>
    have hc : m + 1 + n = (m + n) + 1 := by omega
    rw [hc]
    simp only [natBits]
    have h1 : v % 2 ^ (m + 1) % 2 = v % 2 := by
      rw [Nat.mod_mod_of_dvd]
      exact dvd_pow_self 2 (by omega)
    have hmul : v % (2 * 2 ^ m) = v % 2 + 2 * (v / 2 % 2 ^ m) := Nat.mod_mul ..
    have h2 : v % 2 ^ (m + 1) / 2 = v / 2 % 2 ^ m := by
      have hp : (2 : Nat) ^ (m + 1) = 2 * 2 ^ m := by ring
      rw [hp, hmul]
      omega
    have h3 : v / 2 ^ (m + 1) = v / 2 / 2 ^ m := by
      rw [Nat.div_div_eq_div_mul]
      congr 1
      ring
    rw [ih, h1, h2, h3]
    simp

theorem natBits_add_high (a b m n : Nat) (h : a < 2 ^ m) :
    natBits (a + b * 2 ^ m) (m + n) = natBits a m ++ natBits b n := by
  rw [natBits_split]
  congr 2
  · rw [Nat.add_mul_mod_self_right, Nat.mod_eq_of_lt h]
  · rw [Nat.add_mul_div_right _ _ (Nat.pos_pow_of_pos m (by norm_num)),
      Nat.div_eq_of_lt h]
    omega

theorem natBits_mod (v n : Nat) : natBits (v % 2 ^ n) n = natBits v n := by
  induction n generalizing v with
  | zero => rfl
  | succ n ih =>
    simp only [natBits]
    have hp : (2 : Nat) ^ (n + 1) = 2 * 2 ^ n := by ring
    have hmul : v % (2 * 2 ^ n) = v % 2 + 2 * (v / 2 % 2 ^ n) := Nat.mod_mul ..
    have h1 : v % 2 ^ (n + 1) % 2 = v % 2 := by
      rw [Nat.mod_mod_of_dvd]
      exact dvd_pow_self 2 (by omega)
    have h2 : v % 2 ^ (n + 1) / 2 = v / 2 % 2 ^ n := by
      rw [hp, hmul]
      omega
    rw [h1, h2, ih]

theorem natBits_zero_eq (n : Nat) : natBits 0 n = List.replicate n false := by
  induction n with
  | zero => rfl
  | succ n ih => simp [natBits, ih, List.replicate_succ]

theorem natBits_low_zeros (v m n : Nat) (h : v < 2 ^ m) :
    natBits v (m + n) = natBits v m ++ List.replicate n false := by
  have := natBits_add_high v 0 m n h
  simpa [natBits_zero_eq] using this

theorem bytesBits_append (xs ys : List Nat) :
    bytesBits (xs ++ ys) = bytesBits xs ++ bytesBits ys := by
  induction xs with
  | nil => rfl
  | cons b bs ih => simp [bytesBits, ih]

theorem bytesBits_length (xs : List Nat) : (bytesBits xs).length = 8 * xs.length := by
  induction xs with
  | nil => rfl
  | cons b bs ih =>
    simp [bytesBits, ih, natBits_length]
    omega

theorem lor_shiftLeft_eq_add (a b m : Nat) (h : a < 2 ^ m) :
    a ||| (b <<< m) = a + b * 2 ^ m := by
  apply Nat.eq_of_testBit_eq
  intro i
  rw [Nat.testBit_lor, Nat.testBit_shiftLeft]
  rcases lt_or_ge i m with hi | hi
  · have h1 : ¬ i ≥ m := by omega
    have h2 : (a + b * 2 ^ m) / 2 ^ i = a / 2 ^ i + b * 2 ^ (m - i) := by
      have he : b * 2 ^ m = b * 2 ^ (m - i) * 2 ^ i := by
        rw [mul_assoc, ← pow_add]
        congr 2
        omega
      rw [he, Nat.add_mul_div_right _ _ (Nat.pos_pow_of_pos i (by norm_num))]
    have h3 : b * 2 ^ (m - i) % 2 = 0 := by
      rcases dvd_pow_self 2 (show m - i ≠ 0 by omega) with ⟨k, hk⟩
      rw [hk, show b * (2 * k) = 2 * (b * k) by ring]
      exact Nat.mul_mod_right 2 (b * k)
    have h5 : (a / 2 ^ i + b * 2 ^ (m - i)) % 2 = a / 2 ^ i % 2 := by omega
    have h4 : (a + b * 2 ^ m).testBit i = a.testBit i := by
      rw [Nat.testBit_to_div_mod, Nat.testBit_to_div_mod, h2, h5]
    rw [h4]
    simp [h1]
  · have h0 : a.testBit i = false :=
      Nat.testBit_lt_two_pow (lt_of_lt_of_le h (Nat.pow_le_pow_right (by norm_num) hi))
    have h2 : (a + b * 2 ^ m) / 2 ^ i = b / 2 ^ (i - m) := by
      have hsplit : (2 : Nat) ^ i = 2 ^ m * 2 ^ (i - m) := by
        rw [← pow_add]
        congr 1
        omega
      rw [hsplit, ← Nat.div_div_eq_div_mul]
      have hq : (a + b * 2 ^ m) / 2 ^ m = b := by
        rw [Nat.add_mul_div_right _ _ (Nat.pos_pow_of_pos m (by norm_num)),
          Nat.div_eq_of_lt h]
        omega
      rw [hq]
    have h4 : (a + b * 2 ^ m).testBit i = b.testBit (i - m) := by
      rw [Nat.testBit_to_div_mod, Nat.testBit_to_div_mod, h2]
    rw [h4, h0]
    simp [hi]

/-! Supporting lemmas: the bit writer. -/

theorem wbits_length (w : lsb_bitwriter) : (wbits w).length = totalBits w := by
  simp [wbits, totalBits, bytesBits_length, natBits_length]

theorem lbw_flush_go_spec (num : Nat) (hnum : num ≤ 24) :
    ∀ fuel w, WInv w → w.msb ≤ 8 * fuel + (32 - num) →
      wbits (lbw_flush_go fuel w num) = wbits w ∧ WInv (lbw_flush_go fuel w num) ∧
      (lbw_flush_go fuel w num).msb ≤ 32 - num ∧
      totalBits (lbw_flush_go fuel w num) = totalBits w := by
  intro fuel
  induction fuel with
  | zero =>
    intro w hw hle
    refine ⟨rfl, hw, ?_, rfl⟩
    show w.msb ≤ 32 - num
    omega
  | succ fuel ih =>
    intro w hw hle
    obtain ⟨htag, hmsb, hbytes⟩ := hw
    by_cases hcond : 32 - num < w.msb
    · have hstep : lbw_flush_go (fuel + 1) w num =
          lbw_flush_go fuel ⟨w.next_out ++ [w.tag % 256], w.tag / 256, w.msb - 8⟩ num := by
        simp [lbw_flush_go, hcond]
      rw [hstep]
      have hm8 : 8 ≤ w.msb := by omega
      have hpow : (2 : Nat) ^ w.msb = 256 * 2 ^ (w.msb - 8) := by
        rw [show (256 : Nat) = 2 ^ 8 by norm_num, ← pow_add]
        congr 1
        omega
      have hw2 : WInv ⟨w.next_out ++ [w.tag % 256], w.tag / 256, w.msb - 8⟩ := by
        refine ⟨?_, ?_, ?_⟩
        · show w.tag / 256 < 2 ^ (w.msb - 8)
          exact Nat.div_lt_of_lt_mul (by omega)
        · show w.msb - 8 ≤ 32
          omega
        · show ∀ b ∈ w.next_out ++ [w.tag % 256], b < 256
          intro b hb
          rcases List.mem_append.1 hb with hb | hb
          · exact hbytes b hb
          · simp at hb
            omega
      have hle2 : w.msb - 8 ≤ 8 * fuel + (32 - num) := by omega
      obtain ⟨hs, hinv, hm, ht⟩ := ih _ hw2 hle2
      refine ⟨?_, hinv, hm, ?_⟩
      · rw [hs]
        simp only [wbits, bytesBits_append, bytesBits]
        have hsplit : natBits w.tag w.msb =
            natBits (w.tag % 2 ^ 8) 8 ++ natBits (w.tag / 2 ^ 8) (w.msb - 8) := by
          have hc : w.msb = 8 + (w.msb - 8) := by omega
          rw [hc, natBits_split]
          congr 2
          omega
        rw [hsplit]
        have h256 : (256 : Nat) = 2 ^ 8 := by norm_num
        simp [h256]
      · rw [ht]
        simp [totalBits]
        omega
    · have hstep : lbw_flush_go (fuel + 1) w num = w := by
        simp [lbw_flush_go, hcond]
      rw [hstep]
      refine ⟨rfl, ⟨htag, hmsb, hbytes⟩, ?_, rfl⟩
      show w.msb ≤ 32 - num
      omega

theorem lbw_flush_spec (w : lsb_bitwriter) (num : Nat) (hw : WInv w) (hnum : num ≤ 24) :
    wbits (lbw_flush w num) = wbits w ∧ WInv (lbw_flush w num) ∧
    (lbw_flush w num).msb ≤ 32 - num ∧ totalBits (lbw_flush w num) = totalBits w :=
  lbw_flush_go_spec num hnum w.msb w hw (by omega)

theorem lbw_putbits_spec (w : lsb_bitwriter) (bits num : Nat) (hw : WInv w)
    (hnum : num ≤ 24) (hb : bits < 2 ^ num) :
    wbits (lbw_putbits w bits num) = wbits w ++ natBits bits num ∧
    WInv (lbw_putbits w bits num) ∧
    totalBits (lbw_putbits w bits num) = totalBits w + num := by
  obtain ⟨hs, ⟨htag, hmsb, hbytes⟩, hm, ht⟩ := lbw_flush_spec w num hw hnum
  set w1 := lbw_flush w num with hw1
  simp only [lbw_putbits, lbw_putbits_no_flush, ← hw1]
  have hor : w1.tag ||| (bits <<< w1.msb) = w1.tag + bits * 2 ^ w1.msb :=
    lor_shiftLeft_eq_add _ _ _ htag
  refine ⟨?_, ⟨?_, by show w1.msb + num ≤ 32; omega, hbytes⟩, ?_⟩
  · show bytesBits w1.next_out ++ natBits (w1.tag ||| (bits <<< w1.msb)) (w1.msb + num) = _
    rw [hor, natBits_add_high _ _ _ _ htag, ← List.append_assoc]
    show wbits w1 ++ natBits bits num = wbits w ++ natBits bits num
    rw [hs]
  · show w1.tag ||| (bits <<< w1.msb) < 2 ^ (w1.msb + num)
    rw [hor, pow_add]
    calc w1.tag + bits * 2 ^ w1.msb < 2 ^ w1.msb + bits * 2 ^ w1.msb := by omega
    _ = (bits + 1) * 2 ^ w1.msb := by ring
    _ ≤ 2 ^ num * 2 ^ w1.msb := by
        have : bits + 1 ≤ 2 ^ num := hb
        exact Nat.mul_le_mul_right _ this
    _ = 2 ^ w1.msb * 2 ^ num := by ring
  · show 8 * w1.next_out.length + (w1.msb + num) = totalBits w + num
    have : 8 * w1.next_out.length + w1.msb = totalBits w := ht
    simp only [totalBits] at this ⊢
    omega

theorem lbw_finalize_go_spec :
    ∀ fuel w, WInv w → w.msb ≤ 8 * fuel →
      bytesBits (lbw_finalize_go fuel w) =
        wbits w ++ List.replicate (8 * ((w.msb + 7) / 8) - w.msb) false ∧
      (lbw_finalize_go fuel w).length = w.next_out.length + (w.msb + 7) / 8 ∧
      ∀ b ∈ lbw_finalize_go fuel w, b < 256 := by
  intro fuel
  induction fuel with
  | zero =>
    intro w hw hle
    have hm : w.msb = 0 := by omega
    refine ⟨?_, by simp [lbw_finalize_go, hm], hw.2.2⟩
    simp [lbw_finalize_go, wbits, hm, natBits]
  | succ fuel ih =>
    intro w hw hle
    obtain ⟨htag, hmsb, hbytes⟩ := hw
    by_cases hcond : 0 < w.msb
    · have hstep : lbw_finalize_go (fuel + 1) w =
          lbw_finalize_go fuel ⟨w.next_out ++ [w.tag % 256], w.tag / 256, w.msb - 8⟩ := by
        simp [lbw_finalize_go, hcond]
      rw [hstep]
      by_cases h8 : 8 ≤ w.msb
      · have hpow : (2 : Nat) ^ w.msb = 256 * 2 ^ (w.msb - 8) := by
          rw [show (256 : Nat) = 2 ^ 8 by norm_num, ← pow_add]
          congr 1
          omega
        have hw2 : WInv ⟨w.next_out ++ [w.tag % 256], w.tag / 256, w.msb - 8⟩ := by
          refine ⟨?_, ?_, ?_⟩
          · show w.tag / 256 < 2 ^ (w.msb - 8)
            exact Nat.div_lt_of_lt_mul (by omega)
          · show w.msb - 8 ≤ 32
            omega
          · show ∀ b ∈ w.next_out ++ [w.tag % 256], b < 256
            intro b hb
            rcases List.mem_append.1 hb with hb | hb
            · exact hbytes b hb
            · simp at hb
              omega
        obtain ⟨hs, hlen, hb2⟩ := ih _ hw2 (by show w.msb - 8 ≤ 8 * fuel; omega)
        refine ⟨?_, ?_, hb2⟩
        · rw [hs]
          simp only [wbits, bytesBits_append, bytesBits]
          have hsplit : natBits w.tag w.msb =
              natBits (w.tag % 2 ^ 8) 8 ++ natBits (w.tag / 2 ^ 8) (w.msb - 8) := by
            have hc : w.msb = 8 + (w.msb - 8) := by omega
            rw [hc, natBits_split]
            congr 2
            omega
          rw [hsplit]
          have h256 : (256 : Nat) = 2 ^ 8 := by norm_num
          have hpad : 8 * ((w.msb - 8 + 7) / 8) - (w.msb - 8) =
              8 * ((w.msb + 7) / 8) - w.msb := by omega
          simp [h256, hpad]
        · rw [hlen]
          simp
          omega
      · have hlt : w.tag < 256 := by
          have h1 : (2 : Nat) ^ w.msb ≤ 2 ^ 8 := Nat.pow_le_pow_right (by norm_num) (by omega)
          have h28 : (2 : Nat) ^ 8 = 256 := by norm_num
          omega
        have hmod : w.tag % 256 = w.tag := Nat.mod_eq_of_lt hlt
        have hdiv : w.tag / 256 = 0 := Nat.div_eq_of_lt hlt
        have hm0 : w.msb - 8 = 0 := by omega
        have hw2 : WInv ⟨w.next_out ++ [w.tag % 256], w.tag / 256, w.msb - 8⟩ := by
          refine ⟨?_, ?_, ?_⟩
          · show w.tag / 256 < 2 ^ (w.msb - 8)
            simp [hdiv, hm0]
          · show w.msb - 8 ≤ 32
            omega
          · show ∀ b ∈ w.next_out ++ [w.tag % 256], b < 256
            intro b hb
            rcases List.mem_append.1 hb with hb | hb
            · exact hbytes b hb
            · simp at hb
              omega
        obtain ⟨hs, hlen, hb2⟩ := ih _ hw2 (by show w.msb - 8 ≤ 8 * fuel; omega)
        refine ⟨?_, ?_, hb2⟩
        · rw [hs]
          have hlow : natBits w.tag 8 = natBits w.tag w.msb ++
              List.replicate (8 - w.msb) false := by
            have h2 := natBits_low_zeros w.tag w.msb (8 - w.msb) htag
            rw [show w.msb + (8 - w.msb) = 8 by omega] at h2
            exact h2
          have hpad : 8 * ((w.msb + 7) / 8) - w.msb = 8 - w.msb := by omega
          simp only [wbits, bytesBits_append, bytesBits, hm0, hdiv, hmod, hpad]
          rw [hlow]
          simp [natBits]
        · rw [hlen]
          simp [hm0]
          omega
    · have hm : w.msb = 0 := by omega
      have hstep : lbw_finalize_go (fuel + 1) w = w.next_out := by
        simp [lbw_finalize_go, hcond]
      rw [hstep]
      refine ⟨?_, by simp [hm], hbytes⟩
      have hpad : 8 * ((w.msb + 7) / 8) - w.msb = 0 := by omega
      simp [wbits, hm, natBits, hpad]

theorem lbw_finalize_spec (w : lsb_bitwriter) (hw : WInv w) :
    bytesBits (lbw_finalize w) =
      wbits w ++ List.replicate (8 * ((w.msb + 7) / 8) - w.msb) false ∧
    (lbw_finalize w).length = (totalBits w + 7) / 8 ∧
    ∀ b ∈ lbw_finalize w, b < 256 := by
  obtain ⟨hs, hlen, hb⟩ := lbw_finalize_go_spec w.msb w hw (by omega)
  refine ⟨hs, ?_, hb⟩
  show (lbw_finalize_go w.msb w).length = _
  rw [hlen]
  simp [totalBits]
  omega

/-! Supporting lemmas: the bit reader. -/

theorem lbr_refill_go_spec (num : Nat) (hnum : num ≤ 24) :
    ∀ fuel r, RInv r → num ≤ r.msb + 8 * fuel →
      ∃ j, rbits (lbr_refill_go fuel r num) = rbits r ++ List.replicate j false ∧
        RInv (lbr_refill_go fuel r num) ∧ num ≤ (lbr_refill_go fuel r num).msb := by
  intro fuel
  induction fuel with
  | zero =>
    intro r hr hle
    refine ⟨0, by simp [lbr_refill_go], hr, ?_⟩
    show num ≤ r.msb
    omega
  | succ fuel ih =>
    intro r hr hle
    obtain ⟨htag, hmsb, hbytes⟩ := hr
    by_cases hcond : r.msb < num
    · have hstep : lbr_refill_go (fuel + 1) r num =
          lbr_refill_go fuel ⟨r.src.tail, r.tag ||| (r.src.headD 0 <<< r.msb), r.msb + 8⟩ num := by
        simp [lbr_refill_go, hcond]
      rw [hstep]
      have hhead : r.src.headD 0 < 256 := by
        cases hsrc : r.src with
        | nil => simp
        | cons b bs =>
          have := hbytes b (by simp [hsrc])
          simpa [hsrc] using this
      have hor : r.tag ||| (r.src.headD 0 <<< r.msb) = r.tag + r.src.headD 0 * 2 ^ r.msb :=
        lor_shiftLeft_eq_add _ _ _ htag
      have htag2 : r.tag + r.src.headD 0 * 2 ^ r.msb < 2 ^ (r.msb + 8) := by
        have h1 : r.tag + r.src.headD 0 * 2 ^ r.msb < (r.src.headD 0 + 1) * 2 ^ r.msb := by
          have := htag
          nlinarith [Nat.pos_pow_of_pos r.msb (show 0 < 2 by norm_num)]
        have h2 : (r.src.headD 0 + 1) * 2 ^ r.msb ≤ 256 * 2 ^ r.msb := by
          exact Nat.mul_le_mul_right _ (by omega)
        have h3 : (256 : Nat) * 2 ^ r.msb = 2 ^ (r.msb + 8) := by
          rw [show (256 : Nat) = 2 ^ 8 by norm_num, ← pow_add]
          congr 1
          omega
        omega
      have hr2 : RInv ⟨r.src.tail, r.tag ||| (r.src.headD 0 <<< r.msb), r.msb + 8⟩ := by
        refine ⟨?_, ?_, ?_⟩
        · show r.tag ||| (r.src.headD 0 <<< r.msb) < 2 ^ (r.msb + 8)
          rw [hor]
          exact htag2
        · show r.msb + 8 ≤ 31
          omega
        · show ∀ b ∈ r.src.tail, b < 256
          intro b hb
          exact hbytes b (List.mem_of_mem_tail hb)
      obtain ⟨j, hs, hinv, hm⟩ := ih _ hr2 (by show num ≤ r.msb + 8 + 8 * fuel; omega)
      have hbits : ∃ k, rbits (⟨r.src.tail, r.tag ||| (r.src.headD 0 <<< r.msb), r.msb + 8⟩ :
          lsb_bitreader) = rbits r ++ List.replicate k false := by
        cases hsrc : r.src with
        | nil =>
          refine ⟨8, ?_⟩
          simp only [rbits, hsrc, List.tail_nil, List.headD_nil]
          have hz : r.tag ||| (0 <<< r.msb) = r.tag := by simp
          rw [hz]
          have := natBits_low_zeros r.tag r.msb 8 htag
          simp [bytesBits, this]
        | cons b bs =>
          refine ⟨0, ?_⟩
          simp only [rbits, hsrc, List.tail_cons, List.headD_cons]
          have hor2 : r.tag ||| (b <<< r.msb) = r.tag + b * 2 ^ r.msb :=
            lor_shiftLeft_eq_add _ _ _ htag
          rw [hor2]
          have := natBits_add_high r.tag b r.msb 8 htag
          rw [this]
          simp [bytesBits]
      obtain ⟨k, hbits⟩ := hbits
      refine ⟨k + j, ?_, hinv, hm⟩
      rw [hs, hbits, List.append_assoc, ← List.replicate_add]
    · have hstep : lbr_refill_go (fuel + 1) r num = r := by
        simp [lbr_refill_go, hcond]
      rw [hstep]
      refine ⟨0, by simp, ⟨htag, hmsb, hbytes⟩, ?_⟩
      show num ≤ r.msb
      omega

theorem lbr_refill_spec (r : lsb_bitreader) (num : Nat) (hr : RInv r) (hnum : num ≤ 24) :
    ∃ j, rbits (lbr_refill r num) = rbits r ++ List.replicate j false ∧
      RInv (lbr_refill r num) ∧ num ≤ (lbr_refill r num).msb :=
  lbr_refill_go_spec num hnum num r hr (by omega)

theorem lbr_getbits_spec (r : lsb_bitreader) (num v : Nat) (rest : List Bool)
    (hr : RInv r) (hnum : num ≤ 24) (hv : v < 2 ^ num)
    (hs : rbits r = natBits v num ++ rest) :
    (lbr_getbits r num).1 = v ∧ RInv (lbr_getbits r num).2 ∧
    ∃ j, rbits (lbr_getbits r num).2 = rest ++ List.replicate j false := by
  obtain ⟨j, hs1, ⟨htag1, hmsb1, hbytes1⟩, hm1⟩ := lbr_refill_spec r num hr hnum
  set r1 := lbr_refill r num with hr1
  have hsplit : natBits r1.tag r1.msb =
      natBits (r1.tag % 2 ^ num) num ++ natBits (r1.tag / 2 ^ num) (r1.msb - num) := by
    have hc : r1.msb = num + (r1.msb - num) := by omega
    rw [hc, natBits_split]
    congr 2
    omega
  have heq : natBits (r1.tag % 2 ^ num) num ++
      (natBits (r1.tag / 2 ^ num) (r1.msb - num) ++ bytesBits r1.src) =
      natBits v num ++ (rest ++ List.replicate j false) := by
    have h1 : rbits r1 = natBits v num ++ rest ++ List.replicate j false := by
      rw [hs1, hs]
    simp only [rbits] at h1
    rw [hsplit] at h1
    simpa [List.append_assoc] using h1
  have hlen : (natBits (r1.tag % 2 ^ num) num).length = (natBits v num).length := by
    simp [natBits_length]
  obtain ⟨hpre, hsuf⟩ := List.append_inj heq hlen
  have hval : r1.tag % 2 ^ num = v :=
    natBits_inj _ _ _ (Nat.mod_lt _ (Nat.pos_pow_of_pos num (by norm_num))) hv hpre
  have hres : lbr_getbits r num = (r1.tag % 2 ^ num, ⟨r1.src, r1.tag >>> num, r1.msb - num⟩) := by
    simp [lbr_getbits, lbr_getbits_no_refill, ← hr1]
  refine ⟨?_, ?_, ?_⟩
  · rw [hres, hval]
  · rw [hres]
    refine ⟨?_, ?_, ?_⟩
    · show r1.tag >>> num < 2 ^ (r1.msb - num)
      rw [Nat.shiftRight_eq_div_pow]
      apply Nat.div_lt_of_lt_mul
      have hc : (2 : Nat) ^ r1.msb = 2 ^ num * 2 ^ (r1.msb - num) := by
        rw [← pow_add]
        congr 1
        omega
      omega
    · show r1.msb - num ≤ 31
      omega
    · show ∀ b ∈ r1.src, b < 256
      exact hbytes1
  · refine ⟨j, ?_⟩
    rw [hres]
    show natBits (r1.tag >>> num) (r1.msb - num) ++ bytesBits r1.src = _
    rw [Nat.shiftRight_eq_div_pow]
    rw [← hsuf]

/-! Supporting lemmas: crush_log2 and the slot-log loop. -/

theorem crush_log2_go_spec :
    ∀ fuel n bits, Nat.log2 n ≤ fuel → crush_log2_go fuel n bits = bits + Nat.log2 n := by
  intro fuel
  induction fuel with
  | zero =>
    intro n bits hle
    simp only [crush_log2_go]
    omega
  | succ fuel ih =>
    intro n bits hle
    simp only [crush_log2_go]
    by_cases h2 : n / 2 = 0
    · have hn1 : n ≤ 1 := by omega
      have : Nat.log2 n = 0 := by
        interval_cases n <;> simp [Nat.log2]
      simp [h2, this]
    · have hn2 : 2 ≤ n := by omega
      have hlog : Nat.log2 n = Nat.log2 (n / 2) + 1 := by
        rw [Nat.log2]
        simp [hn2]
      rw [if_neg h2, ih _ _ (by omega)]
      omega

theorem log2_le_self (n : Nat) : Nat.log2 n ≤ n := by
  rcases Nat.eq_zero_or_pos n with h | h
  · simp [h, Nat.log2]
  · have h1 : 2 ^ Nat.log2 n ≤ n := Nat.log2_self_le (by omega)
    have h2 : Nat.log2 n < 2 ^ Nat.log2 n := Nat.lt_two_pow _
    omega

theorem crush_log2_eq (n : Nat) : crush_log2 n = Nat.log2 n := by
  rw [crush_log2, crush_log2_go_spec n n 0 (log2_le_self n)]
  omega

/-- Characterisation of the slot-log loop of the leparse output phase:
starting from mlog with 2 ^ mlog ≤ o, it computes Nat.log2 o. -/
theorem le_mlog_go_spec :
    ∀ fuel o mlog, 2 ^ mlog ≤ o → Nat.log2 o ≤ mlog + fuel →
      le_mlog_go fuel o mlog = Nat.log2 o := by
  intro fuel
  induction fuel with
  | zero =>
    intro o mlog hlo hle
    have hne : o ≠ 0 := by
      have := Nat.pos_pow_of_pos mlog (show 0 < 2 by norm_num)
      omega
    have h1 : mlog ≤ Nat.log2 o := (Nat.le_log2 hne).2 hlo
    simp only [le_mlog_go]
    omega
  | succ fuel ih =>
    intro o mlog hlo hle
    have hne : o ≠ 0 := by
      have := Nat.pos_pow_of_pos mlog (show 0 < 2 by norm_num)
      omega
    have h1 : mlog ≤ Nat.log2 o := (Nat.le_log2 hne).2 hlo
    simp only [le_mlog_go]
    by_cases hc : 2 <<< mlog ≤ o
    · rw [if_pos hc]
      have hc2 : 2 ^ (mlog + 1) ≤ o := by
        rw [Nat.shiftLeft_eq] at hc
        have : (2 : Nat) ^ (mlog + 1) = 2 * 2 ^ mlog := by ring
        omega
      have h2 : mlog + 1 ≤ Nat.log2 o := (Nat.le_log2 hne).2 hc2
      exact ih o (mlog + 1) hc2 (by omega)
    · rw [if_neg hc]
      rw [Nat.shiftLeft_eq] at hc
      have hc2 : o < 2 ^ (mlog + 1) := by
        have : (2 : Nat) ^ (mlog + 1) = 2 * 2 ^ mlog := by ring
        omega
      have h2 : Nat.log2 o < mlog + 1 := (Nat.log2_lt hne).2 hc2
      omega

/-- Below the first slot boundary the loop does not move. -/
theorem le_mlog_small (o mlog : Nat) (h : o < 2 * 2 ^ mlog) : le_mlog o mlog = mlog := by
  rw [le_mlog]
  cases o with
  | zero => rfl
  | succ o2 =>
    simp only [le_mlog_go]
    rw [if_neg]
    rw [Nat.shiftLeft_eq]
    omega

/-- Above the boundary the loop computes Nat.log2. -/
theorem le_mlog_eq_log2 (o : Nat) (h : 2 ^ 5 ≤ o) : le_mlog o 5 = Nat.log2 o := by
  rw [le_mlog]
  exact le_mlog_go_spec o o 5 h (by have := log2_le_self o; omega)

/-! Supporting lemmas: token encoding through the writer. -/

theorem lbw_putbits2_spec (w : lsb_bitwriter) (b1 n1 b2 n2 : Nat) (hw : WInv w)
    (hn1 : n1 ≤ 24) (hb1 : b1 < 2 ^ n1) (hn2 : n2 ≤ 24) (hb2 : b2 < 2 ^ n2) :
    wbits (lbw_putbits (lbw_putbits w b1 n1) b2 n2) =
      wbits w ++ (natBits b1 n1 ++ natBits b2 n2) ∧
    WInv (lbw_putbits (lbw_putbits w b1 n1) b2 n2) := by
  obtain ⟨h1s, h1w, _⟩ := lbw_putbits_spec w b1 n1 hw hn1 hb1
  obtain ⟨h2s, h2w, _⟩ := lbw_putbits_spec (lbw_putbits w b1 n1) b2 n2 h1w hn2 hb2
  rw [h2s, h1s, List.append_assoc]
  exact ⟨rfl, h2w⟩

theorem putMatchLen_spec (w : lsb_bitwriter) (l : Nat) (hw : WInv w) (hl : l < F) :
    wbits (putMatchLen w l) = wbits w ++ (natBits 1 1 ++ encodeLenBits l) ∧
    WInv (putMatchLen w l) := by
  have hF : F = 564 := by decide
  have hA : A = 4 := by decide
  have hB : B = 8 := by decide
  have hC : C = 12 := by decide
  have hD : D = 20 := by decide
  have hE : E = 52 := by decide
  obtain ⟨hts, htw, _⟩ := lbw_putbits_spec w 1 1 hw (by norm_num) (by norm_num)
  set w1 := lbw_putbits w 1 1 with hw1
  by_cases c1 : l < A
  · obtain ⟨hs, hv⟩ := lbw_putbits2_spec w1 1 1 l A_BITS htw (by norm_num) (by norm_num)
      (by norm_num [A_BITS]) (by show l < 2 ^ A_BITS; rw [show (2 : Nat) ^ A_BITS = A from rfl]; omega)
    simp only [putMatchLen, encodeLenBits, if_pos c1]
    rw [hs, hts, List.append_assoc]
    exact ⟨rfl, hv⟩

  · by_cases c2 : l < B
    · obtain ⟨hs, hv⟩ := lbw_putbits2_spec w1 (1 <<< 1) 2 (l - A) B_BITS htw (by norm_num)
        (by decide) (by decide) (by show l - A < 2 ^ B_BITS; rw [show (2 : Nat) ^ B_BITS = 4 by decide]; omega)
      simp only [putMatchLen, encodeLenBits, if_neg c1, if_pos c2]
      rw [hs, hts, List.append_assoc]
      exact ⟨rfl, hv⟩
    · by_cases c3 : l < C
      · obtain ⟨hs, hv⟩ := lbw_putbits2_spec w1 (1 <<< 2) 3 (l - B) C_BITS htw (by norm_num)
          (by decide) (by decide) (by show l - B < 2 ^ C_BITS; rw [show (2 : Nat) ^ C_BITS = 4 by decide]; omega)
        simp only [putMatchLen, encodeLenBits, if_neg c1, if_neg c2, if_pos c3]
        rw [hs, hts, List.append_assoc]
        exact ⟨rfl, hv⟩
      · by_cases c4 : l < D
        · obtain ⟨hs, hv⟩ := lbw_putbits2_spec w1 (1 <<< 3) 4 (l - C) D_BITS htw (by norm_num)
            (by decide) (by decide) (by show l - C < 2 ^ D_BITS; rw [show (2 : Nat) ^ D_BITS = 8 by decide]; omega)
          simp only [putMatchLen, encodeLenBits, if_neg c1, if_neg c2, if_neg c3, if_pos c4]
          rw [hs, hts, List.append_assoc]
          exact ⟨rfl, hv⟩
        · by_cases c5 : l < E
          · obtain ⟨hs, hv⟩ := lbw_putbits2_spec w1 (1 <<< 4) 5 (l - D) E_BITS htw (by norm_num)
              (by decide) (by decide) (by show l - D < 2 ^ E_BITS; rw [show (2 : Nat) ^ E_BITS = 32 by decide]; omega)
            simp only [putMatchLen, encodeLenBits, if_neg c1, if_neg c2, if_neg c3, if_neg c4,
              if_pos c5]
            rw [hs, hts, List.append_assoc]
            exact ⟨rfl, hv⟩
          · obtain ⟨hs, hv⟩ := lbw_putbits2_spec w1 0 5 (l - E) F_BITS htw (by norm_num)
              (by decide) (by decide) (by show l - E < 2 ^ F_BITS; rw [show (2 : Nat) ^ F_BITS = 512 by decide]; omega)
            simp only [putMatchLen, encodeLenBits, if_neg c1, if_neg c2, if_neg c3, if_neg c4,
              if_neg c5]
            rw [hs, hts, List.append_assoc]
            exact ⟨rfl, hv⟩

/-- Facts about the slot log of an offset below the window size. -/
theorem mlog_facts (o : Nat) (ho : o < 2 ^ 21) :
    (o < 64 → le_mlog o 5 = 5) ∧
    (64 ≤ o → le_mlog o 5 = Nat.log2 o ∧ 6 ≤ Nat.log2 o ∧ Nat.log2 o ≤ 20 ∧
      2 ^ Nat.log2 o ≤ o ∧ o < 2 ^ (Nat.log2 o + 1)) := by
  constructor
  · intro h
    exact le_mlog_small o 5 (by norm_num; omega)
  · intro h
    have hne : o ≠ 0 := by omega
    refine ⟨le_mlog_eq_log2 o (by norm_num; omega), ?_, ?_, Nat.log2_self_le hne,
      Nat.lt_log2_self⟩
    · exact (Nat.le_log2 hne).2 (by norm_num; omega)
    · have := (Nat.log2_lt hne).2 (show o < 2 ^ 21 from ho)
      omega

theorem le_putToken_spec (w : lsb_bitwriter) (t : Token) (hw : WInv w) (ht : TokenOK t) :
    wbits (le_putToken w t) = wbits w ++ encodeTokBits t ∧ WInv (le_putToken w t) := by
  cases t with
  | lit b =>
    have hb : b < 256 := ht
    have hshift : b <<< 1 < 2 ^ 9 := by
      rw [Nat.shiftLeft_eq]
      norm_num
      omega
    obtain ⟨hs, hv, _⟩ := lbw_putbits_spec w (b <<< 1) 9 hw (by norm_num) hshift
    exact ⟨hs, hv⟩
  | mat len offs =>
    obtain ⟨hlen3, hlen566, hoffs1, hoffsW⟩ := ht
    have hlF : len - MIN_MATCH < F := by
      have h1 : MAX_MATCH = 566 := by decide
      have h2 : F = 564 := by decide
      have h3 : MIN_MATCH = 3 := by decide
      omega
    obtain ⟨hls, hlw⟩ := putMatchLen_spec w (len - MIN_MATCH) hw hlF
    set w1 := putMatchLen w (len - MIN_MATCH) with hw1
    have hWNS : W_BITS - NUM_SLOTS = 5 := by decide
    have ho : offs - 1 < 2 ^ 21 := by
      have : W_SIZE = 2 ^ 21 := by decide
      omega
    set o := offs - 1 with hodef
    obtain ⟨hsm, hbig⟩ := mlog_facts o ho
    by_cases hc : o < 64
    · have hm5 : le_mlog o 5 = 5 := hsm hc
      have hmlog : le_mlog o (W_BITS - NUM_SLOTS) = 5 := by rw [hWNS, hm5]
      have hnogt : ¬ (W_BITS - NUM_SLOTS < le_mlog o (W_BITS - NUM_SLOTS)) := by
        rw [hmlog, hWNS]
        omega
      obtain ⟨hs2, hv2⟩ := lbw_putbits2_spec w1
        (le_mlog o (W_BITS - NUM_SLOTS) - (W_BITS - NUM_SLOTS)) SLOT_BITS
        o (W_BITS - (NUM_SLOTS - 1)) hlw
        (by decide) (by rw [hmlog, hWNS]; decide)
        (by decide) (by show o < 2 ^ (W_BITS - (NUM_SLOTS - 1)); rw [show W_BITS - (NUM_SLOTS - 1) = 6 by decide]; norm_num; omega)
      simp only [le_putToken, encodeTokBits, encodeOffsBits, ← hodef, if_neg hnogt]
      rw [hs2, hls, List.append_assoc]
      exact ⟨rfl, hv2⟩
    · obtain ⟨hmeq, hm6, hm20, hmle, hmlt⟩ := hbig (by omega)
      have hmlog : le_mlog o (W_BITS - NUM_SLOTS) = Nat.log2 o := by rw [hWNS, hmeq]
      have hgt : W_BITS - NUM_SLOTS < le_mlog o (W_BITS - NUM_SLOTS) := by
        rw [hmlog, hWNS]
        omega
      have hsh : (1 <<< le_mlog o (W_BITS - NUM_SLOTS)) = 2 ^ Nat.log2 o := by
        rw [hmlog, Nat.shiftLeft_eq, one_mul]
      obtain ⟨hs2, hv2⟩ := lbw_putbits2_spec w1
        (le_mlog o (W_BITS - NUM_SLOTS) - (W_BITS - NUM_SLOTS)) SLOT_BITS
        (o - (1 <<< le_mlog o (W_BITS - NUM_SLOTS))) (le_mlog o (W_BITS - NUM_SLOTS)) hlw
        (by decide) (by rw [hmlog, hWNS]; show Nat.log2 o - 5 < 2 ^ SLOT_BITS; rw [show (2:Nat) ^ SLOT_BITS = 16 by decide]; omega)
        (by rw [hmlog]; omega)
        (by rw [hsh, hmlog]; show o - 2 ^ Nat.log2 o < 2 ^ Nat.log2 o; have : (2:Nat) ^ (Nat.log2 o + 1) = 2 * 2 ^ Nat.log2 o := by ring
            omega)
      simp only [le_putToken, encodeTokBits, encodeOffsBits, ← hodef, if_pos hgt]
      rw [hs2, hls, List.append_assoc]
      exact ⟨rfl, hv2⟩

theorem bt_putToken_eq_le (w : lsb_bitwriter) (t : Token) (ht : TokenOK t) :
    bt_putToken w t = le_putToken w t := by
  cases t with
  | lit b => rfl
  | mat len offs =>
    obtain ⟨hlen3, hlen566, hoffs1, hoffsW⟩ := ht
    have hWNS : W_BITS - NUM_SLOTS = 5 := by decide
    have ho : offs - 1 < 2 ^ 21 := by
      have : W_SIZE = 2 ^ 21 := by decide
      omega
    obtain ⟨hsm, hbig⟩ := mlog_facts (offs - 1) ho
    simp only [bt_putToken, le_putToken]
    by_cases hc : 2 <<< (W_BITS - NUM_SLOTS) ≤ offs - 1
    · have h64 : 64 ≤ offs - 1 := by
        rw [hWNS] at hc
        rw [Nat.shiftLeft_eq] at hc
        norm_num at hc
        omega
      obtain ⟨hmeq, hm6, _, _, _⟩ := hbig h64
      have hmlog : le_mlog (offs - 1) (W_BITS - NUM_SLOTS) = Nat.log2 (offs - 1) := by
        rw [hWNS, hmeq]
      rw [if_pos hc, hmlog, crush_log2_eq]
      have hgt : W_BITS - NUM_SLOTS < Nat.log2 (offs - 1) := by
        rw [hWNS]
        omega
      rw [if_pos hgt]
    · have h64 : offs - 1 < 64 := by
        rw [hWNS] at hc
        rw [Nat.shiftLeft_eq] at hc
        norm_num at hc
        omega
      have hm5 : le_mlog (offs - 1) (W_BITS - NUM_SLOTS) = 5 := by rw [hWNS, hsm h64]
      rw [if_neg hc, hm5]
      have hngt : ¬ (W_BITS - NUM_SLOTS < 5) := by rw [hWNS]; omega
      rw [if_neg hngt]
      have h0 : (5 : Nat) - (W_BITS - NUM_SLOTS) = 0 := by rw [hWNS]
      rw [h0]

theorem emitTokens_le_spec (ts : List Token) :
    ∀ w, WInv w → (∀ t ∈ ts, TokenOK t) →
      wbits (emitTokens le_putToken w ts) = wbits w ++ tokensBits ts ∧
      WInv (emitTokens le_putToken w ts) := by
  induction ts with
  | nil => intro w hw _; simp [emitTokens, tokensBits]; exact hw
  | cons t ts ih =>
    intro w hw hts
    obtain ⟨hs, hv⟩ := le_putToken_spec w t hw (hts t (by simp))
    obtain ⟨hs2, hv2⟩ := ih (le_putToken w t) hv (fun u hu => hts u (by simp [hu]))
    simp only [emitTokens, tokensBits]
    rw [hs2, hs, List.append_assoc]
    exact ⟨rfl, hv2⟩

theorem emitTokens_bt_eq_le (ts : List Token) :
    ∀ w, (∀ t ∈ ts, TokenOK t) →
      emitTokens bt_putToken w ts = emitTokens le_putToken w ts := by
  induction ts with
  | nil => intro w _; rfl
  | cons t ts ih =>
    intro w hts
    simp only [emitTokens]
    rw [bt_putToken_eq_le w t (hts t (by simp)), ih _ (fun u hu => hts u (by simp [hu]))]

/-! Supporting lemmas: bit counts of the codec versus crush_match_cost. -/

theorem encodeLenBits_length (l : Nat) :
    (encodeLenBits l).length =
      if l < A then 1 + A_BITS
      else if l < B then 2 + B_BITS
      else if l < C then 3 + C_BITS
      else if l < D then 4 + D_BITS
      else if l < E then 5 + E_BITS
      else 5 + F_BITS := by
  unfold encodeLenBits
  split_ifs <;> simp [natBits_length] <;> decide

theorem encodeOffsBits_length (o : Nat) (ho : o < 2 ^ 21) :
    (encodeOffsBits o).length =
      SLOT_BITS + (if 2 <<< (W_BITS - NUM_SLOTS) ≤ o then Nat.log2 o
                   else W_BITS - (NUM_SLOTS - 1)) := by
  obtain ⟨hsm, hbig⟩ := mlog_facts o ho
  have hWNS : W_BITS - NUM_SLOTS = 5 := by decide
  have hsh : (2 : Nat) <<< (W_BITS - NUM_SLOTS) = 64 := by decide
  simp only [encodeOffsBits]
  by_cases hc : 64 ≤ o
  · obtain ⟨hmeq, hm6, _, _, _⟩ := hbig hc
    have hmlog : le_mlog o (W_BITS - NUM_SLOTS) = Nat.log2 o := by rw [hWNS, hmeq]
    rw [hmlog]
    rw [if_pos (by rw [hWNS]; omega), if_pos (by rw [hsh]; omega)]
    simp [natBits_length, SLOT_BITS]
  · have hm5 : le_mlog o (W_BITS - NUM_SLOTS) = 5 := by rw [hWNS, hsm (by omega)]
    rw [hm5]
    rw [if_neg (by rw [hWNS]; omega), if_neg (by rw [hsh]; omega)]
    simp [natBits_length]

theorem crush_match_cost_eq_bits (len offs : Nat) (h3 : MIN_MATCH ≤ len)
    (h566 : len ≤ MAX_MATCH) (ho1 : 1 ≤ offs) (hoW : offs ≤ W_SIZE) :
    crush_match_cost (offs - 1) len = (encodeTokBits (.mat len offs)).length := by
  have ho : offs - 1 < 2 ^ 21 := by
    have : W_SIZE = 2 ^ 21 := by decide
    omega
  simp only [encodeTokBits, List.length_append, natBits_length]
  rw [encodeLenBits_length, encodeOffsBits_length _ ho]
  simp only [crush_match_cost]
  rw [crush_log2_eq]
  split_ifs <;> omega

theorem encodeLit_length (b : Nat) : (encodeTokBits (.lit b)).length = 9 := by
  simp [encodeTokBits, natBits_length]

/-! Supporting lemmas: the token-reading side of the depacker.  The
read lemmas carry the remaining stream in the canonical form
X ++ replicate j false, where the zero padding comes from refills past the
end of the packed input. -/

theorem getbits_cons (r : lsb_bitreader) (num v : Nat) (rest : List Bool)
    (hr : RInv r) (hnum : num ≤ 24) (hv : v < 2 ^ num)
    (hs : rbits r = natBits v num ++ rest) :
    ∃ r2 j, lbr_getbits r num = (v, r2) ∧ RInv r2 ∧
      rbits r2 = rest ++ List.replicate j false := by
  obtain ⟨h1, h2, j, h3⟩ := lbr_getbits_spec r num v rest hr hnum hv hs
  refine ⟨(lbr_getbits r num).2, j, ?_, h2, h3⟩
  rw [← h1]

theorem getbits_sl (r : lsb_bitreader) (v num : Nat) (X : List Bool)
    (hr : RInv r) (hnum : num ≤ 24) (hv : v < 2 ^ num)
    (hs : ∃ j, rbits r = (natBits v num ++ X) ++ List.replicate j false) :
    ∃ r2, lbr_getbits r num = (v, r2) ∧ RInv r2 ∧
      ∃ j, rbits r2 = X ++ List.replicate j false := by
  obtain ⟨j, hj⟩ := hs
  rw [List.append_assoc] at hj
  obtain ⟨r2, j2, hg, hr2, hs2⟩ := getbits_cons r num v _ hr hnum hv hj
  refine ⟨r2, hg, hr2, j + j2, ?_⟩
  rw [hs2, List.append_assoc, ← List.replicate_add]

theorem read_len_spec (r : lsb_bitreader) (l : Nat) (X : List Bool)
    (hr : RInv r) (hl : l < F)
    (hs : ∃ j, rbits r = (encodeLenBits l ++ X) ++ List.replicate j false) :
    ∃ r2, read_len r = (l, r2) ∧ RInv r2 ∧
      ∃ j, rbits r2 = X ++ List.replicate j false := by
  have hA : A = 4 := by decide
  have hB : B = 8 := by decide
  have hC : C = 12 := by decide
  have hD : D = 20 := by decide
  have hE : E = 52 := by decide
  have hF : F = 564 := by decide
  obtain ⟨j0, hj0⟩ := hs
  by_cases c1 : l < A
  · rw [encodeLenBits, if_pos c1] at hj0
    have hlv : l < 2 ^ A_BITS := by rw [show (2 : Nat) ^ A_BITS = 4 by decide]; omega
    obtain ⟨r1, hg1, hr1, hs1⟩ := getbits_sl r 1 1 (natBits l A_BITS ++ X) hr
      (by norm_num) (by norm_num) ⟨j0, by rw [hj0]; simp [List.append_assoc]⟩
    obtain ⟨r2, hg2, hr2, hs2⟩ := getbits_sl r1 l A_BITS X hr1 (by decide) hlv hs1
    refine ⟨r2, ?_, hr2, hs2⟩
    simp [read_len, hg1, hg2]
  · rw [encodeLenBits, if_neg c1] at hj0
    by_cases c2 : l < B
    · rw [if_pos c2] at hj0
      have hdec : natBits (1 <<< 1) 2 = natBits 0 1 ++ natBits 1 1 := by decide
      rw [hdec] at hj0
      have hlv : l - A < 2 ^ B_BITS := by rw [show (2 : Nat) ^ B_BITS = 4 by decide]; omega
      obtain ⟨r1, hg1, hr1, hs1⟩ := getbits_sl r 0 1
        (natBits 1 1 ++ (natBits (l - A) B_BITS ++ X)) hr
        (by norm_num) (by norm_num) ⟨j0, by rw [hj0]; simp [List.append_assoc]⟩
      obtain ⟨r2, hg2, hr2, hs2⟩ := getbits_sl r1 1 1 (natBits (l - A) B_BITS ++ X) hr1
        (by norm_num) (by norm_num) hs1
      obtain ⟨r3, hg3, hr3, hs3⟩ := getbits_sl r2 (l - A) B_BITS X hr2 (by decide) hlv hs2
      refine ⟨r3, ?_, hr3, hs3⟩
      simp [read_len, hg1, hg2, hg3]
      omega
    · rw [if_neg c2] at hj0
      by_cases c3 : l < C
      · rw [if_pos c3] at hj0
        have hdec : natBits (1 <<< 2) 3 = natBits 0 1 ++ (natBits 0 1 ++ natBits 1 1) := by decide
        rw [hdec] at hj0
        have hlv : l - B < 2 ^ C_BITS := by rw [show (2 : Nat) ^ C_BITS = 4 by decide]; omega
        obtain ⟨r1, hg1, hr1, hs1⟩ := getbits_sl r 0 1
          (natBits 0 1 ++ (natBits 1 1 ++ (natBits (l - B) C_BITS ++ X))) hr
          (by norm_num) (by norm_num) ⟨j0, by rw [hj0]; simp [List.append_assoc]⟩
        obtain ⟨r2, hg2, hr2, hs2⟩ := getbits_sl r1 0 1
          (natBits 1 1 ++ (natBits (l - B) C_BITS ++ X)) hr1 (by norm_num) (by norm_num) hs1
        obtain ⟨r3, hg3, hr3, hs3⟩ := getbits_sl r2 1 1 (natBits (l - B) C_BITS ++ X) hr2
          (by norm_num) (by norm_num) hs2
        obtain ⟨r4, hg4, hr4, hs4⟩ := getbits_sl r3 (l - B) C_BITS X hr3 (by decide) hlv hs3
        refine ⟨r4, ?_, hr4, hs4⟩
        simp [read_len, hg1, hg2, hg3, hg4]
        omega
      · rw [if_neg c3] at hj0
        by_cases c4 : l < D
        · rw [if_pos c4] at hj0
          have hdec : natBits (1 <<< 3) 4 =
              natBits 0 1 ++ (natBits 0 1 ++ (natBits 0 1 ++ natBits 1 1)) := by decide
          rw [hdec] at hj0
          have hlv : l - C < 2 ^ D_BITS := by rw [show (2 : Nat) ^ D_BITS = 8 by decide]; omega
          obtain ⟨r1, hg1, hr1, hs1⟩ := getbits_sl r 0 1
            (natBits 0 1 ++ (natBits 0 1 ++ (natBits 1 1 ++ (natBits (l - C) D_BITS ++ X)))) hr
            (by norm_num) (by norm_num) ⟨j0, by rw [hj0]; simp [List.append_assoc]⟩
          obtain ⟨r2, hg2, hr2, hs2⟩ := getbits_sl r1 0 1
            (natBits 0 1 ++ (natBits 1 1 ++ (natBits (l - C) D_BITS ++ X))) hr1
            (by norm_num) (by norm_num) hs1
          obtain ⟨r3, hg3, hr3, hs3⟩ := getbits_sl r2 0 1
            (natBits 1 1 ++ (natBits (l - C) D_BITS ++ X)) hr2 (by norm_num) (by norm_num) hs2
          obtain ⟨r4, hg4, hr4, hs4⟩ := getbits_sl r3 1 1 (natBits (l - C) D_BITS ++ X) hr3
            (by norm_num) (by norm_num) hs3
          obtain ⟨r5, hg5, hr5, hs5⟩ := getbits_sl r4 (l - C) D_BITS X hr4 (by decide) hlv hs4
          refine ⟨r5, ?_, hr5, hs5⟩
          simp [read_len, hg1, hg2, hg3, hg4, hg5]
          omega
        · rw [if_neg c4] at hj0
          by_cases c5 : l < E
          · rw [if_pos c5] at hj0
            have hdec : natBits (1 <<< 4) 5 =
                natBits 0 1 ++ (natBits 0 1 ++ (natBits 0 1 ++ (natBits 0 1 ++ natBits 1 1))) := by
              decide
            rw [hdec] at hj0
            have hlv : l - D < 2 ^ E_BITS := by
              rw [show (2 : Nat) ^ E_BITS = 32 by decide]
              omega
            obtain ⟨r1, hg1, hr1, hs1⟩ := getbits_sl r 0 1
              (natBits 0 1 ++ (natBits 0 1 ++ (natBits 0 1 ++ (natBits 1 1 ++
                (natBits (l - D) E_BITS ++ X))))) hr
              (by norm_num) (by norm_num) ⟨j0, by rw [hj0]; simp [List.append_assoc]⟩
            obtain ⟨r2, hg2, hr2, hs2⟩ := getbits_sl r1 0 1
              (natBits 0 1 ++ (natBits 0 1 ++ (natBits 1 1 ++ (natBits (l - D) E_BITS ++ X)))) hr1
              (by norm_num) (by norm_num) hs1
            obtain ⟨r3, hg3, hr3, hs3⟩ := getbits_sl r2 0 1
              (natBits 0 1 ++ (natBits 1 1 ++ (natBits (l - D) E_BITS ++ X))) hr2
              (by norm_num) (by norm_num) hs2
            obtain ⟨r4, hg4, hr4, hs4⟩ := getbits_sl r3 0 1
              (natBits 1 1 ++ (natBits (l - D) E_BITS ++ X)) hr3
              (by norm_num) (by norm_num) hs3
            obtain ⟨r5, hg5, hr5, hs5⟩ := getbits_sl r4 1 1 (natBits (l - D) E_BITS ++ X) hr4
              (by norm_num) (by norm_num) hs4
            obtain ⟨r6, hg6, hr6, hs6⟩ := getbits_sl r5 (l - D) E_BITS X hr5 (by decide) hlv hs5
            refine ⟨r6, ?_, hr6, hs6⟩
            simp [read_len, hg1, hg2, hg3, hg4, hg5, hg6]
            omega
          · rw [if_neg c5] at hj0
            have hdec : natBits 0 5 =
                natBits 0 1 ++ (natBits 0 1 ++ (natBits 0 1 ++ (natBits 0 1 ++ natBits 0 1))) := by
              decide
            rw [hdec] at hj0
            have hlv : l - E < 2 ^ F_BITS := by
              rw [show (2 : Nat) ^ F_BITS = 512 by decide]
              omega
            obtain ⟨r1, hg1, hr1, hs1⟩ := getbits_sl r 0 1
              (natBits 0 1 ++ (natBits 0 1 ++ (natBits 0 1 ++ (natBits 0 1 ++
                (natBits (l - E) F_BITS ++ X))))) hr
              (by norm_num) (by norm_num) ⟨j0, by rw [hj0]; simp [List.append_assoc]⟩
            obtain ⟨r2, hg2, hr2, hs2⟩ := getbits_sl r1 0 1
              (natBits 0 1 ++ (natBits 0 1 ++ (natBits 0 1 ++ (natBits (l - E) F_BITS ++ X)))) hr1
              (by norm_num) (by norm_num) hs1
            obtain ⟨r3, hg3, hr3, hs3⟩ := getbits_sl r2 0 1
              (natBits 0 1 ++ (natBits 0 1 ++ (natBits (l - E) F_BITS ++ X))) hr2
              (by norm_num) (by norm_num) hs2
            obtain ⟨r4, hg4, hr4, hs4⟩ := getbits_sl r3 0 1
              (natBits 0 1 ++ (natBits (l - E) F_BITS ++ X)) hr3
              (by norm_num) (by norm_num) hs3
            obtain ⟨r5, hg5, hr5, hs5⟩ := getbits_sl r4 0 1 (natBits (l - E) F_BITS ++ X) hr4
              (by norm_num) (by norm_num) hs4
            obtain ⟨r6, hg6, hr6, hs6⟩ := getbits_sl r5 (l - E) F_BITS X hr5 (by decide) hlv hs5
            refine ⟨r6, ?_, hr6, hs6⟩
            simp [read_len, hg1, hg2, hg3, hg4, hg5, hg6]
            omega

theorem read_offs_spec (r : lsb_bitreader) (o : Nat) (X : List Bool)
    (hr : RInv r) (ho : o < 2 ^ 21)
    (hs : ∃ j, rbits r = (encodeOffsBits o ++ X) ++ List.replicate j false) :
    ∃ r2, read_offs r = (o, r2) ∧ RInv r2 ∧
      ∃ j, rbits r2 = X ++ List.replicate j false := by
  obtain ⟨hsm, hbig⟩ := mlog_facts o ho
  have hWNS : W_BITS - NUM_SLOTS = 5 := by decide
  obtain ⟨j0, hj0⟩ := hs
  by_cases hc : 64 ≤ o
  · obtain ⟨hmeq, hm6, hm20, hmle, hmlt⟩ := hbig hc
    have hmlog : le_mlog o (W_BITS - NUM_SLOTS) = Nat.log2 o := by rw [hWNS, hmeq]
    rw [encodeOffsBits, hmlog, if_pos (by rw [hWNS]; omega)] at hj0
    have hslot : Nat.log2 o - (W_BITS - NUM_SLOTS) < 2 ^ SLOT_BITS := by
      rw [hWNS, show (2 : Nat) ^ SLOT_BITS = 16 by decide]
      omega
    have hsh : (1 : Nat) <<< Nat.log2 o = 2 ^ Nat.log2 o := by
      rw [Nat.shiftLeft_eq, one_mul]
    have hev : o - 1 <<< Nat.log2 o < 2 ^ Nat.log2 o := by
      rw [hsh]
      have : (2 : Nat) ^ (Nat.log2 o + 1) = 2 * 2 ^ Nat.log2 o := by ring
      omega
    obtain ⟨r1, hg1, hr1, hs1⟩ := getbits_sl r (Nat.log2 o - (W_BITS - NUM_SLOTS)) SLOT_BITS
      (natBits (o - 1 <<< Nat.log2 o) (Nat.log2 o) ++ X) hr (by decide) hslot
      ⟨j0, by rw [hj0]; simp [List.append_assoc]⟩
    obtain ⟨r2, hg2, hr2, hs2⟩ := getbits_sl r1 (o - 1 <<< Nat.log2 o) (Nat.log2 o) X hr1
      (by omega) hev hs1
    refine ⟨r2, ?_, hr2, hs2⟩
    have hmadd : Nat.log2 o - (W_BITS - NUM_SLOTS) + (W_BITS - NUM_SLOTS) = Nat.log2 o := by
      rw [hWNS]
      omega
    simp only [read_offs, hg1, hmadd]
    rw [if_pos (by rw [hWNS]; omega)]
    simp [hg2]
    rw [hsh]
    have h2le : (2 : Nat) ^ Nat.log2 o ≤ o := hmle
    omega
  · have hm5 : le_mlog o (W_BITS - NUM_SLOTS) = 5 := by rw [hWNS, hsm (by omega)]
    rw [encodeOffsBits, hm5, if_neg (by rw [hWNS]; omega)] at hj0
    have hz : (5 : Nat) - (W_BITS - NUM_SLOTS) = 0 := by rw [hWNS]
    rw [hz] at hj0
    have hov : o < 2 ^ (W_BITS - (NUM_SLOTS - 1)) := by
      rw [show W_BITS - (NUM_SLOTS - 1) = 6 by decide]
      norm_num
      omega
    obtain ⟨r1, hg1, hr1, hs1⟩ := getbits_sl r 0 SLOT_BITS
      (natBits o (W_BITS - (NUM_SLOTS - 1)) ++ X) hr (by decide)
      (by rw [show (2 : Nat) ^ SLOT_BITS = 16 by decide]; omega)
      ⟨j0, by rw [hj0]; simp [List.append_assoc]⟩
    obtain ⟨r2, hg2, hr2, hs2⟩ := getbits_sl r1 o (W_BITS - (NUM_SLOTS - 1)) X hr1
      (by decide) hov hs1
    refine ⟨r2, ?_, hr2, hs2⟩
    simp only [read_offs, hg1]
    rw [if_neg (by rw [hWNS]; omega)]
    exact hg2

theorem natBits_lit (b : Nat) : natBits (b <<< 1) 9 = natBits 0 1 ++ natBits b 8 := by
  rw [Nat.shiftLeft_eq]
  simp only [natBits]
  have h1 : b * 2 ^ 1 % 2 = 0 := by omega
  have h2 : b * 2 ^ 1 / 2 = b := by omega
  rw [h1, h2]
  simp

theorem readToken_spec (r : lsb_bitreader) (t : Token) (X : List Bool)
    (hr : RInv r) (ht : TokenOK t)
    (hs : ∃ j, rbits r = (encodeTokBits t ++ X) ++ List.replicate j false) :
    ∃ r2, readToken r = (t, r2) ∧ RInv r2 ∧
      ∃ j, rbits r2 = X ++ List.replicate j false := by
  obtain ⟨j0, hj0⟩ := hs
  cases t with
  | lit b =>
    rw [encodeTokBits, natBits_lit] at hj0
    have hb : b < 2 ^ 8 := by
      have : b < 256 := ht
      norm_num
      omega
    obtain ⟨r1, hg1, hr1, hs1⟩ := getbits_sl r 0 1 (natBits b 8 ++ X) hr
      (by norm_num) (by norm_num) ⟨j0, by rw [hj0]; simp [List.append_assoc]⟩
    obtain ⟨r2, hg2, hr2, hs2⟩ := getbits_sl r1 b 8 X hr1 (by norm_num) hb hs1
    refine ⟨r2, ?_, hr2, hs2⟩
    simp [readToken, hg1, hg2]
  | mat len offs =>
    obtain ⟨h3, h566, ho1, hoW⟩ := ht
    rw [encodeTokBits] at hj0
    have hlF : len - MIN_MATCH < F := by
      have h1 : MAX_MATCH = 566 := by decide
      have h2 : F = 564 := by decide
      have h4 : MIN_MATCH = 3 := by decide
      omega
    have ho : offs - 1 < 2 ^ 21 := by
      have : W_SIZE = 2 ^ 21 := by decide
      omega
    obtain ⟨r1, hg1, hr1, hs1⟩ := getbits_sl r 1 1
      (encodeLenBits (len - MIN_MATCH) ++ (encodeOffsBits (offs - 1) ++ X)) hr
      (by norm_num) (by norm_num) ⟨j0, by rw [hj0]; simp [List.append_assoc]⟩
    obtain ⟨r2, hrl, hr2, hs2⟩ := read_len_spec r1 (len - MIN_MATCH)
      (encodeOffsBits (offs - 1) ++ X) hr1 hlF (by
        obtain ⟨j, hj⟩ := hs1
        exact ⟨j, by rw [hj]⟩)
    obtain ⟨r3, hro, hr3, hs3⟩ := read_offs_spec r2 (offs - 1) X hr2 ho (by
        obtain ⟨j, hj⟩ := hs2
        exact ⟨j, by rw [hj]⟩)
    refine ⟨r3, ?_, hr3, hs3⟩
    simp only [readToken, hg1, hrl, hro]
    have hlen : MIN_MATCH + (len - MIN_MATCH) = len := by
      have h4 : MIN_MATCH = 3 := by decide
      omega
    have hoffs : offs - 1 + 1 = offs := by omega
    simp [hlen, hoffs]

/-! Supporting lemmas: the decode loop on valid token sequences. -/

theorem take_succ_getD (l : List Nat) (i : Nat) (h : i < l.length) :
    l.take (i + 1) = l.take i ++ [l.getD i 0] := by
  rw [List.take_succ]
  congr 1
  rw [List.getD_eq_getElem?_getD]
  cases h2 : l[i]? with
  | none => simp [List.getElem?_eq_none_iff] at h2; omega
  | some v => simp [h2, Option.toList]

theorem getD_take (l : List Nat) (i j : Nat) (h : j < i) :
    (l.take i).getD j 0 = l.getD j 0 := by
  rw [List.getD_eq_getElem?_getD, List.getD_eq_getElem?_getD, List.getElem?_take, if_pos h]

theorem getD_mem (l : List Nat) (i : Nat) (h : i < l.length) : l.getD i 0 ∈ l := by
  rw [List.getD_eq_getElem?_getD]
  cases h2 : l[i]? with
  | none => simp [List.getElem?_eq_none_iff] at h2; omega
  | some v => simpa using List.getElem?_mem h2

theorem match_copy_length (k : Nat) :
    ∀ out mpos, (match_copy out mpos k).length = out.length + k := by
  induction k with
  | zero => intro out mpos; simp [match_copy]
  | succ k ih =>
    intro out mpos
    simp only [match_copy]
    rw [ih]
    simp
    omega

theorem match_copy_take (inp : List Nat) (offs : Nat) :
    ∀ L i, 1 ≤ offs → offs ≤ i → i + L ≤ inp.length →
      (∀ k, k < L → inp.getD (i - offs + k) 0 = inp.getD (i + k) 0) →
      match_copy (inp.take i) (i - offs) L = inp.take (i + L) := by
  intro L
  induction L with
  | zero => intro i _ _ _ _; simp [match_copy]
  | succ L ih =>
    intro i h1 h2 h3 h4
    have hiN : i < inp.length := by omega
    have hstep : (inp.take i).getD (i - offs) 0 = inp.getD i 0 := by
      rw [getD_take inp i (i - offs) (by omega)]
      have h0 := h4 0 (by omega)
      simpa using h0
    simp only [match_copy]
    rw [hstep, ← take_succ_getD inp i hiN]
    rw [show i - offs + 1 = i + 1 - offs by omega]
    rw [show i + (L + 1) = i + 1 + L by omega]
    exact ih (i + 1) h1 (by omega) (by omega) (fun k hk => by
      have hk1 := h4 (k + 1) (by omega)
      rw [show i - offs + (k + 1) = i + 1 - offs + k by omega,
          show i + (k + 1) = i + 1 + k by omega] at hk1
      exact hk1)

theorem depack_loop_tokens (inp : List Nat) (hbytes : ∀ b ∈ inp, b < 256) :
    ∀ ts i r fuel, TokSeqOK inp i ts → RInv r →
      (∃ j, rbits r = tokensBits ts ++ List.replicate j false) →
      inp.length < i + fuel →
      depack_loop fuel r (inp.take i) inp.length = some inp := by
  intro ts
  induction ts with
  | nil =>
    intro i r fuel hseq hr hs hfuel
    have hi : i = inp.length := hseq
    obtain ⟨f, rfl⟩ : ∃ f, fuel = f + 1 := ⟨fuel - 1, by omega⟩
    subst hi
    simp [depack_loop]
  | cons t ts ih =>
    intro i r fuel hseq hr hs hfuel
    cases t with
    | lit b =>
      obtain ⟨hb, hiN, hseq2⟩ := hseq
      obtain ⟨f, rfl⟩ : ∃ f, fuel = f + 1 := ⟨fuel - 1, by omega⟩
      obtain ⟨j0, hj0⟩ := hs
      rw [tokensBits] at hj0
      simp only [encodeTokBits] at hj0
      rw [natBits_lit] at hj0
      have hb256 : b < 256 := by rw [hb]; exact hbytes _ (getD_mem inp i hiN)
      obtain ⟨r1, hg1, hr1, hs1⟩ := getbits_sl r 0 1 (natBits b 8 ++ tokensBits ts) hr
        (by norm_num) (by norm_num) ⟨j0, by rw [hj0]; simp [List.append_assoc]⟩
      obtain ⟨r2, hg2, hr2, hs2⟩ := getbits_sl r1 b 8 (tokensBits ts) hr1
        (by norm_num) (by norm_num; omega) hs1
      have hlen : (inp.take i).length = i := by rw [List.length_take]; omega
      have hstep : depack_loop (f + 1) r (inp.take i) inp.length
          = depack_loop f r2 (inp.take i ++ [b]) inp.length := by
        simp [depack_loop, hg1, hg2, hlen, hiN]
      rw [hstep, hb, ← take_succ_getD inp i hiN]
      exact ih (i + 1) r2 f hseq2 hr2 hs2 (by omega)
    | mat len offs =>
      obtain ⟨h3, h566, ho1, hoi, hoW, hiL, hmat, hseq2⟩ := hseq
      obtain ⟨f, rfl⟩ : ∃ f, fuel = f + 1 := ⟨fuel - 1, by omega⟩
      obtain ⟨j0, hj0⟩ := hs
      rw [tokensBits] at hj0
      simp only [encodeTokBits] at hj0
      have hM3 : MIN_MATCH = 3 := by decide
      have hlF : len - MIN_MATCH < F := by
        have h1 : MAX_MATCH = 566 := by decide
        have h2 : F = 564 := by decide
        omega
      have ho : offs - 1 < 2 ^ 21 := by
        have hWS : W_SIZE = 2 ^ 21 := by decide
        omega
      obtain ⟨r1, hg1, hr1, hs1⟩ := getbits_sl r 1 1
        (encodeLenBits (len - MIN_MATCH) ++ (encodeOffsBits (offs - 1) ++ tokensBits ts)) hr
        (by norm_num) (by norm_num) ⟨j0, by rw [hj0]; simp [List.append_assoc]⟩
      obtain ⟨r2, hrl, hr2, hs2⟩ := read_len_spec r1 (len - MIN_MATCH)
        (encodeOffsBits (offs - 1) ++ tokensBits ts) hr1 hlF (by
          obtain ⟨j, hj⟩ := hs1
          exact ⟨j, by rw [hj]⟩)
      obtain ⟨r3, hro, hr3, hs3⟩ := read_offs_spec r2 (offs - 1) (tokensBits ts) hr2 ho (by
          obtain ⟨j, hj⟩ := hs2
          exact ⟨j, by rw [hj]⟩)
      have hiN : i < inp.length := by omega
      have hlen : (inp.take i).length = i := by rw [List.length_take]; omega
      have hne : ¬ (i < offs - 1 + 1) := by omega
      have hstep : depack_loop (f + 1) r (inp.take i) inp.length
          = depack_loop f r3
              (match_copy (inp.take i) (i - (offs - 1 + 1)) (3 + (len - MIN_MATCH)))
              inp.length := by
        simp [depack_loop, hg1, hrl, hro, hlen, hiN, hne]
      have hmc : match_copy (inp.take i) (i - (offs - 1 + 1)) (3 + (len - MIN_MATCH))
          = inp.take (i + len) := by
        rw [show offs - 1 + 1 = offs by omega, show 3 + (len - MIN_MATCH) = len by omega]
        exact match_copy_take inp offs len i ho1 hoi hiL hmat
      rw [hstep, hmc]
      exact ih (i + len) r3 f hseq2 hr3 hs3 (by omega)

theorem tokSeqOK_tokenOK (inp : List Nat) (hbytes : ∀ b ∈ inp, b < 256) :
    ∀ ts i, TokSeqOK inp i ts → ∀ t ∈ ts, TokenOK t := by
  intro ts
  induction ts with
  | nil => intro i _ t ht; simp at ht
  | cons u ts ih =>
    intro i hseq t ht
    cases u with
    | lit b =>
      obtain ⟨hb, hiN, hseq2⟩ := hseq
      rcases List.mem_cons.mp ht with h | h
      · subst h
        show b < 256
        rw [hb]
        exact hbytes _ (getD_mem inp i hiN)
      · exact ih (i + 1) hseq2 t h
    | mat len offs =>
      obtain ⟨h3, h566, ho1, hoi, hoW, hiL, hmat, hseq2⟩ := hseq
      rcases List.mem_cons.mp ht with h | h
      · subst h
        exact ⟨h3, h566, ho1, hoW⟩
      · exact ih (i + len) hseq2 t h

theorem pack_le_roundtrip (inp : List Nat) (ts : List Token)
    (hbytes : ∀ b ∈ inp, b < 256) (hseq : TokSeqOK inp 0 ts) :
    crush_depack (lbw_finalize (emitTokens le_putToken lbw_init ts)) inp.length
      = some inp := by
  have hts : ∀ t ∈ ts, TokenOK t := tokSeqOK_tokenOK inp hbytes ts 0 hseq
  have hw0 : WInv lbw_init := by
    refine ⟨?_, ?_, ?_⟩ <;> simp [lbw_init, WInv]
  obtain ⟨hemit, hwv⟩ := emitTokens_le_spec ts lbw_init hw0 hts
  obtain ⟨hfin, hflen, hfb⟩ := lbw_finalize_spec _ hwv
  have hwinit : wbits lbw_init = [] := by simp [wbits, lbw_init, bytesBits, natBits]
  rw [hemit, hwinit, List.nil_append] at hfin
  have hrv : RInv (lbr_init (lbw_finalize (emitTokens le_putToken lbw_init ts))) := by
    refine ⟨by simp [lbr_init], by simp [lbr_init], ?_⟩
    intro b hbm
    exact hfb b hbm
  have hrb : rbits (lbr_init (lbw_finalize (emitTokens le_putToken lbw_init ts)))
      = tokensBits ts ++ List.replicate
          (8 * (((emitTokens le_putToken lbw_init ts).msb + 7) / 8)
            - (emitTokens le_putToken lbw_init ts).msb) false := by
    simp only [rbits, lbr_init]
    rw [show natBits 0 0 = [] from rfl, List.nil_append]
    exact hfin
  have hmain := depack_loop_tokens inp hbytes ts 0
    (lbr_init (lbw_finalize (emitTokens le_putToken lbw_init ts)))
    (inp.length + 1) hseq hrv ⟨_, hrb⟩ (by omega)
  simp only [crush_depack]
  simpa using hmain

theorem lbw_init_winv : WInv lbw_init := by
  refine ⟨?_, ?_, ?_⟩ <;> simp [lbw_init, WInv]

theorem getbits_fst_lt (r : lsb_bitreader) (num : Nat) : (lbr_getbits r num).1 < 2 ^ num := by
  simp only [lbr_getbits, lbr_getbits_no_refill]
  exact Nat.mod_lt _ (Nat.two_pow_pos num)

theorem read_len_le (r : lsb_bitreader) : (read_len r).1 ≤ 563 := by
  rw [read_len]
  cases hg1 : lbr_getbits r 1 with
  | mk s1 r1 =>
  simp only [hg1]
  by_cases h1 : s1 ≠ 0
  · rw [if_pos h1]
    have hv := getbits_fst_lt r1 A_BITS
    rw [show (2 : Nat) ^ A_BITS = 4 by decide] at hv
    omega
  · rw [if_neg h1]
    cases hg2 : lbr_getbits r1 1 with
    | mk s2 r2 =>
    simp only [hg2]
    by_cases h2 : s2 ≠ 0
    · rw [if_pos h2]
      cases hg : lbr_getbits r2 B_BITS with
      | mk v r3 =>
      simp only [hg]
      have hv := getbits_fst_lt r2 B_BITS
      rw [hg, show (2 : Nat) ^ B_BITS = 4 by decide] at hv
      have hA : A = 4 := by decide
      omega
    · rw [if_neg h2]
      cases hg3 : lbr_getbits r2 1 with
      | mk s3 r3 =>
      simp only [hg3]
      by_cases h3 : s3 ≠ 0
      · rw [if_pos h3]
        cases hg : lbr_getbits r3 C_BITS with
        | mk v r4 =>
        simp only [hg]
        have hv := getbits_fst_lt r3 C_BITS
        rw [hg, show (2 : Nat) ^ C_BITS = 4 by decide] at hv
        have hB : B = 8 := by decide
        omega
      · rw [if_neg h3]
        cases hg4 : lbr_getbits r3 1 with
        | mk s4 r4 =>
        simp only [hg4]
        by_cases h4 : s4 ≠ 0
        · rw [if_pos h4]
          cases hg : lbr_getbits r4 D_BITS with
          | mk v r5 =>
          simp only [hg]
          have hv := getbits_fst_lt r4 D_BITS
          rw [hg, show (2 : Nat) ^ D_BITS = 8 by decide] at hv
          have hC : C = 12 := by decide
          omega
        · rw [if_neg h4]
          cases hg5 : lbr_getbits r4 1 with
          | mk s5 r5 =>
          simp only [hg5]
          by_cases h5 : s5 ≠ 0
          · rw [if_pos h5]
            cases hg : lbr_getbits r5 E_BITS with
            | mk v r6 =>
            simp only [hg]
            have hv := getbits_fst_lt r5 E_BITS
            rw [hg, show (2 : Nat) ^ E_BITS = 32 by decide] at hv
            have hD : D = 20 := by decide
            omega
          · rw [if_neg h5]
            cases hg : lbr_getbits r5 F_BITS with
            | mk v r6 =>
            simp only [hg]
            have hv := getbits_fst_lt r5 F_BITS
            rw [hg, show (2 : Nat) ^ F_BITS = 512 by decide] at hv
            have hE : E = 52 := by decide
            omega

theorem depack_loop_bound (M : Nat) :
    ∀ fuel r out res, depack_loop fuel r out M = some res →
      M ≤ res.length ∧ (res.length ≤ M + 565 ∨ res.length ≤ out.length) := by
  intro fuel
  induction fuel with
  | zero => intro r out res h; simp [depack_loop] at h
  | succ f ih =>
    intro r out res h
    simp only [depack_loop] at h
    by_cases hlt : out.length < M
    · rw [if_pos hlt] at h
      cases hg1 : lbr_getbits r 1 with
      | mk tag r1 =>
      simp only [hg1] at h
      by_cases htag : tag ≠ 0
      · rw [if_pos htag] at h
        cases hg2 : read_len r1 with
        | mk len r2 =>
        simp only [hg2] at h
        cases hg3 : read_offs r2 with
        | mk o r3 =>
        simp only [hg3] at h
        by_cases hofs : out.length < o + 1
        · rw [if_pos hofs] at h
          exact absurd h (by simp)
        · rw [if_neg hofs] at h
          have hlen : len ≤ 563 := by
            have hle := read_len_le r1
            rw [hg2] at hle
            exact hle
          have hrec := ih _ _ res h
          rw [match_copy_length] at hrec
          refine ⟨hrec.1, Or.inl ?_⟩
          rcases hrec.2 with hc | hc
          · exact hc
          · omega
      · rw [if_neg htag] at h
        cases hg2 : lbr_getbits r1 8 with
        | mk b r2 =>
        simp only [hg2] at h
        have hrec := ih _ _ res h
        rw [List.length_append] at hrec
        refine ⟨hrec.1, Or.inl ?_⟩
        rcases hrec.2 with hc | hc
        · exact hc
        · simp at hc
          omega
    · rw [if_neg hlt] at h
      injection h with h
      subst h
      exact ⟨by omega, Or.inr le_rfl⟩

theorem depack_loop_trace_iff (M : Nat) :
    ∀ fuel r out, 0 < fuel → M < out.length + fuel →
      (depack_loop fuel r out M = none ↔
        ∃ p len offs, (p, Token.mat len offs) ∈ depack_trace fuel r out M ∧ p < offs) := by
  intro fuel
  induction fuel with
  | zero => intro r out h0; omega
  | succ f ih =>
    intro r out _ hfuel
    by_cases hlt : out.length < M
    · cases hg1 : lbr_getbits r 1 with
      | mk tag r1 =>
      by_cases htag : tag ≠ 0
      · cases hg2 : read_len r1 with
        | mk len r2 =>
        cases hg3 : read_offs r2 with
        | mk o r3 =>
        by_cases hofs : out.length < o + 1
        · simp only [depack_loop, depack_trace, hg1, hg2, hg3, if_pos hlt, if_pos htag,
            if_pos hofs]
          constructor
          · intro _
            exact ⟨out.length, 3 + len, o + 1, by simp, hofs⟩
          · intro _
            trivial
        · simp only [depack_loop, depack_trace, hg1, hg2, hg3, if_pos hlt, if_pos htag,
            if_neg hofs]
          rw [ih r3 (match_copy out (out.length - (o + 1)) (3 + len))
            (by omega) (by rw [match_copy_length]; omega)]
          constructor
          · rintro ⟨p, L, o2, hm, hpo⟩
            exact ⟨p, L, o2, List.mem_cons_of_mem _ hm, hpo⟩
          · rintro ⟨p, L, o2, hm, hpo⟩
            rcases List.mem_cons.mp hm with he | hm2
            · simp only [Prod.mk.injEq, Token.mat.injEq] at he
              omega
            · exact ⟨p, L, o2, hm2, hpo⟩
      · cases hg2 : lbr_getbits r1 8 with
        | mk b r2 =>
        simp only [depack_loop, depack_trace, hg1, hg2, if_pos hlt, if_neg htag]
        rw [ih r2 (out ++ [b]) (by omega) (by simp; omega)]
        constructor
        · rintro ⟨p, L, o2, hm, hpo⟩
          exact ⟨p, L, o2, List.mem_cons_of_mem _ hm, hpo⟩
        · rintro ⟨p, L, o2, hm, hpo⟩
          rcases List.mem_cons.mp hm with he | hm2
          · simp only [Prod.mk.injEq] at he
            exact absurd he.2 (by simp)
          · exact ⟨p, L, o2, hm2, hpo⟩
    · simp only [depack_loop, depack_trace, if_neg hlt]
      simp

/-! The claims about the decoder and the token codec. -/

/-- C5: token codec self-consistency.  For every admissible token (a
literal byte 0..255, or a match with len in [3, 566] and offs in
[1, 2^21]), both packers' emitters write the same bits, and decoding the
finalized bytes with the decoder's token-reading steps yields the token
back. -/
theorem C5_codec_roundtrip (t : Token) (ht : TokenOK t) :
    bt_putToken lbw_init t = le_putToken lbw_init t ∧
    (readToken (lbr_init (lbw_finalize (le_putToken lbw_init t)))).1 = t := by
  obtain ⟨hput, hwv⟩ := le_putToken_spec lbw_init t lbw_init_winv ht
  obtain ⟨hfin, _, hfb⟩ := lbw_finalize_spec _ hwv
  have hwinit : wbits lbw_init = [] := by simp [wbits, lbw_init, bytesBits, natBits]
  rw [hput, hwinit, List.nil_append] at hfin
  have hrv : RInv (lbr_init (lbw_finalize (le_putToken lbw_init t))) :=
    ⟨by simp [lbr_init], by simp [lbr_init], hfb⟩
  have hrb : rbits (lbr_init (lbw_finalize (le_putToken lbw_init t)))
      = (encodeTokBits t ++ []) ++ List.replicate
          (8 * (((le_putToken lbw_init t).msb + 7) / 8)
            - (le_putToken lbw_init t).msb) false := by
    simp only [rbits, lbr_init]
    rw [show natBits 0 0 = [] from rfl, List.nil_append, List.append_nil]
    exact hfin
  obtain ⟨r2, heq, _, _⟩ := readToken_spec _ t [] hrv ht ⟨_, hrb⟩
  exact ⟨bt_putToken_eq_le lbw_init t ht, by rw [heq]⟩

theorem C5_codec_roundtrip_witness :
    TokenOK (Token.mat 566 2097152) ∧
      (bt_putToken lbw_init (Token.mat 566 2097152)
          = le_putToken lbw_init (Token.mat 566 2097152) ∧
        (readToken (lbr_init (lbw_finalize
          (le_putToken lbw_init (Token.mat 566 2097152))))).1 = Token.mat 566 2097152) :=
  ⟨by decide, C5_codec_roundtrip (Token.mat 566 2097152) (by decide)⟩

/-- C4: the cost model is exactly faithful to the codec.  Writing an
admissible match token with the packer's emitter grows the bit count by
crush_match_cost (offs - 1) len, and writing a literal grows it by
exactly 9 bits. -/
theorem C4_cost_model_exact (w : lsb_bitwriter) (len offs b : Nat) (hw : WInv w)
    (h3 : MIN_MATCH ≤ len) (h566 : len ≤ MAX_MATCH)
    (ho1 : 1 ≤ offs) (hoW : offs ≤ W_SIZE) (hb : b < 256) :
    totalBits (le_putToken w (Token.mat len offs))
      = totalBits w + crush_match_cost (offs - 1) len ∧
    totalBits (le_putToken w (Token.lit b)) = totalBits w + 9 := by
  obtain ⟨hm, _⟩ := le_putToken_spec w (Token.mat len offs) hw ⟨h3, h566, ho1, hoW⟩
  obtain ⟨hl, _⟩ := le_putToken_spec w (Token.lit b) hw hb
  have h1 := congrArg List.length hm
  rw [wbits_length, List.length_append, wbits_length] at h1
  have h2 := congrArg List.length hl
  rw [wbits_length, List.length_append, wbits_length, encodeLit_length] at h2
  refine ⟨?_, h2⟩
  rw [h1, crush_match_cost_eq_bits len offs h3 h566 ho1 hoW]

theorem C4_cost_model_exact_witness :
    (WInv lbw_init ∧ MIN_MATCH ≤ 3 ∧ 3 ≤ MAX_MATCH ∧ 1 ≤ 64 ∧ 64 ≤ W_SIZE ∧ 255 < 256) ∧
      (totalBits (le_putToken lbw_init (Token.mat 3 64))
          = totalBits lbw_init + crush_match_cost (64 - 1) 3 ∧
        totalBits (le_putToken lbw_init (Token.lit 255)) = totalBits lbw_init + 9) :=
  ⟨⟨lbw_init_winv, by decide, by decide, by decide, by decide, by decide⟩,
    C4_cost_model_exact lbw_init 3 64 255 lbw_init_winv
      (by decide) (by decide) (by decide) (by decide) (by decide)⟩

/-- C2: the decoder does not emit exactly M bytes on all inputs: the
match copy is only bounded by the token, so a successful crush_depack
returns between M and M + 565 bytes (the claim's exactly-M version is
refuted by C2_overrun_cx). -/
theorem C2_depack_emits_bounded (src : List Nat) (M : Nat) (out : List Nat)
    (h : crush_depack src M = some out) :
    M ≤ out.length ∧ out.length ≤ M + 565 := by
  have hb := depack_loop_bound M (M + 1) (lbr_init src) [] out h
  refine ⟨hb.1, ?_⟩
  rcases hb.2 with hc | hc
  · exact hc
  · rw [List.length_nil] at hc
    omega

theorem C2_depack_emits_bounded_witness :
    crush_depack [0] 1 = some [0] ∧ 1 ≤ ([0] : List Nat).length ∧
      ([0] : List Nat).length ≤ 1 + 565 :=
  ⟨by decide, C2_depack_emits_bounded [0] 1 [0] (by decide)⟩

/-- C2 counterexample: decoding the three packed bytes 0x00 0x06 0x00
with requested size M = 2 terminates the match copy only at the token
boundary, emitting 4 bytes, not 2. -/
theorem C2_overrun_cx :
    crush_depack [0, 6, 0] 2 = some [0, 0, 0, 0] ∧
      ([0, 0, 0, 0] : List Nat).length ≠ 2 := by
  decide

/-- C3: crush_depack returns the error sentinel (modelled none) exactly
when the decoded token stream contains, before M bytes are produced, a
match whose offset exceeds the number of bytes already produced; the
offending match is never copied (the trace stops at it). -/
theorem C3_error_iff_bad_offset (src : List Nat) (M : Nat) :
    crush_depack src M = none ↔
      ∃ p len offs, (p, Token.mat len offs) ∈ crush_depack_trace src M ∧ p < offs := by
  simp only [crush_depack, crush_depack_trace]
  exact depack_loop_trace_iff M (M + 1) (lbr_init src) [] (by omega) (by simp)

/-! Supporting lemmas: the leparse dynamic program. -/

theorem upd_self (f : Nat → Nat) (i v : Nat) : upd f i v i = v := by
  simp [upd]

theorem upd_other (f : Nat → Nat) (i v j : Nat) (h : j ≠ i) : upd f i v j = f j := by
  simp [upd, h]

theorem crush_match_cost_le (o L : Nat) (ho : o < 2 ^ 21) (hL : 4 ≤ L) :
    crush_match_cost o L ≤ 9 * L := by
  have h20 : o < 64 ∨ crush_log2 o ≤ 20 := by
    by_cases h : o < 64
    · exact Or.inl h
    · right
      rw [crush_log2_eq]
      have h0 : o ≠ 0 := by omega
      have hl := (Nat.log2_lt h0).mpr ho
      omega
  have c1 : A = 4 := by decide
  have c2 : B = 8 := by decide
  have c3 : C = 12 := by decide
  have c4 : D = 20 := by decide
  have c5 : E = 52 := by decide
  have cm : MIN_MATCH = 3 := by decide
  have cab : A_BITS = 2 := by decide
  have cbb : B_BITS = 2 := by decide
  have ccb : C_BITS = 2 := by decide
  have cdb : D_BITS = 3 := by decide
  have ceb : E_BITS = 5 := by decide
  have cfb : F_BITS = 9 := by decide
  have csb : SLOT_BITS = 4 := by decide
  have cwn : W_BITS - (NUM_SLOTS - 1) = 6 := by decide
  have hs : (2 : Nat) <<< (W_BITS - NUM_SLOTS) = 64 := by decide
  simp only [crush_match_cost]
  rcases h20 with h20 | h20 <;> split_ifs <;> omega

theorem le_match_len_spec (inp : List Nat) (pos cur limit : Nat) :
    ∀ fuel len, len ≤ limit →
      (∀ k, k < len → inp.getD (pos + k) 0 = inp.getD (cur + k) 0) →
      limit ≤ len + fuel →
      len ≤ le_match_len inp pos cur limit fuel len ∧
      le_match_len inp pos cur limit fuel len ≤ limit ∧
      ∀ k, k < le_match_len inp pos cur limit fuel len →
        inp.getD (pos + k) 0 = inp.getD (cur + k) 0 := by
  intro fuel
  induction fuel with
  | zero => intro len h1 h2 _; exact ⟨le_rfl, h1, h2⟩
  | succ f ih =>
    intro len h1 h2 h3
    simp only [le_match_len]
    by_cases hc : len < limit ∧ inp.getD (pos + len) 0 = inp.getD (cur + len) 0
    · rw [if_pos hc]
      have hrec := ih (len + 1) (by omega) (fun k hk => by
        rcases Nat.lt_succ_iff_lt_or_eq.mp hk with h | h
        · exact h2 k h
        · subst h; exact hc.2) (by omega)
      exact ⟨by omega, hrec.2.1, hrec.2.2⟩
    · rw [if_neg hc]
      exact ⟨le_rfl, h1, h2⟩

theorem le_scan_spec (st : LeState) (cur pos len : Nat) :
    ∀ fuel i mc mcl,
      3 ≤ i →
      (mc = ULONG_MAX ∧ mcl = MIN_MATCH - 1 ∨
        mc = crush_match_cost (cur - pos - 1) mcl + st.cost (cur + mcl) ∧
          3 ≤ mcl ∧ mcl ≤ len) →
      ∃ mc2 mcl2, le_scan st cur pos len fuel i mc mcl = (mc2, mcl2) ∧
        (mc2 = ULONG_MAX ∧ mcl2 = MIN_MATCH - 1 ∨
          mc2 = crush_match_cost (cur - pos - 1) mcl2 + st.cost (cur + mcl2) ∧
            3 ≤ mcl2 ∧ mcl2 ≤ len) := by
  intro fuel
  induction fuel with
  | zero => intro i mc mcl _ hacc; exact ⟨mc, mcl, rfl, hacc⟩
  | succ f ih =>
    intro i mc mcl h3 hacc
    simp only [le_scan]
    by_cases hi : i ≤ len
    · rw [if_pos hi]
      by_cases hlt : crush_match_cost (cur - pos - 1) i + st.cost (cur + i) < mc
      · rw [if_pos hlt]
        exact ih (i + 1) _ i (by omega) (Or.inr ⟨rfl, by omega, hi⟩)
      · rw [if_neg hlt]
        exact ih (i + 1) mc mcl (by omega) hacc
    · rw [if_neg hi]
      exact ⟨mc, mcl, rfl, hacc⟩

theorem LeInv_mono (inp : List Nat) (st : LeState) (b b2 : Nat)
    (h : LeInv inp st b) (hb : b ≤ b2) : LeInv inp st b2 :=
  ⟨h.1, fun i hi hi2 => h.2 i (by omega) hi2⟩

theorem LeCell_of_eq (inp : List Nat) (st st2 : LeState) (i : Nat)
    (h : LeCell inp st i)
    (hc : ∀ j, i ≤ j → st2.cost j = st.cost j)
    (hp : st2.mpos i = st.mpos i) (hm : st2.mlen i = st.mlen i) :
    LeCell inp st2 i := by
  rcases h with ⟨h1, h2⟩ | ⟨h1, h2, h3, h4, h5, h6, h7⟩
  · exact Or.inl ⟨by rw [hm]; exact h1, by rw [hc i le_rfl, hc (i+1) (by omega)]; exact h2⟩
  · refine Or.inr ⟨by rw [hm]; exact h1, by rw [hm]; exact h2, by rw [hp]; exact h3,
      by rw [hp]; exact h4, by rw [hm]; exact h5, ?_, ?_⟩
    · intro k hk
      rw [hm] at hk
      rw [hp]
      exact h6 k hk
    · rw [hc i le_rfl, hp, hm, hc (i + st.mlen i) (by omega)]
      exact h7

theorem LeInv_write_match (inp : List Nat) (st : LeState) (cur pos mcl v : Nat)
    (h : LeInv inp st (cur + 1))
    (h3 : MIN_MATCH ≤ mcl) (h566 : mcl ≤ MAX_MATCH) (hpc : pos < cur)
    (hw : cur - pos ≤ W_SIZE) (hend : cur + mcl ≤ inp.length)
    (hbytes : ∀ k, k < mcl → inp.getD (pos + k) 0 = inp.getD (cur + k) 0)
    (hveq : v = crush_match_cost (cur - pos - 1) mcl + st.cost (cur + mcl))
    (hvb : v ≤ 9 * (inp.length - cur)) :
    LeInv inp ⟨upd st.cost cur v, upd st.mpos cur pos, upd st.mlen cur mcl⟩ cur := by
  have hm3 : MIN_MATCH = 3 := by decide
  have hcurN : cur < inp.length := by omega
  refine ⟨?_, ?_⟩
  · show upd st.cost cur v inp.length = 0
    rw [show upd st.cost cur v inp.length = st.cost inp.length by
      simp [upd]; intro he; omega]
    exact h.1
  · intro i hi hiN
    rcases Nat.eq_or_lt_of_le hi with he | hlt
    · subst he
      refine ⟨Or.inr ⟨?_, ?_, ?_, ?_, ?_, ?_, ?_⟩, ?_⟩
      · show MIN_MATCH ≤ upd st.mlen cur mcl cur
        simp [upd]; omega
      · show upd st.mlen cur mcl cur ≤ MAX_MATCH
        simp [upd]; omega
      · show upd st.mpos cur pos cur < cur
        simp [upd]; omega
      · show cur - upd st.mpos cur pos cur ≤ W_SIZE
        simp [upd]; omega
      · show cur + upd st.mlen cur mcl cur ≤ inp.length
        simp [upd]; omega
      · intro k hk
        simp only [upd, if_pos rfl] at hk ⊢
        exact hbytes k hk
      · show upd st.cost cur v cur
            = crush_match_cost (cur - upd st.mpos cur pos cur - 1) (upd st.mlen cur mcl cur)
              + upd st.cost cur v (cur + upd st.mlen cur mcl cur)
        rw [upd_self, upd_self, upd_self, upd_other st.cost cur v (cur + mcl) (by omega)]
        exact hveq
      · show upd st.cost cur v cur ≤ 9 * (inp.length - cur)
        rw [upd_self]
        exact hvb
    · have hcell := h.2 i (by omega) hiN
      refine ⟨LeCell_of_eq inp st _ i hcell.1 ?_ ?_ ?_, ?_⟩
      · intro j hj
        show upd st.cost cur v j = st.cost j
        simp [upd]; intro he; omega
      · show upd st.mpos cur pos i = st.mpos i
        simp [upd]; intro he; omega
      · show upd st.mlen cur mcl i = st.mlen i
        simp [upd]; intro he; omega
      · show upd st.cost cur v i ≤ 9 * (inp.length - i)
        rw [show upd st.cost cur v i = st.cost i by simp [upd]; intro he; omega]
        exact hcell.2

theorem LeInv_write_lit (inp : List Nat) (st : LeState) (cur : Nat)
    (h : LeInv inp st (cur + 1)) (hcur : cur < inp.length) :
    LeInv inp ⟨upd st.cost cur (st.cost (cur + 1) + 9), st.mpos, upd st.mlen cur 1⟩ cur := by
  have hc1 : st.cost (cur + 1) ≤ 9 * (inp.length - (cur + 1)) := by
    rcases Nat.eq_or_lt_of_le (Nat.succ_le_of_lt hcur) with he | hlt
    · have h0 : st.cost (cur + 1) = 0 := by
        rw [show cur + 1 = inp.length by omega]
        exact h.1
      omega
    · exact (h.2 (cur + 1) le_rfl hlt).2
  refine ⟨?_, ?_⟩
  · show upd st.cost cur _ inp.length = 0
    rw [show upd st.cost cur (st.cost (cur + 1) + 9) inp.length = st.cost inp.length by
      simp [upd]; intro he; omega]
    exact h.1
  · intro i hi hiN
    rcases Nat.eq_or_lt_of_le hi with he | hlt
    · subst he
      refine ⟨Or.inl ⟨?_, ?_⟩, ?_⟩
      · show upd st.mlen cur 1 cur = 1
        simp [upd]
      · show upd st.cost cur (st.cost (cur + 1) + 9) cur
            = upd st.cost cur (st.cost (cur + 1) + 9) (cur + 1) + 9
        rw [upd_self, upd_other st.cost cur (st.cost (cur + 1) + 9) (cur + 1) (by omega)]
      · show upd st.cost cur (st.cost (cur + 1) + 9) cur ≤ 9 * (inp.length - cur)
        rw [upd_self]
        omega
    · have hcell := h.2 i (by omega) hiN
      refine ⟨LeCell_of_eq inp st _ i hcell.1 ?_ rfl ?_, ?_⟩
      · intro j hj
        show upd st.cost cur _ j = st.cost j
        simp [upd]; intro he; omega
      · show upd st.mlen cur 1 i = st.mlen i
        simp [upd]; intro he; omega
      · show upd st.cost cur _ i ≤ 9 * (inp.length - i)
        rw [show upd st.cost cur (st.cost (cur + 1) + 9) i = st.cost i by
          simp [upd]; intro he; omega]
        exact hcell.2

theorem le_extend_spec (inp : List Nat) :
    ∀ fuel st cur pos mcl,
      LeInv inp st cur →
      3 ≤ mcl → mcl < MAX_MATCH →
      0 < pos → pos < cur →
      cur - pos ≤ W_SIZE →
      cur + mcl ≤ inp.length →
      (∀ k, k < mcl → inp.getD (pos + k) 0 = inp.getD (cur + k) 0) →
      inp.getD (pos - 1) 0 = inp.getD (cur - 1) 0 →
      pos ≤ fuel →
      ∃ st2 cur2, le_extend inp fuel st cur pos mcl = (st2, cur2) ∧
        LeInv inp st2 cur2 ∧ 1 ≤ cur2 ∧ cur2 < cur := by
  intro fuel
  induction fuel with
  | zero => intro st cur pos mcl _ _ _ hp _ _ _ _ _ hf; omega
  | succ f ih =>
    intro st cur pos mcl hinv h3 hmax hp hpc hw hend hbytes hlast hf
    have hcur2 : 2 ≤ cur := by omega
    have hsub : cur - 1 - (pos - 1) = cur - pos := by omega
    have hbytes2 : ∀ k, k < mcl + 1 →
        inp.getD (pos - 1 + k) 0 = inp.getD (cur - 1 + k) 0 := by
      intro k hk
      cases k with
      | zero => simpa using hlast
      | succ k2 =>
        rw [show pos - 1 + (k2 + 1) = pos + k2 by omega,
            show cur - 1 + (k2 + 1) = cur + k2 by omega]
        exact hbytes k2 (by omega)
    have hmc : crush_match_cost (cur - 1 - (pos - 1) - 1) (mcl + 1) ≤ 9 * (mcl + 1) := by
      rw [hsub]
      refine crush_match_cost_le _ _ ?_ (by omega)
      have hws : W_SIZE = 2 ^ 21 := by decide
      omega
    have hcend : st.cost (cur - 1 + (mcl + 1)) ≤ 9 * (inp.length - (cur + mcl)) := by
      rw [show cur - 1 + (mcl + 1) = cur + mcl by omega]
      rcases Nat.eq_or_lt_of_le hend with he | hlt
      · have h0 : st.cost (cur + mcl) = 0 := by rw [he]; exact hinv.1
        omega
      · exact (hinv.2 (cur + mcl) (by omega) hlt).2
    have hmm : MIN_MATCH = 3 := by decide
    have hinv2 := LeInv_write_match inp st (cur - 1) (pos - 1) (mcl + 1)
      (crush_match_cost (cur - 1 - (pos - 1) - 1) (mcl + 1) + st.cost (cur - 1 + (mcl + 1)))
      (LeInv_mono inp st cur (cur - 1 + 1) hinv (by omega))
      (by omega) (by omega) (by omega)
      (by omega) (by omega) hbytes2 rfl (by omega)
    simp only [le_extend]
    by_cases hg : 0 < pos - 1 ∧ inp.getD (pos - 1 - 1) 0 = inp.getD (cur - 1 - 1) 0 ∧
        mcl + 1 < MAX_MATCH
    · rw [if_pos hg]
      obtain ⟨st3, cur3, heq, hinv3, h1c, hlt⟩ := ih _ (cur - 1) (pos - 1) (mcl + 1)
        hinv2 (by omega) hg.2.2 hg.1 (by omega) (by omega) (by omega)
        hbytes2 hg.2.1 (by omega)
      exact ⟨st3, cur3, heq, hinv3, h1c, by omega⟩
    · rw [if_neg hg]
      exact ⟨_, cur - 1, rfl, hinv2, by omega, by omega⟩

theorem le_walk_spec (inp : List Nat) (prev : Nat → Nat) (al ll cur : Nat)
    (hN : 9 * inp.length + 64 < ULONG_MAX)
    (hprev : ∀ p, p < inp.length → prev p = NO_MATCH_POS ∨ prev p < p)
    (hcur1 : 1 ≤ cur)
    (hll : cur + ll ≤ inp.length)
    (hllM : ll ≤ MAX_MATCH)
    (hll3 : MIN_MATCH ≤ ll) :
    ∀ num_chain st pos max_len,
      LeInv inp st cur →
      (pos = NO_MATCH_POS ∨ pos < cur) →
      MIN_MATCH - 1 ≤ max_len →
      ∃ st2 cur2, le_walk inp prev al ll num_chain st cur pos max_len = (st2, cur2) ∧
        LeInv inp st2 cur2 ∧ 1 ≤ cur2 ∧ cur2 ≤ cur := by
  have hm3 : MIN_MATCH = 3 := by decide
  have hcurN : cur < inp.length := by omega
  intro num_chain
  induction num_chain with
  | zero => intro st pos max_len hinv _ _; exact ⟨st, cur, rfl, hinv, hcur1, le_rfl⟩
  | succ n ih =>
    intro st pos max_len hinv hpos hml
    by_cases h1 : pos = NO_MATCH_POS
    · refine ⟨st, cur, ?_, hinv, hcur1, le_rfl⟩
      simp only [le_walk]
      rw [if_pos h1]
    · have hpc : pos < cur := hpos.resolve_left h1
      by_cases h2 : W_SIZE < cur - pos
      · refine ⟨st, cur, ?_, hinv, hcur1, le_rfl⟩
        simp only [le_walk]
        rw [if_neg h1, if_pos h2]
      · have hposdisj : prev pos = NO_MATCH_POS ∨ prev pos < cur := by
          rcases hprev pos (by omega) with h | h
          · exact Or.inl h
          · exact Or.inr (by omega)
        by_cases hgate : max_len < ll ∧ inp.getD (pos + max_len) 0 = inp.getD (cur + max_len) 0
        · have hmls := le_match_len_spec inp pos cur ll ll 0 (by omega)
            (fun k hk => absurd hk (by omega)) (by omega)
          set L := le_match_len inp pos cur ll ll 0 with hLdef
          by_cases hml2 : max_len < L
          · have hL3 : 3 ≤ L := by omega
            obtain ⟨mc, mcl, hsceq, hacc⟩ := le_scan_spec st cur pos L (L + 1)
              (max_len + 1) ULONG_MAX (MIN_MATCH - 1) (by omega) (Or.inl ⟨rfl, rfl⟩)
            have hcc : st.cost cur ≤ 9 * (inp.length - cur) :=
              (hinv.2 cur le_rfl hcurN).2
            by_cases hmc : mc < st.cost cur
            · have haccm : mc = crush_match_cost (cur - pos - 1) mcl + st.cost (cur + mcl) ∧
                  3 ≤ mcl ∧ mcl ≤ L := by
                rcases hacc with ⟨he, _⟩ | h
                · exfalso
                  have : ULONG_MAX < st.cost cur := he ▸ hmc
                  omega
                · exact h
              have hinv2 := LeInv_write_match inp st cur pos mcl mc
                (LeInv_mono inp st cur (cur + 1) hinv (by omega))
                (by omega) (by omega) hpc (by omega) (by omega)
                (fun k hk => hmls.2.2 k (by omega)) haccm.1 (by omega)
              by_cases hext : 0 < pos ∧ inp.getD (pos - 1) 0 = inp.getD (cur - 1) 0 ∧
                  mcl < MAX_MATCH
              · obtain ⟨st3, cur3, heq3, hinv3, h1c3, hlt3⟩ := le_extend_spec inp pos
                  ⟨upd st.cost cur mc, upd st.mpos cur pos, upd st.mlen cur mcl⟩
                  cur pos mcl hinv2 (by omega) hext.2.2 hext.1 hpc (by omega) (by omega)
                  (fun k hk => hmls.2.2 k (by omega)) hext.2.1 le_rfl
                refine ⟨st3, cur3, ?_, hinv3, h1c3, by omega⟩
                simp only [le_walk]
                rw [if_neg h1, if_neg h2, if_pos hgate, if_pos hml2]
                simp only [hsceq]
                rw [if_pos hmc, if_pos hext]
                exact heq3
              · by_cases hstop : al ≤ L ∨ L = ll
                · refine ⟨_, cur, ?_, hinv2, hcur1, le_rfl⟩
                  simp only [le_walk]
                  rw [if_neg h1, if_neg h2, if_pos hgate, if_pos hml2]
                  simp only [hsceq]
                  rw [if_pos hmc, if_neg hext, if_pos hstop]
                · obtain ⟨st3, cur3, heq3, hinv3, h1c3, hle3⟩ := ih
                    ⟨upd st.cost cur mc, upd st.mpos cur pos, upd st.mlen cur mcl⟩
                    (prev pos) L hinv2 hposdisj (by omega)
                  refine ⟨st3, cur3, ?_, hinv3, h1c3, hle3⟩
                  simp only [le_walk]
                  rw [if_neg h1, if_neg h2, if_pos hgate, if_pos hml2]
                  simp only [hsceq]
                  rw [if_pos hmc, if_neg hext, if_neg hstop]
                  exact heq3
            · by_cases hstop : al ≤ L ∨ L = ll
              · refine ⟨st, cur, ?_, hinv, hcur1, le_rfl⟩
                simp only [le_walk]
                rw [if_neg h1, if_neg h2, if_pos hgate, if_pos hml2]
                simp only [hsceq]
                rw [if_neg hmc, if_pos hstop]
              · obtain ⟨st3, cur3, heq3, hinv3, h1c3, hle3⟩ := ih st (prev pos) L
                  hinv hposdisj (by omega)
                refine ⟨st3, cur3, ?_, hinv3, h1c3, hle3⟩
                simp only [le_walk]
                rw [if_neg h1, if_neg h2, if_pos hgate, if_pos hml2]
                simp only [hsceq]
                rw [if_neg hmc, if_neg hstop]
                exact heq3
          · by_cases hstop : al ≤ L ∨ L = ll
            · refine ⟨st, cur, ?_, hinv, hcur1, le_rfl⟩
              simp only [le_walk]
              rw [if_neg h1, if_neg h2, if_pos hgate, if_neg hml2, if_pos hstop]
            · obtain ⟨st3, cur3, heq3, hinv3, h1c3, hle3⟩ := ih st (prev pos) max_len
                hinv hposdisj hml
              refine ⟨st3, cur3, ?_, hinv3, h1c3, hle3⟩
              simp only [le_walk]
              rw [if_neg h1, if_neg h2, if_pos hgate, if_neg hml2, if_neg hstop]
              exact heq3
        · by_cases hstop : al ≤ 0 ∨ 0 = ll
          · refine ⟨st, cur, ?_, hinv, hcur1, le_rfl⟩
            simp only [le_walk]
            rw [if_neg h1, if_neg h2, if_neg hgate, if_neg (by omega : ¬ max_len < 0),
              if_pos hstop]
          · obtain ⟨st3, cur3, heq3, hinv3, h1c3, hle3⟩ := ih st (prev pos) max_len
              hinv hposdisj hml
            refine ⟨st3, cur3, ?_, hinv3, h1c3, hle3⟩
            simp only [le_walk]
            rw [if_neg h1, if_neg h2, if_neg hgate, if_neg (by omega : ¬ max_len < 0),
              if_neg hstop]
            exact heq3

theorem le_phase2_spec (inp : List Nat) (prev : Nat → Nat) (md al : Nat)
    (hN : 9 * inp.length + 64 < ULONG_MAX)
    (hprev : ∀ p, p < inp.length → prev p = NO_MATCH_POS ∨ prev p < p) :
    ∀ fuel st cur,
      LeInv inp st (cur + 1) →
      cur + 3 ≤ inp.length →
      cur < fuel →
      LeInv inp (le_phase2 inp prev md al inp.length fuel st cur) 1 := by
  have hm3 : MIN_MATCH = 3 := by decide
  have hM566 : MAX_MATCH = 566 := by decide
  intro fuel
  induction fuel with
  | zero => intro st cur _ _ h0; omega
  | succ f ih =>
    intro st cur hinv hcur3 hfuel
    by_cases hc0 : cur = 0
    · subst hc0
      simp only [le_phase2, if_pos rfl]
      exact hinv
    · have hlit := LeInv_write_lit inp st cur hinv (by omega)
      obtain ⟨st2, cur2, heq, hinv2, h1c, hle⟩ := le_walk_spec inp prev al
        (if MAX_MATCH < inp.length - cur then MAX_MATCH else inp.length - cur) cur
        hN hprev (by omega)
        (by split_ifs <;> omega) (by split_ifs <;> omega) (by split_ifs <;> omega)
        md ⟨upd st.cost cur (st.cost (cur + 1) + 9), st.mpos, upd st.mlen cur 1⟩
        (prev cur) (MIN_MATCH - 1) hlit (hprev cur (by omega)) le_rfl
      simp only [le_phase2]
      rw [if_neg hc0]
      simp only [heq]
      have hinv2b : LeInv inp st2 (cur2 - 1 + 1) := by
        rw [show cur2 - 1 + 1 = cur2 by omega]
        exact hinv2
      exact ih st2 (cur2 - 1) hinv2b (by omega) (by omega)

theorem le_build_chains_spec (inp : List Nat) (bits lmp : Nat) :
    ∀ fuel i st,
      i ≤ lmp + 1 →
      (∀ h, st.lookup h = NO_MATCH_POS ∨ st.lookup h < i) →
      (∀ j, j < i → st.prev j = NO_MATCH_POS ∨ st.prev j < j) →
      (∀ j, i ≤ j → st.prev j = 0) →
      lmp + 1 ≤ i + fuel →
      (∀ j, j < lmp + 1 → (le_build_chains inp bits lmp i fuel st).prev j = NO_MATCH_POS ∨
        (le_build_chains inp bits lmp i fuel st).prev j < j) ∧
      (∀ j, lmp + 1 ≤ j → (le_build_chains inp bits lmp i fuel st).prev j = 0) := by
  intro fuel
  induction fuel with
  | zero =>
    intro i st hi hlk hpr hup hf
    have : i = lmp + 1 := by omega
    subst this
    exact ⟨fun j hj => hpr j (by omega), fun j hj => hup j (by omega)⟩
  | succ f ih =>
    intro i st hi hlk hpr hup hf
    simp only [le_build_chains]
    by_cases hil : i ≤ lmp
    · rw [if_pos hil]
      refine ih (i + 1) _ (by omega) ?_ ?_ ?_ (by omega)
      · intro h
        show upd st.lookup (crush_hash3_bits inp i bits) i h = NO_MATCH_POS ∨
          upd st.lookup (crush_hash3_bits inp i bits) i h < i + 1
        by_cases he : h = crush_hash3_bits inp i bits
        · rw [he, upd_self]
          omega
        · rw [upd_other _ _ _ _ he]
          rcases hlk h with h2 | h2
          · exact Or.inl h2
          · exact Or.inr (by omega)
      · intro j hj
        show upd st.prev i (st.lookup (crush_hash3_bits inp i bits)) j = NO_MATCH_POS ∨
          upd st.prev i (st.lookup (crush_hash3_bits inp i bits)) j < j
        by_cases he : j = i
        · rw [he, upd_self]
          rcases hlk (crush_hash3_bits inp i bits) with h2 | h2
          · exact Or.inl h2
          · exact Or.inr (by omega)
        · rw [upd_other _ _ _ _ he]
          exact hpr j (by omega)
      · intro j hj
        show upd st.prev i (st.lookup (crush_hash3_bits inp i bits)) j = 0
        rw [upd_other _ _ _ _ (by omega)]
        exact hup j (by omega)
    · rw [if_neg hil]
      have : i = lmp + 1 := by omega
      subst this
      exact ⟨fun j hj => hpr j (by omega), fun j hj => hup j (by omega)⟩

theorem le_tokens_spec (inp : List Nat) (st : LeState)
    (hcells : ∀ i, 1 ≤ i → i < inp.length → LeCell inp st i)
    (hc0 : st.cost inp.length = 0) :
    ∀ fuel i, 1 ≤ i → i ≤ inp.length → inp.length ≤ i + fuel →
      TokSeqOK inp i (le_tokens inp st inp.length fuel i) ∧
      (tokensBits (le_tokens inp st inp.length fuel i)).length = st.cost i := by
  have hm3 : MIN_MATCH = 3 := by decide
  intro fuel
  induction fuel with
  | zero =>
    intro i h1 h2 h3
    have : i = inp.length := by omega
    subst this
    exact ⟨rfl, by simp [le_tokens, tokensBits, hc0]⟩
  | succ f ih =>
    intro i h1 h2 h3
    by_cases hiN : i < inp.length
    · rcases hcells i h1 hiN with ⟨hl1, hlc⟩ | ⟨hm1, hm2, hm3p, hm4, hm5, hm6, hm7⟩
      · have hrec := ih (i + 1) (by omega) (by omega) (by omega)
        constructor
        · show TokSeqOK inp i (le_tokens inp st inp.length (f + 1) i)
          simp only [le_tokens, if_pos hiN, if_pos hl1]
          exact ⟨rfl, hiN, hrec.1⟩
        · simp only [le_tokens, if_pos hiN, if_pos hl1, tokensBits]
          rw [List.length_append, hrec.2, encodeLit_length, hlc]
          omega
      · have hmlen1 : ¬ st.mlen i = 1 := by omega
        have hrec := ih (i + st.mlen i) (by omega) (by omega) (by omega)
        have hoff1 : 1 ≤ i - st.mpos i := by omega
        have hoffi : i - st.mpos i ≤ i := by omega
        have hsub : i - (i - st.mpos i) = st.mpos i := by omega
        constructor
        · show TokSeqOK inp i (le_tokens inp st inp.length (f + 1) i)
          simp only [le_tokens, if_pos hiN, if_neg hmlen1]
          refine ⟨by omega, hm2, hoff1, hoffi, hm4, hm5, ?_, hrec.1⟩
          intro k hk
          rw [hsub]
          exact hm6 k hk
        · simp only [le_tokens, if_pos hiN, if_neg hmlen1, tokensBits]
          rw [List.length_append, hrec.2,
            ← crush_match_cost_eq_bits (st.mlen i) (i - st.mpos i)
              (by omega) hm2 hoff1 (by omega), hm7]
    · have hieq : i = inp.length := by omega
      subst hieq
      have hnil : le_tokens inp st inp.length (f + 1) inp.length = [] := by
        simp [le_tokens]
      rw [hnil]
      exact ⟨rfl, by simp [tokensBits, hc0]⟩

theorem tokSeq_lit_map (inp : List Nat) :
    ∀ l i, inp.drop i = l → i ≤ inp.length →
      TokSeqOK inp i (l.map Token.lit) ∧
      (tokensBits (l.map Token.lit)).length = 9 * l.length := by
  intro l
  induction l with
  | nil =>
    intro i hd hi
    have := List.drop_eq_nil_iff.mp hd
    refine ⟨?_, by simp [tokensBits]⟩
    show i = inp.length
    omega
  | cons b t ih =>
    intro i hd hi
    have hiN : i < inp.length := by
      have hlen := congrArg List.length hd
      rw [List.length_drop] at hlen
      simp at hlen
      omega
    rw [List.drop_eq_getElem_cons hiN] at hd
    injection hd with hd1 hd2
    have hrec := ih (i + 1) hd2 (by omega)
    refine ⟨⟨?_, hiN, hrec.1⟩, ?_⟩
    · rw [← hd1]
      exact (List.getD_eq_getElem inp 0 hiN).symm
    · simp only [List.map, tokensBits]
      rw [List.length_append, hrec.2, encodeLit_length, List.length_cons]
      ring

theorem le_st0_inv (inp : List Nat) (h4 : 4 ≤ inp.length) :
    LeInv inp
      ⟨upd (upd (upd (fun _ => 0) (inp.length - 2) 18) (inp.length - 1) 9) inp.length 0,
       fun _ => 0,
       upd (upd (fun _ => 0) (inp.length - 2) 1) (inp.length - 1) 1⟩
      (inp.length - 2) := by
  have hc1 : upd (upd (upd (fun _ => 0) (inp.length - 2) 18) (inp.length - 1) 9)
      inp.length 0 (inp.length - 1) = 9 := by
    rw [upd_other _ _ _ _ (by omega : inp.length - 1 ≠ inp.length), upd_self]
  have hc2 : upd (upd (upd (fun _ => 0) (inp.length - 2) 18) (inp.length - 1) 9)
      inp.length 0 (inp.length - 2) = 18 := by
    rw [upd_other _ _ _ _ (by omega : inp.length - 2 ≠ inp.length),
        upd_other _ _ _ _ (by omega : inp.length - 2 ≠ inp.length - 1), upd_self]
  constructor
  · exact upd_self _ _ _
  · intro i hi hiN
    have hcase : i = inp.length - 2 ∨ i = inp.length - 1 := by omega
    rcases hcase with he | he <;> subst he
    · refine ⟨Or.inl ⟨?_, ?_⟩, ?_⟩
      · show upd (upd (fun _ => 0) (inp.length - 2) 1) (inp.length - 1) 1
            (inp.length - 2) = 1
        rw [upd_other _ _ _ _ (by omega : inp.length - 2 ≠ inp.length - 1), upd_self]
      · show upd (upd (upd (fun _ => 0) (inp.length - 2) 18) (inp.length - 1) 9)
            inp.length 0 (inp.length - 2)
          = upd (upd (upd (fun _ => 0) (inp.length - 2) 18) (inp.length - 1) 9)
            inp.length 0 (inp.length - 2 + 1) + 9
        rw [hc2, show inp.length - 2 + 1 = inp.length - 1 by omega, hc1]
      · show upd (upd (upd (fun _ => 0) (inp.length - 2) 18) (inp.length - 1) 9)
            inp.length 0 (inp.length - 2) ≤ 9 * (inp.length - (inp.length - 2))
        rw [hc2]
        omega
    · refine ⟨Or.inl ⟨?_, ?_⟩, ?_⟩
      · show upd (upd (fun _ => 0) (inp.length - 2) 1) (inp.length - 1) 1
            (inp.length - 1) = 1
        exact upd_self _ _ _
      · show upd (upd (upd (fun _ => 0) (inp.length - 2) 18) (inp.length - 1) 9)
            inp.length 0 (inp.length - 1)
          = upd (upd (upd (fun _ => 0) (inp.length - 2) 18) (inp.length - 1) 9)
            inp.length 0 (inp.length - 1 + 1) + 9
        rw [hc1, show inp.length - 1 + 1 = inp.length by omega, upd_self]
      · show upd (upd (upd (fun _ => 0) (inp.length - 2) 18) (inp.length - 1) 9)
            inp.length 0 (inp.length - 1) ≤ 9 * (inp.length - (inp.length - 1))
        rw [hc1]
        omega

theorem le_tokens_spec0 (inp : List Nat) (st : LeState)
    (hcells : ∀ i, 1 ≤ i → i < inp.length → LeCell inp st i)
    (hc0 : st.cost inp.length = 0) (hm0 : st.mlen 0 = 1) (hpos : 0 < inp.length) :
    ∀ fuel, inp.length ≤ fuel →
      TokSeqOK inp 0 (le_tokens inp st inp.length fuel 0) ∧
      (tokensBits (le_tokens inp st inp.length fuel 0)).length = 9 + st.cost 1 := by
  intro fuel hfuel
  obtain ⟨f, rfl⟩ : ∃ f, fuel = f + 1 := ⟨fuel - 1, by omega⟩
  simp only [le_tokens]
  rw [if_pos hpos, if_pos hm0]
  have hrec := le_tokens_spec inp st hcells hc0 f 1 le_rfl (by omega) (by omega)
  refine ⟨⟨rfl, hpos, hrec.1⟩, ?_⟩
  simp only [tokensBits]
  rw [List.length_append, hrec.2, encodeLit_length]

theorem crush_leparse_tokens_spec (src : List Nat) (md al : Nat)
    (hN : 9 * src.length + 64 < ULONG_MAX) :
    TokSeqOK src 0 (crush_leparse_tokens src md al) ∧
    (tokensBits (crush_leparse_tokens src md al)).length ≤ 9 * src.length := by
  by_cases h0 : src.length = 0
  · have he : crush_leparse_tokens src md al = [] := by
      simp [crush_leparse_tokens, h0]
    rw [he]
    refine ⟨?_, by simp [tokensBits]⟩
    show 0 = src.length
    omega
  · by_cases h4 : src.length < 4
    · have he : crush_leparse_tokens src md al = src.map Token.lit := by
        simp [crush_leparse_tokens, h0, h4]
      rw [he]
      have hlm := tokSeq_lit_map src src 0 (by simp) (by omega)
      exact ⟨hlm.1, le_of_eq hlm.2⟩
    · have h3lt : 3 < src.length := by omega
      simp only [crush_leparse_tokens]
      rw [if_neg h0, if_neg h4, if_pos h3lt,
        if_pos (show 0 < src.length - 3 by omega)]
      set ch := le_build_chains src (le_hash_bits src.length) (src.length - 3) 0
        (src.length - 3 + 1) ⟨fun _ => NO_MATCH_POS, fun _ => 0⟩ with hchdef
      set st0 : LeState :=
        ⟨upd (upd (upd (fun _ => 0) (src.length - 2) 18) (src.length - 1) 9)
          src.length 0,
         fun _ => 0,
         upd (upd (fun _ => 0) (src.length - 2) 1) (src.length - 1) 1⟩ with hst0def
      set st1 := le_phase2 src ch.prev md al src.length src.length st0
        (src.length - 3) with hst1def
      obtain ⟨hchain1, hchain2⟩ := le_build_chains_spec src (le_hash_bits src.length)
        (src.length - 3) (src.length - 3 + 1) 0
        ⟨fun _ => NO_MATCH_POS, fun _ => 0⟩ (by omega)
        (fun h => Or.inl rfl) (fun j hj => absurd hj (by omega)) (fun j _ => rfl)
        (by omega)
      rw [← hchdef] at hchain1 hchain2
      have hprev : ∀ p, p < src.length →
          ch.prev p = NO_MATCH_POS ∨ ch.prev p < p := by
        intro p hp
        by_cases hpl : p < src.length - 3 + 1
        · exact hchain1 p hpl
        · rw [hchain2 p (by omega)]
          exact Or.inr (by omega)
      have hinv0 := le_st0_inv src (by omega)
      rw [← hst0def] at hinv0
      have hinv1 := le_phase2_spec src ch.prev md al hN hprev src.length st0
        (src.length - 3)
        (by rw [show src.length - 3 + 1 = src.length - 2 by omega]; exact hinv0)
        (by omega) (by omega)
      rw [← hst1def] at hinv1
      have hcells : ∀ i, 1 ≤ i → i < src.length →
          LeCell src ⟨st1.cost, upd st1.mpos 0 0, upd st1.mlen 0 1⟩ i := by
        intro i hi hiN
        refine LeCell_of_eq src _ _ i ((hinv1.2 i hi hiN).1) (fun j _ => rfl) ?_ ?_
        · exact upd_other _ _ _ _ (by omega)
        · exact upd_other _ _ _ _ (by omega)
      have hfin := le_tokens_spec0 src ⟨st1.cost, upd st1.mpos 0 0, upd st1.mlen 0 1⟩
        hcells hinv1.1 (show upd st1.mlen 0 1 0 = 1 from upd_self _ _ _)
        (by omega) src.length le_rfl
      refine ⟨hfin.1, ?_⟩
      rw [hfin.2]
      have hcost1 : st1.cost 1 ≤ 9 * (src.length - 1) :=
        (hinv1.2 1 le_rfl (by omega)).2
      show 9 + st1.cost 1 ≤ 9 * src.length
      omega

/-! Supporting lemmas: the btparse dynamic program (cost and cell layer). -/

theorem BtCellEq_of_eq (st st2 : BtState) (j : Nat) (h : BtCellEq st j)
    (hcj : st2.cost j = st.cost j)
    (hcr : st2.cost (j - st.mlen j) = st.cost (j - st.mlen j))
    (hp : st2.mpos j = st.mpos j) (hm : st2.mlen j = st.mlen j) :
    BtCellEq st2 j := by
  rcases h with ⟨h1, h2⟩ | ⟨h1, h2, h3, h4, h5, h6⟩
  · refine Or.inl ⟨by rw [hm]; exact h1, ?_⟩
    rw [h1] at hcr
    rw [hcj, hcr]
    exact h2
  · refine Or.inr ⟨by rw [hm]; exact h1, by rw [hm]; exact h2, by rw [hm]; exact h3,
      by rw [hp, hm]; exact h4, by rw [hp]; exact h5, ?_⟩
    rw [hcj, hp, hm, hcr]
    exact h6

theorem bt_update_spec (cur pos len N : Nat)
    (hpos : pos < cur) (hW : cur - pos ≤ W_SIZE) (hend : cur + len ≤ N)
    (hlenM : len ≤ MAX_MATCH) :
    ∀ fuel st i, 3 ≤ i → BtCells st N (cur + 1) →
      BtCells (bt_update cur pos len fuel st i) N (cur + 1) ∧
      (bt_update cur pos len fuel st i).nodes = st.nodes ∧
      (bt_update cur pos len fuel st i).lookup = st.lookup := by
  have hm3 : MIN_MATCH = 3 := by decide
  intro fuel
  induction fuel with
  | zero => intro st i _ h; exact ⟨h, rfl, rfl⟩
  | succ f ih =>
    intro st i h3 hc
    simp only [bt_update]
    by_cases hi : i ≤ len
    · rw [if_pos hi]
      by_cases hlt : st.cost cur + crush_match_cost (cur - pos - 1) i < st.cost (cur + i)
      · rw [if_pos hlt]
        refine ih _ (i + 1) (by omega) ?_
        obtain ⟨hz, hm0, hbnd, hcells⟩ := hc
        refine ⟨?_, ?_, ?_, ?_⟩
        · show upd st.cost (cur + i) _ 0 = 0
          rw [upd_other _ _ _ _ (by omega)]
          exact hz
        · show upd st.mlen (cur + i) i 0 = 1
          rw [upd_other _ _ _ _ (by omega)]
          exact hm0
        · intro j hj
          show upd st.cost (cur + i) _ j ≤ 9 * j
          rw [upd_other _ _ _ _ (by omega)]
          exact hbnd j hj
        · intro j h1j hjN
          by_cases hji : j = cur + i
          · subst hji
            refine Or.inl ⟨Or.inr ⟨?_, ?_, ?_, ?_, ?_, ?_⟩, ?_⟩
            · show MIN_MATCH ≤ upd st.mlen (cur + i) i (cur + i)
              rw [upd_self]; omega
            · show upd st.mlen (cur + i) i (cur + i) ≤ MAX_MATCH
              rw [upd_self]; omega
            · show upd st.mlen (cur + i) i (cur + i) ≤ cur + i
              rw [upd_self]; omega
            · show upd st.mpos (cur + i) (cur - pos - 1) (cur + i) + 1
                  ≤ cur + i - upd st.mlen (cur + i) i (cur + i)
              rw [upd_self, upd_self]; omega
            · show upd st.mpos (cur + i) (cur - pos - 1) (cur + i) + 1 ≤ W_SIZE
              rw [upd_self]; omega
            · show upd st.cost (cur + i) (st.cost cur + crush_match_cost (cur - pos - 1) i)
                  (cur + i)
                = upd st.cost (cur + i) (st.cost cur + crush_match_cost (cur - pos - 1) i)
                    (cur + i - upd st.mlen (cur + i) i (cur + i))
                  + crush_match_cost (upd st.mpos (cur + i) (cur - pos - 1) (cur + i))
                    (upd st.mlen (cur + i) i (cur + i))
              rw [upd_self, upd_self, upd_self, show cur + i - i = cur by omega,
                upd_other _ _ _ _ (by omega)]
            · show cur + i - upd st.mlen (cur + i) i (cur + i) < cur + 1
              rw [upd_self]; omega
          · rcases hcells j h1j hjN with ⟨hcell, href⟩ | ⟨hf, hcu, hml⟩
            · refine Or.inl ⟨BtCellEq_of_eq st _ j hcell ?_ ?_ ?_ ?_, ?_⟩
              · exact upd_other _ _ _ _ hji
              · exact upd_other _ _ _ _ (by omega)
              · exact upd_other _ _ _ _ hji
              · exact upd_other _ _ _ _ hji
              · show j - upd st.mlen (cur + i) i j < cur + 1
                rw [upd_other _ _ _ _ hji]
                exact href
            · refine Or.inr ⟨hf, ?_, ?_⟩
              · show upd st.cost (cur + i) _ j = UINT32_MAX
                rw [upd_other _ _ _ _ hji]
                exact hcu
              · show upd st.mlen (cur + i) i j = 1
                rw [upd_other _ _ _ _ hji]
                exact hml
      · rw [if_neg hlt]
        exact ih st (i + 1) (by omega) hc
    · rw [if_neg hi]
      exact ⟨hc, rfl, rfl⟩

theorem bt_literal_step_spec (st : BtState) (N cur : Nat)
    (hc : BtCells st N cur) (hcur : cur < N) (hN32 : 9 * N + 64 < UINT32_MAX) :
    BtCells (bt_literal_step st cur) N (cur + 1) ∧
    (bt_literal_step st cur).nodes = st.nodes ∧
    (bt_literal_step st cur).lookup = st.lookup := by
  obtain ⟨hz, hm0, hbnd, hcells⟩ := hc
  have hccur : st.cost cur ≤ 9 * cur := hbnd cur le_rfl
  simp only [bt_literal_step]
  by_cases hg : st.cost cur + 9 < st.cost (cur + 1)
  · rw [if_pos hg]
    refine ⟨⟨?_, ?_, ?_, ?_⟩, rfl, rfl⟩
    · show upd st.cost (cur + 1) (st.cost cur + 9) 0 = 0
      rw [upd_other _ _ _ _ (by omega)]
      exact hz
    · show upd st.mlen (cur + 1) 1 0 = 1
      rw [upd_other _ _ _ _ (by omega)]
      exact hm0
    · intro j hj
      show upd st.cost (cur + 1) (st.cost cur + 9) j ≤ 9 * j
      by_cases hji : j = cur + 1
      · subst hji
        rw [upd_self]
        omega
      · rw [upd_other _ _ _ _ hji]
        exact hbnd j (by omega)
    · intro j h1j hjN
      by_cases hji : j = cur + 1
      · subst hji
        refine Or.inl ⟨Or.inl ⟨?_, ?_⟩, ?_⟩
        · exact upd_self _ _ _
        · show upd st.cost (cur + 1) (st.cost cur + 9) (cur + 1)
              = upd st.cost (cur + 1) (st.cost cur + 9) (cur + 1 - 1) + 9
          rw [upd_self, show cur + 1 - 1 = cur by omega, upd_other _ _ _ _ (by omega)]
        · show cur + 1 - upd st.mlen (cur + 1) 1 (cur + 1) < cur + 1
          rw [upd_self]
          omega
      · rcases hcells j h1j hjN with ⟨hcell, href⟩ | ⟨hf, hcu, hml⟩
        · refine Or.inl ⟨BtCellEq_of_eq st _ j hcell ?_ ?_ ?_ ?_, ?_⟩
          · exact upd_other _ _ _ _ hji
          · exact upd_other _ _ _ _ (by omega)
          · rfl
          · exact upd_other _ _ _ _ hji
          · show j - upd st.mlen (cur + 1) 1 j < cur + 1
            rw [upd_other _ _ _ _ hji]
            omega
        · refine Or.inr ⟨by omega, ?_, ?_⟩
          · show upd st.cost (cur + 1) (st.cost cur + 9) j = UINT32_MAX
            rw [upd_other _ _ _ _ hji]
            exact hcu
          · show upd st.mlen (cur + 1) 1 j = 1
            rw [upd_other _ _ _ _ hji]
            exact hml
  · rw [if_neg hg]
    refine ⟨⟨hz, hm0, ?_, ?_⟩, rfl, rfl⟩
    · intro j hj
      by_cases hji : j = cur + 1
      · subst hji
        omega
      · exact hbnd j (by omega)
    · intro j h1j hjN
      by_cases hji : j = cur + 1
      · subst hji
        rcases hcells (cur + 1) h1j hjN with ⟨hcell, href⟩ | ⟨hf, hcu, hml⟩
        · exact Or.inl ⟨hcell, by omega⟩
        · exfalso
          have hU : UINT32_MAX = 2 ^ 32 - 1 := by decide
          omega
      · rcases hcells j h1j hjN with ⟨hcell, href⟩ | ⟨hf, hcu, hml⟩
        · exact Or.inl ⟨hcell, by omega⟩
        · exact Or.inr ⟨by omega, hcu, hml⟩

theorem BtCells_ext (st st2 : BtState) (N f : Nat) (h : BtCells st N f)
    (hc : st2.cost = st.cost) (hp : st2.mpos = st.mpos) (hm : st2.mlen = st.mlen) :
    BtCells st2 N f := by
  obtain ⟨hz, hm0, hbnd, hcells⟩ := h
  refine ⟨by rw [hc]; exact hz, by rw [hm]; exact hm0,
    fun j hj => by rw [hc]; exact hbnd j hj, fun j h1 h2 => ?_⟩
  rcases hcells j h1 h2 with ⟨hcell, href⟩ | ⟨hf, hcu, hml⟩
  · refine Or.inl ⟨?_, by rw [hm]; exact href⟩
    rcases hcell with ⟨a, b⟩ | ⟨a, b, c, d, e, g⟩
    · exact Or.inl ⟨by rw [hm]; exact a, by rw [hc]; exact b⟩
    · exact Or.inr ⟨by rw [hm]; exact a, by rw [hm]; exact b, by rw [hm]; exact c,
        by rw [hp, hm]; exact d, by rw [hp]; exact e, by rw [hc, hp, hm]; exact g⟩
  · exact Or.inr ⟨hf, by rw [hc]; exact hcu, by rw [hm]; exact hml⟩

theorem le_match_len_le (inp : List Nat) (pos cur limit : Nat) :
    ∀ fuel len, len ≤ limit → le_match_len inp pos cur limit fuel len ≤ limit := by
  intro fuel
  induction fuel with
  | zero => intro len h; exact h
  | succ f ih =>
    intro len h
    simp only [le_match_len]
    by_cases hc : len < limit ∧ inp.getD (pos + len) 0 = inp.getD (cur + len) 0
    · rw [if_pos hc]
      exact ih (len + 1) (by omega)
    · rw [if_neg hc]
      exact h

theorem bt_walk_spec (inp : List Nat) (al ll cur : Nat)
    (hll : cur + ll ≤ inp.length) (hllM : ll ≤ MAX_MATCH) :
    ∀ num_chain st nmc pos lt_node gt_node lt_len gt_len max_len,
      BtCells st inp.length (cur + 1) →
      (∀ s, st.nodes s = NO_MATCH_POS ∨ st.nodes s < cur) →
      (pos = NO_MATCH_POS ∨ pos < cur) →
      lt_len ≤ ll → gt_len ≤ ll →
      2 ≤ max_len →
      BtCells (bt_walk inp al ll cur num_chain st nmc pos lt_node gt_node
          lt_len gt_len max_len).1 inp.length (cur + 1) ∧
      (∀ s, (bt_walk inp al ll cur num_chain st nmc pos lt_node gt_node
          lt_len gt_len max_len).1.nodes s = NO_MATCH_POS ∨
        (bt_walk inp al ll cur num_chain st nmc pos lt_node gt_node
          lt_len gt_len max_len).1.nodes s < cur) ∧
      (bt_walk inp al ll cur num_chain st nmc pos lt_node gt_node
          lt_len gt_len max_len).1.lookup = st.lookup := by
  intro num_chain
  induction num_chain using Nat.strong_induction_on with
  | _ n ih =>
    intro st nmc pos lt_node gt_node lt_len gt_len max_len hc hnodes hpos hlt hgt hml
    rw [bt_walk]
    by_cases hguard : pos = NO_MATCH_POS ∨ W_SIZE < cur - pos ∨ n = 0
    · rw [if_pos hguard]
      refine ⟨BtCells_ext st _ _ _ hc rfl rfl rfl, ?_, rfl⟩
      intro s
      show upd (upd st.nodes lt_node NO_MATCH_POS) gt_node NO_MATCH_POS s
          = NO_MATCH_POS ∨
        upd (upd st.nodes lt_node NO_MATCH_POS) gt_node NO_MATCH_POS s < cur
      by_cases h1 : s = gt_node
      · rw [h1, upd_self]
        exact Or.inl rfl
      · rw [upd_other _ _ _ _ h1]
        by_cases h2 : s = lt_node
        · rw [h2, upd_self]
          exact Or.inl rfl
        · rw [upd_other _ _ _ _ h2]
          exact hnodes s
    · rw [if_neg hguard]
      have hpc : pos < cur := by
        rcases hpos with h | h
        · exact absurd (Or.inl h) hguard
        · exact h
      have hW : cur - pos ≤ W_SIZE := by
        rcases Nat.lt_or_ge W_SIZE (cur - pos) with h | h
        · exact absurd (Or.inr (Or.inl h)) hguard
        · exact h
      have hn0 : n ≠ 0 := fun h => hguard (Or.inr (Or.inr h))
      simp only []
      have hLle : le_match_len inp pos cur ll ll
          (if lt_len < gt_len then lt_len else gt_len) ≤ ll :=
        le_match_len_le inp pos cur ll ll _ (by split_ifs <;> omega)
      set L := le_match_len inp pos cur ll ll
        (if lt_len < gt_len then lt_len else gt_len) with hLdef
      by_cases hupd : cur = nmc ∧ max_len < L
      · rw [if_pos hupd]
        obtain ⟨hc2, hn2, hl2⟩ := bt_update_spec cur pos L inp.length hpc hW
          (by omega) (by omega) (L + 1) st (max_len + 1) (by omega) hc
        by_cases hstop : al ≤ L ∨ L = ll
        · rw [if_pos hstop]
          refine ⟨BtCells_ext _ _ _ _ hc2 rfl rfl rfl, ?_, hl2⟩
          intro s
          show upd (upd (bt_update cur pos L (L + 1) st (max_len + 1)).nodes lt_node
              ((bt_update cur pos L (L + 1) st (max_len + 1)).nodes (2 * pos)))
              gt_node
              ((bt_update cur pos L (L + 1) st (max_len + 1)).nodes (2 * pos + 1)) s
              = NO_MATCH_POS ∨
            upd (upd (bt_update cur pos L (L + 1) st (max_len + 1)).nodes lt_node
              ((bt_update cur pos L (L + 1) st (max_len + 1)).nodes (2 * pos)))
              gt_node
              ((bt_update cur pos L (L + 1) st (max_len + 1)).nodes (2 * pos + 1)) s
              < cur
          rw [hn2]
          by_cases h1 : s = gt_node
          · rw [h1, upd_self]
            exact hnodes (2 * pos + 1)
          · rw [upd_other _ _ _ _ h1]
            by_cases h2 : s = lt_node
            · rw [h2, upd_self]
              exact hnodes (2 * pos)
            · rw [upd_other _ _ _ _ h2]
              exact hnodes s
        · rw [if_neg hstop]
          have hLlt : L < ll := by
            rcases Nat.lt_or_ge L ll with h | h
            · exact h
            · exact absurd (Or.inr (by omega)) hstop
          by_cases hdir : inp.getD (pos + L) 0 < inp.getD (cur + L) 0
          · rw [if_pos hdir]
            have hnodes2 : ∀ s, upd (bt_update cur pos L (L + 1) st (max_len + 1)).nodes
                lt_node pos s = NO_MATCH_POS ∨
                upd (bt_update cur pos L (L + 1) st (max_len + 1)).nodes lt_node pos s
                  < cur := by
              intro s
              by_cases h1 : s = lt_node
              · rw [h1, upd_self]
                exact Or.inr hpc
              · rw [upd_other _ _ _ _ h1, hn2]
                exact hnodes s
            have hres := ih (n - 1) (by omega)
              ⟨(bt_update cur pos L (L + 1) st (max_len + 1)).cost,
               (bt_update cur pos L (L + 1) st (max_len + 1)).mpos,
               (bt_update cur pos L (L + 1) st (max_len + 1)).mlen,
               upd (bt_update cur pos L (L + 1) st (max_len + 1)).nodes lt_node pos,
               (bt_update cur pos L (L + 1) st (max_len + 1)).lookup⟩
              (if al ≤ L then cur + L else nmc)
              (upd (bt_update cur pos L (L + 1) st (max_len + 1)).nodes lt_node pos
                (2 * pos + 1))
              (2 * pos + 1) gt_node L gt_len L
              (BtCells_ext _ _ _ _ hc2 rfl rfl rfl)
              hnodes2 (hnodes2 (2 * pos + 1)) (by omega) hgt (by omega)
            exact ⟨hres.1, hres.2.1, by rw [hres.2.2, hl2]⟩
          · rw [if_neg hdir]
            have hnodes2 : ∀ s, upd (bt_update cur pos L (L + 1) st (max_len + 1)).nodes
                gt_node pos s = NO_MATCH_POS ∨
                upd (bt_update cur pos L (L + 1) st (max_len + 1)).nodes gt_node pos s
                  < cur := by
              intro s
              by_cases h1 : s = gt_node
              · rw [h1, upd_self]
                exact Or.inr hpc
              · rw [upd_other _ _ _ _ h1, hn2]
                exact hnodes s
            have hres := ih (n - 1) (by omega)
              ⟨(bt_update cur pos L (L + 1) st (max_len + 1)).cost,
               (bt_update cur pos L (L + 1) st (max_len + 1)).mpos,
               (bt_update cur pos L (L + 1) st (max_len + 1)).mlen,
               upd (bt_update cur pos L (L + 1) st (max_len + 1)).nodes gt_node pos,
               (bt_update cur pos L (L + 1) st (max_len + 1)).lookup⟩
              (if al ≤ L then cur + L else nmc)
              (upd (bt_update cur pos L (L + 1) st (max_len + 1)).nodes gt_node pos
                (2 * pos))
              lt_node (2 * pos) lt_len L L
              (BtCells_ext _ _ _ _ hc2 rfl rfl rfl)
              hnodes2 (hnodes2 (2 * pos)) hlt (by omega) (by omega)
            exact ⟨hres.1, hres.2.1, by rw [hres.2.2, hl2]⟩
      · rw [if_neg hupd]
        by_cases hstop : al ≤ L ∨ L = ll
        · rw [if_pos hstop]
          refine ⟨BtCells_ext _ _ _ _ hc rfl rfl rfl, ?_, rfl⟩
          intro s
          show upd (upd st.nodes lt_node (st.nodes (2 * pos))) gt_node
              (st.nodes (2 * pos + 1)) s = NO_MATCH_POS ∨
            upd (upd st.nodes lt_node (st.nodes (2 * pos))) gt_node
              (st.nodes (2 * pos + 1)) s < cur
          by_cases h1 : s = gt_node
          · rw [h1, upd_self]
            exact hnodes (2 * pos + 1)
          · rw [upd_other _ _ _ _ h1]
            by_cases h2 : s = lt_node
            · rw [h2, upd_self]
              exact hnodes (2 * pos)
            · rw [upd_other _ _ _ _ h2]
              exact hnodes s
        · rw [if_neg hstop]
          have hLlt : L < ll := by
            rcases Nat.lt_or_ge L ll with h | h
            · exact h
            · exact absurd (Or.inr (by omega)) hstop
          by_cases hdir : inp.getD (pos + L) 0 < inp.getD (cur + L) 0
          · rw [if_pos hdir]
            have hnodes2 : ∀ s, upd st.nodes lt_node pos s = NO_MATCH_POS ∨
                upd st.nodes lt_node pos s < cur := by
              intro s
              by_cases h1 : s = lt_node
              · rw [h1, upd_self]
                exact Or.inr hpc
              · rw [upd_other _ _ _ _ h1]
                exact hnodes s
            have hres := ih (n - 1) (by omega)
              ⟨st.cost, st.mpos, st.mlen, upd st.nodes lt_node pos, st.lookup⟩
              nmc (upd st.nodes lt_node pos (2 * pos + 1))
              (2 * pos + 1) gt_node L gt_len max_len
              (BtCells_ext _ _ _ _ hc rfl rfl rfl)
              hnodes2 (hnodes2 (2 * pos + 1)) (by omega) hgt hml
            exact ⟨hres.1, hres.2.1, hres.2.2⟩
          · rw [if_neg hdir]
            have hnodes2 : ∀ s, upd st.nodes gt_node pos s = NO_MATCH_POS ∨
                upd st.nodes gt_node pos s < cur := by
              intro s
              by_cases h1 : s = gt_node
              · rw [h1, upd_self]
                exact Or.inr hpc
              · rw [upd_other _ _ _ _ h1]
                exact hnodes s
            have hres := ih (n - 1) (by omega)
              ⟨st.cost, st.mpos, st.mlen, upd st.nodes gt_node pos, st.lookup⟩
              nmc (upd st.nodes gt_node pos (2 * pos))
              lt_node (2 * pos) lt_len L max_len
              (BtCells_ext _ _ _ _ hc rfl rfl rfl)
              hnodes2 (hnodes2 (2 * pos)) hlt (by omega) hml
            exact ⟨hres.1, hres.2.1, hres.2.2⟩

theorem bt_phase1_spec (inp : List Nat) (md al lmp : Nat)
    (hN32 : 9 * inp.length + 64 < UINT32_MAX)
    (hlmp : lmp + 3 ≤ inp.length) :
    ∀ fuel cur st nmc,
      cur ≤ lmp + 1 →
      BtCells st inp.length cur →
      (∀ h, st.lookup h = NO_MATCH_POS ∨ st.lookup h < cur) →
      (∀ s, st.nodes s = NO_MATCH_POS ∨ st.nodes s < cur ∨ st.nodes s = 0) →
      lmp + 1 ≤ cur + fuel →
      BtCells (bt_phase1 inp md al lmp inp.length fuel cur st nmc) inp.length
        (lmp + 1) := by
  intro fuel
  induction fuel with
  | zero =>
    intro cur st nmc hcl hc _ _ hf
    have : cur = lmp + 1 := by omega
    subst this
    exact hc
  | succ f ih =>
    intro cur st nmc hcl hc hlk hnd hf
    simp only [bt_phase1]
    by_cases hil : cur ≤ lmp
    · rw [if_pos hil]
      obtain ⟨hc1, hn1, hl1⟩ := bt_literal_step_spec st inp.length cur hc (by omega) hN32
      by_cases hcur0 : cur = 0
      · subst hcur0
        have hpos0 : (bt_literal_step st 0).lookup
            (crush_hash3_bits inp 0 CRUSH_HASH_BITS) = NO_MATCH_POS := by
          rw [hl1]
          rcases hlk (crush_hash3_bits inp 0 CRUSH_HASH_BITS) with h | h
          · exact h
          · omega
        rw [bt_walk, if_pos (Or.inl hpos0)]
        refine ih 1 _ _ (by omega) (BtCells_ext _ _ _ _ hc1 rfl rfl rfl) ?_ ?_
          (by omega)
        · intro h
          show upd (bt_literal_step st 0).lookup
              (crush_hash3_bits inp 0 CRUSH_HASH_BITS) 0 h = NO_MATCH_POS ∨
            upd (bt_literal_step st 0).lookup
              (crush_hash3_bits inp 0 CRUSH_HASH_BITS) 0 h < 1
          by_cases he : h = crush_hash3_bits inp 0 CRUSH_HASH_BITS
          · rw [he, upd_self]
            omega
          · rw [upd_other _ _ _ _ he, hl1]
            rcases hlk h with h2 | h2
            · exact Or.inl h2
            · omega
        · intro s
          show upd (upd (bt_literal_step st 0).nodes (2 * 0) NO_MATCH_POS)
              (2 * 0 + 1) NO_MATCH_POS s = NO_MATCH_POS ∨
            upd (upd (bt_literal_step st 0).nodes (2 * 0) NO_MATCH_POS)
              (2 * 0 + 1) NO_MATCH_POS s < 1 ∨
            upd (upd (bt_literal_step st 0).nodes (2 * 0) NO_MATCH_POS)
              (2 * 0 + 1) NO_MATCH_POS s = 0
          by_cases h1 : s = 2 * 0 + 1
          · rw [h1, upd_self]
            exact Or.inl rfl
          · rw [upd_other _ _ _ _ h1]
            by_cases h2 : s = 2 * 0
            · rw [h2, upd_self]
              exact Or.inl rfl
            · rw [upd_other _ _ _ _ h2, hn1]
              rcases hnd s with h3 | h3 | h3
              · exact Or.inl h3
              · omega
              · exact Or.inr (Or.inr h3)
      · have hnd2 : ∀ s, st.nodes s = NO_MATCH_POS ∨ st.nodes s < cur := by
          intro s
          rcases hnd s with h | h | h
          · exact Or.inl h
          · exact Or.inr h
          · exact Or.inr (by omega)
        have hpos : (bt_literal_step st cur).lookup
            (crush_hash3_bits inp cur CRUSH_HASH_BITS) = NO_MATCH_POS ∨
            (bt_literal_step st cur).lookup
              (crush_hash3_bits inp cur CRUSH_HASH_BITS) < cur := by
          rw [hl1]
          exact hlk _
        have hwalk := bt_walk_spec inp al
          (if cur = (if nmc < cur then cur else nmc) then
            (if MAX_MATCH < inp.length - cur then MAX_MATCH else inp.length - cur)
           else if al < (if MAX_MATCH < inp.length - cur then MAX_MATCH
                else inp.length - cur) then al
           else (if MAX_MATCH < inp.length - cur then MAX_MATCH else inp.length - cur))
          cur (by split_ifs <;> omega) (by split_ifs <;> omega)
          md
          ⟨(bt_literal_step st cur).cost, (bt_literal_step st cur).mpos,
           (bt_literal_step st cur).mlen, (bt_literal_step st cur).nodes,
           upd (bt_literal_step st cur).lookup
             (crush_hash3_bits inp cur CRUSH_HASH_BITS) cur⟩
          (if nmc < cur then cur else nmc)
          ((bt_literal_step st cur).lookup (crush_hash3_bits inp cur CRUSH_HASH_BITS))
          (2 * cur) (2 * cur + 1) 0 0 (MIN_MATCH - 1)
          (BtCells_ext _ _ _ _ hc1 rfl rfl rfl)
          (by intro s
              show (bt_literal_step st cur).nodes s = NO_MATCH_POS ∨
                (bt_literal_step st cur).nodes s < cur
              rw [hn1]
              exact hnd2 s)
          hpos (by omega) (by omega) (by decide)
        refine ih (cur + 1) _ _ (by omega) hwalk.1 ?_ ?_ (by omega)
        · intro h
          have hlw := hwalk.2.2
          rw [hlw]
          show upd (bt_literal_step st cur).lookup
              (crush_hash3_bits inp cur CRUSH_HASH_BITS) cur h = NO_MATCH_POS ∨
            upd (bt_literal_step st cur).lookup
              (crush_hash3_bits inp cur CRUSH_HASH_BITS) cur h < cur + 1
          by_cases he : h = crush_hash3_bits inp cur CRUSH_HASH_BITS
          · rw [he, upd_self]
            omega
          · rw [upd_other _ _ _ _ he, hl1]
            rcases hlk h with h2 | h2
            · exact Or.inl h2
            · exact Or.inr (by omega)
        · intro s
          rcases hwalk.2.1 s with h2 | h2
          · exact Or.inl h2
          · exact Or.inr (Or.inl (by omega))
    · rw [if_neg hil]
      have : cur = lmp + 1 := by omega
      subst this
      exact hc

theorem bt_tail_spec (inp : List Nat) (hN32 : 9 * inp.length + 64 < UINT32_MAX) :
    ∀ fuel st cur,
      BtCells st inp.length cur →
      cur ≤ inp.length →
      inp.length ≤ cur + fuel →
      BtCells (bt_tail inp.length fuel st cur) inp.length inp.length := by
  intro fuel
  induction fuel with
  | zero =>
    intro st cur hc h1 h2
    have : cur = inp.length := by omega
    subst this
    exact hc
  | succ f ih =>
    intro st cur hc h1 h2
    simp only [bt_tail]
    by_cases hil : cur < inp.length
    · rw [if_pos hil]
      exact ih _ (cur + 1) (bt_literal_step_spec st inp.length cur hc hil hN32).1
        (by omega) (by omega)
    · rw [if_neg hil]
      have : cur = inp.length := by omega
      subst this
      exact hc

theorem bt_gather_tokens (inp : List Nat) (orig : BtState)
    (hcells : ∀ j, 1 ≤ j → j ≤ inp.length → BtCellEq orig j)
    (hc0 : orig.cost 0 = 0) :
    ∀ fuelg cur next_token st,
      cur ≤ next_token → next_token ≤ inp.length →
      (∀ j, j ≤ cur → st.cost j = orig.cost j ∧ st.mpos j = orig.mpos j ∧
        st.mlen j = orig.mlen j) →
      cur + 1 ≤ fuelg →
      ∃ st2 nt2, bt_gather st fuelg cur next_token = (st2, nt2) ∧
        nt2 ≤ next_token ∧
        (∀ s, next_token < s → st2.mpos s = st.mpos s ∧ st2.mlen s = st.mlen s) ∧
        ∀ b K fuelt,
          b + cur ≤ inp.length →
          (∀ st3 fuelt2,
            (∀ s, next_token < s →
              st3.mpos s = st.mpos s ∧ st3.mlen s = st.mlen s) →
            inp.length - next_token ≤ fuelt2 →
            TokSeqBounds inp.length (b + cur)
              (bt_tokens inp st3 inp.length fuelt2 (next_token + 1) (b + cur)) ∧
            (tokensBits (bt_tokens inp st3 inp.length fuelt2 (next_token + 1)
              (b + cur))).length = K) →
          ∀ st4,
            (∀ s, nt2 < s → st4.mpos s = st2.mpos s ∧ st4.mlen s = st2.mlen s) →
            inp.length - nt2 ≤ fuelt →
            TokSeqBounds inp.length b
              (bt_tokens inp st4 inp.length fuelt (nt2 + 1) b) ∧
            (tokensBits (bt_tokens inp st4 inp.length fuelt (nt2 + 1) b)).length
              = orig.cost cur + K := by
  have hm3 : MIN_MATCH = 3 := by decide
  intro fuelg
  induction fuelg with
  | zero => intro cur next_token st _ _ _ hf; omega
  | succ g ih =>
    intro cur next_token st hcnt hntN hagree hf
    by_cases hcur0 : cur = 0
    · subst hcur0
      refine ⟨st, next_token, by simp [bt_gather], le_rfl, fun s _ => ⟨rfl, rfl⟩, ?_⟩
      intro b K fuelt hbN hcont st4 hag4 hfu
      have := hcont st4 fuelt (fun s hs => hag4 s hs) hfu
      rw [Nat.add_zero] at this
      rw [hc0, Nat.zero_add]
      exact this
    · have hcur1 : 1 ≤ cur := by omega
      have hcell := hcells cur hcur1 (by omega)
      have hml1 : 1 ≤ orig.mlen cur := by
        rcases hcell with ⟨h1, _⟩ | ⟨h1, _⟩ <;> omega
      have hmlc : orig.mlen cur ≤ cur := by
        rcases hcell with ⟨h1, _⟩ | ⟨_, _, h3, _⟩ <;> omega
      have hwm : (⟨st.cost, upd st.mpos next_token (st.mpos cur),
          upd st.mlen next_token (st.mlen cur), st.nodes,
          st.lookup⟩ : BtState).mlen cur = orig.mlen cur := by
        show upd st.mlen next_token (st.mlen cur) cur = orig.mlen cur
        by_cases he : cur = next_token
        · rw [he, upd_self, ← he]
          exact (hagree cur le_rfl).2.2
        · rw [upd_other _ _ _ _ he]
          exact (hagree cur le_rfl).2.2
      obtain ⟨st2, nt2, heq, hnt2, hag2, htoks⟩ := ih (cur - orig.mlen cur)
        (next_token - 1)
        ⟨st.cost, upd st.mpos next_token (st.mpos cur),
         upd st.mlen next_token (st.mlen cur), st.nodes, st.lookup⟩
        (by omega) (by omega)
        (by
          intro j hj
          refine ⟨(hagree j (by omega)).1, ?_, ?_⟩
          · show upd st.mpos next_token (st.mpos cur) j = orig.mpos j
            rw [upd_other _ _ _ _ (by omega)]
            exact (hagree j (by omega)).2.1
          · show upd st.mlen next_token (st.mlen cur) j = orig.mlen j
            rw [upd_other _ _ _ _ (by omega)]
            exact (hagree j (by omega)).2.2)
        (by omega)
      refine ⟨st2, nt2, ?_, by omega, ?_, ?_⟩
      · simp only [bt_gather]
        rw [if_neg hcur0]
        rw [show cur - (⟨st.cost, upd st.mpos next_token (st.mpos cur),
            upd st.mlen next_token (st.mlen cur), st.nodes,
            st.lookup⟩ : BtState).mlen cur
            = cur - orig.mlen cur from by rw [hwm]]
        exact heq
      · intro s hs
        have h1 := hag2 s (by omega)
        refine ⟨?_, ?_⟩
        · rw [h1.1]
          show upd st.mpos next_token (st.mpos cur) s = st.mpos s
          rw [upd_other _ _ _ _ (by omega)]
        · rw [h1.2]
          show upd st.mlen next_token (st.mlen cur) s = st.mlen s
          rw [upd_other _ _ _ _ (by omega)]
      · intro b K fuelt hbN hcont st4 hag4 hfu
        have hnt1 : 1 ≤ next_token := by omega
        have hres := htoks b
          ((if orig.mlen cur = 1 then 9
            else crush_match_cost (orig.mpos cur) (orig.mlen cur)) + K) fuelt
          (by omega)
          (by
            intro st3 fuelt2 hag3 hf2
            obtain ⟨f2, rfl⟩ : ∃ f2, fuelt2 = f2 + 1 := ⟨fuelt2 - 1, by omega⟩
            have hm3eq : st3.mlen (next_token - 1 + 1) = orig.mlen cur := by
              rw [show next_token - 1 + 1 = next_token by omega]
              rw [(hag3 next_token (by omega)).2]
              rw [show (⟨st.cost, upd st.mpos next_token (st.mpos cur),
                upd st.mlen next_token (st.mlen cur), st.nodes,
                st.lookup⟩ : BtState).mlen next_token
                  = st.mlen cur from upd_self _ _ _]
              exact (hagree cur le_rfl).2.2
            have hp3eq : st3.mpos (next_token - 1 + 1) = orig.mpos cur := by
              rw [show next_token - 1 + 1 = next_token by omega]
              rw [(hag3 next_token (by omega)).1]
              rw [show (⟨st.cost, upd st.mpos next_token (st.mpos cur),
                upd st.mlen next_token (st.mlen cur), st.nodes,
                st.lookup⟩ : BtState).mpos next_token
                  = st.mpos cur from upd_self _ _ _]
              exact (hagree cur le_rfl).2.1
            have hcont3 := hcont st3 f2
              (by
                intro s hs
                have h1 := hag3 s (by omega)
                refine ⟨?_, ?_⟩
                · rw [h1.1]
                  show upd st.mpos next_token (st.mpos cur) s = st.mpos s
                  rw [upd_other _ _ _ _ (by omega)]
                · rw [h1.2]
                  show upd st.mlen next_token (st.mlen cur) s = st.mlen s
                  rw [upd_other _ _ _ _ (by omega)])
              (by omega)
            simp only [bt_tokens]
            rw [if_pos (show next_token - 1 + 1 ≤ inp.length by omega)]
            rw [hm3eq, hp3eq]
            have hstep : b + (cur - orig.mlen cur) + orig.mlen cur = b + cur := by
              omega
            rcases hcell with ⟨h1, h2⟩ | ⟨h1, h2, h3, h4, h5, h6⟩
            · rw [if_pos h1, hstep]
              refine ⟨⟨by omega, ?_⟩, ?_⟩
              · rw [show next_token - 1 + 1 + 1 = next_token + 1 by omega,
                  show b + (cur - orig.mlen cur) + 1 = b + cur by omega]
                exact hcont3.1
              · simp only [tokensBits]
                rw [List.length_append, encodeLit_length,
                  show next_token - 1 + 1 + 1 = next_token + 1 by omega,
                  hcont3.2, if_pos h1]
            · have hne1 : ¬ orig.mlen cur = 1 := by omega
              have heqb : crush_match_cost (orig.mpos cur) (orig.mlen cur)
                  = (encodeTokBits (Token.mat (orig.mlen cur)
                      (orig.mpos cur + 1))).length := by
                have hcb := crush_match_cost_eq_bits (orig.mlen cur)
                  (orig.mpos cur + 1) (by omega) (by omega) (by omega) (by omega)
                rw [show orig.mpos cur + 1 - 1 = orig.mpos cur by omega] at hcb
                exact hcb
              rw [if_neg hne1, hstep]
              refine ⟨⟨by omega, by omega, by omega, by omega, by omega, by omega,
                ?_⟩, ?_⟩
              · rw [show next_token - 1 + 1 + 1 = next_token + 1 by omega, hstep]
                exact hcont3.1
              · simp only [tokensBits]
                rw [List.length_append,
                  show next_token - 1 + 1 + 1 = next_token + 1 by omega,
                  hcont3.2, if_neg hne1, ← heqb])
          st4 hag4 hfu
        refine ⟨hres.1, ?_⟩
        rw [hres.2]
        rcases hcell with ⟨h1, h2⟩ | ⟨h1, h2, h3, h4, h5, h6⟩
        · rw [if_pos h1, h1]
          omega
        · rw [if_neg (show ¬ orig.mlen cur = 1 by omega)]
          omega

theorem tokSeqOK_bounds (inp : List Nat) :
    ∀ ts i, TokSeqOK inp i ts → TokSeqBounds inp.length i ts := by
  intro ts
  induction ts with
  | nil => intro i h; exact h
  | cons t ts ih =>
    intro i h
    cases t with
    | lit b => exact ⟨h.2.1, ih (i + 1) h.2.2⟩
    | mat len offs =>
      obtain ⟨h1, h2, h3, h4, h5, h6, h7, h8⟩ := h
      exact ⟨h1, h2, h3, h4, h5, h6, ih (i + len) h8⟩

theorem crush_btparse_tokens_spec (src : List Nat) (md al : Nat)
    (hN32 : 9 * src.length + 64 < UINT32_MAX) :
    TokSeqBounds src.length 0 (crush_btparse_tokens src md al) ∧
    (tokensBits (crush_btparse_tokens src md al)).length ≤ 9 * src.length := by
  by_cases h0 : src.length = 0
  · have he : crush_btparse_tokens src md al = [] := by
      simp [crush_btparse_tokens, h0]
    rw [he]
    refine ⟨?_, by simp [tokensBits]⟩
    show (0 : Nat) = src.length
    omega
  · by_cases h4 : src.length < 4
    · have he : crush_btparse_tokens src md al = src.map Token.lit := by
        simp [crush_btparse_tokens, h0, h4]
      rw [he]
      have hlm := tokSeq_lit_map src src 0 (by simp) (by omega)
      exact ⟨tokSeqOK_bounds src _ 0 hlm.1, le_of_eq hlm.2⟩
    · have h3lt : 3 < src.length := by omega
      simp only [crush_btparse_tokens]
      rw [if_neg h0, if_neg h4, if_pos h3lt]
      set st0 : BtState := ⟨upd (fun _ => UINT32_MAX) 0 0, fun _ => 0, fun _ => 1,
        fun _ => 0, fun _ => NO_MATCH_POS⟩ with hst0
      set st1 := bt_phase1 src md al (src.length - 3) src.length
        (src.length - 3 + 1) 0 st0 0 with hst1
      set st2 := bt_tail src.length src.length st1 (src.length - 3 + 1) with hst2
      have hc0 : BtCells st0 src.length 0 := by
        refine ⟨?_, rfl, ?_, ?_⟩
        · show upd (fun _ => UINT32_MAX) 0 0 0 = 0
          exact upd_self _ _ _
        · intro j hj
          have hj0 : j = 0 := by omega
          subst hj0
          show upd (fun _ => UINT32_MAX) 0 0 0 ≤ 9 * 0
          rw [upd_self]
        · intro j h1j hjN
          refine Or.inr ⟨by omega, ?_, rfl⟩
          show upd (fun _ => UINT32_MAX) 0 0 j = UINT32_MAX
          rw [upd_other _ _ _ _ (by omega)]
      have hphase := bt_phase1_spec src md al (src.length - 3) hN32 (by omega)
        (src.length - 3 + 1) 0 st0 0 (by omega) hc0
        (fun h => Or.inl rfl) (fun s => Or.inr (Or.inr rfl)) (by omega)
      rw [← hst1] at hphase
      have htail := bt_tail_spec src hN32 src.length st1 (src.length - 3 + 1)
        hphase (by omega) (by omega)
      rw [← hst2] at htail
      have hcells : ∀ j, 1 ≤ j → j ≤ src.length → BtCellEq st2 j := by
        intro j h1 h2
        rcases htail.2.2.2 j h1 h2 with ⟨hcell, _⟩ | ⟨hf, _, _⟩
        · exact hcell
        · omega
      obtain ⟨st3, nt3, heq, hnt3, hag3, htoks⟩ := bt_gather_tokens src st2 hcells
        htail.1 (src.length + 1) src.length src.length st2 le_rfl le_rfl
        (fun j _ => ⟨rfl, rfl, rfl⟩) (by omega)
      have hres := htoks 0 0 (src.length + 1) (by omega)
        (by
          intro st3' fuelt2 _ _
          have hnil : bt_tokens src st3' src.length fuelt2 (src.length + 1)
              (0 + src.length) = [] := by
            cases fuelt2 with
            | zero => rfl
            | succ f2 =>
              simp only [bt_tokens]
              rw [if_neg (by omega)]
          rw [hnil]
          refine ⟨?_, by simp [tokensBits]⟩
          show 0 + src.length = src.length
          omega)
        st3 (fun s _ => ⟨rfl, rfl⟩) (by omega)
      rw [heq]
      have hcN : st2.cost src.length ≤ 9 * src.length :=
        htail.2.2.1 src.length le_rfl
      exact ⟨hres.1, by rw [hres.2]; omega⟩

theorem bt_tokens_shape (inp : List Nat) (st : BtState) (N : Nat) :
    ∀ fuel i cur t, t ∈ bt_tokens inp st N fuel i cur →
      (∃ j, t = Token.lit (inp.getD j 0)) ∨ ∃ l o, t = Token.mat l o := by
  intro fuel
  induction fuel with
  | zero => intro i cur t ht; exact absurd ht (List.not_mem_nil t)
  | succ f ih =>
    intro i cur t ht
    simp only [bt_tokens] at ht
    by_cases hi : i ≤ N
    · rw [if_pos hi] at ht
      rcases List.mem_cons.mp ht with heq | ht2
      · by_cases hm1 : st.mlen i = 1
        · rw [if_pos hm1] at heq
          exact Or.inl ⟨cur, heq⟩
        · rw [if_neg hm1] at heq
          exact Or.inr ⟨st.mlen i, st.mpos i + 1, heq⟩
      · exact ih _ _ t ht2
    · rw [if_neg hi] at ht
      exact absurd ht (List.not_mem_nil t)

theorem tokSeqBounds_mat_ok (N : Nat) :
    ∀ ts i l o, TokSeqBounds N i ts → Token.mat l o ∈ ts →
      MIN_MATCH ≤ l ∧ l ≤ MAX_MATCH ∧ 1 ≤ o ∧ o ≤ W_SIZE := by
  intro ts
  induction ts with
  | nil => intro i l o _ hm; exact absurd hm (List.not_mem_nil _)
  | cons t ts ih =>
    intro i l o h hm
    rcases List.mem_cons.mp hm with heq | hm2
    · cases t with
      | lit b => exact absurd heq (by simp)
      | mat l2 o2 =>
        obtain ⟨h1, h2, h3, h4, h5, h6, h7⟩ := h
        injection heq with hl ho
        subst hl
        subst ho
        exact ⟨h1, h2, h3, h5⟩
    · cases t with
      | lit b => exact ih (i + 1) l o h.2 hm2
      | mat l2 o2 => exact ih (i + l2) l o h.2.2.2.2.2.2 hm2

theorem crush_btparse_tokens_tokenOK (src : List Nat) (md al : Nat)
    (hbytes : ∀ b ∈ src, b < 256) (hN32 : 9 * src.length + 64 < UINT32_MAX) :
    ∀ t ∈ crush_btparse_tokens src md al, TokenOK t := by
  intro t ht
  by_cases h0 : src.length = 0
  · rw [show crush_btparse_tokens src md al = [] from by
      simp [crush_btparse_tokens, h0]] at ht
    exact absurd ht (List.not_mem_nil t)
  · by_cases h4 : src.length < 4
    · rw [show crush_btparse_tokens src md al = src.map Token.lit from by
        simp [crush_btparse_tokens, h0, h4]] at ht
      obtain ⟨b, hb, rfl⟩ := List.mem_map.mp ht
      exact hbytes b hb
    · have h3lt : 3 < src.length := by omega
      have hbounds := (crush_btparse_tokens_spec src md al hN32).1
      have hshape : (∃ j, t = Token.lit (src.getD j 0)) ∨
          ∃ l o, t = Token.mat l o := by
        simp only [crush_btparse_tokens] at ht
        rw [if_neg h0, if_neg h4, if_pos h3lt] at ht
        exact bt_tokens_shape src _ src.length _ _ _ t ht
      rcases hshape with ⟨j, rfl⟩ | ⟨l, o, rfl⟩
      · show src.getD j 0 < 256
        by_cases hj : j < src.length
        · exact hbytes _ (getD_mem src j hj)
        · rw [List.getD_eq_default _ _ (by omega)]
          decide
      · obtain ⟨h1, h2, h3, h5⟩ :=
          tokSeqBounds_mat_ok src.length _ 0 l o hbounds ht
        exact ⟨h1, h2, h3, h5⟩

theorem pack_size_of_bits (ts : List Token) (N : Nat)
    (htok : ∀ t ∈ ts, TokenOK t) (hbits : (tokensBits ts).length ≤ 9 * N) :
    (lbw_finalize (emitTokens le_putToken lbw_init ts)).length ≤
      crush_max_packed_size N := by
  obtain ⟨hw, hv⟩ := emitTokens_le_spec ts lbw_init lbw_init_winv htok
  obtain ⟨_, hlen, _⟩ := lbw_finalize_spec _ hv
  rw [hlen]
  have ht : totalBits (emitTokens le_putToken lbw_init ts) =
      (tokensBits ts).length := by
    rw [← wbits_length, hw]
    have h0 : wbits lbw_init = [] := rfl
    rw [h0, List.nil_append]
  rw [ht]
  show ((tokensBits ts).length + 7) / 8 ≤ N + N / 8 + 64
  omega

theorem crush_pack_leparse_size (src : List Nat) (md al : Nat)
    (hN : 9 * src.length + 64 < ULONG_MAX) (hbytes : ∀ b ∈ src, b < 256) :
    (crush_pack_leparse src md al).length ≤ crush_max_packed_size src.length := by
  obtain ⟨hseq, hbits⟩ := crush_leparse_tokens_spec src md al hN
  exact pack_size_of_bits _ _ (tokSeqOK_tokenOK src hbytes _ 0 hseq) hbits

theorem crush_pack_btparse_size (src : List Nat) (md al : Nat)
    (hN32 : 9 * src.length + 64 < UINT32_MAX) (hbytes : ∀ b ∈ src, b < 256) :
    (crush_pack_btparse src md al).length ≤ crush_max_packed_size src.length := by
  obtain ⟨hseq, hbits⟩ := crush_btparse_tokens_spec src md al hN32
  have htok := crush_btparse_tokens_tokenOK src md al hbytes hN32
  have heq : crush_pack_btparse src md al =
      lbw_finalize (emitTokens le_putToken lbw_init
        (crush_btparse_tokens src md al)) := by
    simp only [crush_pack_btparse]
    rw [emitTokens_bt_eq_le _ _ htok]
  rw [heq]
  exact pack_size_of_bits _ _ htok hbits

theorem crush_pack_leparse_roundtrip (src : List Nat) (md al : Nat)
    (hbytes : ∀ b ∈ src, b < 256) (hN : 9 * src.length + 64 < ULONG_MAX) :
    crush_depack (crush_pack_leparse src md al) src.length = some src :=
  pack_le_roundtrip src _ hbytes (crush_leparse_tokens_spec src md al hN).1

theorem crush_pack_level_roundtrip_fast (src : List Nat) (level : Nat)
    (h5 : 5 ≤ level) (h7 : level ≤ 7)
    (hbytes : ∀ b ∈ src, b < 256) (hsize : src.length < 2 ^ 28) :
    ∃ out, crush_pack_level src level = some out ∧
      crush_depack out src.length = some src := by
  have h28 : (2 : Nat) ^ 28 = 268435456 := by norm_num
  have hN : 9 * src.length + 64 < ULONG_MAX := by
    have h1 : ULONG_MAX = 18446744073709551615 := by decide
    omega
  interval_cases level
  · exact ⟨_, rfl, crush_pack_leparse_roundtrip src 1 16 hbytes hN⟩
  · exact ⟨_, rfl, crush_pack_leparse_roundtrip src 8 32 hbytes hN⟩
  · exact ⟨_, rfl, crush_pack_leparse_roundtrip src 64 64 hbytes hN⟩

/-- C6: for every byte input of length N below 2^28 and every level in
{5..10}, crush_pack_level succeeds and the packed byte count is at most
crush_max_packed_size N = N + N / 8 + 64. -/
theorem C6_output_size_bound (src : List Nat) (level : Nat)
    (h5 : 5 ≤ level) (h10 : level ≤ 10)
    (hbytes : ∀ b ∈ src, b < 256) (hsize : src.length < 2 ^ 28) :
    ∃ out, crush_pack_level src level = some out ∧
      out.length ≤ crush_max_packed_size src.length := by
  have h28 : (2 : Nat) ^ 28 = 268435456 := by norm_num
  have hN : 9 * src.length + 64 < ULONG_MAX := by
    have h1 : ULONG_MAX = 18446744073709551615 := by decide
    omega
  have hN32 : 9 * src.length + 64 < UINT32_MAX := by
    have h1 : UINT32_MAX = 4294967295 := by decide
    omega
  interval_cases level
  · exact ⟨_, rfl, crush_pack_leparse_size src 1 16 hN hbytes⟩
  · exact ⟨_, rfl, crush_pack_leparse_size src 8 32 hN hbytes⟩
  · exact ⟨_, rfl, crush_pack_leparse_size src 64 64 hN hbytes⟩
  · exact ⟨_, rfl, crush_pack_btparse_size src 16 96 hN32 hbytes⟩
  · exact ⟨_, rfl, crush_pack_btparse_size src 32 224 hN32 hbytes⟩
  · exact ⟨_, rfl, crush_pack_btparse_size src ULONG_MAX ULONG_MAX hN32 hbytes⟩

theorem C6_output_size_bound_witness :
    ((5 : Nat) ≤ 5 ∧ (5 : Nat) ≤ 10 ∧ (∀ b ∈ ([1, 2, 3] : List Nat), b < 256) ∧
        ([1, 2, 3] : List Nat).length < 2 ^ 28) ∧
      ∃ out, crush_pack_level [1, 2, 3] 5 = some out ∧
        out.length ≤ crush_max_packed_size ([1, 2, 3] : List Nat).length :=
  ⟨⟨by decide, by decide, by decide, by decide⟩,
    C6_output_size_bound [1, 2, 3] 5 (by decide) (by decide) (by decide) (by decide)⟩

/-- C9: at every level in {5..10} the token sequence behind
crush_pack_level satisfies TokSeqBounds: the tokens tile [0, N) exactly,
and every match token starting at source position i has
MIN_MATCH = 3 <= len <= MAX_MATCH = 566, 1 <= offs <= i and
offs <= W_SIZE; in particular no match of length 2 is ever emitted. -/
theorem C9_emitted_token_invariant (src : List Nat) (level : Nat)
    (h5 : 5 ≤ level) (h10 : level ≤ 10) (hsize : src.length < 2 ^ 28) :
    ∃ ts, crush_tokens_level src level = some ts ∧
      TokSeqBounds src.length 0 ts := by
  have h28 : (2 : Nat) ^ 28 = 268435456 := by norm_num
  have hN : 9 * src.length + 64 < ULONG_MAX := by
    have h1 : ULONG_MAX = 18446744073709551615 := by decide
    omega
  have hN32 : 9 * src.length + 64 < UINT32_MAX := by
    have h1 : UINT32_MAX = 4294967295 := by decide
    omega
  interval_cases level
  · exact ⟨_, rfl, tokSeqOK_bounds src _ 0 (crush_leparse_tokens_spec src 1 16 hN).1⟩
  · exact ⟨_, rfl, tokSeqOK_bounds src _ 0 (crush_leparse_tokens_spec src 8 32 hN).1⟩
  · exact ⟨_, rfl, tokSeqOK_bounds src _ 0 (crush_leparse_tokens_spec src 64 64 hN).1⟩
  · exact ⟨_, rfl, (crush_btparse_tokens_spec src 16 96 hN32).1⟩
  · exact ⟨_, rfl, (crush_btparse_tokens_spec src 32 224 hN32).1⟩
  · exact ⟨_, rfl, (crush_btparse_tokens_spec src ULONG_MAX ULONG_MAX hN32).1⟩

theorem C9_emitted_token_invariant_witness :
    ((5 : Nat) ≤ 8 ∧ (8 : Nat) ≤ 10 ∧ ([5, 5, 5, 5, 5] : List Nat).length < 2 ^ 28) ∧
      ∃ ts, crush_tokens_level [5, 5, 5, 5, 5] 8 = some ts ∧
        TokSeqBounds ([5, 5, 5, 5, 5] : List Nat).length 0 ts :=
  ⟨⟨by decide, by decide, by decide⟩,
    C9_emitted_token_invariant [5, 5, 5, 5, 5] 8 (by decide) (by decide) (by decide)⟩

/-- C7: the hash width rule of the hash-chain match finder is the
opposite of the claimed one: when 2 * N is below 2 ^ CRUSH_HASH_BITS the
full CRUSH_HASH_BITS width is used, and the width is shrunk to
floor (log2 N) only when 2 * N reaches 2 ^ CRUSH_HASH_BITS. -/
theorem C7_hash_width_rule (N : Nat) :
    (2 * N < 2 ^ CRUSH_HASH_BITS → le_hash_bits N = CRUSH_HASH_BITS) ∧
    (2 ^ CRUSH_HASH_BITS ≤ 2 * N → le_hash_bits N = Nat.log2 N) := by
  constructor
  · intro h
    rw [le_hash_bits, if_pos (show 2 * N < LOOKUP_SIZE from h)]
  · intro h
    rw [le_hash_bits, if_neg (show ¬ 2 * N < LOOKUP_SIZE from by
      rw [LOOKUP_SIZE]; omega), crush_log2_eq]

theorem C7_hash_width_rule_witness :
    (2 * 131072 < 2 ^ CRUSH_HASH_BITS → le_hash_bits 131072 = CRUSH_HASH_BITS) ∧
    (2 ^ CRUSH_HASH_BITS ≤ 2 * 131072 → le_hash_bits 131072 = Nat.log2 131072) :=
  C7_hash_width_rule 131072

/-- C7 counterexample: N = 16 satisfies 2 * N < 2 ^ CRUSH_HASH_BITS, and
there the claimed rule demands the shrunk width floor (log2 16) = 4, but
the code uses the full width le_hash_bits 16 = CRUSH_HASH_BITS = 17. -/
theorem C7_hash_width_cx :
    2 * 16 < 2 ^ CRUSH_HASH_BITS ∧ le_hash_bits 16 = 17 ∧ Nat.log2 16 = 4 := by
  refine ⟨by decide, ?_, ?_⟩
  · rw [le_hash_bits, if_pos (by decide)]
    decide
  · norm_num [Nat.log2]

/-- C8: the claimed weak monotonicity of the fast levels is refuted by
cx8 (C8_monotonicity_cx); what does hold is that on inputs shorter than
MIN_MATCH + 1 = 4 bytes the three fast levels produce byte-identical
packed output, the parse being parameter-independent there. -/
theorem C8_fast_levels_small_inputs (src : List Nat) (h4 : src.length < 4) :
    crush_pack_level src 6 = crush_pack_level src 5 ∧
    crush_pack_level src 7 = crush_pack_level src 5 := by
  have he : ∀ md al : Nat, crush_leparse_tokens src md al = src.map Token.lit := by
    intro md al
    by_cases h0 : src.length = 0
    · have hnil : src = [] := List.length_eq_zero.mp h0
      subst hnil
      simp [crush_leparse_tokens]
    · simp only [crush_leparse_tokens]
      rw [if_neg h0, if_pos h4]
  constructor
  · show some (crush_pack_leparse src 8 32) = some (crush_pack_leparse src 1 16)
    simp only [crush_pack_leparse]
    rw [he 8 32, he 1 16]
  · show some (crush_pack_leparse src 64 64) = some (crush_pack_leparse src 1 16)
    simp only [crush_pack_leparse]
    rw [he 64 64, he 1 16]

theorem C8_fast_levels_small_inputs_witness :
    ([1, 2, 3] : List Nat).length < 4 ∧
      (crush_pack_level [1, 2, 3] 6 = crush_pack_level [1, 2, 3] 5 ∧
       crush_pack_level [1, 2, 3] 7 = crush_pack_level [1, 2, 3] 5) :=
  ⟨by decide, C8_fast_levels_small_inputs [1, 2, 3] (by decide)⟩

/-- C8 counterexample: on the 58-byte input cx8, level 5 packs to 16
bytes while level 6 packs to 17 bytes, so level 6 produces strictly
larger output than level 5. -/
theorem C8_monotonicity_cx :
    ∃ o5 o6, crush_pack_level cx8 5 = some o5 ∧ crush_pack_level cx8 6 = some o6 ∧
      o5.length < o6.length :=
  ⟨_, _, rfl, rfl, by decide⟩

/-! Supporting lemmas: the btparse search trees. -/

theorem agreeB_mono (inp : List Nat) (p q m m2 : Nat) (h : agreeB inp p q m)
    (hle : m2 ≤ m) : agreeB inp p q m2 :=
  fun k hk => h k (by omega)

theorem agreeB_trans (inp : List Nat) (p q r m : Nat) (h1 : agreeB inp p q m)
    (h2 : agreeB inp q r m) : agreeB inp p r m :=
  fun k hk => (h1 k hk).trans (h2 k hk)

theorem between_agree (inp : List Nat) (cur lt_len gt_len y : Nat)
    (hl : BetweenL inp cur lt_len y) (hg : BetweenG inp cur gt_len y) :
    agreeB inp y cur (min lt_len gt_len) := by
  rcases hl with hl | ⟨m, hm, ha, hb⟩
  · exact agreeB_mono inp y cur lt_len _ hl (Nat.min_le_left _ _)
  · rcases hg with hg | ⟨m2, hm2, ha2, hb2⟩
    · exact agreeB_mono inp y cur gt_len _ hg (Nat.min_le_right _ _)
    · exfalso
      rcases Nat.lt_trichotomy m m2 with h | h | h
      · have := ha2 m h
        omega
      · subst h
        omega
      · have := ha m2 h
        omega

theorem InTreeF_mono (nodes : Nat → Nat) :
    ∀ f f2 r y, f ≤ f2 → InTreeF nodes f r y → InTreeF nodes f2 r y := by
  intro f
  induction f with
  | zero => intro f2 r y _ h; exact h.elim
  | succ f ih =>
    intro f2 r y hle h
    obtain ⟨g, rfl⟩ : ∃ g, f2 = g + 1 := ⟨f2 - 1, by omega⟩
    obtain ⟨hne, hc⟩ := h
    refine ⟨hne, ?_⟩
    rcases hc with h | h | h
    · exact Or.inl h
    · exact Or.inr (Or.inl (ih g _ y (by omega) h))
    · exact Or.inr (Or.inr (ih g _ y (by omega) h))

theorem InT_self (nodes : Nat → Nat) (r : Nat) (h : r ≠ NO_MATCH_POS) :
    InT nodes r r :=
  ⟨1, h, Or.inl rfl⟩

theorem InT_nmp (nodes : Nat → Nat) (y : Nat) : ¬ InT nodes NO_MATCH_POS y := by
  rintro ⟨f, hf⟩
  cases f with
  | zero => exact hf
  | succ f => exact hf.1 rfl

theorem InT_unfold (nodes : Nat → Nat) (r y : Nat) :
    InT nodes r y ↔ r ≠ NO_MATCH_POS ∧
      (y = r ∨ InT nodes (nodes (2 * r)) y ∨ InT nodes (nodes (2 * r + 1)) y) := by
  constructor
  · rintro ⟨f, hf⟩
    cases f with
    | zero => exact hf.elim
    | succ f =>
      obtain ⟨hne, hc⟩ := hf
      refine ⟨hne, ?_⟩
      rcases hc with h | h | h
      · exact Or.inl h
      · exact Or.inr (Or.inl ⟨f, h⟩)
      · exact Or.inr (Or.inr ⟨f, h⟩)
  · rintro ⟨hne, hc⟩
    rcases hc with rfl | ⟨f, h⟩ | ⟨f, h⟩
    · exact ⟨1, hne, Or.inl rfl⟩
    · exact ⟨f + 1, hne, Or.inr (Or.inl h)⟩
    · exact ⟨f + 1, hne, Or.inr (Or.inr h)⟩

theorem InT_left (nodes : Nat → Nat) (r y : Nat) (hne : r ≠ NO_MATCH_POS)
    (h : InT nodes (nodes (2 * r)) y) : InT nodes r y :=
  (InT_unfold nodes r y).mpr ⟨hne, Or.inr (Or.inl h)⟩

theorem InT_right (nodes : Nat → Nat) (r y : Nat) (hne : r ≠ NO_MATCH_POS)
    (h : InT nodes (nodes (2 * r + 1)) y) : InT nodes r y :=
  (InT_unfold nodes r y).mpr ⟨hne, Or.inr (Or.inr h)⟩

theorem GoodF_nmp (inp : List Nat) (al : Nat) (nodes : Nat → Nat) (bound : Nat) :
    ∀ f, GoodF inp al nodes bound f NO_MATCH_POS := by
  intro f
  cases f with
  | zero => rfl
  | succ f => exact Or.inl rfl

theorem GoodF_mono (inp : List Nat) (al : Nat) (nodes : Nat → Nat) (bound : Nat) :
    ∀ f f2 r, f ≤ f2 → GoodF inp al nodes bound f r →
      GoodF inp al nodes bound f2 r := by
  intro f
  induction f with
  | zero =>
    intro f2 r _ h
    rw [show r = NO_MATCH_POS from h]
    exact GoodF_nmp inp al nodes bound f2
  | succ f ih =>
    intro f2 r hle h
    obtain ⟨g, rfl⟩ : ∃ g, f2 = g + 1 := ⟨f2 - 1, by omega⟩
    rcases h with h | ⟨hb, hl, hr, hml, hmr, hd⟩
    · exact Or.inl h
    · exact Or.inr ⟨hb, ih g _ (by omega) hl, ih g _ (by omega) hr, hml, hmr, hd⟩

theorem GoodT_nmp (inp : List Nat) (al : Nat) (nodes : Nat → Nat) (bound : Nat) :
    GoodT inp al nodes bound NO_MATCH_POS :=
  ⟨0, rfl⟩

theorem GoodT_unfold (inp : List Nat) (al : Nat) (nodes : Nat → Nat)
    (bound r : Nat) :
    GoodT inp al nodes bound r ↔ r = NO_MATCH_POS ∨
      (r < bound ∧
        GoodT inp al nodes bound (nodes (2 * r)) ∧
        GoodT inp al nodes bound (nodes (2 * r + 1)) ∧
        (∀ y, InT nodes (nodes (2 * r)) y → y < r ∧ RelLt inp al y r) ∧
        (∀ y, InT nodes (nodes (2 * r + 1)) y → y < r ∧ RelGt inp al y r) ∧
        (∀ y, InT nodes (nodes (2 * r)) y →
          InT nodes (nodes (2 * r + 1)) y → False)) := by
  constructor
  · rintro ⟨f, hf⟩
    cases f with
    | zero => exact Or.inl hf
    | succ f =>
      rcases hf with h | ⟨hb, hl, hr, hml, hmr, hd⟩
      · exact Or.inl h
      · exact Or.inr ⟨hb, ⟨f, hl⟩, ⟨f, hr⟩, hml, hmr, hd⟩
  · rintro (rfl | ⟨hb, ⟨f1, hl⟩, ⟨f2, hr⟩, hml, hmr, hd⟩)
    · exact GoodT_nmp inp al nodes bound
    · exact ⟨max f1 f2 + 1, Or.inr ⟨hb,
        GoodF_mono inp al nodes bound f1 _ _ (Nat.le_max_left _ _) hl,
        GoodF_mono inp al nodes bound f2 _ _ (Nat.le_max_right _ _) hr, hml, hmr, hd⟩⟩

theorem GoodF_bound_mono (inp : List Nat) (al : Nat) (nodes : Nat → Nat)
    (bound bound2 : Nat) (hb : bound ≤ bound2) :
    ∀ f r, GoodF inp al nodes bound f r → GoodF inp al nodes bound2 f r := by
  intro f
  induction f with
  | zero => intro r h; exact h
  | succ f ih =>
    intro r h
    rcases h with h | ⟨hb2, hl, hr, hml, hmr, hd⟩
    · exact Or.inl h
    · exact Or.inr ⟨by omega, ih _ hl, ih _ hr, hml, hmr, hd⟩

theorem GoodT_bound_mono (inp : List Nat) (al : Nat) (nodes : Nat → Nat)
    (bound bound2 r : Nat) (hb : bound ≤ bound2)
    (h : GoodT inp al nodes bound r) : GoodT inp al nodes bound2 r := by
  obtain ⟨f, hf⟩ := h
  exact ⟨f, GoodF_bound_mono inp al nodes bound bound2 hb f r hf⟩

theorem GoodT_member_lt (inp : List Nat) (al : Nat) (nodes : Nat → Nat)
    (bound r y : Nat) (hg : GoodT inp al nodes bound r) (hm : InT nodes r y) :
    y ≤ r ∧ y < bound := by
  obtain ⟨hne, hc⟩ := (InT_unfold nodes r y).mp hm
  rcases (GoodT_unfold inp al nodes bound r).mp hg with h | ⟨hb, _, _, hml, hmr, _⟩
  · exact absurd h hne
  · rcases hc with rfl | h | h
    · exact ⟨le_rfl, hb⟩
    · have := hml y h
      exact ⟨by omega, by omega⟩
    · have := hmr y h
      exact ⟨by omega, by omega⟩

theorem InTreeF_congr (nodes n2 : Nat → Nat) :
    ∀ f r, (∀ y, InT nodes r y →
        n2 (2 * y) = nodes (2 * y) ∧ n2 (2 * y + 1) = nodes (2 * y + 1)) →
      ∀ y, InTreeF n2 f r y ↔ InTreeF nodes f r y := by
  intro f
  induction f with
  | zero => intro r _ y; exact Iff.rfl
  | succ f ih =>
    intro r hag y
    constructor
    · rintro ⟨hne, hc⟩
      refine ⟨hne, ?_⟩
      have hself := hag r (InT_self nodes r hne)
      rcases hc with h | h | h
      · exact Or.inl h
      · rw [hself.1] at h
        exact Or.inr (Or.inl ((ih (nodes (2 * r))
          (fun z hz => hag z (InT_left nodes r z hne hz)) y).mp h))
      · rw [hself.2] at h
        exact Or.inr (Or.inr ((ih (nodes (2 * r + 1))
          (fun z hz => hag z (InT_right nodes r z hne hz)) y).mp h))
    · rintro ⟨hne, hc⟩
      refine ⟨hne, ?_⟩
      have hself := hag r (InT_self nodes r hne)
      rcases hc with h | h | h
      · exact Or.inl h
      · refine Or.inr (Or.inl ?_)
        rw [hself.1]
        exact (ih (nodes (2 * r))
          (fun z hz => hag z (InT_left nodes r z hne hz)) y).mpr h
      · refine Or.inr (Or.inr ?_)
        rw [hself.2]
        exact (ih (nodes (2 * r + 1))
          (fun z hz => hag z (InT_right nodes r z hne hz)) y).mpr h

theorem InT_congr (nodes n2 : Nat → Nat) (r : Nat)
    (hag : ∀ y, InT nodes r y →
      n2 (2 * y) = nodes (2 * y) ∧ n2 (2 * y + 1) = nodes (2 * y + 1)) (y : Nat) :
    InT n2 r y ↔ InT nodes r y :=
  exists_congr fun f => InTreeF_congr nodes n2 f r hag y

theorem GoodF_congr (inp : List Nat) (al : Nat) (nodes n2 : Nat → Nat)
    (bound : Nat) :
    ∀ f r, (∀ y, InT nodes r y →
        n2 (2 * y) = nodes (2 * y) ∧ n2 (2 * y + 1) = nodes (2 * y + 1)) →
      (GoodF inp al n2 bound f r ↔ GoodF inp al nodes bound f r) := by
  intro f
  induction f with
  | zero => intro r _; exact Iff.rfl
  | succ f ih =>
    intro r hag
    by_cases hne : r = NO_MATCH_POS
    · subst hne
      constructor
      · intro _; exact Or.inl rfl
      · intro _; exact Or.inl rfl
    · have hself := hag r (InT_self nodes r hne)
      have hagl : ∀ z, InT nodes (nodes (2 * r)) z →
          n2 (2 * z) = nodes (2 * z) ∧ n2 (2 * z + 1) = nodes (2 * z + 1) :=
        fun z hz => hag z (InT_left nodes r z hne hz)
      have hagr : ∀ z, InT nodes (nodes (2 * r + 1)) z →
          n2 (2 * z) = nodes (2 * z) ∧ n2 (2 * z + 1) = nodes (2 * z + 1) :=
        fun z hz => hag z (InT_right nodes r z hne hz)
      constructor
      · rintro (h | ⟨hb, hl, hr, hml, hmr, hd⟩)
        · exact absurd h hne
        · rw [hself.1] at hl
          rw [hself.2] at hr
          refine Or.inr ⟨hb, (ih _ hagl).mp hl, (ih _ hagr).mp hr, ?_, ?_, ?_⟩
          · intro y hy
            exact hml y (by rw [hself.1]; exact (InT_congr nodes n2 _ hagl y).mpr hy)
          · intro y hy
            exact hmr y (by rw [hself.2]; exact (InT_congr nodes n2 _ hagr y).mpr hy)
          · intro y hy1 hy2
            exact hd y
              (by rw [hself.1]; exact (InT_congr nodes n2 _ hagl y).mpr hy1)
              (by rw [hself.2]; exact (InT_congr nodes n2 _ hagr y).mpr hy2)
      · rintro (h | ⟨hb, hl, hr, hml, hmr, hd⟩)
        · exact absurd h hne
        · refine Or.inr ⟨hb, ?_, ?_, ?_, ?_, ?_⟩
          · rw [hself.1]
            exact (ih _ hagl).mpr hl
          · rw [hself.2]
            exact (ih _ hagr).mpr hr
          · intro y hy
            refine hml y ?_
            rw [hself.1] at hy
            exact (InT_congr nodes n2 _ hagl y).mp hy
          · intro y hy
            refine hmr y ?_
            rw [hself.2] at hy
            exact (InT_congr nodes n2 _ hagr y).mp hy
          · intro y hy1 hy2
            rw [hself.1] at hy1
            rw [hself.2] at hy2
            exact hd y ((InT_congr nodes n2 _ hagl y).mp hy1)
              ((InT_congr nodes n2 _ hagr y).mp hy2)

theorem GoodT_congr (inp : List Nat) (al : Nat) (nodes n2 : Nat → Nat)
    (bound r : Nat)
    (hag : ∀ y, InT nodes r y →
      n2 (2 * y) = nodes (2 * y) ∧ n2 (2 * y + 1) = nodes (2 * y + 1)) :
    GoodT inp al n2 bound r ↔ GoodT inp al nodes bound r :=
  exists_congr fun f => GoodF_congr inp al nodes n2 bound f r hag

theorem le_match_len_stop (inp : List Nat) (pos cur limit : Nat) :
    ∀ fuel len, limit ≤ len + fuel →
      le_match_len inp pos cur limit fuel len < limit →
      inp.getD (pos + le_match_len inp pos cur limit fuel len) 0
        ≠ inp.getD (cur + le_match_len inp pos cur limit fuel len) 0 := by
  intro fuel
  induction fuel with
  | zero =>
    intro len h1 h2
    simp only [le_match_len] at h2
    omega
  | succ f ih =>
    intro len h1 h2
    simp only [le_match_len] at h2 ⊢
    by_cases hc : len < limit ∧ inp.getD (pos + len) 0 = inp.getD (cur + len) 0
    · rw [if_pos hc] at h2 ⊢
      exact ih (len + 1) (by omega) h2
    · rw [if_neg hc] at h2 ⊢
      intro heq
      exact hc ⟨h2, heq⟩

theorem relLt_strict_step (inp : List Nat) (al y pos cur L : Nat)
    (hrel : RelLt inp al y pos) (hag : agreeB inp pos cur L)
    (hby : inp.getD (pos + L) 0 < inp.getD (cur + L) 0)
    (hL : L < al) (hLM : L < MAX_MATCH) (hin : pos + L < inp.length) :
    RelLt inp al y cur := by
  obtain ⟨m, ha, hd⟩ := hrel
  by_cases hm : m < L
  · have hstrict : inp.getD (y + m) 0 < inp.getD (pos + m) 0 := by
      rcases hd with h | h | h | h
      · exact h
      · omega
      · omega
      · omega
    have hbm := hag m hm
    exact ⟨m, fun k hk => (ha k hk).trans (hag k (by omega)), Or.inl (by omega)⟩
  · have hagL : agreeB inp y cur L := fun k hk => (ha k (by omega)).trans (hag k hk)
    by_cases hmL : m = L
    · subst hmL
      rcases hd with h | h | h | h
      · exact ⟨m, hagL, Or.inl (by omega)⟩
      · omega
      · omega
      · omega
    · have hbe := ha L (by omega)
      exact ⟨L, hagL, Or.inl (by omega)⟩

theorem relGt_strict_step (inp : List Nat) (al y pos cur L : Nat)
    (hrel : RelGt inp al y pos) (hag : agreeB inp pos cur L)
    (hby : inp.getD (cur + L) 0 < inp.getD (pos + L) 0)
    (hL : L < al) (hLM : L < MAX_MATCH) (hin : pos + L < inp.length) :
    RelGt inp al y cur := by
  obtain ⟨m, ha, hd⟩ := hrel
  by_cases hm : m < L
  · have hstrict : inp.getD (pos + m) 0 < inp.getD (y + m) 0 := by
      rcases hd with h | h | h | h
      · exact h
      · omega
      · omega
      · omega
    have hbm := hag m hm
    exact ⟨m, fun k hk => (ha k hk).trans (hag k (by omega)), Or.inl (by omega)⟩
  · have hagL : agreeB inp y cur L := fun k hk => (ha k (by omega)).trans (hag k hk)
    by_cases hmL : m = L
    · subst hmL
      rcases hd with h | h | h | h
      · exact ⟨m, hagL, Or.inl (by omega)⟩
      · omega
      · omega
      · omega
    · have hbe := ha L (by omega)
      exact ⟨L, hagL, Or.inl (by omega)⟩

theorem relLt_eqcase (inp : List Nat) (al y p c len : Nat)
    (hrel : RelLt inp al y p) (hag : agreeB inp p c len)
    (hesc : al ≤ len ∨ MAX_MATCH ≤ len ∨ inp.length ≤ c + len)
    (hpc : p < c) (hcl : c + len ≤ inp.length) :
    RelLt inp al y c := by
  obtain ⟨m, ha, hd⟩ := hrel
  by_cases hm : m < len
  · have hatr : agreeB inp y c m := fun k hk => (ha k hk).trans (hag k (by omega))
    rcases hd with h | h | h | h
    · have hbm := hag m hm
      exact ⟨m, hatr, Or.inl (by omega)⟩
    · exact ⟨m, hatr, Or.inr (Or.inl h)⟩
    · exact ⟨m, hatr, Or.inr (Or.inr (Or.inl h))⟩
    · exact absurd h (by omega)
  · have hagl : agreeB inp y c len := fun k hk => (ha k (by omega)).trans (hag k hk)
    rcases hesc with h | h | h
    · exact ⟨len, hagl, Or.inr (Or.inl h)⟩
    · exact ⟨len, hagl, Or.inr (Or.inr (Or.inl h))⟩
    · exact ⟨len, hagl, Or.inr (Or.inr (Or.inr h))⟩

theorem relGt_eqcase (inp : List Nat) (al y p c len : Nat)
    (hrel : RelGt inp al y p) (hag : agreeB inp p c len)
    (hesc : al ≤ len ∨ MAX_MATCH ≤ len ∨ inp.length ≤ c + len)
    (hpc : p < c) (hcl : c + len ≤ inp.length) :
    RelGt inp al y c := by
  obtain ⟨m, ha, hd⟩ := hrel
  by_cases hm : m < len
  · have hatr : agreeB inp y c m := fun k hk => (ha k hk).trans (hag k (by omega))
    rcases hd with h | h | h | h
    · have hbm := hag m hm
      exact ⟨m, hatr, Or.inl (by omega)⟩
    · exact ⟨m, hatr, Or.inr (Or.inl h)⟩
    · exact ⟨m, hatr, Or.inr (Or.inr (Or.inl h))⟩
    · exact absurd h (by omega)
  · have hagl : agreeB inp y c len := fun k hk => (ha k (by omega)).trans (hag k hk)
    rcases hesc with h | h | h
    · exact ⟨len, hagl, Or.inr (Or.inl h)⟩
    · exact ⟨len, hagl, Or.inr (Or.inr (Or.inl h))⟩
    · exact ⟨len, hagl, Or.inr (Or.inr (Or.inr h))⟩

theorem betweenL_step (inp : List Nat) (al y pos cur L : Nat)
    (hrel : RelGt inp al y pos) (hag : agreeB inp pos cur L)
    (hL : L < al) (hLM : L < MAX_MATCH) (hin : pos + L < inp.length) :
    BetweenL inp cur L y := by
  obtain ⟨m, ha, hd⟩ := hrel
  by_cases hm : m < L
  · have hstrict : inp.getD (pos + m) 0 < inp.getD (y + m) 0 := by
      rcases hd with h | h | h | h
      · exact h
      · omega
      · omega
      · omega
    have hbm := hag m hm
    exact Or.inr ⟨m, hm, fun k hk => (ha k hk).trans (hag k (by omega)), by omega⟩
  · exact Or.inl (fun k hk => (ha k (by omega)).trans (hag k hk))

theorem betweenG_step (inp : List Nat) (al y pos cur L : Nat)
    (hrel : RelLt inp al y pos) (hag : agreeB inp pos cur L)
    (hL : L < al) (hLM : L < MAX_MATCH) (hin : pos + L < inp.length) :
    BetweenG inp cur L y := by
  obtain ⟨m, ha, hd⟩ := hrel
  by_cases hm : m < L
  · have hstrict : inp.getD (y + m) 0 < inp.getD (pos + m) 0 := by
      rcases hd with h | h | h | h
      · exact h
      · omega
      · omega
      · omega
    have hbm := hag m hm
    exact Or.inr ⟨m, hm, fun k hk => (ha k hk).trans (hag k (by omega)), by omega⟩
  · exact Or.inl (fun k hk => (ha k (by omega)).trans (hag k hk))

theorem bt_update_cellsTrue (inp : List Nat) (cur pos len : Nat)
    (hpos : pos < cur) (hagree : agreeB inp pos cur len) :
    ∀ fuel st i, CellsTrue inp st inp.length →
      CellsTrue inp (bt_update cur pos len fuel st i) inp.length ∧
      (bt_update cur pos len fuel st i).nodes = st.nodes ∧
      (bt_update cur pos len fuel st i).lookup = st.lookup := by
  intro fuel
  induction fuel with
  | zero => intro st i h; exact ⟨h, rfl, rfl⟩
  | succ f ih =>
    intro st i hct
    simp only [bt_update]
    by_cases hi : i ≤ len
    · rw [if_pos hi]
      by_cases hlt : st.cost cur + crush_match_cost (cur - pos - 1) i
          < st.cost (cur + i)
      · rw [if_pos hlt]
        refine ih _ (i + 1) ?_
        intro j hj
        by_cases hji : j = cur + i
        · subst hji
          refine Or.inr ⟨?_, ?_, ?_⟩
          · show upd st.mlen (cur + i) i (cur + i) ≤ cur + i
            rw [upd_self]
            omega
          · show upd st.mpos (cur + i) (cur - pos - 1) (cur + i) + 1
                ≤ cur + i - upd st.mlen (cur + i) i (cur + i)
            rw [upd_self, upd_self]
            omega
          · show ∀ k, k < upd st.mlen (cur + i) i (cur + i) →
                inp.getD (cur + i - upd st.mlen (cur + i) i (cur + i)
                  - (upd st.mpos (cur + i) (cur - pos - 1) (cur + i) + 1) + k) 0
                  = inp.getD (cur + i - upd st.mlen (cur + i) i (cur + i) + k) 0
            intro k hk
            rw [show upd st.mlen (cur + i) i (cur + i) = i from upd_self _ _ _] at hk ⊢
            rw [show upd st.mpos (cur + i) (cur - pos - 1) (cur + i)
              = cur - pos - 1 from upd_self _ _ _]
            rw [show cur + i - i - (cur - pos - 1 + 1) + k = pos + k from by omega,
              show cur + i - i + k = cur + k from by omega]
            exact hagree k (by omega)
        · rcases hct j hj with h | ⟨h1, h2, h3⟩
          · refine Or.inl ?_
            show upd st.mlen (cur + i) i j = 1
            rw [upd_other _ _ _ _ hji]
            exact h
          · refine Or.inr ⟨?_, ?_, ?_⟩
            · show upd st.mlen (cur + i) i j ≤ j
              rw [upd_other _ _ _ _ hji]
              exact h1
            · show upd st.mpos (cur + i) (cur - pos - 1) j + 1
                  ≤ j - upd st.mlen (cur + i) i j
              rw [upd_other _ _ _ _ hji, upd_other _ _ _ _ hji]
              exact h2
            · show ∀ k, k < upd st.mlen (cur + i) i j →
                  inp.getD (j - upd st.mlen (cur + i) i j
                    - (upd st.mpos (cur + i) (cur - pos - 1) j + 1) + k) 0
                    = inp.getD (j - upd st.mlen (cur + i) i j + k) 0
              intro k hk
              rw [show upd st.mlen (cur + i) i j = st.mlen j
                from upd_other _ _ _ _ hji] at hk ⊢
              rw [show upd st.mpos (cur + i) (cur - pos - 1) j = st.mpos j
                from upd_other _ _ _ _ hji]
              exact h3 k hk
      · rw [if_neg hlt]
        exact ih st (i + 1) hct
    · rw [if_neg hi]
      exact ⟨hct, rfl, rfl⟩

theorem bt_walk_full (inp : List Nat) (al ll cur : Nat)
    (hll : cur + ll ≤ inp.length) (hllM : ll ≤ MAX_MATCH)
    (hllE : ll = MAX_MATCH ∨ cur + ll = inp.length ∨ al ≤ ll) :
    ∀ num_chain st nmc pos lt_node gt_node lt_len gt_len max_len,
      CellsTrue inp st inp.length →
      GoodT inp al st.nodes cur pos →
      (∀ y, InT st.nodes pos y →
        BetweenL inp cur lt_len y ∧ BetweenG inp cur gt_len y) →
      (∀ y, InT st.nodes pos y →
        2 * y ≠ lt_node ∧ 2 * y + 1 ≠ lt_node ∧
        2 * y ≠ gt_node ∧ 2 * y + 1 ≠ gt_node) →
      lt_node ≠ gt_node → lt_len ≤ ll → gt_len ≤ ll →
      ∃ stR nmcR,
        bt_walk inp al ll cur num_chain st nmc pos lt_node gt_node lt_len
          gt_len max_len = (stR, nmcR) ∧
        CellsTrue inp stR inp.length ∧
        stR.lookup = st.lookup ∧
        (∀ s, s ≠ lt_node → s ≠ gt_node →
          (∀ y, InT st.nodes pos y → s ≠ 2 * y ∧ s ≠ 2 * y + 1) →
          stR.nodes s = st.nodes s) ∧
        GoodT inp al stR.nodes cur (stR.nodes lt_node) ∧
        GoodT inp al stR.nodes cur (stR.nodes gt_node) ∧
        (∀ y, InT stR.nodes (stR.nodes lt_node) y →
          y < cur ∧ RelLt inp al y cur ∧ InT st.nodes pos y) ∧
        (∀ y, InT stR.nodes (stR.nodes gt_node) y →
          y < cur ∧ RelGt inp al y cur ∧ InT st.nodes pos y) ∧
        (∀ y, InT stR.nodes (stR.nodes lt_node) y →
          InT stR.nodes (stR.nodes gt_node) y → False) := by
  intro num_chain
  induction num_chain using Nat.strong_induction_on with
  | _ n ih =>
    intro st nmc pos lt_node gt_node lt_len gt_len max_len hct hgood hbet hslots
      hlg hltl hgtl
    rw [bt_walk]
    by_cases hguard : pos = NO_MATCH_POS ∨ W_SIZE < cur - pos ∨ n = 0
    · rw [if_pos hguard]
      have hvl : (⟨st.cost, st.mpos, st.mlen,
          upd (upd st.nodes lt_node NO_MATCH_POS) gt_node NO_MATCH_POS,
          st.lookup⟩ : BtState).nodes lt_node = NO_MATCH_POS := by
        show upd (upd st.nodes lt_node NO_MATCH_POS) gt_node NO_MATCH_POS
            lt_node = NO_MATCH_POS
        rw [upd_other _ _ _ _ hlg, upd_self]
      have hvg : (⟨st.cost, st.mpos, st.mlen,
          upd (upd st.nodes lt_node NO_MATCH_POS) gt_node NO_MATCH_POS,
          st.lookup⟩ : BtState).nodes gt_node = NO_MATCH_POS := by
        show upd (upd st.nodes lt_node NO_MATCH_POS) gt_node NO_MATCH_POS
            gt_node = NO_MATCH_POS
        rw [upd_self]
      refine ⟨_, nmc, rfl, fun j hj => hct j hj, rfl, ?_, ?_, ?_, ?_, ?_, ?_⟩
      · intro s h1 h2 _
        show upd (upd st.nodes lt_node NO_MATCH_POS) gt_node NO_MATCH_POS s
            = st.nodes s
        rw [upd_other _ _ _ _ h2, upd_other _ _ _ _ h1]
      · rw [hvl]
        exact GoodT_nmp inp al _ cur
      · rw [hvg]
        exact GoodT_nmp inp al _ cur
      · intro y hy
        rw [hvl] at hy
        exact absurd hy (InT_nmp _ y)
      · intro y hy
        rw [hvg] at hy
        exact absurd hy (InT_nmp _ y)
      · intro y hy _
        rw [hvl] at hy
        exact absurd hy (InT_nmp _ y)
    · rw [if_neg hguard]
      have hne : pos ≠ NO_MATCH_POS := fun h => hguard (Or.inl h)
      rcases (GoodT_unfold inp al st.nodes cur pos).mp hgood with h | hG
      · exact absurd h hne
      obtain ⟨hpc, hglc, hgrc, hmlft, hmrgt, hdj⟩ := hG
      have hposmem : InT st.nodes pos pos := InT_self st.nodes pos hne
      have hps := hslots pos hposmem
      simp only []
      have hag0 := between_agree inp cur lt_len gt_len pos (hbet pos hposmem).1
        (hbet pos hposmem).2
      have hmin : (if lt_len < gt_len then lt_len else gt_len)
          = min lt_len gt_len := by
        split_ifs <;> omega
      obtain ⟨hL1, hL2, hL3⟩ := le_match_len_spec inp pos cur ll ll
        (if lt_len < gt_len then lt_len else gt_len)
        (by split_ifs <;> omega)
        (fun k hk => hag0 k (by rw [hmin] at hk; exact hk))
        (by omega)
      set L := le_match_len inp pos cur ll ll
        (if lt_len < gt_len then lt_len else gt_len) with hLdef
      have hagL : agreeB inp pos cur L := fun k hk => hL3 k hk
      have hmain : ∀ (st2 : BtState) (nmc2 mx2 : Nat),
          CellsTrue inp st2 inp.length → st2.nodes = st.nodes →
          st2.lookup = st.lookup →
          ∃ stR nmcR,
            (if al ≤ L ∨ L = ll then
              ((⟨st2.cost, st2.mpos, st2.mlen,
                upd (upd st2.nodes lt_node (st2.nodes (2 * pos))) gt_node
                  (st2.nodes (2 * pos + 1)), st2.lookup⟩ : BtState), nmc2)
            else if inp.getD (pos + L) 0 < inp.getD (cur + L) 0 then
              bt_walk inp al ll cur (n - 1)
                ⟨st2.cost, st2.mpos, st2.mlen, upd st2.nodes lt_node pos,
                  st2.lookup⟩
                nmc2 (upd st2.nodes lt_node pos (2 * pos + 1)) (2 * pos + 1)
                gt_node L gt_len mx2
            else
              bt_walk inp al ll cur (n - 1)
                ⟨st2.cost, st2.mpos, st2.mlen, upd st2.nodes gt_node pos,
                  st2.lookup⟩
                nmc2 (upd st2.nodes gt_node pos (2 * pos)) lt_node (2 * pos)
                lt_len L mx2) = (stR, nmcR) ∧
            CellsTrue inp stR inp.length ∧
            stR.lookup = st.lookup ∧
            (∀ s, s ≠ lt_node → s ≠ gt_node →
              (∀ y, InT st.nodes pos y → s ≠ 2 * y ∧ s ≠ 2 * y + 1) →
              stR.nodes s = st.nodes s) ∧
            GoodT inp al stR.nodes cur (stR.nodes lt_node) ∧
            GoodT inp al stR.nodes cur (stR.nodes gt_node) ∧
            (∀ y, InT stR.nodes (stR.nodes lt_node) y →
              y < cur ∧ RelLt inp al y cur ∧ InT st.nodes pos y) ∧
            (∀ y, InT stR.nodes (stR.nodes gt_node) y →
              y < cur ∧ RelGt inp al y cur ∧ InT st.nodes pos y) ∧
            (∀ y, InT stR.nodes (stR.nodes lt_node) y →
              InT stR.nodes (stR.nodes gt_node) y → False) := by
        intro st2 nmc2 mx2 hct2 hn2 hl2
        by_cases hstop : al ≤ L ∨ L = ll
        · rw [if_pos hstop]
          have hesc : al ≤ L ∨ MAX_MATCH ≤ L ∨ inp.length ≤ cur + L := by
            rcases hstop with h | h
            · exact Or.inl h
            · rcases hllE with h2 | h2 | h2
              · omega
              · omega
              · omega
          have hvl : (⟨st2.cost, st2.mpos, st2.mlen,
              upd (upd st2.nodes lt_node (st2.nodes (2 * pos))) gt_node
                (st2.nodes (2 * pos + 1)), st2.lookup⟩ : BtState).nodes lt_node
              = st.nodes (2 * pos) := by
            show upd (upd st2.nodes lt_node (st2.nodes (2 * pos))) gt_node
                (st2.nodes (2 * pos + 1)) lt_node = st.nodes (2 * pos)
            rw [upd_other _ _ _ _ hlg, upd_self, hn2]
          have hvg : (⟨st2.cost, st2.mpos, st2.mlen,
              upd (upd st2.nodes lt_node (st2.nodes (2 * pos))) gt_node
                (st2.nodes (2 * pos + 1)), st2.lookup⟩ : BtState).nodes gt_node
              = st.nodes (2 * pos + 1) := by
            show upd (upd st2.nodes lt_node (st2.nodes (2 * pos))) gt_node
                (st2.nodes (2 * pos + 1)) gt_node = st.nodes (2 * pos + 1)
            rw [upd_self, hn2]
          have hagl : ∀ y, InT st.nodes (st.nodes (2 * pos)) y →
              upd (upd st2.nodes lt_node (st2.nodes (2 * pos))) gt_node
                (st2.nodes (2 * pos + 1)) (2 * y) = st.nodes (2 * y) ∧
              upd (upd st2.nodes lt_node (st2.nodes (2 * pos))) gt_node
                (st2.nodes (2 * pos + 1)) (2 * y + 1) = st.nodes (2 * y + 1) := by
            intro y hy
            have hs := hslots y (InT_left st.nodes pos y hne hy)
            constructor
            · rw [upd_other _ _ _ _ hs.2.2.1, upd_other _ _ _ _ hs.1, hn2]
            · rw [upd_other _ _ _ _ hs.2.2.2, upd_other _ _ _ _ hs.2.1, hn2]
          have hagr : ∀ y, InT st.nodes (st.nodes (2 * pos + 1)) y →
              upd (upd st2.nodes lt_node (st2.nodes (2 * pos))) gt_node
                (st2.nodes (2 * pos + 1)) (2 * y) = st.nodes (2 * y) ∧
              upd (upd st2.nodes lt_node (st2.nodes (2 * pos))) gt_node
                (st2.nodes (2 * pos + 1)) (2 * y + 1) = st.nodes (2 * y + 1) := by
            intro y hy
            have hs := hslots y (InT_right st.nodes pos y hne hy)
            constructor
            · rw [upd_other _ _ _ _ hs.2.2.1, upd_other _ _ _ _ hs.1, hn2]
            · rw [upd_other _ _ _ _ hs.2.2.2, upd_other _ _ _ _ hs.2.1, hn2]
          refine ⟨_, nmc2, rfl, fun j hj => hct2 j hj, hl2, ?_, ?_, ?_, ?_, ?_, ?_⟩
          · intro s h1 h2 _
            show upd (upd st2.nodes lt_node (st2.nodes (2 * pos))) gt_node
                (st2.nodes (2 * pos + 1)) s = st.nodes s
            rw [upd_other _ _ _ _ h2, upd_other _ _ _ _ h1, hn2]
          · rw [hvl]
            exact (GoodT_congr inp al st.nodes _ cur _ hagl).mpr hglc
          · rw [hvg]
            exact (GoodT_congr inp al st.nodes _ cur _ hagr).mpr hgrc
          · intro y hy
            rw [hvl] at hy
            have hyO := (InT_congr st.nodes _ _ hagl y).mp hy
            have hm := hmlft y hyO
            exact ⟨by omega,
              relLt_eqcase inp al y pos cur L hm.2 hagL hesc hpc (by omega),
              InT_left st.nodes pos y hne hyO⟩
          · intro y hy
            rw [hvg] at hy
            have hyO := (InT_congr st.nodes _ _ hagr y).mp hy
            have hm := hmrgt y hyO
            exact ⟨by omega,
              relGt_eqcase inp al y pos cur L hm.2 hagL hesc hpc (by omega),
              InT_right st.nodes pos y hne hyO⟩
          · intro y hy1 hy2
            rw [hvl] at hy1
            rw [hvg] at hy2
            exact hdj y ((InT_congr st.nodes _ _ hagl y).mp hy1)
              ((InT_congr st.nodes _ _ hagr y).mp hy2)
        · rw [if_neg hstop]
          have hLlt : L < ll := by
            rcases Nat.lt_or_ge L ll with h | h
            · exact h
            · exact absurd (Or.inr (by omega)) hstop
          have hLal : L < al := by
            rcases Nat.lt_or_ge L al with h | h
            · exact h
            · exact absurd (Or.inl h) hstop
          have hLM2 : L < MAX_MATCH := by omega
          have hinB : pos + L < inp.length := by omega
          by_cases hdir : inp.getD (pos + L) 0 < inp.getD (cur + L) 0
          · rw [if_pos hdir]
            have hpos2 : upd st2.nodes lt_node pos (2 * pos + 1)
                = st.nodes (2 * pos + 1) := by
              rw [upd_other _ _ _ _ hps.2.1, hn2]
            have hagr2 : ∀ y, InT st.nodes (st.nodes (2 * pos + 1)) y →
                upd st2.nodes lt_node pos (2 * y) = st.nodes (2 * y) ∧
                upd st2.nodes lt_node pos (2 * y + 1) = st.nodes (2 * y + 1) := by
              intro y hy
              have hs := hslots y (InT_right st.nodes pos y hne hy)
              exact ⟨by rw [upd_other _ _ _ _ hs.1, hn2],
                by rw [upd_other _ _ _ _ hs.2.1, hn2]⟩
            have htr : ∀ y, InT (upd st2.nodes lt_node pos)
                (upd st2.nodes lt_node pos (2 * pos + 1)) y ↔
                InT st.nodes (st.nodes (2 * pos + 1)) y := by
              intro y
              rw [hpos2]
              exact InT_congr st.nodes _ _ hagr2 y
            obtain ⟨stR, nmcR, heq, hctR, hlkR, hfrR, hgl, hgg, hmemL, hmemG,
                hdisjR⟩ :=
              ih (n - 1) (by omega)
                ⟨st2.cost, st2.mpos, st2.mlen, upd st2.nodes lt_node pos,
                  st2.lookup⟩
                nmc2 (upd st2.nodes lt_node pos (2 * pos + 1)) (2 * pos + 1)
                gt_node L gt_len mx2
                (fun j hj => hct2 j hj)
                (by
                  show GoodT inp al (upd st2.nodes lt_node pos) cur _
                  rw [hpos2]
                  exact (GoodT_congr inp al st.nodes _ cur _ hagr2).mpr hgrc)
                (by
                  intro y hy
                  have hyO := (htr y).mp hy
                  have hm := hmrgt y hyO
                  exact ⟨betweenL_step inp al y pos cur L hm.2 hagL hLal hLM2 hinB,
                    (hbet y (InT_right st.nodes pos y hne hyO)).2⟩)
                (by
                  intro y hy
                  have hyO := (htr y).mp hy
                  have hm := hmrgt y hyO
                  have hs := hslots y (InT_right st.nodes pos y hne hyO)
                  exact ⟨by omega, by omega, hs.2.2.1, hs.2.2.2⟩)
                hps.2.2.2 hL2 hgtl
            have hfrS : ∀ s, s ≠ lt_node → s ≠ gt_node →
                (∀ y, InT st.nodes pos y → s ≠ 2 * y ∧ s ≠ 2 * y + 1) →
                stR.nodes s = st.nodes s := by
              intro s h1 h2 h3
              have h4 := hfrR s (h3 pos hposmem).2 h2
                (by
                  intro y hy
                  exact h3 y (InT_right st.nodes pos y hne ((htr y).mp hy)))
              rw [h4]
              show upd st2.nodes lt_node pos s = st.nodes s
              rw [upd_other _ _ _ _ h1, hn2]
            have hvlt : stR.nodes lt_node = pos := by
              have h4 := hfrR lt_node (Ne.symm hps.2.1) hlg
                (by
                  intro y hy
                  have hs := hslots y
                    (InT_right st.nodes pos y hne ((htr y).mp hy))
                  exact ⟨Ne.symm hs.1, Ne.symm hs.2.1⟩)
              rw [h4]
              show upd st2.nodes lt_node pos lt_node = pos
              exact upd_self _ _ _
            have hv2p : stR.nodes (2 * pos) = st.nodes (2 * pos) := by
              have h4 := hfrR (2 * pos) (by omega) hps.2.2.1
                (by
                  intro y hy
                  have hm := hmrgt y ((htr y).mp hy)
                  exact ⟨by omega, by omega⟩)
              rw [h4]
              show upd st2.nodes lt_node pos (2 * pos) = st.nodes (2 * pos)
              rw [upd_other _ _ _ _ hps.1, hn2]
            have haglS : ∀ y, InT st.nodes (st.nodes (2 * pos)) y →
                stR.nodes (2 * y) = st.nodes (2 * y) ∧
                stR.nodes (2 * y + 1) = st.nodes (2 * y + 1) := by
              intro y hy
              have hyT := InT_left st.nodes pos y hne hy
              have hs := hslots y hyT
              have hylt : y < pos := (hmlft y hy).1
              constructor
              · have h4 := hfrR (2 * y) (by omega) hs.2.2.1
                  (by
                    intro z hz
                    have hzO := (htr z).mp hz
                    refine ⟨?_, by omega⟩
                    intro hzy
                    have : y = z := by omega
                    subst this
                    exact hdj y hy hzO)
                rw [h4]
                show upd st2.nodes lt_node pos (2 * y) = st.nodes (2 * y)
                rw [upd_other _ _ _ _ hs.1, hn2]
              · have h4 := hfrR (2 * y + 1) (by omega) hs.2.2.2
                  (by
                    intro z hz
                    have hzO := (htr z).mp hz
                    refine ⟨by omega, ?_⟩
                    intro hzy
                    have : y = z := by omega
                    subst this
                    exact hdj y hy hzO)
                rw [h4]
                show upd st2.nodes lt_node pos (2 * y + 1) = st.nodes (2 * y + 1)
                rw [upd_other _ _ _ _ hs.2.1, hn2]
            have hmemLS : ∀ y, InT stR.nodes (stR.nodes (2 * pos)) y →
                InT st.nodes (st.nodes (2 * pos)) y := by
              intro y hy
              rw [hv2p] at hy
              exact (InT_congr st.nodes stR.nodes _ haglS y).mp hy
            refine ⟨stR, nmcR, heq, hctR, by rw [hlkR]; exact hl2, hfrS, ?_, hgg,
              ?_, ?_, ?_⟩
            · rw [hvlt]
              refine (GoodT_unfold inp al stR.nodes cur pos).mpr
                (Or.inr ⟨hpc, ?_, hgl, ?_, ?_, ?_⟩)
              · rw [hv2p]
                exact (GoodT_congr inp al st.nodes stR.nodes cur _ haglS).mpr hglc
              · intro y hy
                exact hmlft y (hmemLS y hy)
              · intro y hy
                have hm := hmemL y hy
                exact ⟨(hmrgt y ((htr y).mp hm.2.2)).1, (hmrgt y ((htr y).mp hm.2.2)).2⟩
              · intro y hy1 hy2
                have hm := hmemL y hy2
                exact hdj y (hmemLS y hy1) ((htr y).mp hm.2.2)
            · intro y hy
              rw [hvlt] at hy
              rcases (InT_unfold stR.nodes pos y).mp hy with ⟨_, rfl | hy2 | hy2⟩
              · exact ⟨hpc, ⟨L, hagL, Or.inl hdir⟩, hposmem⟩
              · have hyO := hmemLS y hy2
                have hm := hmlft y hyO
                exact ⟨by omega,
                  relLt_strict_step inp al y pos cur L hm.2 hagL hdir hLal hLM2 hinB,
                  InT_left st.nodes pos y hne hyO⟩
              · have hm := hmemL y hy2
                exact ⟨hm.1, hm.2.1,
                  InT_right st.nodes pos y hne ((htr y).mp hm.2.2)⟩
            · intro y hy
              have hm := hmemG y hy
              exact ⟨hm.1, hm.2.1,
                InT_right st.nodes pos y hne ((htr y).mp hm.2.2)⟩
            · intro y hy1 hy2
              rw [hvlt] at hy1
              rcases (InT_unfold stR.nodes pos y).mp hy1 with ⟨_, rfl | hy3 | hy3⟩
              · have hm := hmemG _ hy2
                exact absurd (hmrgt _ ((htr _).mp hm.2.2)).1 (by omega)
              · have hm := hmemG y hy2
                exact hdj y (hmemLS y hy3) ((htr y).mp hm.2.2)
              · exact hdisjR y hy3 hy2
          · rw [if_neg hdir]
            have hbyt : inp.getD (cur + L) 0 < inp.getD (pos + L) 0 := by
              have hne2 := le_match_len_stop inp pos cur ll ll
                (if lt_len < gt_len then lt_len else gt_len) (by omega)
                (by rw [← hLdef]; exact hLlt)
              rw [← hLdef] at hne2
              omega
            have hpos2 : upd st2.nodes gt_node pos (2 * pos)
                = st.nodes (2 * pos) := by
              rw [upd_other _ _ _ _ hps.2.2.1, hn2]
            have hagl2 : ∀ y, InT st.nodes (st.nodes (2 * pos)) y →
                upd st2.nodes gt_node pos (2 * y) = st.nodes (2 * y) ∧
                upd st2.nodes gt_node pos (2 * y + 1) = st.nodes (2 * y + 1) := by
              intro y hy
              have hs := hslots y (InT_left st.nodes pos y hne hy)
              exact ⟨by rw [upd_other _ _ _ _ hs.2.2.1, hn2],
                by rw [upd_other _ _ _ _ hs.2.2.2, hn2]⟩
            have htr : ∀ y, InT (upd st2.nodes gt_node pos)
                (upd st2.nodes gt_node pos (2 * pos)) y ↔
                InT st.nodes (st.nodes (2 * pos)) y := by
              intro y
              rw [hpos2]
              exact InT_congr st.nodes _ _ hagl2 y
            obtain ⟨stR, nmcR, heq, hctR, hlkR, hfrR, hgl, hgg, hmemL, hmemG,
                hdisjR⟩ :=
              ih (n - 1) (by omega)
                ⟨st2.cost, st2.mpos, st2.mlen, upd st2.nodes gt_node pos,
                  st2.lookup⟩
                nmc2 (upd st2.nodes gt_node pos (2 * pos)) lt_node (2 * pos)
                lt_len L mx2
                (fun j hj => hct2 j hj)
                (by
                  show GoodT inp al (upd st2.nodes gt_node pos) cur _
                  rw [hpos2]
                  exact (GoodT_congr inp al st.nodes _ cur _ hagl2).mpr hglc)
                (by
                  intro y hy
                  have hyO := (htr y).mp hy
                  have hm := hmlft y hyO
                  exact ⟨(hbet y (InT_left st.nodes pos y hne hyO)).1,
                    betweenG_step inp al y pos cur L hm.2 hagL hLal hLM2 hinB⟩)
                (by
                  intro y hy
                  have hyO := (htr y).mp hy
                  have hm := hmlft y hyO
                  have hs := hslots y (InT_left st.nodes pos y hne hyO)
                  exact ⟨hs.1, hs.2.1, by omega, by omega⟩)
                (Ne.symm hps.1) hltl hL2
            have hfrS : ∀ s, s ≠ lt_node → s ≠ gt_node →
                (∀ y, InT st.nodes pos y → s ≠ 2 * y ∧ s ≠ 2 * y + 1) →
                stR.nodes s = st.nodes s := by
              intro s h1 h2 h3
              have h4 := hfrR s h1 (h3 pos hposmem).1
                (by
                  intro y hy
                  exact h3 y (InT_left st.nodes pos y hne ((htr y).mp hy)))
              rw [h4]
              show upd st2.nodes gt_node pos s = st.nodes s
              rw [upd_other _ _ _ _ h2, hn2]
            have hvgt : stR.nodes gt_node = pos := by
              have h4 := hfrR gt_node (Ne.symm hlg) (Ne.symm hps.2.2.1)
                (by
                  intro y hy
                  have hs := hslots y
                    (InT_left st.nodes pos y hne ((htr y).mp hy))
                  exact ⟨Ne.symm hs.2.2.1, Ne.symm hs.2.2.2⟩)
              rw [h4]
              show upd st2.nodes gt_node pos gt_node = pos
              exact upd_self _ _ _
            have hv2p : stR.nodes (2 * pos + 1) = st.nodes (2 * pos + 1) := by
              have h4 := hfrR (2 * pos + 1) hps.2.1 (by omega)
                (by
                  intro y hy
                  have hm := hmlft y ((htr y).mp hy)
                  exact ⟨by omega, by omega⟩)
              rw [h4]
              show upd st2.nodes gt_node pos (2 * pos + 1) = st.nodes (2 * pos + 1)
              rw [upd_other _ _ _ _ hps.2.2.2, hn2]
            have hagrS : ∀ y, InT st.nodes (st.nodes (2 * pos + 1)) y →
                stR.nodes (2 * y) = st.nodes (2 * y) ∧
                stR.nodes (2 * y + 1) = st.nodes (2 * y + 1) := by
              intro y hy
              have hyT := InT_right st.nodes pos y hne hy
              have hs := hslots y hyT
              have hylt : y < pos := (hmrgt y hy).1
              constructor
              · have h4 := hfrR (2 * y) hs.1 (by omega)
                  (by
                    intro z hz
                    have hzO := (htr z).mp hz
                    refine ⟨?_, by omega⟩
                    intro hzy
                    have : y = z := by omega
                    subst this
                    exact hdj y hzO hy)
                rw [h4]
                show upd st2.nodes gt_node pos (2 * y) = st.nodes (2 * y)
                rw [upd_other _ _ _ _ hs.2.2.1, hn2]
              · have h4 := hfrR (2 * y + 1) hs.2.1 (by omega)
                  (by
                    intro z hz
                    have hzO := (htr z).mp hz
                    refine ⟨by omega, ?_⟩
                    intro hzy
                    have : y = z := by omega
                    subst this
                    exact hdj y hzO hy)
                rw [h4]
                show upd st2.nodes gt_node pos (2 * y + 1) = st.nodes (2 * y + 1)
                rw [upd_other _ _ _ _ hs.2.2.2, hn2]
            have hmemRS : ∀ y, InT stR.nodes (stR.nodes (2 * pos + 1)) y →
                InT st.nodes (st.nodes (2 * pos + 1)) y := by
              intro y hy
              rw [hv2p] at hy
              exact (InT_congr st.nodes stR.nodes _ hagrS y).mp hy
            refine ⟨stR, nmcR, heq, hctR, by rw [hlkR]; exact hl2, hfrS, hgl, ?_,
              ?_, ?_, ?_⟩
            · rw [hvgt]
              refine (GoodT_unfold inp al stR.nodes cur pos).mpr
                (Or.inr ⟨hpc, hgg, ?_, ?_, ?_, ?_⟩)
              · rw [hv2p]
                exact (GoodT_congr inp al st.nodes stR.nodes cur _ hagrS).mpr hgrc
              · intro y hy
                have hm := hmemG y hy
                exact ⟨(hmlft y ((htr y).mp hm.2.2)).1, (hmlft y ((htr y).mp hm.2.2)).2⟩
              · intro y hy
                exact hmrgt y (hmemRS y hy)
              · intro y hy1 hy2
                have hm := hmemG y hy1
                exact hdj y ((htr y).mp hm.2.2) (hmemRS y hy2)
            · intro y hy
              have hm := hmemL y hy
              exact ⟨hm.1, hm.2.1,
                InT_left st.nodes pos y hne ((htr y).mp hm.2.2)⟩
            · intro y hy
              rw [hvgt] at hy
              rcases (InT_unfold stR.nodes pos y).mp hy with ⟨_, rfl | hy2 | hy2⟩
              · exact ⟨hpc, ⟨L, hagL, Or.inl hbyt⟩, hposmem⟩
              · have hm := hmemG y hy2
                exact ⟨hm.1, hm.2.1,
                  InT_left st.nodes pos y hne ((htr y).mp hm.2.2)⟩
              · have hyO := hmemRS y hy2
                have hm := hmrgt y hyO
                exact ⟨by omega,
                  relGt_strict_step inp al y pos cur L hm.2 hagL hbyt hLal hLM2 hinB,
                  InT_right st.nodes pos y hne hyO⟩
            · intro y hy1 hy2
              rw [hvgt] at hy2
              rcases (InT_unfold stR.nodes pos y).mp hy2 with ⟨_, rfl | hy3 | hy3⟩
              · have hm := hmemL _ hy1
                exact absurd (hmlft _ ((htr _).mp hm.2.2)).1 (by omega)
              · exact hdisjR y hy1 hy3
              · have hm := hmemL y hy1
                exact hdj y ((htr y).mp hm.2.2) (hmemRS y hy3)
      by_cases hupd : cur = nmc ∧ max_len < L
      · rw [if_pos hupd]
        obtain ⟨hctU, hnU, hlU⟩ := bt_update_cellsTrue inp cur pos L hpc hagL
          (L + 1) st (max_len + 1) hct
        exact hmain (bt_update cur pos L (L + 1) st (max_len + 1))
          (if al ≤ L then cur + L else nmc) L hctU hnU hlU
      · rw [if_neg hupd]
        exact hmain st nmc max_len hct rfl rfl

theorem bt_literal_step_cellsTrue (inp : List Nat) (st : BtState) (cur : Nat)
    (h : CellsTrue inp st inp.length) :
    CellsTrue inp (bt_literal_step st cur) inp.length ∧
    (bt_literal_step st cur).nodes = st.nodes ∧
    (bt_literal_step st cur).lookup = st.lookup := by
  simp only [bt_literal_step]
  by_cases hg : st.cost cur + 9 < st.cost (cur + 1)
  · rw [if_pos hg]
    refine ⟨?_, rfl, rfl⟩
    intro j hj
    by_cases hji : j = cur + 1
    · subst hji
      refine Or.inl ?_
      show upd st.mlen (cur + 1) 1 (cur + 1) = 1
      exact upd_self _ _ _
    · rcases h j hj with h2 | ⟨h1, h2, h3⟩
      · refine Or.inl ?_
        show upd st.mlen (cur + 1) 1 j = 1
        rw [upd_other _ _ _ _ hji]
        exact h2
      · refine Or.inr ⟨?_, ?_, ?_⟩
        · show upd st.mlen (cur + 1) 1 j ≤ j
          rw [upd_other _ _ _ _ hji]
          exact h1
        · show st.mpos j + 1 ≤ j - upd st.mlen (cur + 1) 1 j
          rw [upd_other _ _ _ _ hji]
          exact h2
        · show ∀ k, k < upd st.mlen (cur + 1) 1 j →
              inp.getD (j - upd st.mlen (cur + 1) 1 j - (st.mpos j + 1) + k) 0
                = inp.getD (j - upd st.mlen (cur + 1) 1 j + k) 0
          rw [upd_other _ _ _ _ hji]
          exact h3
  · rw [if_neg hg]
    exact ⟨h, rfl, rfl⟩

theorem bt_tail_cellsTrue (inp : List Nat) :
    ∀ fuel st cur, CellsTrue inp st inp.length →
      CellsTrue inp (bt_tail inp.length fuel st cur) inp.length := by
  intro fuel
  induction fuel with
  | zero => intro st cur h; exact h
  | succ f ih =>
    intro st cur h
    simp only [bt_tail]
    by_cases hil : cur < inp.length
    · rw [if_pos hil]
      exact ih _ (cur + 1) (bt_literal_step_cellsTrue inp st cur h).1
    · rw [if_neg hil]
      exact h

theorem bt_phase1_full (inp : List Nat) (md al lmp : Nat)
    (hlmp : lmp + 3 ≤ inp.length) :
    ∀ fuel cur st nmc,
      cur ≤ lmp + 1 →
      CellsTrue inp st inp.length →
      ForestInv inp al st cur →
      CellsTrue inp (bt_phase1 inp md al lmp inp.length fuel cur st nmc)
        inp.length := by
  intro fuel
  induction fuel with
  | zero => intro cur st nmc _ hct _; exact hct
  | succ f ih =>
    intro cur st nmc hcl hct hfi
    simp only [bt_phase1]
    by_cases hil : cur ≤ lmp
    · rw [if_pos hil]
      obtain ⟨hct1, hn1, hl1⟩ := bt_literal_step_cellsTrue inp st cur hct
      obtain ⟨hlk, hgd, hdis⟩ := hfi
      have hposG : GoodT inp al (bt_literal_step st cur).nodes cur
          ((bt_literal_step st cur).lookup
            (crush_hash3_bits inp cur CRUSH_HASH_BITS)) := by
        rw [hn1, hl1]
        exact hgd _
      obtain ⟨stR, nmcR, heq, hctR, hlkR, hfrR, hgl, hgg, hmemL, hmemG, hdisjR⟩ :=
        bt_walk_full inp al
          (if cur = (if nmc < cur then cur else nmc) then
            (if MAX_MATCH < inp.length - cur then MAX_MATCH else inp.length - cur)
           else if al < (if MAX_MATCH < inp.length - cur then MAX_MATCH
                else inp.length - cur) then al
           else (if MAX_MATCH < inp.length - cur then MAX_MATCH
                else inp.length - cur))
          cur (by split_ifs <;> omega) (by split_ifs <;> omega)
          (by split_ifs <;> omega)
          md
          ⟨(bt_literal_step st cur).cost, (bt_literal_step st cur).mpos,
           (bt_literal_step st cur).mlen, (bt_literal_step st cur).nodes,
           upd (bt_literal_step st cur).lookup
             (crush_hash3_bits inp cur CRUSH_HASH_BITS) cur⟩
          (if nmc < cur then cur else nmc)
          ((bt_literal_step st cur).lookup
            (crush_hash3_bits inp cur CRUSH_HASH_BITS))
          (2 * cur) (2 * cur + 1) 0 0 (MIN_MATCH - 1)
          (fun j hj => hct1 j hj)
          hposG
          (by
            intro y _
            exact ⟨Or.inl (fun k hk => absurd hk (Nat.not_lt_zero k)),
              Or.inl (fun k hk => absurd hk (Nat.not_lt_zero k))⟩)
          (by
            intro y hy
            have hyb := GoodT_member_lt inp al _ cur _ y hposG hy
            exact ⟨by omega, by omega, by omega, by omega⟩)
          (by omega) (Nat.zero_le _) (Nat.zero_le _)
      have hmemO : ∀ p, InT (bt_literal_step st cur).nodes
          ((bt_literal_step st cur).lookup
            (crush_hash3_bits inp cur CRUSH_HASH_BITS)) p →
          InT st.nodes (st.lookup (crush_hash3_bits inp cur CRUSH_HASH_BITS)) p := by
        intro p hp
        rw [hn1, hl1] at hp
        exact hp
      have hagh : ∀ h, h ≠ crush_hash3_bits inp cur CRUSH_HASH_BITS →
          ∀ y, InT st.nodes (st.lookup h) y →
            stR.nodes (2 * y) = st.nodes (2 * y) ∧
            stR.nodes (2 * y + 1) = st.nodes (2 * y + 1) := by
        intro h he y hy
        have hyb := GoodT_member_lt inp al st.nodes cur (st.lookup h) y (hgd h) hy
        have hslot : ∀ z, InT (bt_literal_step st cur).nodes
            ((bt_literal_step st cur).lookup
              (crush_hash3_bits inp cur CRUSH_HASH_BITS)) z →
            y ≠ z := by
          intro z hz heqz
          subst heqz
          exact hdis h (crush_hash3_bits inp cur CRUSH_HASH_BITS) he y hy
            (hmemO y hz)
        constructor
        · have h4 := hfrR (2 * y) (by omega) (by omega)
            (by
              intro z hz
              have hzy := hslot z hz
              exact ⟨by omega, by omega⟩)
          rw [h4]
          show (bt_literal_step st cur).nodes (2 * y) = st.nodes (2 * y)
          rw [hn1]
        · have h4 := hfrR (2 * y + 1) (by omega) (by omega)
            (by
              intro z hz
              have hzy := hslot z hz
              exact ⟨by omega, by omega⟩)
          rw [h4]
          show (bt_literal_step st cur).nodes (2 * y + 1) = st.nodes (2 * y + 1)
          rw [hn1]
      have hlkR2 : ∀ h, stR.lookup h
          = upd st.lookup (crush_hash3_bits inp cur CRUSH_HASH_BITS) cur h := by
        intro h
        rw [hlkR]
        show upd (bt_literal_step st cur).lookup
          (crush_hash3_bits inp cur CRUSH_HASH_BITS) cur h = _
        rw [hl1]
      have hfiN : ForestInv inp al stR (cur + 1) := by
        refine ⟨?_, ?_, ?_⟩
        · intro h
          rw [hlkR2 h]
          by_cases he : h = crush_hash3_bits inp cur CRUSH_HASH_BITS
          · rw [he, upd_self]
            exact Or.inr (by omega)
          · rw [upd_other _ _ _ _ he]
            rcases hlk h with h2 | h2
            · exact Or.inl h2
            · exact Or.inr (by omega)
        · intro h
          rw [hlkR2 h]
          by_cases he : h = crush_hash3_bits inp cur CRUSH_HASH_BITS
          · rw [he, upd_self]
            refine (GoodT_unfold inp al stR.nodes (cur + 1) cur).mpr
              (Or.inr ⟨by omega, ?_, ?_, ?_, ?_, ?_⟩)
            · exact GoodT_bound_mono inp al stR.nodes cur (cur + 1) _ (by omega) hgl
            · exact GoodT_bound_mono inp al stR.nodes cur (cur + 1) _ (by omega) hgg
            · intro y hy
              exact ⟨(hmemL y hy).1, (hmemL y hy).2.1⟩
            · intro y hy
              exact ⟨(hmemG y hy).1, (hmemG y hy).2.1⟩
            · exact hdisjR
          · rw [upd_other _ _ _ _ he]
            exact (GoodT_congr inp al st.nodes stR.nodes (cur + 1)
                (st.lookup h) (hagh h he)).mpr
              (GoodT_bound_mono inp al st.nodes cur (cur + 1) _ (by omega) (hgd h))
        · intro h h2 hne12 p hp1 hp2
          rw [hlkR2 h] at hp1
          rw [hlkR2 h2] at hp2
          by_cases he1 : h = crush_hash3_bits inp cur CRUSH_HASH_BITS
          · rw [he1, upd_self] at hp1
            have he2 : h2 ≠ crush_hash3_bits inp cur CRUSH_HASH_BITS := by
              rw [← he1]
              exact Ne.symm hne12
            rw [upd_other _ _ _ _ he2] at hp2
            have hp2O := (InT_congr st.nodes stR.nodes _ (hagh h2 he2) p).mp hp2
            have hp2b := GoodT_member_lt inp al st.nodes cur _ p (hgd h2) hp2O
            rcases (InT_unfold stR.nodes cur p).mp hp1 with ⟨_, rfl | hpl | hpl⟩
            · omega
            · exact hdis (crush_hash3_bits inp cur CRUSH_HASH_BITS) h2
                (Ne.symm he2) p (hmemO p (hmemL p hpl).2.2) hp2O
            · exact hdis (crush_hash3_bits inp cur CRUSH_HASH_BITS) h2
                (Ne.symm he2) p (hmemO p (hmemG p hpl).2.2) hp2O
          · rw [upd_other _ _ _ _ he1] at hp1
            have hp1O := (InT_congr st.nodes stR.nodes _ (hagh h he1) p).mp hp1
            have hp1b := GoodT_member_lt inp al st.nodes cur _ p (hgd h) hp1O
            by_cases he2 : h2 = crush_hash3_bits inp cur CRUSH_HASH_BITS
            · rw [he2, upd_self] at hp2
              rcases (InT_unfold stR.nodes cur p).mp hp2 with ⟨_, rfl | hpl | hpl⟩
              · omega
              · exact hdis h (crush_hash3_bits inp cur CRUSH_HASH_BITS)
                  he1 p hp1O (hmemO p (hmemL p hpl).2.2)
              · exact hdis h (crush_hash3_bits inp cur CRUSH_HASH_BITS)
                  he1 p hp1O (hmemO p (hmemG p hpl).2.2)
            · rw [upd_other _ _ _ _ he2] at hp2
              exact hdis h h2 hne12 p hp1O
                ((InT_congr st.nodes stR.nodes _ (hagh h2 he2) p).mp hp2)
      rw [heq]
      exact ih (cur + 1) stR nmcR (by omega) hctR hfiN
    · rw [if_neg hil]
      exact hct

theorem bt_gather_tokens_ok (inp : List Nat) (orig : BtState)
    (hcells : ∀ j, 1 ≤ j → j ≤ inp.length → BtCellEqC inp orig j) :
    ∀ fuelg cur next_token st,
      cur ≤ next_token → next_token ≤ inp.length →
      (∀ j, j ≤ cur → st.cost j = orig.cost j ∧ st.mpos j = orig.mpos j ∧
        st.mlen j = orig.mlen j) →
      cur + 1 ≤ fuelg →
      ∃ st2 nt2, bt_gather st fuelg cur next_token = (st2, nt2) ∧
        nt2 ≤ next_token ∧
        (∀ s, next_token < s → st2.mpos s = st.mpos s ∧ st2.mlen s = st.mlen s) ∧
        ∀ fuelt,
          cur ≤ inp.length →
          (∀ st3 fuelt2,
            (∀ s, next_token < s →
              st3.mpos s = st.mpos s ∧ st3.mlen s = st.mlen s) →
            inp.length - next_token ≤ fuelt2 →
            TokSeqOK inp cur
              (bt_tokens inp st3 inp.length fuelt2 (next_token + 1) cur)) →
          ∀ st4,
            (∀ s, nt2 < s → st4.mpos s = st2.mpos s ∧ st4.mlen s = st2.mlen s) →
            inp.length - nt2 ≤ fuelt →
            TokSeqOK inp 0 (bt_tokens inp st4 inp.length fuelt (nt2 + 1) 0) := by
  have hm3 : MIN_MATCH = 3 := by decide
  intro fuelg
  induction fuelg with
  | zero => intro cur next_token st _ _ _ hf; omega
  | succ g ih =>
    intro cur next_token st hcnt hntN hagree hf
    by_cases hcur0 : cur = 0
    · subst hcur0
      refine ⟨st, next_token, by simp [bt_gather], le_rfl, fun s _ => ⟨rfl, rfl⟩, ?_⟩
      intro fuelt _ hcont st4 hag4 hfu
      exact hcont st4 fuelt (fun s hs => hag4 s hs) hfu
    · have hcur1 : 1 ≤ cur := by omega
      have hcellC := hcells cur hcur1 (by omega)
      have hcell : BtCellEq orig cur := by
        rcases hcellC with h | ⟨h1, h2⟩
        · exact Or.inl h
        · exact Or.inr h1
      have hml1 : 1 ≤ orig.mlen cur := by
        rcases hcell with ⟨h1, _⟩ | ⟨h1, _⟩ <;> omega
      have hmlc : orig.mlen cur ≤ cur := by
        rcases hcell with ⟨h1, _⟩ | ⟨_, _, h3, _⟩ <;> omega
      have hwm : (⟨st.cost, upd st.mpos next_token (st.mpos cur),
          upd st.mlen next_token (st.mlen cur), st.nodes,
          st.lookup⟩ : BtState).mlen cur = orig.mlen cur := by
        show upd st.mlen next_token (st.mlen cur) cur = orig.mlen cur
        by_cases he : cur = next_token
        · rw [he, upd_self, ← he]
          exact (hagree cur le_rfl).2.2
        · rw [upd_other _ _ _ _ he]
          exact (hagree cur le_rfl).2.2
      obtain ⟨st2, nt2, heq, hnt2, hag2, htoks⟩ := ih (cur - orig.mlen cur)
        (next_token - 1)
        ⟨st.cost, upd st.mpos next_token (st.mpos cur),
         upd st.mlen next_token (st.mlen cur), st.nodes, st.lookup⟩
        (by omega) (by omega)
        (by
          intro j hj
          refine ⟨(hagree j (by omega)).1, ?_, ?_⟩
          · show upd st.mpos next_token (st.mpos cur) j = orig.mpos j
            rw [upd_other _ _ _ _ (by omega)]
            exact (hagree j (by omega)).2.1
          · show upd st.mlen next_token (st.mlen cur) j = orig.mlen j
            rw [upd_other _ _ _ _ (by omega)]
            exact (hagree j (by omega)).2.2)
        (by omega)
      refine ⟨st2, nt2, ?_, by omega, ?_, ?_⟩
      · simp only [bt_gather]
        rw [if_neg hcur0]
        rw [show cur - (⟨st.cost, upd st.mpos next_token (st.mpos cur),
            upd st.mlen next_token (st.mlen cur), st.nodes,
            st.lookup⟩ : BtState).mlen cur
            = cur - orig.mlen cur from by rw [hwm]]
        exact heq
      · intro s hs
        have h1 := hag2 s (by omega)
        refine ⟨?_, ?_⟩
        · rw [h1.1]
          show upd st.mpos next_token (st.mpos cur) s = st.mpos s
          rw [upd_other _ _ _ _ (by omega)]
        · rw [h1.2]
          show upd st.mlen next_token (st.mlen cur) s = st.mlen s
          rw [upd_other _ _ _ _ (by omega)]
      · intro fuelt hbN hcont st4 hag4 hfu
        have hnt1 : 1 ≤ next_token := by omega
        refine htoks fuelt (by omega) ?_ st4 hag4 hfu
        intro st3 fuelt2 hag3 hf2
        obtain ⟨f2, rfl⟩ : ∃ f2, fuelt2 = f2 + 1 := ⟨fuelt2 - 1, by omega⟩
        have hm3eq : st3.mlen (next_token - 1 + 1) = orig.mlen cur := by
          rw [show next_token - 1 + 1 = next_token by omega]
          rw [(hag3 next_token (by omega)).2]
          rw [show (⟨st.cost, upd st.mpos next_token (st.mpos cur),
            upd st.mlen next_token (st.mlen cur), st.nodes,
            st.lookup⟩ : BtState).mlen next_token
              = st.mlen cur from upd_self _ _ _]
          exact (hagree cur le_rfl).2.2
        have hp3eq : st3.mpos (next_token - 1 + 1) = orig.mpos cur := by
          rw [show next_token - 1 + 1 = next_token by omega]
          rw [(hag3 next_token (by omega)).1]
          rw [show (⟨st.cost, upd st.mpos next_token (st.mpos cur),
            upd st.mlen next_token (st.mlen cur), st.nodes,
            st.lookup⟩ : BtState).mpos next_token
              = st.mpos cur from upd_self _ _ _]
          exact (hagree cur le_rfl).2.1
        have hcont3 := hcont st3 f2
          (by
            intro s hs
            have h1 := hag3 s (by omega)
            refine ⟨?_, ?_⟩
            · rw [h1.1]
              show upd st.mpos next_token (st.mpos cur) s = st.mpos s
              rw [upd_other _ _ _ _ (by omega)]
            · rw [h1.2]
              show upd st.mlen next_token (st.mlen cur) s = st.mlen s
              rw [upd_other _ _ _ _ (by omega)])
          (by omega)
        simp only [bt_tokens]
        rw [if_pos (show next_token - 1 + 1 ≤ inp.length by omega)]
        rw [hm3eq, hp3eq]
        have hstep : cur - orig.mlen cur + orig.mlen cur = cur := by
          omega
        rcases hcellC with ⟨h1, h2⟩ | ⟨⟨h1, h2, h3, h4, h5, h6⟩, hcontent⟩
        · rw [if_pos h1, hstep]
          refine ⟨rfl, by omega, ?_⟩
          rw [show next_token - 1 + 1 + 1 = next_token + 1 by omega,
            show cur - orig.mlen cur + 1 = cur by omega]
          exact hcont3
        · have hne1 : ¬ orig.mlen cur = 1 := by omega
          rw [if_neg hne1, hstep]
          refine ⟨by omega, by omega, by omega, by omega, by omega, by omega,
            ?_, ?_⟩
          · intro k hk
            have := hcontent k hk
            rw [show cur - orig.mlen cur - (orig.mpos cur + 1) + k
              = cur - orig.mlen cur - (orig.mpos cur + 1) + k from rfl]
            exact this
          · rw [show next_token - 1 + 1 + 1 = next_token + 1 by omega, hstep]
            exact hcont3

theorem crush_btparse_tokens_ok (src : List Nat) (md al : Nat)
    (hN32 : 9 * src.length + 64 < UINT32_MAX) :
    TokSeqOK src 0 (crush_btparse_tokens src md al) := by
  by_cases h0 : src.length = 0
  · have he : crush_btparse_tokens src md al = [] := by
      simp [crush_btparse_tokens, h0]
    rw [he]
    show (0 : Nat) = src.length
    omega
  · by_cases h4 : src.length < 4
    · have he : crush_btparse_tokens src md al = src.map Token.lit := by
        simp [crush_btparse_tokens, h0, h4]
      rw [he]
      exact (tokSeq_lit_map src src 0 (by simp) (by omega)).1
    · have h3lt : 3 < src.length := by omega
      simp only [crush_btparse_tokens]
      rw [if_neg h0, if_neg h4, if_pos h3lt]
      set st0 : BtState := ⟨upd (fun _ => UINT32_MAX) 0 0, fun _ => 0, fun _ => 1,
        fun _ => 0, fun _ => NO_MATCH_POS⟩ with hst0
      set st1 := bt_phase1 src md al (src.length - 3) src.length
        (src.length - 3 + 1) 0 st0 0 with hst1
      set st2 := bt_tail src.length src.length st1 (src.length - 3 + 1) with hst2
      have hc0 : BtCells st0 src.length 0 := by
        refine ⟨?_, rfl, ?_, ?_⟩
        · show upd (fun _ => UINT32_MAX) 0 0 0 = 0
          exact upd_self _ _ _
        · intro j hj
          have hj0 : j = 0 := by omega
          subst hj0
          show upd (fun _ => UINT32_MAX) 0 0 0 ≤ 9 * 0
          rw [upd_self]
        · intro j h1j hjN
          refine Or.inr ⟨by omega, ?_, rfl⟩
          show upd (fun _ => UINT32_MAX) 0 0 j = UINT32_MAX
          rw [upd_other _ _ _ _ (by omega)]
      have hphase := bt_phase1_spec src md al (src.length - 3) hN32 (by omega)
        (src.length - 3 + 1) 0 st0 0 (by omega) hc0
        (fun h => Or.inl rfl) (fun s => Or.inr (Or.inr rfl)) (by omega)
      rw [← hst1] at hphase
      have htail := bt_tail_spec src hN32 src.length st1 (src.length - 3 + 1)
        hphase (by omega) (by omega)
      rw [← hst2] at htail
      have hct0 : CellsTrue src st0 src.length := fun j _ => Or.inl rfl
      have hfi0 : ForestInv src al st0 0 := by
        refine ⟨fun h => Or.inl rfl, fun h => ?_, fun h h2 _ p hp _ => ?_⟩
        · show GoodT src al st0.nodes 0 NO_MATCH_POS
          exact GoodT_nmp src al st0.nodes 0
        · exact absurd hp (InT_nmp _ p)
      have hct1 : CellsTrue src st1 src.length := by
        rw [hst1]
        exact bt_phase1_full src md al (src.length - 3) (by omega)
          (src.length - 3 + 1) 0 st0 0 (by omega) hct0 hfi0
      have hct2 : CellsTrue src st2 src.length := by
        rw [hst2]
        exact bt_tail_cellsTrue src src.length st1 (src.length - 3 + 1) hct1
      have hcellsC : ∀ j, 1 ≤ j → j ≤ src.length → BtCellEqC src st2 j := by
        intro j h1 h2
        have hcellw : BtCellEq st2 j := by
          rcases htail.2.2.2 j h1 h2 with ⟨hcell, _⟩ | ⟨hf, _, _⟩
          · exact hcell
          · omega
        rcases hcellw with ⟨hm1, hcosteq⟩ | hmatch
        · exact Or.inl ⟨hm1, hcosteq⟩
        · refine Or.inr ⟨hmatch, ?_⟩
          rcases hct2 j (by omega) with h | ⟨_, _, h3⟩
          · have := hmatch.1
            have hm3 : MIN_MATCH = 3 := by decide
            omega
          · exact h3
      obtain ⟨st3, nt3, heq, hnt3, hag3, htoks⟩ := bt_gather_tokens_ok src st2
        hcellsC (src.length + 1) src.length src.length st2 le_rfl le_rfl
        (fun j _ => ⟨rfl, rfl, rfl⟩) (by omega)
      have hres := htoks (src.length + 1) le_rfl
        (by
          intro st3b fuelt2 _ _
          have hnil : bt_tokens src st3b src.length fuelt2 (src.length + 1)
              src.length = [] := by
            cases fuelt2 with
            | zero => rfl
            | succ f2 =>
              simp only [bt_tokens]
              rw [if_neg (by omega)]
          rw [hnil]
          show src.length = src.length
          rfl)
        st3 (fun s _ => ⟨rfl, rfl⟩) (by omega)
      rw [heq]
      exact hres

theorem crush_pack_btparse_roundtrip (src : List Nat) (md al : Nat)
    (hbytes : ∀ b ∈ src, b < 256)
    (hN32 : 9 * src.length + 64 < UINT32_MAX) :
    crush_depack (crush_pack_btparse src md al) src.length = some src := by
  have hok := crush_btparse_tokens_ok src md al hN32
  have heq : crush_pack_btparse src md al =
      lbw_finalize (emitTokens le_putToken lbw_init
        (crush_btparse_tokens src md al)) := by
    simp only [crush_pack_btparse]
    rw [emitTokens_bt_eq_le _ _ (tokSeqOK_tokenOK src hbytes _ 0 hok)]
  rw [heq]
  exact pack_le_roundtrip src _ hbytes hok

/-- C1: round-trip at every level.  For every byte input of length N
below 2^28 and every level in {5..10}, crush_pack_level succeeds and
crush_depack of the packed bytes with depacked_size N returns exactly the
input (so the decoder also returns N). -/
theorem C1_pack_depack_roundtrip (src : List Nat) (level : Nat)
    (h5 : 5 ≤ level) (h10 : level ≤ 10)
    (hbytes : ∀ b ∈ src, b < 256) (hsize : src.length < 2 ^ 28) :
    ∃ out, crush_pack_level src level = some out ∧
      crush_depack out src.length = some src := by
  have h28 : (2 : Nat) ^ 28 = 268435456 := by norm_num
  have hN : 9 * src.length + 64 < ULONG_MAX := by
    have h1 : ULONG_MAX = 18446744073709551615 := by decide
    omega
  have hN32 : 9 * src.length + 64 < UINT32_MAX := by
    have h1 : UINT32_MAX = 4294967295 := by decide
    omega
  interval_cases level
  · exact ⟨_, rfl, crush_pack_leparse_roundtrip src 1 16 hbytes hN⟩
  · exact ⟨_, rfl, crush_pack_leparse_roundtrip src 8 32 hbytes hN⟩
  · exact ⟨_, rfl, crush_pack_leparse_roundtrip src 64 64 hbytes hN⟩
  · exact ⟨_, rfl, crush_pack_btparse_roundtrip src 16 96 hbytes hN32⟩
  · exact ⟨_, rfl, crush_pack_btparse_roundtrip src 32 224 hbytes hN32⟩
  · exact ⟨_, rfl, crush_pack_btparse_roundtrip src ULONG_MAX ULONG_MAX hbytes hN32⟩

theorem C1_pack_depack_roundtrip_witness :
    ((5 : Nat) ≤ 5 ∧ (5 : Nat) ≤ 10 ∧ (∀ b ∈ ([9, 9, 9] : List Nat), b < 256) ∧
        ([9, 9, 9] : List Nat).length < 2 ^ 28) ∧
      ∃ out, crush_pack_level [9, 9, 9] 5 = some out ∧
        crush_depack out ([9, 9, 9] : List Nat).length = some [9, 9, 9] :=
  ⟨⟨by decide, by decide, by decide, by decide⟩,
    C1_pack_depack_roundtrip [9, 9, 9] 5 (by decide) (by decide) (by decide)
      (by decide)⟩

/-! Supporting lemmas: noninterference of the initial workmem contents. -/

theorem crush_hash3_bits_lt (inp : List Nat) (i bits : Nat) (hb : bits ≤ 32) :
    crush_hash3_bits inp i bits < 2 ^ bits := by
  simp only [crush_hash3_bits]
  rw [Nat.shiftRight_eq_div_pow]
  have h1 : (inp.getD i 0 ||| inp.getD (i + 1) 0 <<< 8 |||
      inp.getD (i + 2) 0 <<< 16) * 2654435761 % 2 ^ 32 < 2 ^ 32 :=
    Nat.mod_lt _ (by norm_num)
  rw [Nat.div_lt_iff_lt_mul (by positivity)]
  calc (inp.getD i 0 ||| inp.getD (i + 1) 0 <<< 8 |||
      inp.getD (i + 2) 0 <<< 16) * 2654435761 % 2 ^ 32
      < 2 ^ 32 := h1
    _ = 2 ^ bits * 2 ^ (32 - bits) := by
        rw [← pow_add]
        congr 1
        omega

theorem bt_update_pair (N cur pos len : Nat) (hend : cur + len ≤ N) :
    ∀ fuel sa sb i,
      (∀ j, j ≤ N → sa.cost j = sb.cost j) →
      (∀ j, j ≤ N → sa.mlen j = sb.mlen j) →
      (∀ j, j ≤ N → sa.mlen j ≠ 1 → sa.mpos j = sb.mpos j) →
      (∀ j, j ≤ N → (bt_update cur pos len fuel sa i).cost j
          = (bt_update cur pos len fuel sb i).cost j) ∧
      (∀ j, j ≤ N → (bt_update cur pos len fuel sa i).mlen j
          = (bt_update cur pos len fuel sb i).mlen j) ∧
      (∀ j, j ≤ N → (bt_update cur pos len fuel sa i).mlen j ≠ 1 →
        (bt_update cur pos len fuel sa i).mpos j
          = (bt_update cur pos len fuel sb i).mpos j) ∧
      (bt_update cur pos len fuel sa i).nodes = sa.nodes ∧
      (bt_update cur pos len fuel sb i).nodes = sb.nodes ∧
      (bt_update cur pos len fuel sa i).lookup = sa.lookup ∧
      (bt_update cur pos len fuel sb i).lookup = sb.lookup := by
  intro fuel
  induction fuel with
  | zero => intro sa sb i hc hm hp; exact ⟨hc, hm, hp, rfl, rfl, rfl, rfl⟩
  | succ f ih =>
    intro sa sb i hc hm hp
    simp only [bt_update]
    by_cases hi : i ≤ len
    · rw [if_pos hi, if_pos hi]
      have hcc : sa.cost cur = sb.cost cur := hc cur (by omega)
      have hci : sa.cost (cur + i) = sb.cost (cur + i) := hc (cur + i) (by omega)
      by_cases hlt : sa.cost cur + crush_match_cost (cur - pos - 1) i
          < sa.cost (cur + i)
      · rw [if_pos hlt, if_pos (by rw [← hcc, ← hci]; exact hlt)]
        refine ih _ _ (i + 1) ?_ ?_ ?_
        · intro j hj
          show upd sa.cost (cur + i) _ j = upd sb.cost (cur + i) _ j
          by_cases hji : j = cur + i
          · subst hji
            rw [upd_self, upd_self, hcc]
          · rw [upd_other _ _ _ _ hji, upd_other _ _ _ _ hji]
            exact hc j hj
        · intro j hj
          show upd sa.mlen (cur + i) i j = upd sb.mlen (cur + i) i j
          by_cases hji : j = cur + i
          · subst hji
            rw [upd_self, upd_self]
          · rw [upd_other _ _ _ _ hji, upd_other _ _ _ _ hji]
            exact hm j hj
        · intro j hj hne
          have hne2 : upd sa.mlen (cur + i) i j ≠ 1 := hne
          show upd sa.mpos (cur + i) (cur - pos - 1) j
              = upd sb.mpos (cur + i) (cur - pos - 1) j
          by_cases hji : j = cur + i
          · subst hji
            rw [upd_self, upd_self]
          · rw [upd_other _ _ _ _ hji, upd_other _ _ _ _ hji]
            rw [upd_other _ _ _ _ hji] at hne2
            exact hp j hj hne2
      · rw [if_neg hlt, if_neg (by rw [← hcc, ← hci]; exact hlt)]
        exact ih sa sb (i + 1) hc hm hp
    · rw [if_neg hi, if_neg hi]
      exact ⟨hc, hm, hp, rfl, rfl, rfl, rfl⟩

theorem bt_literal_step_pair (N cur : Nat) (sa sb : BtState) (hcN : cur + 1 ≤ N)
    (hc : ∀ j, j ≤ N → sa.cost j = sb.cost j)
    (hm : ∀ j, j ≤ N → sa.mlen j = sb.mlen j)
    (hp : ∀ j, j ≤ N → sa.mlen j ≠ 1 → sa.mpos j = sb.mpos j) :
    (∀ j, j ≤ N → (bt_literal_step sa cur).cost j = (bt_literal_step sb cur).cost j) ∧
    (∀ j, j ≤ N → (bt_literal_step sa cur).mlen j = (bt_literal_step sb cur).mlen j) ∧
    (∀ j, j ≤ N → (bt_literal_step sa cur).mlen j ≠ 1 →
      (bt_literal_step sa cur).mpos j = (bt_literal_step sb cur).mpos j) ∧
    (bt_literal_step sa cur).nodes = sa.nodes ∧
    (bt_literal_step sb cur).nodes = sb.nodes ∧
    (bt_literal_step sa cur).lookup = sa.lookup ∧
    (bt_literal_step sb cur).lookup = sb.lookup := by
  simp only [bt_literal_step]
  have hcc : sa.cost cur = sb.cost cur := hc cur (by omega)
  have hc1 : sa.cost (cur + 1) = sb.cost (cur + 1) := hc (cur + 1) (by omega)
  by_cases hg : sa.cost cur + 9 < sa.cost (cur + 1)
  · rw [if_pos hg, if_pos (by rw [← hcc, ← hc1]; exact hg)]
    refine ⟨?_, ?_, ?_, rfl, rfl, rfl, rfl⟩
    · intro j hj
      show upd sa.cost (cur + 1) _ j = upd sb.cost (cur + 1) _ j
      by_cases hji : j = cur + 1
      · subst hji
        rw [upd_self, upd_self, hcc]
      · rw [upd_other _ _ _ _ hji, upd_other _ _ _ _ hji]
        exact hc j hj
    · intro j hj
      show upd sa.mlen (cur + 1) 1 j = upd sb.mlen (cur + 1) 1 j
      by_cases hji : j = cur + 1
      · subst hji
        rw [upd_self, upd_self]
      · rw [upd_other _ _ _ _ hji, upd_other _ _ _ _ hji]
        exact hm j hj
    · intro j hj hne
      have hne2 : upd sa.mlen (cur + 1) 1 j ≠ 1 := hne
      show sa.mpos j = sb.mpos j
      by_cases hji : j = cur + 1
      · subst hji
        rw [upd_self] at hne2
        exact absurd rfl hne2
      · refine hp j hj ?_
        rw [upd_other _ _ _ _ hji] at hne2
        exact hne2
  · rw [if_neg hg, if_neg (by rw [← hcc, ← hc1]; exact hg)]
    exact ⟨hc, hm, hp, rfl, rfl, rfl, rfl⟩

theorem bt_walk_pair (inp : List Nat) (al ll cur : Nat)
    (hll : cur + ll ≤ inp.length) :
    ∀ num_chain sa sb nmc pos lt_node gt_node lt_len gt_len max_len,
      (∀ j, j ≤ inp.length → sa.cost j = sb.cost j) →
      (∀ j, j ≤ inp.length → sa.mlen j = sb.mlen j) →
      (∀ j, j ≤ inp.length → sa.mlen j ≠ 1 → sa.mpos j = sb.mpos j) →
      GoodT inp al sa.nodes cur pos →
      (∀ y, InT sa.nodes pos y →
        sb.nodes (2 * y) = sa.nodes (2 * y) ∧
        sb.nodes (2 * y + 1) = sa.nodes (2 * y + 1)) →
      (∀ y, InT sa.nodes pos y →
        2 * y ≠ lt_node ∧ 2 * y + 1 ≠ lt_node ∧
        2 * y ≠ gt_node ∧ 2 * y + 1 ≠ gt_node) →
      lt_node ≠ gt_node → lt_len ≤ ll → gt_len ≤ ll →
      ∃ ra rb nmcR,
        bt_walk inp al ll cur num_chain sa nmc pos lt_node gt_node lt_len
          gt_len max_len = (ra, nmcR) ∧
        bt_walk inp al ll cur num_chain sb nmc pos lt_node gt_node lt_len
          gt_len max_len = (rb, nmcR) ∧
        (∀ j, j ≤ inp.length → ra.cost j = rb.cost j) ∧
        (∀ j, j ≤ inp.length → ra.mlen j = rb.mlen j) ∧
        (∀ j, j ≤ inp.length → ra.mlen j ≠ 1 → ra.mpos j = rb.mpos j) ∧
        ra.lookup = sa.lookup ∧ rb.lookup = sb.lookup ∧
        (∀ s, sa.nodes s = sb.nodes s → ra.nodes s = rb.nodes s) ∧
        ra.nodes lt_node = rb.nodes lt_node ∧
        ra.nodes gt_node = rb.nodes gt_node := by
  intro num_chain
  induction num_chain using Nat.strong_induction_on with
  | _ n ih =>
    intro sa sb nmc pos lt_node gt_node lt_len gt_len max_len hc hm hp hgood
      hbslots hslots hlg hltl hgtl
    by_cases hguard : pos = NO_MATCH_POS ∨ W_SIZE < cur - pos ∨ n = 0
    · refine ⟨⟨sa.cost, sa.mpos, sa.mlen,
        upd (upd sa.nodes lt_node NO_MATCH_POS) gt_node NO_MATCH_POS,
        sa.lookup⟩,
        ⟨sb.cost, sb.mpos, sb.mlen,
        upd (upd sb.nodes lt_node NO_MATCH_POS) gt_node NO_MATCH_POS,
        sb.lookup⟩, nmc,
        by rw [bt_walk, if_pos hguard],
        by rw [bt_walk, if_pos hguard],
        hc, hm, hp, rfl, rfl, ?_, ?_, ?_⟩
      · intro s hs
        show upd (upd sa.nodes lt_node NO_MATCH_POS) gt_node NO_MATCH_POS s
            = upd (upd sb.nodes lt_node NO_MATCH_POS) gt_node NO_MATCH_POS s
        by_cases h1 : s = gt_node
        · rw [h1, upd_self, upd_self]
        · rw [upd_other _ _ _ _ h1, upd_other _ _ _ _ h1]
          by_cases h2 : s = lt_node
          · rw [h2, upd_self, upd_self]
          · rw [upd_other _ _ _ _ h2, upd_other _ _ _ _ h2]
            exact hs
      · show upd (upd sa.nodes lt_node NO_MATCH_POS) gt_node NO_MATCH_POS
            lt_node
            = upd (upd sb.nodes lt_node NO_MATCH_POS) gt_node NO_MATCH_POS
              lt_node
        rw [upd_other _ _ _ _ hlg, upd_other _ _ _ _ hlg, upd_self, upd_self]
      · show upd (upd sa.nodes lt_node NO_MATCH_POS) gt_node NO_MATCH_POS
            gt_node
            = upd (upd sb.nodes lt_node NO_MATCH_POS) gt_node NO_MATCH_POS
              gt_node
        rw [upd_self, upd_self]
    · have hne : pos ≠ NO_MATCH_POS := fun h => hguard (Or.inl h)
      rcases (GoodT_unfold inp al sa.nodes cur pos).mp hgood with h | hG
      · exact absurd h hne
      obtain ⟨hpc, hglc, hgrc, hmlft, hmrgt, hdj⟩ := hG
      have hposmem : InT sa.nodes pos pos := InT_self sa.nodes pos hne
      have hps := hslots pos hposmem
      have hpbs := hbslots pos hposmem
      have hLle : le_match_len inp pos cur ll ll
          (if lt_len < gt_len then lt_len else gt_len) ≤ ll :=
        le_match_len_le inp pos cur ll ll _ (by split_ifs <;> omega)
      set L := le_match_len inp pos cur ll ll
        (if lt_len < gt_len then lt_len else gt_len) with hLdef
      have hmain : ∀ (sa2 sb2 : BtState) (nmc2 mx2 : Nat),
          (∀ j, j ≤ inp.length → sa2.cost j = sb2.cost j) →
          (∀ j, j ≤ inp.length → sa2.mlen j = sb2.mlen j) →
          (∀ j, j ≤ inp.length → sa2.mlen j ≠ 1 → sa2.mpos j = sb2.mpos j) →
          sa2.nodes = sa.nodes → sb2.nodes = sb.nodes →
          sa2.lookup = sa.lookup → sb2.lookup = sb.lookup →
          ∃ ra rb nmcR,
            (if al ≤ L ∨ L = ll then
              ((⟨sa2.cost, sa2.mpos, sa2.mlen,
                upd (upd sa2.nodes lt_node (sa2.nodes (2 * pos))) gt_node
                  (sa2.nodes (2 * pos + 1)), sa2.lookup⟩ : BtState), nmc2)
            else if inp.getD (pos + L) 0 < inp.getD (cur + L) 0 then
              bt_walk inp al ll cur (n - 1)
                ⟨sa2.cost, sa2.mpos, sa2.mlen, upd sa2.nodes lt_node pos,
                  sa2.lookup⟩
                nmc2 (upd sa2.nodes lt_node pos (2 * pos + 1)) (2 * pos + 1)
                gt_node L gt_len mx2
            else
              bt_walk inp al ll cur (n - 1)
                ⟨sa2.cost, sa2.mpos, sa2.mlen, upd sa2.nodes gt_node pos,
                  sa2.lookup⟩
                nmc2 (upd sa2.nodes gt_node pos (2 * pos)) lt_node (2 * pos)
                lt_len L mx2) = (ra, nmcR) ∧
            (if al ≤ L ∨ L = ll then
              ((⟨sb2.cost, sb2.mpos, sb2.mlen,
                upd (upd sb2.nodes lt_node (sb2.nodes (2 * pos))) gt_node
                  (sb2.nodes (2 * pos + 1)), sb2.lookup⟩ : BtState), nmc2)
            else if inp.getD (pos + L) 0 < inp.getD (cur + L) 0 then
              bt_walk inp al ll cur (n - 1)
                ⟨sb2.cost, sb2.mpos, sb2.mlen, upd sb2.nodes lt_node pos,
                  sb2.lookup⟩
                nmc2 (upd sb2.nodes lt_node pos (2 * pos + 1)) (2 * pos + 1)
                gt_node L gt_len mx2
            else
              bt_walk inp al ll cur (n - 1)
                ⟨sb2.cost, sb2.mpos, sb2.mlen, upd sb2.nodes gt_node pos,
                  sb2.lookup⟩
                nmc2 (upd sb2.nodes gt_node pos (2 * pos)) lt_node (2 * pos)
                lt_len L mx2) = (rb, nmcR) ∧
            (∀ j, j ≤ inp.length → ra.cost j = rb.cost j) ∧
            (∀ j, j ≤ inp.length → ra.mlen j = rb.mlen j) ∧
            (∀ j, j ≤ inp.length → ra.mlen j ≠ 1 → ra.mpos j = rb.mpos j) ∧
            ra.lookup = sa.lookup ∧ rb.lookup = sb.lookup ∧
            (∀ s, sa.nodes s = sb.nodes s → ra.nodes s = rb.nodes s) ∧
            ra.nodes lt_node = rb.nodes lt_node ∧
            ra.nodes gt_node = rb.nodes gt_node := by
        intro sa2 sb2 nmc2 mx2 hc2 hm2 hp2 hna hnb hla hlb
        by_cases hstop : al ≤ L ∨ L = ll
        · rw [if_pos hstop, if_pos hstop]
          refine ⟨_, _, nmc2, rfl, rfl, hc2, hm2, hp2, hla, hlb, ?_, ?_, ?_⟩
          · intro s hs
            show upd (upd sa2.nodes lt_node (sa2.nodes (2 * pos))) gt_node
                (sa2.nodes (2 * pos + 1)) s
                = upd (upd sb2.nodes lt_node (sb2.nodes (2 * pos))) gt_node
                  (sb2.nodes (2 * pos + 1)) s
            rw [hna, hnb]
            by_cases h1 : s = gt_node
            · rw [h1, upd_self, upd_self, hpbs.2]
            · rw [upd_other _ _ _ _ h1, upd_other _ _ _ _ h1]
              by_cases h2 : s = lt_node
              · rw [h2, upd_self, upd_self, hpbs.1]
              · rw [upd_other _ _ _ _ h2, upd_other _ _ _ _ h2]
                exact hs
          · show upd (upd sa2.nodes lt_node (sa2.nodes (2 * pos))) gt_node
                (sa2.nodes (2 * pos + 1)) lt_node
                = upd (upd sb2.nodes lt_node (sb2.nodes (2 * pos))) gt_node
                  (sb2.nodes (2 * pos + 1)) lt_node
            rw [hna, hnb, upd_other _ _ _ _ hlg, upd_other _ _ _ _ hlg,
              upd_self, upd_self, hpbs.1]
          · show upd (upd sa2.nodes lt_node (sa2.nodes (2 * pos))) gt_node
                (sa2.nodes (2 * pos + 1)) gt_node
                = upd (upd sb2.nodes lt_node (sb2.nodes (2 * pos))) gt_node
                  (sb2.nodes (2 * pos + 1)) gt_node
            rw [hna, hnb, upd_self, upd_self, hpbs.2]
        · rw [if_neg hstop, if_neg hstop]
          by_cases hdir : inp.getD (pos + L) 0 < inp.getD (cur + L) 0
          · rw [if_pos hdir, if_pos hdir]
            have hpos2a : upd sa2.nodes lt_node pos (2 * pos + 1)
                = sa.nodes (2 * pos + 1) := by
              rw [hna, upd_other _ _ _ _ hps.2.1]
            have hpos2b : upd sb2.nodes lt_node pos (2 * pos + 1)
                = sa.nodes (2 * pos + 1) := by
              rw [hnb, upd_other _ _ _ _ hps.2.1, hpbs.2]
            have hagr2 : ∀ y, InT sa.nodes (sa.nodes (2 * pos + 1)) y →
                upd sa2.nodes lt_node pos (2 * y) = sa.nodes (2 * y) ∧
                upd sa2.nodes lt_node pos (2 * y + 1) = sa.nodes (2 * y + 1) := by
              intro y hy
              have hs := hslots y (InT_right sa.nodes pos y hne hy)
              exact ⟨by rw [hna, upd_other _ _ _ _ hs.1],
                by rw [hna, upd_other _ _ _ _ hs.2.1]⟩
            have htr : ∀ y, InT (upd sa2.nodes lt_node pos)
                (upd sa2.nodes lt_node pos (2 * pos + 1)) y ↔
                InT sa.nodes (sa.nodes (2 * pos + 1)) y := by
              intro y
              rw [hpos2a]
              exact InT_congr sa.nodes _ _ hagr2 y
            have hposeq : upd sb2.nodes lt_node pos (2 * pos + 1)
                = upd sa2.nodes lt_node pos (2 * pos + 1) := by
              rw [hpos2a, hpos2b]
            rw [hposeq]
            obtain ⟨ra, rb, nmcR, heqA, heqB, hcR, hmR, hpR, hlaR, hlbR, hndR,
                hltR, hgtR⟩ :=
              ih (n - 1) (by omega)
                ⟨sa2.cost, sa2.mpos, sa2.mlen, upd sa2.nodes lt_node pos,
                  sa2.lookup⟩
                ⟨sb2.cost, sb2.mpos, sb2.mlen, upd sb2.nodes lt_node pos,
                  sb2.lookup⟩
                nmc2 (upd sa2.nodes lt_node pos (2 * pos + 1)) (2 * pos + 1)
                gt_node L gt_len mx2
                (fun j hj => hc2 j hj) (fun j hj => hm2 j hj)
                (fun j hj hne2 => hp2 j hj hne2)
                (by
                  show GoodT inp al (upd sa2.nodes lt_node pos) cur _
                  rw [hpos2a]
                  exact (GoodT_congr inp al sa.nodes _ cur _ hagr2).mpr hgrc)
                (by
                  intro y hy
                  have hyO := (htr y).mp hy
                  have hs := hslots y (InT_right sa.nodes pos y hne hyO)
                  have hbs := hbslots y (InT_right sa.nodes pos y hne hyO)
                  constructor
                  · show upd sb2.nodes lt_node pos (2 * y)
                        = upd sa2.nodes lt_node pos (2 * y)
                    rw [hna, hnb, upd_other _ _ _ _ hs.1,
                      upd_other _ _ _ _ hs.1, hbs.1]
                  · show upd sb2.nodes lt_node pos (2 * y + 1)
                        = upd sa2.nodes lt_node pos (2 * y + 1)
                    rw [hna, hnb, upd_other _ _ _ _ hs.2.1,
                      upd_other _ _ _ _ hs.2.1, hbs.2])
                (by
                  intro y hy
                  have hyO := (htr y).mp hy
                  have hm3 : y < pos := (hmrgt y hyO).1
                  have hs := hslots y (InT_right sa.nodes pos y hne hyO)
                  exact ⟨by omega, by omega, hs.2.2.1, hs.2.2.2⟩)
                hps.2.2.2 hLle hgtl
            refine ⟨ra, rb, nmcR, heqA, heqB, hcR, hmR, hpR,
              hlaR.trans hla, hlbR.trans hlb, ?_, ?_, hgtR⟩
            · intro s hs
              refine hndR s ?_
              show upd sa2.nodes lt_node pos s = upd sb2.nodes lt_node pos s
              by_cases h1 : s = lt_node
              · rw [h1, upd_self, upd_self]
              · rw [upd_other _ _ _ _ h1, upd_other _ _ _ _ h1, hna, hnb]
                exact hs
            · refine hndR lt_node ?_
              show upd sa2.nodes lt_node pos lt_node
                  = upd sb2.nodes lt_node pos lt_node
              rw [upd_self, upd_self]
          · rw [if_neg hdir, if_neg hdir]
            have hpos2a : upd sa2.nodes gt_node pos (2 * pos)
                = sa.nodes (2 * pos) := by
              rw [hna, upd_other _ _ _ _ hps.2.2.1]
            have hpos2b : upd sb2.nodes gt_node pos (2 * pos)
                = sa.nodes (2 * pos) := by
              rw [hnb, upd_other _ _ _ _ hps.2.2.1, hpbs.1]
            have hagr2 : ∀ y, InT sa.nodes (sa.nodes (2 * pos)) y →
                upd sa2.nodes gt_node pos (2 * y) = sa.nodes (2 * y) ∧
                upd sa2.nodes gt_node pos (2 * y + 1) = sa.nodes (2 * y + 1) := by
              intro y hy
              have hs := hslots y (InT_left sa.nodes pos y hne hy)
              exact ⟨by rw [hna, upd_other _ _ _ _ hs.2.2.1],
                by rw [hna, upd_other _ _ _ _ hs.2.2.2]⟩
            have htr : ∀ y, InT (upd sa2.nodes gt_node pos)
                (upd sa2.nodes gt_node pos (2 * pos)) y ↔
                InT sa.nodes (sa.nodes (2 * pos)) y := by
              intro y
              rw [hpos2a]
              exact InT_congr sa.nodes _ _ hagr2 y
            have hposeq : upd sb2.nodes gt_node pos (2 * pos)
                = upd sa2.nodes gt_node pos (2 * pos) := by
              rw [hpos2a, hpos2b]
            rw [hposeq]
            obtain ⟨ra, rb, nmcR, heqA, heqB, hcR, hmR, hpR, hlaR, hlbR, hndR,
                hltR, hgtR⟩ :=
              ih (n - 1) (by omega)
                ⟨sa2.cost, sa2.mpos, sa2.mlen, upd sa2.nodes gt_node pos,
                  sa2.lookup⟩
                ⟨sb2.cost, sb2.mpos, sb2.mlen, upd sb2.nodes gt_node pos,
                  sb2.lookup⟩
                nmc2 (upd sa2.nodes gt_node pos (2 * pos)) lt_node (2 * pos)
                lt_len L mx2
                (fun j hj => hc2 j hj) (fun j hj => hm2 j hj)
                (fun j hj hne2 => hp2 j hj hne2)
                (by
                  show GoodT inp al (upd sa2.nodes gt_node pos) cur _
                  rw [hpos2a]
                  exact (GoodT_congr inp al sa.nodes _ cur _ hagr2).mpr hglc)
                (by
                  intro y hy
                  have hyO := (htr y).mp hy
                  have hs := hslots y (InT_left sa.nodes pos y hne hyO)
                  have hbs := hbslots y (InT_left sa.nodes pos y hne hyO)
                  constructor
                  · show upd sb2.nodes gt_node pos (2 * y)
                        = upd sa2.nodes gt_node pos (2 * y)
                    rw [hna, hnb, upd_other _ _ _ _ hs.2.2.1,
                      upd_other _ _ _ _ hs.2.2.1, hbs.1]
                  · show upd sb2.nodes gt_node pos (2 * y + 1)
                        = upd sa2.nodes gt_node pos (2 * y + 1)
                    rw [hna, hnb, upd_other _ _ _ _ hs.2.2.2,
                      upd_other _ _ _ _ hs.2.2.2, hbs.2])
                (by
                  intro y hy
                  have hyO := (htr y).mp hy
                  have hm3 : y < pos := (hmlft y hyO).1
                  have hs := hslots y (InT_left sa.nodes pos y hne hyO)
                  exact ⟨hs.1, hs.2.1, by omega, by omega⟩)
                (Ne.symm hps.1) hltl hLle
            refine ⟨ra, rb, nmcR, heqA, heqB, hcR, hmR, hpR,
              hlaR.trans hla, hlbR.trans hlb, ?_, hltR, ?_⟩
            · intro s hs
              refine hndR s ?_
              show upd sa2.nodes gt_node pos s = upd sb2.nodes gt_node pos s
              by_cases h1 : s = gt_node
              · rw [h1, upd_self, upd_self]
              · rw [upd_other _ _ _ _ h1, upd_other _ _ _ _ h1, hna, hnb]
                exact hs
            · refine hndR gt_node ?_
              show upd sa2.nodes gt_node pos gt_node
                  = upd sb2.nodes gt_node pos gt_node
              rw [upd_self, upd_self]
      by_cases hupd : cur = nmc ∧ max_len < L
      · obtain ⟨hcU, hmU, hpU, hnaU, hnbU, hlaU, hlbU⟩ :=
          bt_update_pair inp.length cur pos L (by omega) (L + 1) sa sb
            (max_len + 1) hc hm hp
        obtain ⟨ra, rb, nmcR, heqA, heqB, hrest⟩ :=
          hmain (bt_update cur pos L (L + 1) sa (max_len + 1))
            (bt_update cur pos L (L + 1) sb (max_len + 1))
            (if al ≤ L then cur + L else nmc) L hcU hmU hpU hnaU hnbU hlaU hlbU
        refine ⟨ra, rb, nmcR, ?_, ?_, hrest⟩
        · rw [bt_walk, if_neg hguard]
          simp only []
          rw [← hLdef, if_pos hupd]
          exact heqA
        · rw [bt_walk, if_neg hguard]
          simp only []
          rw [← hLdef, if_pos hupd]
          exact heqB
      · obtain ⟨ra, rb, nmcR, heqA, heqB, hrest⟩ :=
          hmain sa sb nmc max_len hc hm hp rfl rfl rfl rfl
        refine ⟨ra, rb, nmcR, ?_, ?_, hrest⟩
        · rw [bt_walk, if_neg hguard]
          simp only []
          rw [← hLdef, if_neg hupd]
          exact heqA
        · rw [bt_walk, if_neg hguard]
          simp only []
          rw [← hLdef, if_neg hupd]
          exact heqB

theorem bt_phase1_pair (inp : List Nat) (md al lmp : Nat)
    (hlmp : lmp + 3 ≤ inp.length) :
    ∀ fuel cur sa sb nmc,
      cur ≤ lmp + 1 →
      CellsTrue inp sa inp.length →
      ForestInv inp al sa cur →
      (∀ j, j ≤ inp.length → sa.cost j = sb.cost j) →
      (∀ j, j ≤ inp.length → sa.mlen j = sb.mlen j) →
      (∀ j, j ≤ inp.length → sa.mlen j ≠ 1 → sa.mpos j = sb.mpos j) →
      (∀ h, h < LOOKUP_SIZE → sa.lookup h = sb.lookup h) →
      (∀ p, p < cur → sb.nodes (2 * p) = sa.nodes (2 * p) ∧
        sb.nodes (2 * p + 1) = sa.nodes (2 * p + 1)) →
      (∀ j, j ≤ inp.length →
        (bt_phase1 inp md al lmp inp.length fuel cur sa nmc).cost j
          = (bt_phase1 inp md al lmp inp.length fuel cur sb nmc).cost j) ∧
      (∀ j, j ≤ inp.length →
        (bt_phase1 inp md al lmp inp.length fuel cur sa nmc).mlen j
          = (bt_phase1 inp md al lmp inp.length fuel cur sb nmc).mlen j) ∧
      (∀ j, j ≤ inp.length →
        (bt_phase1 inp md al lmp inp.length fuel cur sa nmc).mlen j ≠ 1 →
        (bt_phase1 inp md al lmp inp.length fuel cur sa nmc).mpos j
          = (bt_phase1 inp md al lmp inp.length fuel cur sb nmc).mpos j) := by
  intro fuel
  induction fuel with
  | zero => intro cur sa sb nmc _ _ _ hc hm hp _ _; exact ⟨hc, hm, hp⟩
  | succ f ih =>
    intro cur sa sb nmc hcl hct hfi hc hm hp hlkp hnag
    by_cases hil : cur ≤ lmp
    · obtain ⟨hcL, hmL, hpL, hnLa, hnLb, hlLa, hlLb⟩ :=
        bt_literal_step_pair inp.length cur sa sb (by omega) hc hm hp
      obtain ⟨hct1, hn1, hl1⟩ := bt_literal_step_cellsTrue inp sa cur hct
      obtain ⟨hlk, hgd, hdis⟩ := hfi
      have hposG : GoodT inp al (bt_literal_step sa cur).nodes cur
          ((bt_literal_step sa cur).lookup
            (crush_hash3_bits inp cur CRUSH_HASH_BITS)) := by
        rw [hn1, hl1]
        exact hgd _
      obtain ⟨stR, nmcR, heq, hctR, hlkR, hfrR, hgl, hgg, hmemL, hmemG, hdisjR⟩ :=
        bt_walk_full inp al
          (if cur = (if nmc < cur then cur else nmc) then
            (if MAX_MATCH < inp.length - cur then MAX_MATCH else inp.length - cur)
           else if al < (if MAX_MATCH < inp.length - cur then MAX_MATCH
                else inp.length - cur) then al
           else (if MAX_MATCH < inp.length - cur then MAX_MATCH
                else inp.length - cur))
          cur (by split_ifs <;> omega) (by split_ifs <;> omega)
          (by split_ifs <;> omega)
          md
          ⟨(bt_literal_step sa cur).cost, (bt_literal_step sa cur).mpos,
           (bt_literal_step sa cur).mlen, (bt_literal_step sa cur).nodes,
           upd (bt_literal_step sa cur).lookup
             (crush_hash3_bits inp cur CRUSH_HASH_BITS) cur⟩
          (if nmc < cur then cur else nmc)
          ((bt_literal_step sa cur).lookup
            (crush_hash3_bits inp cur CRUSH_HASH_BITS))
          (2 * cur) (2 * cur + 1) 0 0 (MIN_MATCH - 1)
          (fun j hj => hct1 j hj)
          hposG
          (by
            intro y _
            exact ⟨Or.inl (fun k hk => absurd hk (Nat.not_lt_zero k)),
              Or.inl (fun k hk => absurd hk (Nat.not_lt_zero k))⟩)
          (by
            intro y hy
            have hyb := GoodT_member_lt inp al _ cur _ y hposG hy
            exact ⟨by omega, by omega, by omega, by omega⟩)
          (by omega) (Nat.zero_le _) (Nat.zero_le _)
      obtain ⟨ra2, rb2, nmcR2, heqA, heqB, hcR, hmR, hpR, hlaR, hlbR, hndR,
          hltsR, hgtsR⟩ :=
        bt_walk_pair inp al
          (if cur = (if nmc < cur then cur else nmc) then
            (if MAX_MATCH < inp.length - cur then MAX_MATCH else inp.length - cur)
           else if al < (if MAX_MATCH < inp.length - cur then MAX_MATCH
                else inp.length - cur) then al
           else (if MAX_MATCH < inp.length - cur then MAX_MATCH
                else inp.length - cur))
          cur (by split_ifs <;> omega)
          md
          ⟨(bt_literal_step sa cur).cost, (bt_literal_step sa cur).mpos,
           (bt_literal_step sa cur).mlen, (bt_literal_step sa cur).nodes,
           upd (bt_literal_step sa cur).lookup
             (crush_hash3_bits inp cur CRUSH_HASH_BITS) cur⟩
          ⟨(bt_literal_step sb cur).cost, (bt_literal_step sb cur).mpos,
           (bt_literal_step sb cur).mlen, (bt_literal_step sb cur).nodes,
           upd (bt_literal_step sb cur).lookup
             (crush_hash3_bits inp cur CRUSH_HASH_BITS) cur⟩
          (if nmc < cur then cur else nmc)
          ((bt_literal_step sa cur).lookup
            (crush_hash3_bits inp cur CRUSH_HASH_BITS))
          (2 * cur) (2 * cur + 1) 0 0 (MIN_MATCH - 1)
          (fun j hj => hcL j hj) (fun j hj => hmL j hj)
          (fun j hj hne => hpL j hj hne)
          hposG
          (by
            intro y hy
            have hy2 : InT (bt_literal_step sa cur).nodes
                ((bt_literal_step sa cur).lookup
                  (crush_hash3_bits inp cur CRUSH_HASH_BITS)) y := hy
            rw [hn1, hl1] at hy2
            have hylt : y < cur :=
              (GoodT_member_lt inp al sa.nodes cur _ y (hgd _) hy2).2
            constructor
            · show (bt_literal_step sb cur).nodes (2 * y)
                  = (bt_literal_step sa cur).nodes (2 * y)
              rw [hnLa, hnLb]
              exact (hnag y hylt).1
            · show (bt_literal_step sb cur).nodes (2 * y + 1)
                  = (bt_literal_step sa cur).nodes (2 * y + 1)
              rw [hnLa, hnLb]
              exact (hnag y hylt).2)
          (by
            intro y hy
            have hyb := GoodT_member_lt inp al _ cur _ y hposG hy
            exact ⟨by omega, by omega, by omega, by omega⟩)
          (by omega) (Nat.zero_le _) (Nat.zero_le _)
      have hpe : (stR, nmcR) = (ra2, nmcR2) := heq.symm.trans heqA
      have hre : stR = ra2 := congrArg Prod.fst hpe
      have hrn : nmcR = nmcR2 := congrArg Prod.snd hpe
      rw [← hrn] at heqB
      rw [← hre] at hcR hmR hpR hlaR hndR hltsR hgtsR
      have hposeqB : (bt_literal_step sb cur).lookup
          (crush_hash3_bits inp cur CRUSH_HASH_BITS)
          = (bt_literal_step sa cur).lookup
            (crush_hash3_bits inp cur CRUSH_HASH_BITS) := by
        rw [hlLa, hlLb]
        exact (hlkp _ (crush_hash3_bits_lt inp cur CRUSH_HASH_BITS
          (by decide))).symm
      have hA : bt_phase1 inp md al lmp inp.length (f + 1) cur sa nmc
          = bt_phase1 inp md al lmp inp.length f (cur + 1) stR nmcR := by
        simp only [bt_phase1]
        rw [if_pos hil]
        rw [heq]
      have hB : bt_phase1 inp md al lmp inp.length (f + 1) cur sb nmc
          = bt_phase1 inp md al lmp inp.length f (cur + 1) rb2 nmcR := by
        simp only [bt_phase1]
        rw [if_pos hil]
        rw [hposeqB, heqB]
      have hmemO : ∀ p, InT (bt_literal_step sa cur).nodes
          ((bt_literal_step sa cur).lookup
            (crush_hash3_bits inp cur CRUSH_HASH_BITS)) p →
          InT sa.nodes (sa.lookup (crush_hash3_bits inp cur CRUSH_HASH_BITS)) p := by
        intro p hp
        rw [hn1, hl1] at hp
        exact hp
      have hagh : ∀ h, h ≠ crush_hash3_bits inp cur CRUSH_HASH_BITS →
          ∀ y, InT sa.nodes (sa.lookup h) y →
            stR.nodes (2 * y) = sa.nodes (2 * y) ∧
            stR.nodes (2 * y + 1) = sa.nodes (2 * y + 1) := by
        intro h he y hy
        have hyb := GoodT_member_lt inp al sa.nodes cur (sa.lookup h) y (hgd h) hy
        have hslot : ∀ z, InT (bt_literal_step sa cur).nodes
            ((bt_literal_step sa cur).lookup
              (crush_hash3_bits inp cur CRUSH_HASH_BITS)) z →
            y ≠ z := by
          intro z hz heqz
          subst heqz
          exact hdis h (crush_hash3_bits inp cur CRUSH_HASH_BITS) he y hy
            (hmemO y hz)
        constructor
        · have h4 := hfrR (2 * y) (by omega) (by omega)
            (by
              intro z hz
              have hzy := hslot z hz
              exact ⟨by omega, by omega⟩)
          rw [h4]
          show (bt_literal_step sa cur).nodes (2 * y) = sa.nodes (2 * y)
          rw [hn1]
        · have h4 := hfrR (2 * y + 1) (by omega) (by omega)
            (by
              intro z hz
              have hzy := hslot z hz
              exact ⟨by omega, by omega⟩)
          rw [h4]
          show (bt_literal_step sa cur).nodes (2 * y + 1) = sa.nodes (2 * y + 1)
          rw [hn1]
      have hlkR2 : ∀ h, stR.lookup h
          = upd sa.lookup (crush_hash3_bits inp cur CRUSH_HASH_BITS) cur h := by
        intro h
        rw [hlkR]
        show upd (bt_literal_step sa cur).lookup
          (crush_hash3_bits inp cur CRUSH_HASH_BITS) cur h = _
        rw [hl1]
      have hfiN : ForestInv inp al stR (cur + 1) := by
        refine ⟨?_, ?_, ?_⟩
        · intro h
          rw [hlkR2 h]
          by_cases he : h = crush_hash3_bits inp cur CRUSH_HASH_BITS
          · rw [he, upd_self]
            exact Or.inr (by omega)
          · rw [upd_other _ _ _ _ he]
            rcases hlk h with h2 | h2
            · exact Or.inl h2
            · exact Or.inr (by omega)
        · intro h
          rw [hlkR2 h]
          by_cases he : h = crush_hash3_bits inp cur CRUSH_HASH_BITS
          · rw [he, upd_self]
            refine (GoodT_unfold inp al stR.nodes (cur + 1) cur).mpr
              (Or.inr ⟨by omega, ?_, ?_, ?_, ?_, ?_⟩)
            · exact GoodT_bound_mono inp al stR.nodes cur (cur + 1) _ (by omega) hgl
            · exact GoodT_bound_mono inp al stR.nodes cur (cur + 1) _ (by omega) hgg
            · intro y hy
              exact ⟨(hmemL y hy).1, (hmemL y hy).2.1⟩
            · intro y hy
              exact ⟨(hmemG y hy).1, (hmemG y hy).2.1⟩
            · exact hdisjR
          · rw [upd_other _ _ _ _ he]
            exact (GoodT_congr inp al sa.nodes stR.nodes (cur + 1)
                (sa.lookup h) (hagh h he)).mpr
              (GoodT_bound_mono inp al sa.nodes cur (cur + 1) _ (by omega) (hgd h))
        · intro h h2 hne12 p hp1 hp2
          rw [hlkR2 h] at hp1
          rw [hlkR2 h2] at hp2
          by_cases he1 : h = crush_hash3_bits inp cur CRUSH_HASH_BITS
          · rw [he1, upd_self] at hp1
            have he2 : h2 ≠ crush_hash3_bits inp cur CRUSH_HASH_BITS := by
              rw [← he1]
              exact Ne.symm hne12
            rw [upd_other _ _ _ _ he2] at hp2
            have hp2O := (InT_congr sa.nodes stR.nodes _ (hagh h2 he2) p).mp hp2
            have hp2b := GoodT_member_lt inp al sa.nodes cur _ p (hgd h2) hp2O
            rcases (InT_unfold stR.nodes cur p).mp hp1 with ⟨_, rfl | hpl | hpl⟩
            · omega
            · exact hdis (crush_hash3_bits inp cur CRUSH_HASH_BITS) h2
                (Ne.symm he2) p (hmemO p (hmemL p hpl).2.2) hp2O
            · exact hdis (crush_hash3_bits inp cur CRUSH_HASH_BITS) h2
                (Ne.symm he2) p (hmemO p (hmemG p hpl).2.2) hp2O
          · rw [upd_other _ _ _ _ he1] at hp1
            have hp1O := (InT_congr sa.nodes stR.nodes _ (hagh h he1) p).mp hp1
            have hp1b := GoodT_member_lt inp al sa.nodes cur _ p (hgd h) hp1O
            by_cases he2 : h2 = crush_hash3_bits inp cur CRUSH_HASH_BITS
            · rw [he2, upd_self] at hp2
              rcases (InT_unfold stR.nodes cur p).mp hp2 with ⟨_, rfl | hpl | hpl⟩
              · omega
              · exact hdis h (crush_hash3_bits inp cur CRUSH_HASH_BITS)
                  he1 p hp1O (hmemO p (hmemL p hpl).2.2)
              · exact hdis h (crush_hash3_bits inp cur CRUSH_HASH_BITS)
                  he1 p hp1O (hmemO p (hmemG p hpl).2.2)
            · rw [upd_other _ _ _ _ he2] at hp2
              exact hdis h h2 hne12 p hp1O
                ((InT_congr sa.nodes stR.nodes _ (hagh h2 he2) p).mp hp2)
      have hlkN : ∀ h, h < LOOKUP_SIZE → stR.lookup h = rb2.lookup h := by
        intro h hh
        rw [hlaR, hlbR]
        show upd (bt_literal_step sa cur).lookup
            (crush_hash3_bits inp cur CRUSH_HASH_BITS) cur h
            = upd (bt_literal_step sb cur).lookup
              (crush_hash3_bits inp cur CRUSH_HASH_BITS) cur h
        by_cases he : h = crush_hash3_bits inp cur CRUSH_HASH_BITS
        · rw [he, upd_self, upd_self]
        · rw [upd_other _ _ _ _ he, upd_other _ _ _ _ he, hlLa, hlLb]
          exact hlkp h hh
      have hnagN : ∀ p, p < cur + 1 → rb2.nodes (2 * p) = stR.nodes (2 * p) ∧
          rb2.nodes (2 * p + 1) = stR.nodes (2 * p + 1) := by
        intro p hp2
        by_cases hpc : p = cur
        · subst hpc
          exact ⟨hltsR.symm, hgtsR.symm⟩
        · constructor
          · refine (hndR (2 * p) ?_).symm
            show (bt_literal_step sa cur).nodes (2 * p)
                = (bt_literal_step sb cur).nodes (2 * p)
            rw [hnLa, hnLb]
            exact (hnag p (by omega)).1.symm
          · refine (hndR (2 * p + 1) ?_).symm
            show (bt_literal_step sa cur).nodes (2 * p + 1)
                = (bt_literal_step sb cur).nodes (2 * p + 1)
            rw [hnLa, hnLb]
            exact (hnag p (by omega)).2.symm
      rw [hA, hB]
      exact ih (cur + 1) stR rb2 nmcR (by omega) hctR hfiN hcR hmR hpR hlkN hnagN
    · simp only [bt_phase1]
      rw [if_neg hil, if_neg hil]
      exact ⟨hc, hm, hp⟩

theorem bt_tail_pair (N : Nat) :
    ∀ fuel sa sb cur,
      (∀ j, j ≤ N → sa.cost j = sb.cost j) →
      (∀ j, j ≤ N → sa.mlen j = sb.mlen j) →
      (∀ j, j ≤ N → sa.mlen j ≠ 1 → sa.mpos j = sb.mpos j) →
      (∀ j, j ≤ N → (bt_tail N fuel sa cur).cost j = (bt_tail N fuel sb cur).cost j) ∧
      (∀ j, j ≤ N → (bt_tail N fuel sa cur).mlen j = (bt_tail N fuel sb cur).mlen j) ∧
      (∀ j, j ≤ N → (bt_tail N fuel sa cur).mlen j ≠ 1 →
        (bt_tail N fuel sa cur).mpos j = (bt_tail N fuel sb cur).mpos j) := by
  intro fuel
  induction fuel with
  | zero => intro sa sb cur hc hm hp; exact ⟨hc, hm, hp⟩
  | succ f ih =>
    intro sa sb cur hc hm hp
    simp only [bt_tail]
    by_cases hil : cur < N
    · rw [if_pos hil, if_pos hil]
      obtain ⟨h1, h2, h3, _, _, _, _⟩ :=
        bt_literal_step_pair N cur sa sb (by omega) hc hm hp
      exact ih _ _ (cur + 1) h1 h2 h3
    · rw [if_neg hil, if_neg hil]
      exact ⟨hc, hm, hp⟩

theorem bt_gather_pair (N : Nat) :
    ∀ fuel cur next_token sa sb,
      cur ≤ N →
      (∀ j, j ≤ N → sa.mlen j = sb.mlen j) →
      (∀ j, j ≤ N → sa.mlen j ≠ 1 → sa.mpos j = sb.mpos j) →
      ∃ ra rb nt2,
        bt_gather sa fuel cur next_token = (ra, nt2) ∧
        bt_gather sb fuel cur next_token = (rb, nt2) ∧
        (∀ j, j ≤ N → ra.mlen j = rb.mlen j) ∧
        (∀ j, j ≤ N → ra.mlen j ≠ 1 → ra.mpos j = rb.mpos j) := by
  intro fuel
  induction fuel with
  | zero => intro cur next_token sa sb _ hm hp; exact ⟨sa, sb, next_token, rfl, rfl, hm, hp⟩
  | succ f ih =>
    intro cur next_token sa sb hcN hm hp
    by_cases h0 : cur = 0
    · refine ⟨sa, sb, next_token, ?_, ?_, hm, hp⟩
      · simp only [bt_gather]
        rw [if_pos h0]
      · simp only [bt_gather]
        rw [if_pos h0]
    · have hmlc : sa.mlen cur = sb.mlen cur := hm cur hcN
      have hm2 : ∀ j, j ≤ N → upd sa.mlen next_token (sa.mlen cur) j
          = upd sb.mlen next_token (sb.mlen cur) j := by
        intro j hj
        by_cases hjn : j = next_token
        · subst hjn
          rw [upd_self, upd_self, hmlc]
        · rw [upd_other _ _ _ _ hjn, upd_other _ _ _ _ hjn]
          exact hm j hj
      have hp2 : ∀ j, j ≤ N → upd sa.mlen next_token (sa.mlen cur) j ≠ 1 →
          upd sa.mpos next_token (sa.mpos cur) j
            = upd sb.mpos next_token (sb.mpos cur) j := by
        intro j hj hne
        by_cases hjn : j = next_token
        · subst hjn
          rw [upd_self] at hne
          rw [upd_self, upd_self]
          exact hp cur hcN hne
        · rw [upd_other _ _ _ _ hjn] at hne
          rw [upd_other _ _ _ _ hjn, upd_other _ _ _ _ hjn]
          exact hp j hj hne
      obtain ⟨ra, rb, nt2, heqA, heqB, hmR, hpR⟩ :=
        ih (cur - upd sa.mlen next_token (sa.mlen cur) cur) (next_token - 1)
          ⟨sa.cost, upd sa.mpos next_token (sa.mpos cur),
           upd sa.mlen next_token (sa.mlen cur), sa.nodes, sa.lookup⟩
          ⟨sb.cost, upd sb.mpos next_token (sb.mpos cur),
           upd sb.mlen next_token (sb.mlen cur), sb.nodes, sb.lookup⟩
          (by omega) (fun j hj => hm2 j hj) (fun j hj hne => hp2 j hj hne)
      have hcureq : cur - upd sb.mlen next_token (sb.mlen cur) cur
          = cur - upd sa.mlen next_token (sa.mlen cur) cur := by
        rw [hm2 cur hcN]
      refine ⟨ra, rb, nt2, ?_, ?_, hmR, hpR⟩
      · simp only [bt_gather]
        rw [if_neg h0]
        exact heqA
      · simp only [bt_gather]
        rw [if_neg h0]
        show bt_gather
          ⟨sb.cost, upd sb.mpos next_token (sb.mpos cur),
           upd sb.mlen next_token (sb.mlen cur), sb.nodes, sb.lookup⟩ f
          (cur - upd sb.mlen next_token (sb.mlen cur) cur) (next_token - 1)
          = (rb, nt2)
        rw [hcureq]
        exact heqB

theorem bt_tokens_pair (inp : List Nat) (N : Nat) (sa sb : BtState)
    (hm : ∀ j, j ≤ N → sa.mlen j = sb.mlen j)
    (hp : ∀ j, j ≤ N → sa.mlen j ≠ 1 → sa.mpos j = sb.mpos j) :
    ∀ fuel i cur, bt_tokens inp sa N fuel i cur = bt_tokens inp sb N fuel i cur := by
  intro fuel
  induction fuel with
  | zero => intro i cur; rfl
  | succ f ih =>
    intro i cur
    simp only [bt_tokens]
    by_cases hi : i ≤ N
    · rw [if_pos hi, if_pos hi]
      have hmi : sa.mlen i = sb.mlen i := hm i hi
      by_cases h1 : sa.mlen i = 1
      · rw [if_pos h1, if_pos (by rw [← hmi]; exact h1), ← hmi,
          ih (i + 1) (cur + sa.mlen i)]
      · rw [if_neg h1, if_neg (by rw [← hmi]; exact h1), ← hmi,
          ← hp i hi h1, ih (i + 1) (cur + sa.mlen i)]
    · rw [if_neg hi, if_neg hi]

theorem crush_btparse_tokens_w_eq (src : List Nat) (md al : Nat)
    (c0 p0 m0 n0 l0 : Nat → Nat) :
    crush_btparse_tokens_w src md al c0 p0 m0 n0 l0
      = crush_btparse_tokens src md al := by
  by_cases h0 : src.length = 0
  · simp [crush_btparse_tokens_w, crush_btparse_tokens, h0]
  · by_cases h4 : src.length < 4
    · simp [crush_btparse_tokens_w, crush_btparse_tokens, h0, h4]
    · have h3lt : 3 < src.length := by omega
      simp only [crush_btparse_tokens_w, crush_btparse_tokens]
      rw [if_neg h0, if_neg h0, if_neg h4, if_neg h4, if_pos h3lt]
      set st0A : BtState := ⟨upd (fun _ => UINT32_MAX) 0 0, fun _ => 0,
        fun _ => 1, fun _ => 0, fun _ => NO_MATCH_POS⟩ with hst0A
      set st0B : BtState :=
        ⟨fun j => if j ≤ src.length then (if j = 0 then 0 else UINT32_MAX) else c0 j,
         p0, fun j => if j ≤ src.length then 1 else m0 j, n0,
         fun h => if h < LOOKUP_SIZE then NO_MATCH_POS else l0 h⟩ with hst0B
      have hc0 : ∀ j, j ≤ src.length → st0A.cost j = st0B.cost j := by
        intro j hj
        show upd (fun _ => UINT32_MAX) 0 0 j
            = if j ≤ src.length then (if j = 0 then 0 else UINT32_MAX) else c0 j
        rw [if_pos hj]
        by_cases hj0 : j = 0
        · subst hj0
          rw [upd_self, if_pos rfl]
        · rw [upd_other _ _ _ _ hj0, if_neg hj0]
      have hm0 : ∀ j, j ≤ src.length → st0A.mlen j = st0B.mlen j := by
        intro j hj
        show 1 = if j ≤ src.length then 1 else m0 j
        rw [if_pos hj]
      have hp0 : ∀ j, j ≤ src.length → st0A.mlen j ≠ 1 →
          st0A.mpos j = st0B.mpos j := by
        intro j _ hne
        exact absurd rfl hne
      have hlk0 : ∀ h, h < LOOKUP_SIZE → st0A.lookup h = st0B.lookup h := by
        intro h hh
        show NO_MATCH_POS = if h < LOOKUP_SIZE then NO_MATCH_POS else l0 h
        rw [if_pos hh]
      have hnag0 : ∀ p, p < 0 → st0B.nodes (2 * p) = st0A.nodes (2 * p) ∧
          st0B.nodes (2 * p + 1) = st0A.nodes (2 * p + 1) := by
        intro p hp
        exact absurd hp (by omega)
      have hct0 : CellsTrue src st0A src.length := fun j _ => Or.inl rfl
      have hfi0 : ForestInv src al st0A 0 := by
        refine ⟨fun h => Or.inl rfl, fun h => ?_, fun h h2 _ p hp _ => ?_⟩
        · show GoodT src al st0A.nodes 0 NO_MATCH_POS
          exact GoodT_nmp src al st0A.nodes 0
        · exact absurd hp (InT_nmp _ p)
      obtain ⟨hc1, hm1, hp1⟩ :=
        bt_phase1_pair src md al (src.length - 3) (by omega)
          (src.length - 3 + 1) 0 st0A st0B 0 (by omega) hct0 hfi0
          hc0 hm0 hp0 hlk0 hnag0
      set st1A := bt_phase1 src md al (src.length - 3) src.length
        (src.length - 3 + 1) 0 st0A 0 with hst1A
      set st1B := bt_phase1 src md al (src.length - 3) src.length
        (src.length - 3 + 1) 0 st0B 0 with hst1B
      obtain ⟨hc2, hm2, hp2⟩ :=
        bt_tail_pair src.length src.length st1A st1B (src.length - 3 + 1)
          hc1 hm1 hp1
      set st2A := bt_tail src.length src.length st1A (src.length - 3 + 1)
        with hst2A
      set st2B := bt_tail src.length src.length st1B (src.length - 3 + 1)
        with hst2B
      obtain ⟨ra, rb, nt2, heqA, heqB, hmR, hpR⟩ :=
        bt_gather_pair src.length (src.length + 1) src.length src.length
          st2A st2B le_rfl hm2 hp2
      rw [heqA, heqB]
      show bt_tokens src rb src.length (src.length + 1) (nt2 + 1) 0
          = bt_tokens src ra src.length (src.length + 1) (nt2 + 1) 0
      exact (bt_tokens_pair src src.length ra rb hmR hpR
        (src.length + 1) (nt2 + 1) 0).symm

theorem le_scan_pair (sa sb : LeState) (N cur pos len : Nat)
    (hend : cur + len ≤ N)
    (hc : ∀ j, cur ≤ j → j ≤ N → sa.cost j = sb.cost j) :
    ∀ fuel i mc mcl,
      le_scan sa cur pos len fuel i mc mcl
        = le_scan sb cur pos len fuel i mc mcl := by
  intro fuel
  induction fuel with
  | zero => intro i mc mcl; rfl
  | succ f ih =>
    intro i mc mcl
    simp only [le_scan]
    by_cases hi : i ≤ len
    · rw [if_pos hi, if_pos hi]
      have hci : sa.cost (cur + i) = sb.cost (cur + i) :=
        hc (cur + i) (by omega) (by omega)
      rw [hci]
      by_cases hlt : crush_match_cost (cur - pos - 1) i + sb.cost (cur + i) < mc
      · rw [if_pos hlt, if_pos hlt]
        exact ih (i + 1) (crush_match_cost (cur - pos - 1) i + sb.cost (cur + i)) i
      · rw [if_neg hlt, if_neg hlt]
        exact ih (i + 1) mc mcl
    · rw [if_neg hi, if_neg hi]

theorem le_extend_pair (inp : List Nat) (N : Nat) :
    ∀ fuel sa sb cur pos mcl,
      1 ≤ pos → pos < cur → cur + mcl ≤ N →
      (∀ j, cur ≤ j → j ≤ N → sa.cost j = sb.cost j) →
      (∀ j, cur ≤ j → j < N → sa.mlen j = sb.mlen j) →
      (∀ j, cur ≤ j → j < N → sa.mlen j ≠ 1 → sa.mpos j = sb.mpos j) →
      ∃ ra rb cur2,
        le_extend inp fuel sa cur pos mcl = (ra, cur2) ∧
        le_extend inp fuel sb cur pos mcl = (rb, cur2) ∧
        1 ≤ cur2 ∧ cur2 ≤ cur ∧
        (∀ j, cur2 ≤ j → j ≤ N → ra.cost j = rb.cost j) ∧
        (∀ j, cur2 ≤ j → j < N → ra.mlen j = rb.mlen j) ∧
        (∀ j, cur2 ≤ j → j < N → ra.mlen j ≠ 1 → ra.mpos j = rb.mpos j) := by
  intro fuel
  induction fuel with
  | zero =>
    intro sa sb cur pos mcl hp1 hpc hend hc hm hp
    exact ⟨sa, sb, cur, rfl, rfl, by omega, le_rfl, hc, hm, hp⟩
  | succ f ih =>
    intro sa sb cur pos mcl hp1 hpc hend hc hm hp
    have hcr : sa.cost (cur - 1 + (mcl + 1)) = sb.cost (cur - 1 + (mcl + 1)) :=
      hc (cur - 1 + (mcl + 1)) (by omega) (by omega)
    have hc2 : ∀ j, cur - 1 ≤ j → j ≤ N →
        upd sa.cost (cur - 1) (crush_match_cost (cur - 1 - (pos - 1) - 1) (mcl + 1)
            + sa.cost (cur - 1 + (mcl + 1))) j
          = upd sb.cost (cur - 1) (crush_match_cost (cur - 1 - (pos - 1) - 1) (mcl + 1)
            + sb.cost (cur - 1 + (mcl + 1))) j := by
      intro j hj hjN
      by_cases hje : j = cur - 1
      · subst hje
        rw [upd_self, upd_self, hcr]
      · rw [upd_other _ _ _ _ hje, upd_other _ _ _ _ hje]
        exact hc j (by omega) hjN
    have hm2 : ∀ j, cur - 1 ≤ j → j < N →
        upd sa.mlen (cur - 1) (mcl + 1) j = upd sb.mlen (cur - 1) (mcl + 1) j := by
      intro j hj hjN
      by_cases hje : j = cur - 1
      · subst hje
        rw [upd_self, upd_self]
      · rw [upd_other _ _ _ _ hje, upd_other _ _ _ _ hje]
        exact hm j (by omega) hjN
    have hp2 : ∀ j, cur - 1 ≤ j → j < N →
        upd sa.mlen (cur - 1) (mcl + 1) j ≠ 1 →
        upd sa.mpos (cur - 1) (pos - 1) j = upd sb.mpos (cur - 1) (pos - 1) j := by
      intro j hj hjN hne
      by_cases hje : j = cur - 1
      · subst hje
        rw [upd_self, upd_self]
      · rw [upd_other _ _ _ _ hje] at hne
        rw [upd_other _ _ _ _ hje, upd_other _ _ _ _ hje]
        exact hp j (by omega) hjN hne
    by_cases hg : 0 < pos - 1 ∧ inp.getD (pos - 1 - 1) 0 = inp.getD (cur - 1 - 1) 0 ∧
        mcl + 1 < MAX_MATCH
    · obtain ⟨ra, rb, cur2, heqA, heqB, h1c, hlec, hcR, hmR, hpR⟩ :=
        ih ⟨upd sa.cost (cur - 1) (crush_match_cost (cur - 1 - (pos - 1) - 1) (mcl + 1)
              + sa.cost (cur - 1 + (mcl + 1))),
            upd sa.mpos (cur - 1) (pos - 1), upd sa.mlen (cur - 1) (mcl + 1)⟩
          ⟨upd sb.cost (cur - 1) (crush_match_cost (cur - 1 - (pos - 1) - 1) (mcl + 1)
              + sb.cost (cur - 1 + (mcl + 1))),
            upd sb.mpos (cur - 1) (pos - 1), upd sb.mlen (cur - 1) (mcl + 1)⟩
          (cur - 1) (pos - 1) (mcl + 1)
          (by omega) (by omega) (by omega)
          (fun j hj hjN => hc2 j hj hjN) (fun j hj hjN => hm2 j hj hjN)
          (fun j hj hjN hne => hp2 j hj hjN hne)
      refine ⟨ra, rb, cur2, ?_, ?_, h1c, by omega, hcR, hmR, hpR⟩
      · simp only [le_extend]
        rw [if_pos hg]
        exact heqA
      · simp only [le_extend]
        rw [if_pos hg]
        exact heqB
    · refine ⟨⟨upd sa.cost (cur - 1) (crush_match_cost (cur - 1 - (pos - 1) - 1) (mcl + 1)
            + sa.cost (cur - 1 + (mcl + 1))),
          upd sa.mpos (cur - 1) (pos - 1), upd sa.mlen (cur - 1) (mcl + 1)⟩,
        ⟨upd sb.cost (cur - 1) (crush_match_cost (cur - 1 - (pos - 1) - 1) (mcl + 1)
            + sb.cost (cur - 1 + (mcl + 1))),
          upd sb.mpos (cur - 1) (pos - 1), upd sb.mlen (cur - 1) (mcl + 1)⟩,
        cur - 1, ?_, ?_, by omega, by omega, hc2, hm2, hp2⟩
      · simp only [le_extend]
        rw [if_neg hg]
      · simp only [le_extend]
        rw [if_neg hg]

theorem le_walk_pair (inp : List Nat) (prevA prevB : Nat → Nat)
    (al ll lmp cur : Nat)
    (hlmp : lmp + 3 ≤ inp.length)
    (hprev : ∀ j, j ≤ lmp → prevA j = prevB j)
    (hpb : ∀ j, j ≤ lmp → prevA j = NO_MATCH_POS ∨ prevA j < j)
    (hcur1 : 1 ≤ cur) (hclmp : cur ≤ lmp) (hll : cur + ll ≤ inp.length) :
    ∀ num_chain sa sb pos max_len,
      (pos = NO_MATCH_POS ∨ (pos < cur ∧ pos ≤ lmp)) →
      MIN_MATCH - 1 ≤ max_len →
      (∀ j, cur ≤ j → j ≤ inp.length → sa.cost j = sb.cost j) →
      (∀ j, cur ≤ j → j < inp.length → sa.mlen j = sb.mlen j) →
      (∀ j, cur ≤ j → j < inp.length → sa.mlen j ≠ 1 → sa.mpos j = sb.mpos j) →
      ∃ ra rb cur2,
        le_walk inp prevA al ll num_chain sa cur pos max_len = (ra, cur2) ∧
        le_walk inp prevB al ll num_chain sb cur pos max_len = (rb, cur2) ∧
        1 ≤ cur2 ∧ cur2 ≤ cur ∧
        (∀ j, cur2 ≤ j → j ≤ inp.length → ra.cost j = rb.cost j) ∧
        (∀ j, cur2 ≤ j → j < inp.length → ra.mlen j = rb.mlen j) ∧
        (∀ j, cur2 ≤ j → j < inp.length → ra.mlen j ≠ 1 →
          ra.mpos j = rb.mpos j) := by
  have hm3 : MIN_MATCH = 3 := by decide
  intro num_chain
  induction num_chain with
  | zero =>
    intro sa sb pos max_len _ _ hc hm hp
    exact ⟨sa, sb, cur, rfl, rfl, hcur1, le_rfl, hc, hm, hp⟩
  | succ n ih =>
    intro sa sb pos max_len hpos hml hc hm hp
    by_cases h1 : pos = NO_MATCH_POS
    · refine ⟨sa, sb, cur, ?_, ?_, hcur1, le_rfl, hc, hm, hp⟩
      · simp only [le_walk]
        rw [if_pos h1]
      · simp only [le_walk]
        rw [if_pos h1]
    · have hpc : pos < cur ∧ pos ≤ lmp := hpos.resolve_left h1
      by_cases h2 : W_SIZE < cur - pos
      · refine ⟨sa, sb, cur, ?_, ?_, hcur1, le_rfl, hc, hm, hp⟩
        · simp only [le_walk]
          rw [if_neg h1, if_pos h2]
        · simp only [le_walk]
          rw [if_neg h1, if_pos h2]
      · have hposd : prevA pos = NO_MATCH_POS ∨
            (prevA pos < cur ∧ prevA pos ≤ lmp) := by
          rcases hpb pos hpc.2 with h | h
          · exact Or.inl h
          · exact Or.inr ⟨by omega, by omega⟩
        have hposeq : prevB pos = prevA pos := (hprev pos hpc.2).symm
        by_cases hgate : max_len < ll ∧
            inp.getD (pos + max_len) 0 = inp.getD (cur + max_len) 0
        · have hLle : le_match_len inp pos cur ll ll 0 ≤ ll :=
            le_match_len_le inp pos cur ll ll 0 (Nat.zero_le _)
          set L := le_match_len inp pos cur ll ll 0 with hLdef
          by_cases hml2 : max_len < L
          · obtain ⟨mc, mcl, hsceqA, hacc⟩ := le_scan_spec sa cur pos L (L + 1)
              (max_len + 1) ULONG_MAX (MIN_MATCH - 1) (by omega)
              (Or.inl ⟨rfl, rfl⟩)
            have hsceqB : le_scan sb cur pos L (L + 1) (max_len + 1) ULONG_MAX
                (MIN_MATCH - 1) = (mc, mcl) :=
              (le_scan_pair sa sb inp.length cur pos L (by omega) hc (L + 1)
                (max_len + 1) ULONG_MAX (MIN_MATCH - 1)).symm.trans hsceqA
            have hccur : sa.cost cur = sb.cost cur := hc cur le_rfl (by omega)
            have hmcl : cur + mcl ≤ inp.length := by
              rcases hacc with ⟨_, hv⟩ | ⟨_, _, hv⟩ <;> omega
            by_cases hmc : mc < sa.cost cur
            · have hmcB : mc < sb.cost cur := by
                rw [← hccur]
                exact hmc
              have hcW : ∀ j, cur ≤ j → j ≤ inp.length →
                  upd sa.cost cur mc j = upd sb.cost cur mc j := by
                intro j hj hjN
                by_cases hje : j = cur
                · subst hje
                  rw [upd_self, upd_self]
                · rw [upd_other _ _ _ _ hje, upd_other _ _ _ _ hje]
                  exact hc j hj hjN
              have hmW : ∀ j, cur ≤ j → j < inp.length →
                  upd sa.mlen cur mcl j = upd sb.mlen cur mcl j := by
                intro j hj hjN
                by_cases hje : j = cur
                · subst hje
                  rw [upd_self, upd_self]
                · rw [upd_other _ _ _ _ hje, upd_other _ _ _ _ hje]
                  exact hm j hj hjN
              have hpW : ∀ j, cur ≤ j → j < inp.length →
                  upd sa.mlen cur mcl j ≠ 1 →
                  upd sa.mpos cur pos j = upd sb.mpos cur pos j := by
                intro j hj hjN hne
                by_cases hje : j = cur
                · subst hje
                  rw [upd_self, upd_self]
                · rw [upd_other _ _ _ _ hje] at hne
                  rw [upd_other _ _ _ _ hje, upd_other _ _ _ _ hje]
                  exact hp j hj hjN hne
              by_cases hext : 0 < pos ∧
                  inp.getD (pos - 1) 0 = inp.getD (cur - 1) 0 ∧ mcl < MAX_MATCH
              · obtain ⟨ra, rb, cur2, heqEA, heqEB, h1c, hlec, hcE, hmE, hpE⟩ :=
                  le_extend_pair inp inp.length pos
                    ⟨upd sa.cost cur mc, upd sa.mpos cur pos, upd sa.mlen cur mcl⟩
                    ⟨upd sb.cost cur mc, upd sb.mpos cur pos, upd sb.mlen cur mcl⟩
                    cur pos mcl hext.1 hpc.1 hmcl
                    (fun j hj hjN => hcW j hj hjN) (fun j hj hjN => hmW j hj hjN)
                    (fun j hj hjN hne => hpW j hj hjN hne)
                refine ⟨ra, rb, cur2, ?_, ?_, h1c, hlec, hcE, hmE, hpE⟩
                · simp only [le_walk]
                  rw [if_neg h1, if_neg h2, if_pos hgate, if_pos hml2]
                  simp only [hsceqA]
                  rw [if_pos hmc, if_pos hext]
                  exact heqEA
                · simp only [le_walk]
                  rw [if_neg h1, if_neg h2, if_pos hgate, if_pos hml2]
                  simp only [hsceqB]
                  rw [if_pos hmcB, if_pos hext]
                  exact heqEB
              · by_cases hstop : al ≤ L ∨ L = ll
                · refine ⟨⟨upd sa.cost cur mc, upd sa.mpos cur pos,
                      upd sa.mlen cur mcl⟩,
                    ⟨upd sb.cost cur mc, upd sb.mpos cur pos,
                      upd sb.mlen cur mcl⟩,
                    cur, ?_, ?_, hcur1, le_rfl, hcW, hmW, hpW⟩
                  · simp only [le_walk]
                    rw [if_neg h1, if_neg h2, if_pos hgate, if_pos hml2]
                    simp only [hsceqA]
                    rw [if_pos hmc, if_neg hext, if_pos hstop]
                  · simp only [le_walk]
                    rw [if_neg h1, if_neg h2, if_pos hgate, if_pos hml2]
                    simp only [hsceqB]
                    rw [if_pos hmcB, if_neg hext, if_pos hstop]
                · obtain ⟨ra, rb, cur2, heqRA, heqRB, h1c, hlec, hcR, hmR, hpR⟩ :=
                    ih ⟨upd sa.cost cur mc, upd sa.mpos cur pos,
                        upd sa.mlen cur mcl⟩
                      ⟨upd sb.cost cur mc, upd sb.mpos cur pos,
                        upd sb.mlen cur mcl⟩
                      (prevA pos) L hposd (by omega)
                      (fun j hj hjN => hcW j hj hjN)
                      (fun j hj hjN => hmW j hj hjN)
                      (fun j hj hjN hne => hpW j hj hjN hne)
                  refine ⟨ra, rb, cur2, ?_, ?_, h1c, hlec, hcR, hmR, hpR⟩
                  · simp only [le_walk]
                    rw [if_neg h1, if_neg h2, if_pos hgate, if_pos hml2]
                    simp only [hsceqA]
                    rw [if_pos hmc, if_neg hext, if_neg hstop]
                    exact heqRA
                  · simp only [le_walk]
                    rw [if_neg h1, if_neg h2, if_pos hgate, if_pos hml2]
                    simp only [hsceqB]
                    rw [if_pos hmcB, if_neg hext, if_neg hstop, hposeq]
                    exact heqRB
            · have hmcB : ¬ mc < sb.cost cur := by
                rw [← hccur]
                exact hmc
              by_cases hstop : al ≤ L ∨ L = ll
              · refine ⟨sa, sb, cur, ?_, ?_, hcur1, le_rfl, hc, hm, hp⟩
                · simp only [le_walk]
                  rw [if_neg h1, if_neg h2, if_pos hgate, if_pos hml2]
                  simp only [hsceqA]
                  rw [if_neg hmc, if_pos hstop]
                · simp only [le_walk]
                  rw [if_neg h1, if_neg h2, if_pos hgate, if_pos hml2]
                  simp only [hsceqB]
                  rw [if_neg hmcB, if_pos hstop]
              · obtain ⟨ra, rb, cur2, heqRA, heqRB, h1c, hlec, hcR, hmR, hpR⟩ :=
                  ih sa sb (prevA pos) L hposd (by omega) hc hm hp
                refine ⟨ra, rb, cur2, ?_, ?_, h1c, hlec, hcR, hmR, hpR⟩
                · simp only [le_walk]
                  rw [if_neg h1, if_neg h2, if_pos hgate, if_pos hml2]
                  simp only [hsceqA]
                  rw [if_neg hmc, if_neg hstop]
                  exact heqRA
                · simp only [le_walk]
                  rw [if_neg h1, if_neg h2, if_pos hgate, if_pos hml2]
                  simp only [hsceqB]
                  rw [if_neg hmcB, if_neg hstop, hposeq]
                  exact heqRB
          · by_cases hstop : al ≤ L ∨ L = ll
            · refine ⟨sa, sb, cur, ?_, ?_, hcur1, le_rfl, hc, hm, hp⟩
              · simp only [le_walk]
                rw [if_neg h1, if_neg h2, if_pos hgate, if_neg hml2, if_pos hstop]
              · simp only [le_walk]
                rw [if_neg h1, if_neg h2, if_pos hgate, if_neg hml2, if_pos hstop]
            · obtain ⟨ra, rb, cur2, heqRA, heqRB, h1c, hlec, hcR, hmR, hpR⟩ :=
                ih sa sb (prevA pos) max_len hposd hml hc hm hp
              refine ⟨ra, rb, cur2, ?_, ?_, h1c, hlec, hcR, hmR, hpR⟩
              · simp only [le_walk]
                rw [if_neg h1, if_neg h2, if_pos hgate, if_neg hml2, if_neg hstop]
                exact heqRA
              · simp only [le_walk]
                rw [if_neg h1, if_neg h2, if_pos hgate, if_neg hml2, if_neg hstop,
                  hposeq]
                exact heqRB
        · by_cases hstop : al ≤ 0 ∨ 0 = ll
          · refine ⟨sa, sb, cur, ?_, ?_, hcur1, le_rfl, hc, hm, hp⟩
            · simp only [le_walk]
              rw [if_neg h1, if_neg h2, if_neg hgate,
                if_neg (by omega : ¬ max_len < 0), if_pos hstop]
            · simp only [le_walk]
              rw [if_neg h1, if_neg h2, if_neg hgate,
                if_neg (by omega : ¬ max_len < 0), if_pos hstop]
          · obtain ⟨ra, rb, cur2, heqRA, heqRB, h1c, hlec, hcR, hmR, hpR⟩ :=
              ih sa sb (prevA pos) max_len hposd hml hc hm hp
            refine ⟨ra, rb, cur2, ?_, ?_, h1c, hlec, hcR, hmR, hpR⟩
            · simp only [le_walk]
              rw [if_neg h1, if_neg h2, if_neg hgate,
                if_neg (by omega : ¬ max_len < 0), if_neg hstop]
              exact heqRA
            · simp only [le_walk]
              rw [if_neg h1, if_neg h2, if_neg hgate,
                if_neg (by omega : ¬ max_len < 0), if_neg hstop, hposeq]
              exact heqRB

theorem le_phase2_pair (inp : List Nat) (prevA prevB : Nat → Nat)
    (md al lmp : Nat)
    (hlmp : lmp + 3 ≤ inp.length)
    (hprev : ∀ j, j ≤ lmp → prevA j = prevB j)
    (hpb : ∀ j, j ≤ lmp → prevA j = NO_MATCH_POS ∨ prevA j < j) :
    ∀ fuel sa sb cur,
      cur ≤ lmp → cur < fuel →
      (∀ j, cur < j → j ≤ inp.length → sa.cost j = sb.cost j) →
      (∀ j, cur < j → j < inp.length → sa.mlen j = sb.mlen j) →
      (∀ j, cur < j → j < inp.length → sa.mlen j ≠ 1 → sa.mpos j = sb.mpos j) →
      (∀ j, 0 < j → j ≤ inp.length →
        (le_phase2 inp prevA md al inp.length fuel sa cur).cost j
          = (le_phase2 inp prevB md al inp.length fuel sb cur).cost j) ∧
      (∀ j, 0 < j → j < inp.length →
        (le_phase2 inp prevA md al inp.length fuel sa cur).mlen j
          = (le_phase2 inp prevB md al inp.length fuel sb cur).mlen j) ∧
      (∀ j, 0 < j → j < inp.length →
        (le_phase2 inp prevA md al inp.length fuel sa cur).mlen j ≠ 1 →
        (le_phase2 inp prevA md al inp.length fuel sa cur).mpos j
          = (le_phase2 inp prevB md al inp.length fuel sb cur).mpos j) := by
  intro fuel
  induction fuel with
  | zero => intro sa sb cur _ hf; omega
  | succ f ih =>
    intro sa sb cur hclmp hf hc hm hp
    by_cases hc0 : cur = 0
    · subst hc0
      simp only [le_phase2]
      exact ⟨hc, hm, hp⟩
    · have hcW : ∀ j, cur ≤ j → j ≤ inp.length →
          upd sa.cost cur (sa.cost (cur + 1) + 9) j
            = upd sb.cost cur (sb.cost (cur + 1) + 9) j := by
        intro j hj hjN
        by_cases hje : j = cur
        · subst hje
          rw [upd_self, upd_self, hc (j + 1) (by omega) (by omega)]
        · rw [upd_other _ _ _ _ hje, upd_other _ _ _ _ hje]
          exact hc j (by omega) hjN
      have hmW : ∀ j, cur ≤ j → j < inp.length →
          upd sa.mlen cur 1 j = upd sb.mlen cur 1 j := by
        intro j hj hjN
        by_cases hje : j = cur
        · subst hje
          rw [upd_self, upd_self]
        · rw [upd_other _ _ _ _ hje, upd_other _ _ _ _ hje]
          exact hm j (by omega) hjN
      have hpW : ∀ j, cur ≤ j → j < inp.length → upd sa.mlen cur 1 j ≠ 1 →
          sa.mpos j = sb.mpos j := by
        intro j hj hjN hne
        by_cases hje : j = cur
        · subst hje
          rw [upd_self] at hne
          exact absurd rfl hne
        · rw [upd_other _ _ _ _ hje] at hne
          exact hp j (by omega) hjN hne
      obtain ⟨ra2, rb2, cur2, heqA, heqB, h1c2, hle2, hc2, hm2, hp2⟩ :=
        le_walk_pair inp prevA prevB al
          (if MAX_MATCH < inp.length - cur then MAX_MATCH else inp.length - cur)
          lmp cur hlmp hprev hpb (by omega) hclmp (by split_ifs <;> omega)
          md
          ⟨upd sa.cost cur (sa.cost (cur + 1) + 9), sa.mpos, upd sa.mlen cur 1⟩
          ⟨upd sb.cost cur (sb.cost (cur + 1) + 9), sb.mpos, upd sb.mlen cur 1⟩
          (prevA cur) (MIN_MATCH - 1)
          (by
            rcases hpb cur hclmp with h | h
            · exact Or.inl h
            · exact Or.inr ⟨by omega, by omega⟩)
          le_rfl
          (fun j hj hjN => hcW j hj hjN) (fun j hj hjN => hmW j hj hjN)
          (fun j hj hjN hne => hpW j hj hjN hne)
      have hposeq2 : prevB cur = prevA cur := (hprev cur hclmp).symm
      simp only [le_phase2]
      rw [if_neg hc0, if_neg hc0, hposeq2]
      simp only [heqA, heqB]
      exact ih ra2 rb2 (cur2 - 1) (by omega) (by omega)
        (fun j hj hjN => hc2 j (by omega) hjN)
        (fun j hj hjN => hm2 j (by omega) hjN)
        (fun j hj hjN hne => hp2 j (by omega) hjN hne)

theorem le_build_chains_pair (inp : List Nat) (bits lmp : Nat) (hbits : bits ≤ 32) :
    ∀ fuel i sa sb,
      (∀ h, h < 2 ^ bits → sa.lookup h = sb.lookup h) →
      (∀ j, j < i → sa.prev j = sb.prev j) →
      lmp + 1 ≤ i + fuel →
      (∀ j, j ≤ lmp →
        (le_build_chains inp bits lmp i fuel sa).prev j
          = (le_build_chains inp bits lmp i fuel sb).prev j) := by
  intro fuel
  induction fuel with
  | zero =>
    intro i sa sb hlk hpr hf j hj
    exact hpr j (by omega)
  | succ f ih =>
    intro i sa sb hlk hpr hf
    simp only [le_build_chains]
    by_cases hil : i ≤ lmp
    · rw [if_pos hil, if_pos hil]
      have hhash : crush_hash3_bits inp i bits < 2 ^ bits :=
        crush_hash3_bits_lt inp i bits hbits
      have hlke : sa.lookup (crush_hash3_bits inp i bits)
          = sb.lookup (crush_hash3_bits inp i bits) := hlk _ hhash
      refine ih (i + 1)
        ⟨upd sa.lookup (crush_hash3_bits inp i bits) i,
         upd sa.prev i (sa.lookup (crush_hash3_bits inp i bits))⟩
        ⟨upd sb.lookup (crush_hash3_bits inp i bits) i,
         upd sb.prev i (sb.lookup (crush_hash3_bits inp i bits))⟩
        ?_ ?_ (by omega)
      · intro h hh
        show upd sa.lookup (crush_hash3_bits inp i bits) i h
            = upd sb.lookup (crush_hash3_bits inp i bits) i h
        by_cases he : h = crush_hash3_bits inp i bits
        · rw [he, upd_self, upd_self]
        · rw [upd_other _ _ _ _ he, upd_other _ _ _ _ he]
          exact hlk h hh
      · intro j hj
        show upd sa.prev i (sa.lookup (crush_hash3_bits inp i bits)) j
            = upd sb.prev i (sb.lookup (crush_hash3_bits inp i bits)) j
        by_cases he : j = i
        · rw [he, upd_self, upd_self, hlke]
        · rw [upd_other _ _ _ _ he, upd_other _ _ _ _ he]
          exact hpr j (by omega)
    · rw [if_neg hil, if_neg hil]
      intro j hj
      exact hpr j (by omega)

theorem le_tokens_pair (inp : List Nat) (N : Nat) (sa sb : LeState)
    (hm : ∀ j, j < N → sa.mlen j = sb.mlen j)
    (hp : ∀ j, j < N → sa.mlen j ≠ 1 → sa.mpos j = sb.mpos j) :
    ∀ fuel i, le_tokens inp sa N fuel i = le_tokens inp sb N fuel i := by
  intro fuel
  induction fuel with
  | zero => intro i; rfl
  | succ f ih =>
    intro i
    simp only [le_tokens]
    by_cases hi : i < N
    · rw [if_pos hi, if_pos hi]
      have hmi : sa.mlen i = sb.mlen i := hm i hi
      by_cases h1 : sa.mlen i = 1
      · rw [if_pos h1, if_pos (by rw [← hmi]; exact h1), ih (i + 1)]
      · rw [if_neg h1, if_neg (by rw [← hmi]; exact h1), ← hmi,
          ← hp i hi h1, ih (i + sa.mlen i)]
    · rw [if_neg hi, if_neg hi]

theorem le_hash_bits_le_32 (N : Nat) (h0 : N ≠ 0) (h : N < 2 ^ 28) :
    le_hash_bits N ≤ 32 := by
  rw [le_hash_bits]
  split_ifs
  · decide
  · rw [crush_log2_eq]
    have h1 : Nat.log2 N < 28 := (Nat.log2_lt h0).mpr h
    omega

theorem crush_leparse_tokens_w_eq (src : List Nat) (md al : Nat)
    (hsize : src.length < 2 ^ 28) (c0 p0 m0 pr0 l0 : Nat → Nat) :
    crush_leparse_tokens_w src md al c0 p0 m0 pr0 l0
      = crush_leparse_tokens src md al := by
  by_cases h0 : src.length = 0
  · simp [crush_leparse_tokens_w, crush_leparse_tokens, h0]
  · by_cases h4 : src.length < 4
    · simp [crush_leparse_tokens_w, crush_leparse_tokens, h0, h4]
    · have h3lt : 3 < src.length := by omega
      have hbits : le_hash_bits src.length ≤ 32 :=
        le_hash_bits_le_32 src.length h0 hsize
      simp only [crush_leparse_tokens_w, crush_leparse_tokens]
      rw [if_neg h0, if_neg h0, if_neg h4, if_neg h4, if_pos h3lt,
        if_pos (show 0 < src.length - 3 by omega),
        if_pos (show 0 < src.length - 3 by omega)]
      set chA := le_build_chains src (le_hash_bits src.length) (src.length - 3) 0
        (src.length - 3 + 1) ⟨fun _ => NO_MATCH_POS, fun _ => 0⟩ with hchAdef
      set chB := le_build_chains src (le_hash_bits src.length) (src.length - 3) 0
        (src.length - 3 + 1)
        ⟨fun h => if h < 2 ^ le_hash_bits src.length then NO_MATCH_POS else l0 h,
         pr0⟩ with hchBdef
      have hchp : ∀ j, j ≤ src.length - 3 → chA.prev j = chB.prev j := by
        have h := le_build_chains_pair src (le_hash_bits src.length)
          (src.length - 3) hbits (src.length - 3 + 1) 0
          ⟨fun _ => NO_MATCH_POS, fun _ => 0⟩
          ⟨fun h => if h < 2 ^ le_hash_bits src.length then NO_MATCH_POS
            else l0 h, pr0⟩
          (by
            intro h hh
            show NO_MATCH_POS
                = if h < 2 ^ le_hash_bits src.length then NO_MATCH_POS else l0 h
            rw [if_pos hh])
          (fun j hj => absurd hj (by omega)) (by omega)
        rw [← hchAdef, ← hchBdef] at h
        exact h
      obtain ⟨hchain1, hchain2⟩ := le_build_chains_spec src
        (le_hash_bits src.length) (src.length - 3) (src.length - 3 + 1) 0
        ⟨fun _ => NO_MATCH_POS, fun _ => 0⟩ (by omega)
        (fun h => Or.inl rfl) (fun j hj => absurd hj (by omega)) (fun j _ => rfl)
        (by omega)
      rw [← hchAdef] at hchain1
      have hpbA : ∀ j, j ≤ src.length - 3 →
          chA.prev j = NO_MATCH_POS ∨ chA.prev j < j :=
        fun j hj => hchain1 j (by omega)
      set st0A : LeState :=
        ⟨upd (upd (upd (fun _ => 0) (src.length - 2) 18) (src.length - 1) 9)
          src.length 0,
         fun _ => 0,
         upd (upd (fun _ => 0) (src.length - 2) 1) (src.length - 1) 1⟩ with hst0A
      set st0B : LeState :=
        ⟨upd (upd (upd c0 (src.length - 2) 18) (src.length - 1) 9) src.length 0,
         p0,
         upd (upd m0 (src.length - 2) 1) (src.length - 1) 1⟩ with hst0B
      have hcost3 : ∀ (f g : Nat → Nat) j, src.length - 3 < j → j ≤ src.length →
          upd (upd (upd f (src.length - 2) 18) (src.length - 1) 9) src.length 0 j
            = upd (upd (upd g (src.length - 2) 18) (src.length - 1) 9)
              src.length 0 j := by
        intro f g j hj hjN
        by_cases hj1 : j = src.length
        · rw [hj1, upd_self, upd_self]
        · rw [upd_other _ _ _ _ hj1, upd_other _ _ _ _ hj1]
          by_cases hj2 : j = src.length - 1
          · rw [hj2, upd_self, upd_self]
          · rw [upd_other _ _ _ _ hj2, upd_other _ _ _ _ hj2]
            have hj3 : j = src.length - 2 := by omega
            rw [hj3, upd_self, upd_self]
      have hmlA1 : ∀ j, src.length - 3 < j → j < src.length → st0A.mlen j = 1 := by
        intro j hj hjN
        show upd (upd (fun _ => 0) (src.length - 2) 1) (src.length - 1) 1 j = 1
        by_cases hj1 : j = src.length - 1
        · rw [hj1, upd_self]
        · rw [upd_other _ _ _ _ hj1]
          have hj2 : j = src.length - 2 := by omega
          rw [hj2, upd_self]
      have hm0 : ∀ j, src.length - 3 < j → j < src.length →
          st0A.mlen j = st0B.mlen j := by
        intro j hj hjN
        show upd (upd (fun _ => 0) (src.length - 2) 1) (src.length - 1) 1 j
            = upd (upd m0 (src.length - 2) 1) (src.length - 1) 1 j
        by_cases hj1 : j = src.length - 1
        · rw [hj1, upd_self, upd_self]
        · rw [upd_other _ _ _ _ hj1, upd_other _ _ _ _ hj1]
          have hj2 : j = src.length - 2 := by omega
          rw [hj2, upd_self, upd_self]
      obtain ⟨hc1, hm1, hp1⟩ :=
        le_phase2_pair src chA.prev chB.prev md al (src.length - 3) (by omega)
          hchp hpbA src.length st0A st0B (src.length - 3) le_rfl (by omega)
          (fun j hj hjN => hcost3 (fun _ => 0) c0 j hj hjN)
          hm0
          (fun j hj hjN hne => absurd (hmlA1 j hj hjN) hne)
      set st1A := le_phase2 src chA.prev md al src.length src.length st0A
        (src.length - 3) with hst1A
      set st1B := le_phase2 src chB.prev md al src.length src.length st0B
        (src.length - 3) with hst1B
      have hmF : ∀ j, j < src.length →
          upd st1A.mlen 0 1 j = upd st1B.mlen 0 1 j := by
        intro j hj
        by_cases hj0 : j = 0
        · rw [hj0, upd_self, upd_self]
        · rw [upd_other _ _ _ _ hj0, upd_other _ _ _ _ hj0]
          exact hm1 j (by omega) hj
      have hpF : ∀ j, j < src.length → upd st1A.mlen 0 1 j ≠ 1 →
          upd st1A.mpos 0 0 j = upd st1B.mpos 0 0 j := by
        intro j hj hne
        by_cases hj0 : j = 0
        · rw [hj0, upd_self] at hne
          exact absurd rfl hne
        · rw [upd_other _ _ _ _ hj0] at hne
          rw [upd_other _ _ _ _ hj0, upd_other _ _ _ _ hj0]
          exact hp1 j (by omega) hj hne
      exact (le_tokens_pair src src.length
        ⟨st1A.cost, upd st1A.mpos 0 0, upd st1A.mlen 0 1⟩
        ⟨st1B.cost, upd st1B.mpos 0 0, upd st1B.mlen 0 1⟩
        hmF hpF src.length 0).symm

theorem crush_pack_leparse_w_eq (src : List Nat) (md al : Nat)
    (hsize : src.length < 2 ^ 28) (c0 p0 m0 pr0 l0 : Nat → Nat) :
    crush_pack_leparse_w src md al c0 p0 m0 pr0 l0
      = crush_pack_leparse src md al := by
  show lbw_finalize (emitTokens le_putToken lbw_init
      (crush_leparse_tokens_w src md al c0 p0 m0 pr0 l0))
    = lbw_finalize (emitTokens le_putToken lbw_init
      (crush_leparse_tokens src md al))
  rw [crush_leparse_tokens_w_eq src md al hsize c0 p0 m0 pr0 l0]

theorem crush_pack_btparse_w_eq (src : List Nat) (md al : Nat)
    (c0 p0 m0 n0 l0 : Nat → Nat) :
    crush_pack_btparse_w src md al c0 p0 m0 n0 l0
      = crush_pack_btparse src md al := by
  show lbw_finalize (emitTokens bt_putToken lbw_init
      (crush_btparse_tokens_w src md al c0 p0 m0 n0 l0))
    = lbw_finalize (emitTokens bt_putToken lbw_init
      (crush_btparse_tokens src md al))
  rw [crush_btparse_tokens_w_eq src md al c0 p0 m0 n0 l0]

/-- C10: noninterference of scratch memory.  For every byte input below
2^28 bytes and every level in {5..10}, the packed output of
crush_pack_level is independent of the initial contents of the workmem
arrays: the run whose scratch arrays start from arbitrary junk maps
j1..j5 (with only the init loops the C code itself performs overlaid on
them) produces exactly the bytes of the canonical run, so any two calls
differing only in initial workmem contents agree. -/
theorem C10_workmem_noninterference (src : List Nat) (level : Nat)
    (h5 : 5 ≤ level) (h10 : level ≤ 10) (hsize : src.length < 2 ^ 28) :
    ∀ j1 j2 j3 j4 j5 : Nat → Nat,
      crush_pack_level_w src level j1 j2 j3 j4 j5
        = crush_pack_level src level := by
  intro j1 j2 j3 j4 j5
  interval_cases level
  · exact congrArg some (crush_pack_leparse_w_eq src 1 16 hsize j1 j2 j3 j4 j5)
  · exact congrArg some (crush_pack_leparse_w_eq src 8 32 hsize j1 j2 j3 j4 j5)
  · exact congrArg some (crush_pack_leparse_w_eq src 64 64 hsize j1 j2 j3 j4 j5)
  · exact congrArg some (crush_pack_btparse_w_eq src 16 96 j1 j2 j3 j4 j5)
  · exact congrArg some (crush_pack_btparse_w_eq src 32 224 j1 j2 j3 j4 j5)
  · exact congrArg some (crush_pack_btparse_w_eq src ULONG_MAX ULONG_MAX
      j1 j2 j3 j4 j5)

theorem C10_workmem_noninterference_witness :
    5 ≤ (5 : Nat) ∧ (5 : Nat) ≤ 10 ∧ [9, 9, 9].length < 2 ^ 28 ∧
    crush_pack_level_w [9, 9, 9] 5 Nat.succ id Nat.succ id Nat.succ
      = crush_pack_level [9, 9, 9] 5 :=
  ⟨by decide, by decide, by decide,
    C10_workmem_noninterference [9, 9, 9] 5 (by decide) (by decide) (by decide)
      Nat.succ id Nat.succ id Nat.succ⟩

end BCrush
